import Mathlib

/-!
# Streaming Markdown segmenter (`streamnative`): shallow embedding and verification

The C++ sources embedded here are

* `StreamKmpGraph.h`                       (`KmpMatcher`)
* `plugins/StreamMarkdownPlugin.cpp`       (the Markdown leaf plugins)
* `plugins/StreamPlanExecutionPlugin.cpp`  (the `<plan>` plugin)
* `plugins/StreamXmlPlugin.cpp`            (the XML plugin)
* `StreamOperators.cpp`                    (run coalescing, `MarkdownSession::push`,
                                            the two rosters, `splitByXml`)

Conventions of the embedding.

* A UTF-16 code unit (`char16_t`, `jchar`) is a `Nat`; the code only ever compares code
  units for equality or against ASCII ranges, so no arithmetic on them is modelled.
* `int` fields that hold indices or the `-1` sentinel are `Int`; `int` fields that only
  count upwards from `0` are `Nat`.  The 31-bit range of the global offset is part of the
  contract of the program, so no wrap-around is modelled.
* A C++ object with mutable fields is a Lean structure; a method that mutates the object
  and returns a value is a function returning the new object together with the value.
* `std::vector::push_back` is `++ [x]`; `std::deque::push_front` is `x :: _`.
-/

namespace streamnative

/-! ## Code units used by the sources -/

/-- Code unit of the tab character. -/
abbrev ch_tab : Nat := 9
/-- Code unit of the line feed. -/
abbrev ch_nl : Nat := 10
/-- Code unit of the space. -/
abbrev ch_space : Nat := 32
/-- Code unit of the exclamation mark. -/
abbrev ch_bang : Nat := 33
/-- Code unit of the hash sign. -/
abbrev ch_hash : Nat := 35
/-- Code unit of the dollar sign. -/
abbrev ch_dollar : Nat := 36
/-- Code unit of the opening parenthesis. -/
abbrev ch_lparen : Nat := 40
/-- Code unit of the closing parenthesis. -/
abbrev ch_rparen : Nat := 41
/-- Code unit of the asterisk. -/
abbrev ch_star : Nat := 42
/-- Code unit of the plus sign. -/
abbrev ch_plus : Nat := 43
/-- Code unit of the comma. -/
abbrev ch_comma : Nat := 44
/-- Code unit of the hyphen-minus. -/
abbrev ch_minus : Nat := 45
/-- Code unit of the full stop. -/
abbrev ch_dot : Nat := 46
/-- Code unit of the slash. -/
abbrev ch_slash : Nat := 47
/-- Code unit of the colon. -/
abbrev ch_colon : Nat := 58
/-- Code unit of the less-than sign. -/
abbrev ch_lt : Nat := 60
/-- Code unit of the greater-than sign. -/
abbrev ch_gt : Nat := 62
/-- Code unit of the question mark. -/
abbrev ch_question : Nat := 63
/-- Code unit of the opening square bracket. -/
abbrev ch_lbracket : Nat := 91
/-- Code unit of the backslash. -/
abbrev ch_backslash : Nat := 92
/-- Code unit of the closing square bracket. -/
abbrev ch_rbracket : Nat := 93
/-- Code unit of the underscore. -/
abbrev ch_underscore : Nat := 95
/-- Code unit of the backtick. -/
abbrev ch_backtick : Nat := 96
/-- Code unit of the vertical bar. -/
abbrev ch_pipe : Nat := 124
/-- Code unit of the tilde. -/
abbrev ch_tilde : Nat := 126

/-- Code units of a string whose characters all lie in the Basic Multilingual Plane
(one code unit per character). Used only to write inputs of scenarios legibly. -/
def u16 (s : String) : List Nat := s.toList.map Char.toNat

/-! ## `StreamPlugin.h` -/

/-- The C++ `enum class PluginState`. -/
inductive PluginState where
  | IDLE
  | TRYING
  | PROCESSING
  | WAITFOR
  deriving DecidableEq, Repr

/-! ## `StreamKmpGraph.h` -/

/-- The C++ `class KmpMatcher`: the pattern, its failure table and the match length. -/
structure KmpMatcher where
  pattern_ : List Nat
  pi_ : List Nat
  j_ : Nat
  deriving DecidableEq, Repr

/-- The loop `while (k > 0 && c != pattern_[k]) k = pi_[k - 1];` shared by `setPattern`
(with `c = pattern_[i]`) and `process`. The first argument bounds the number of
iterations; `kmpFallback_spec` shows that `k` iterations always suffice on the tables the
program builds. Reads outside a vector (which the program never makes) yield `0`. -/
def kmpFallback (pattern pi : List Nat) (c : Nat) : Nat → Nat → Nat
  | 0, k => k
  | fuel + 1, k =>
    if 0 < k ∧ c ≠ pattern.getD k 0 then
      kmpFallback pattern pi c fuel (pi.getD (k - 1) 0)
    else k

/-- The body of the `for` loop of `setPattern`, run for `i, i + 1, ...` (`n` iterations). -/
def setPatternLoop (pattern : List Nat) : Nat → Nat → List Nat → List Nat
  | 0, _, pi => pi
  | n + 1, i, pi =>
    let k := pi.getD (i - 1) 0
    let k := kmpFallback pattern pi (pattern.getD i 0) k k
    let k := if pattern.getD i 0 = pattern.getD k 0 then k + 1 else k
    setPatternLoop pattern n (i + 1) (pi.set i k)

/-- The method `KmpMatcher::setPattern`. -/
def KmpMatcher.setPattern (_m : KmpMatcher) (p : List Nat) : KmpMatcher :=
  { pattern_ := p
    pi_ := setPatternLoop p (p.length - 1) 1 (List.replicate p.length 0)
    j_ := 0 }

/-- The method `KmpMatcher::reset`. -/
def KmpMatcher.reset (m : KmpMatcher) : KmpMatcher := { m with j_ := 0 }

/-- A default-constructed `KmpMatcher`. -/
def KmpMatcher.new : KmpMatcher := { pattern_ := [], pi_ := [], j_ := 0 }

/-- The method `KmpMatcher::process`: the new matcher and the returned flag. -/
def KmpMatcher.process (m : KmpMatcher) (c : Nat) : KmpMatcher × Bool :=
  if m.pattern_ = [] then (m, false)
  else
    let j := kmpFallback m.pattern_ m.pi_ c m.j_ m.j_
    let j := if c = m.pattern_.getD j 0 then j + 1 else j
    if j = m.pattern_.length then ({ m with j_ := m.pi_.getD (j - 1) 0 }, true)
    else ({ m with j_ := j }, false)

/-- Feed a stream of code units one at a time to `process`, collecting the returned
flags (the flag of the k-th call is the k-th entry). -/
def KmpMatcher.feed (m : KmpMatcher) : List Nat → List Bool
  | [] => []
  | c :: cs => (m.process c).2 :: KmpMatcher.feed (m.process c).1 cs

/-! ## `plugins/StreamMarkdownPlugin.cpp` -/

/-- The helper `isDigit`. -/
def isDigit (c : Nat) : Bool := decide (48 ≤ c) && decide (c ≤ 57)

/-! ### Fenced code block -/

/-- The fields of `StreamMarkdownFencedCodeBlockPlugin`. -/
structure StreamMarkdownFencedCodeBlockPlugin where
  includeFences_ : Bool
  state_ : PluginState
  fenceLen_ : Nat
  isMatchingEndFence_ : Bool
  hasStartedMatchingFence_ : Bool
  deriving DecidableEq, Repr

namespace StreamMarkdownFencedCodeBlockPlugin

/-- The method `reset`. -/
def reset (p : StreamMarkdownFencedCodeBlockPlugin) : StreamMarkdownFencedCodeBlockPlugin :=
  { p with state_ := .IDLE, fenceLen_ := 0, isMatchingEndFence_ := false,
           hasStartedMatchingFence_ := false }

/-- The constructor (which ends in `reset()`); `initPlugin` resets again. -/
def new (includeFences : Bool) : StreamMarkdownFencedCodeBlockPlugin :=
  reset { includeFences_ := includeFences, state_ := .IDLE, fenceLen_ := 0,
          isMatchingEndFence_ := false, hasStartedMatchingFence_ := false }

/-- The method `processChar`. -/
def processChar (p : StreamMarkdownFencedCodeBlockPlugin) (c : Nat) (atStartOfLine : Bool) :
    StreamMarkdownFencedCodeBlockPlugin × Bool :=
  if p.state_ = .PROCESSING then
    let p1 := if atStartOfLine then
        { p with isMatchingEndFence_ := true, hasStartedMatchingFence_ := false } else p
    if p1.isMatchingEndFence_ then
      if p1.hasStartedMatchingFence_ = false ∧ c = ch_space then (p1, p1.includeFences_)
      else
        let p2 := { p1 with hasStartedMatchingFence_ := true }
        if c = ch_backtick then ({ p2 with fenceLen_ := p2.fenceLen_ + 1 }, p2.includeFences_)
        else if c = ch_nl then
          if 3 ≤ p2.fenceLen_ then (p2.reset, p2.includeFences_)
          else ({ p2 with isMatchingEndFence_ := false, fenceLen_ := 0 }, true)
        else ({ p2 with isMatchingEndFence_ := false, fenceLen_ := 0 }, true)
    else (p1, true)
  else if p.state_ = .IDLE then
    if c = ch_backtick then ({ p with state_ := .TRYING, fenceLen_ := 1 }, p.includeFences_)
    else (p, true)
  else if p.state_ = .TRYING then
    if c = ch_backtick then ({ p with fenceLen_ := p.fenceLen_ + 1 }, p.includeFences_)
    else if c = ch_nl then
      if 3 ≤ p.fenceLen_ then
        ({ p with state_ := .PROCESSING, isMatchingEndFence_ := false,
                  hasStartedMatchingFence_ := false, fenceLen_ := 0 }, p.includeFences_)
      else (p.reset, true)
    else if p.fenceLen_ < 3 then (p.reset, true)
    else (p, p.includeFences_)
  else (p, true)

end StreamMarkdownFencedCodeBlockPlugin

/-! ### Inline code -/

/-- The fields of `StreamMarkdownInlineCodePlugin`. -/
structure StreamMarkdownInlineCodePlugin where
  includeTicks_ : Bool
  state_ : PluginState
  tickLen_ : Nat
  endMatch_ : Nat
  deriving DecidableEq, Repr

namespace StreamMarkdownInlineCodePlugin

/-- The method `reset`. -/
def reset (p : StreamMarkdownInlineCodePlugin) : StreamMarkdownInlineCodePlugin :=
  { p with state_ := .IDLE, tickLen_ := 0, endMatch_ := 0 }

/-- The constructor. -/
def new (includeTicks : Bool) : StreamMarkdownInlineCodePlugin :=
  reset { includeTicks_ := includeTicks, state_ := .IDLE, tickLen_ := 0, endMatch_ := 0 }

/-- The method `processChar`. -/
def processChar (p : StreamMarkdownInlineCodePlugin) (c : Nat) (_atStartOfLine : Bool) :
    StreamMarkdownInlineCodePlugin × Bool :=
  if p.state_ = .PROCESSING ∧ c = ch_nl then (p.reset, true)
  else if p.state_ = .PROCESSING then
    if c = ch_backtick then
      let p1 := { p with endMatch_ := p.endMatch_ + 1 }
      if p1.endMatch_ = p1.tickLen_ then (p1.reset, p1.includeTicks_)
      else (p1, p1.includeTicks_)
    else ({ p with endMatch_ := 0 }, true)
  else if c = ch_backtick ∧ p.state_ = .IDLE then
    ({ p with state_ := .TRYING, tickLen_ := 1 }, p.includeTicks_)
  else if c = ch_backtick ∧ p.state_ = .TRYING then (p.reset, true)
  else if p.state_ = .TRYING then
    if c ≠ ch_backtick ∧ c ≠ ch_nl then ({ p with state_ := .PROCESSING, endMatch_ := 0 }, true)
    else if c = ch_nl then (p.reset, true)
    else (p, true)
  else (p, true)

end StreamMarkdownInlineCodePlugin

/-! ### Bold -/

/-- The fields of `StreamMarkdownBoldPlugin`. -/
structure StreamMarkdownBoldPlugin where
  includeAsterisks_ : Bool
  state_ : PluginState
  startMatch_ : Nat
  endMatch_ : Nat
  deriving DecidableEq, Repr

namespace StreamMarkdownBoldPlugin

/-- The method `reset`. -/
def reset (p : StreamMarkdownBoldPlugin) : StreamMarkdownBoldPlugin :=
  { p with state_ := .IDLE, startMatch_ := 0, endMatch_ := 0 }

/-- The constructor. -/
def new (includeAsterisks : Bool) : StreamMarkdownBoldPlugin :=
  reset { includeAsterisks_ := includeAsterisks, state_ := .IDLE, startMatch_ := 0,
          endMatch_ := 0 }

/-- The method `processChar`. -/
def processChar (p : StreamMarkdownBoldPlugin) (c : Nat) (_atStartOfLine : Bool) :
    StreamMarkdownBoldPlugin × Bool :=
  if p.state_ = .PROCESSING then
    if c = ch_star then
      let p1 := { p with endMatch_ := p.endMatch_ + 1 }
      if p1.endMatch_ = 2 then (p1.reset, p1.includeAsterisks_)
      else (p1, p1.includeAsterisks_)
    else ({ p with endMatch_ := 0 }, true)
  else if p.state_ = .IDLE then
    if c = ch_star then ({ p with state_ := .TRYING, startMatch_ := 1 }, p.includeAsterisks_)
    else (p, true)
  else if p.state_ = .TRYING then
    if p.startMatch_ = 1 then
      if c = ch_star then ({ p with startMatch_ := 2 }, p.includeAsterisks_)
      else (p.reset, true)
    else if p.startMatch_ = 2 then
      if c ≠ ch_star ∧ c ≠ ch_nl then
        ({ p with state_ := .PROCESSING, endMatch_ := 0, startMatch_ := 0 }, true)
      else (p.reset, true)
    else (p.reset, true)
  else (p, true)

end StreamMarkdownBoldPlugin

/-! ### Italic -/

/-- The fields of `StreamMarkdownItalicPlugin`. -/
structure StreamMarkdownItalicPlugin where
  includeAsterisks_ : Bool
  state_ : PluginState
  startMatch_ : Nat
  endMatch_ : Nat
  lastChar_ : Nat
  hasLastChar_ : Bool
  deriving DecidableEq, Repr

namespace StreamMarkdownItalicPlugin

/-- The method `reset`. -/
def reset (p : StreamMarkdownItalicPlugin) : StreamMarkdownItalicPlugin :=
  { p with state_ := .IDLE, startMatch_ := 0, endMatch_ := 0, hasLastChar_ := false,
           lastChar_ := 0 }

/-- The constructor. -/
def new (includeAsterisks : Bool) : StreamMarkdownItalicPlugin :=
  reset { includeAsterisks_ := includeAsterisks, state_ := .IDLE, startMatch_ := 0,
          endMatch_ := 0, lastChar_ := 0, hasLastChar_ := false }

/-- The method `processChar`. -/
def processChar (p : StreamMarkdownItalicPlugin) (c : Nat) (_atStartOfLine : Bool) :
    StreamMarkdownItalicPlugin × Bool :=
  if p.hasLastChar_ = true ∧ p.lastChar_ = ch_star ∧ c = ch_star then
    (reset { p with hasLastChar_ := false }, true)
  else
    let p1 := { p with lastChar_ := c, hasLastChar_ := true }
    if p1.state_ = .PROCESSING then
      if c = ch_nl then (p1.reset, true)
      else if c = ch_star then (p1.reset, p1.includeAsterisks_)
      else (p1, true)
    else if c = ch_star then
      ({ p1 with state_ := .TRYING, startMatch_ := 1 }, p1.includeAsterisks_)
    else if p1.state_ = .TRYING then
      if c ≠ ch_star ∧ c ≠ ch_nl ∧ c ≠ ch_space then ({ p1 with state_ := .PROCESSING }, true)
      else (p1.reset, true)
    else (p1, true)

end StreamMarkdownItalicPlugin

/-! ### Header -/

/-- The fields of `StreamMarkdownHeaderPlugin`. -/
structure StreamMarkdownHeaderPlugin where
  includeMarker_ : Bool
  state_ : PluginState
  hashCount_ : Nat
  inMatch_ : Bool
  deriving DecidableEq, Repr

namespace StreamMarkdownHeaderPlugin

/-- The method `reset`. -/
def reset (p : StreamMarkdownHeaderPlugin) : StreamMarkdownHeaderPlugin :=
  { p with state_ := .IDLE, hashCount_ := 0, inMatch_ := false }

/-- The constructor. -/
def new (includeMarker : Bool) : StreamMarkdownHeaderPlugin :=
  reset { includeMarker_ := includeMarker, state_ := .IDLE, hashCount_ := 0, inMatch_ := false }

/-- The method `processChar`. -/
def processChar (p : StreamMarkdownHeaderPlugin) (c : Nat) (atStartOfLine : Bool) :
    StreamMarkdownHeaderPlugin × Bool :=
  if p.state_ = .PROCESSING then
    if c = ch_nl then (p.reset, true) else (p, true)
  else
    let p1 := if atStartOfLine then
        { p with inMatch_ := true, hashCount_ := 0, state_ := .IDLE } else p
    if p1.inMatch_ = false ∧ p1.state_ ≠ .TRYING then (p1, true)
    else if c = ch_hash then
      ({ p1 with hashCount_ := p1.hashCount_ + 1, state_ := .TRYING }, p1.includeMarker_)
    else if c = ch_space ∧ 1 ≤ p1.hashCount_ ∧ p1.hashCount_ ≤ 6 then
      ({ p1 with state_ := .PROCESSING, inMatch_ := false }, p1.includeMarker_)
    else (p1.reset, true)

end StreamMarkdownHeaderPlugin

/-! ### Link -/

/-- The fields of `StreamMarkdownLinkPlugin`. -/
structure StreamMarkdownLinkPlugin where
  state_ : PluginState
  phase_ : Nat
  deriving DecidableEq, Repr

namespace StreamMarkdownLinkPlugin

/-- The method `reset`. -/
def reset (p : StreamMarkdownLinkPlugin) : StreamMarkdownLinkPlugin :=
  { p with state_ := .IDLE, phase_ := 0 }

/-- The constructor. -/
def new : StreamMarkdownLinkPlugin := reset { state_ := .IDLE, phase_ := 0 }

/-- The method `processChar`. -/
def processChar (p : StreamMarkdownLinkPlugin) (c : Nat) (_atStartOfLine : Bool) :
    StreamMarkdownLinkPlugin × Bool :=
  if p.state_ = .IDLE then
    if c = ch_lbracket then ({ p with state_ := .TRYING, phase_ := 1 }, true)
    else (p, true)
  else if p.state_ = .TRYING ∨ p.state_ = .PROCESSING then
    if c = ch_nl then (p.reset, true)
    else if p.phase_ = 1 then
      if c = ch_rbracket then ({ p with phase_ := 2, state_ := .PROCESSING }, true)
      else (p, true)
    else if p.phase_ = 2 then
      if c = ch_lparen then ({ p with phase_ := 3 }, true)
      else (p.reset, true)
    else if p.phase_ = 3 then
      if c = ch_rparen then (p.reset, true)
      else (p, true)
    else (p, true)
  else (p, true)

end StreamMarkdownLinkPlugin

/-! ### Block quote -/

/-- The fields of `StreamMarkdownBlockQuotePlugin`. -/
structure StreamMarkdownBlockQuotePlugin where
  includeMarker_ : Bool
  state_ : PluginState
  matchIndex_ : Nat
  deriving DecidableEq, Repr

namespace StreamMarkdownBlockQuotePlugin

/-- The method `reset`. -/
def reset (p : StreamMarkdownBlockQuotePlugin) : StreamMarkdownBlockQuotePlugin :=
  { p with state_ := .IDLE, matchIndex_ := 0 }

/-- The constructor. -/
def new (includeMarker : Bool) : StreamMarkdownBlockQuotePlugin :=
  reset { includeMarker_ := includeMarker, state_ := .IDLE, matchIndex_ := 0 }

/-- The tail of `processChar` from `if (state_ == PluginState::PROCESSING)` on, reached
when none of the start-of-line branches returned. -/
def processCharTail (p : StreamMarkdownBlockQuotePlugin) (c : Nat) :
    StreamMarkdownBlockQuotePlugin × Bool :=
  if p.state_ = .PROCESSING then (p, true)
  else if p.state_ = .TRYING ∧ p.matchIndex_ = 1 then
    if c = ch_space then ({ p with state_ := .PROCESSING, matchIndex_ := 0 }, p.includeMarker_)
    else (p.reset, true)
  else (p, true)

/-- The method `processChar`. -/
def processChar (p : StreamMarkdownBlockQuotePlugin) (c : Nat) (atStartOfLine : Bool) :
    StreamMarkdownBlockQuotePlugin × Bool :=
  if c = ch_nl then
    if p.state_ = .PROCESSING then ({ p with state_ := .WAITFOR }, true)
    else (p.reset, true)
  else if p.state_ = .WAITFOR ∧ atStartOfLine = true then
    if c = ch_gt then ({ p with state_ := .PROCESSING, matchIndex_ := 1 }, true)
    else (p.reset, true)
  else if atStartOfLine = true ∧ p.matchIndex_ = 0 then
    if c = ch_gt then ({ p with matchIndex_ := 1, state_ := .TRYING }, p.includeMarker_)
    else (p, true)
  else if atStartOfLine = true ∧ p.matchIndex_ = 1 then
    if c = ch_space then ({ p with state_ := .PROCESSING, matchIndex_ := 0 }, p.includeMarker_)
    else (p.reset, true)
  else processCharTail p c

end StreamMarkdownBlockQuotePlugin

/-! ### Horizontal rule -/

/-- The fields of `StreamMarkdownHorizontalRulePlugin`. -/
structure StreamMarkdownHorizontalRulePlugin where
  includeMarker_ : Bool
  state_ : PluginState
  currentMarker_ : Nat
  hasMarker_ : Bool
  markerCount_ : Nat
  deriving DecidableEq, Repr

namespace StreamMarkdownHorizontalRulePlugin

/-- The method `reset`. -/
def reset (p : StreamMarkdownHorizontalRulePlugin) : StreamMarkdownHorizontalRulePlugin :=
  { p with state_ := .IDLE, currentMarker_ := 0, hasMarker_ := false, markerCount_ := 0 }

/-- The constructor. -/
def new (includeMarker : Bool) : StreamMarkdownHorizontalRulePlugin :=
  reset { includeMarker_ := includeMarker, state_ := .IDLE, currentMarker_ := 0,
          hasMarker_ := false, markerCount_ := 0 }

/-- The method `processChar`. -/
def processChar (p : StreamMarkdownHorizontalRulePlugin) (c : Nat) (atStartOfLine : Bool) :
    StreamMarkdownHorizontalRulePlugin × Bool :=
  if c = ch_nl then
    let isMatch : Bool :=
      (decide (p.state_ = .TRYING) || decide (p.state_ = .PROCESSING)) &&
        decide (3 ≤ p.markerCount_)
    let shouldEmit : Bool := isMatch && p.includeMarker_
    (p.reset, if isMatch then shouldEmit else true)
  else if p.state_ = .IDLE then
    if atStartOfLine = true ∧ (c = ch_minus ∨ c = ch_star ∨ c = ch_underscore) then
      ({ p with state_ := .TRYING, currentMarker_ := c, hasMarker_ := true, markerCount_ := 1 },
        p.includeMarker_)
    else (p, true)
  else if p.hasMarker_ = true ∧ (c = p.currentMarker_ ∨ c = ch_space ∨ c = ch_tab) then
    let p1 := if c = p.currentMarker_ then { p with markerCount_ := p.markerCount_ + 1 } else p
    let p2 := if 3 ≤ p1.markerCount_ then { p1 with state_ := .PROCESSING } else p1
    (p2, p2.includeMarker_)
  else (p.reset, true)

end StreamMarkdownHorizontalRulePlugin

/-! ### Ordered list -/

/-- The fields of `StreamMarkdownOrderedListPlugin`. -/
structure StreamMarkdownOrderedListPlugin where
  includeMarker_ : Bool
  state_ : PluginState
  matchState_ : Nat
  deriving DecidableEq, Repr

namespace StreamMarkdownOrderedListPlugin

/-- The method `reset`. -/
def reset (p : StreamMarkdownOrderedListPlugin) : StreamMarkdownOrderedListPlugin :=
  { p with state_ := .IDLE, matchState_ := 0 }

/-- The constructor. -/
def new (includeMarker : Bool) : StreamMarkdownOrderedListPlugin :=
  reset { includeMarker_ := includeMarker, state_ := .IDLE, matchState_ := 0 }

/-- The method `processChar`. -/
def processChar (p : StreamMarkdownOrderedListPlugin) (c : Nat) (atStartOfLine : Bool) :
    StreamMarkdownOrderedListPlugin × Bool :=
  if p.state_ = .PROCESSING then
    if c = ch_nl then (p.reset, true) else (p, true)
  else
    let p1 := if atStartOfLine then { p with matchState_ := 0, state_ := .IDLE } else p
    if atStartOfLine = false ∧ p1.state_ ≠ .TRYING then (p1, true)
    else if p1.matchState_ = 0 then
      if isDigit c then ({ p1 with state_ := .TRYING, matchState_ := 1 }, p1.includeMarker_)
      else (p1.reset, true)
    else if p1.matchState_ = 1 then
      if isDigit c then ({ p1 with state_ := .TRYING }, p1.includeMarker_)
      else if c = ch_dot then ({ p1 with matchState_ := 2, state_ := .TRYING }, p1.includeMarker_)
      else (p1.reset, true)
    else if p1.matchState_ = 2 then
      if c = ch_space then
        ({ p1 with state_ := .PROCESSING, matchState_ := 0 }, p1.includeMarker_)
      else (p1.reset, true)
    else (p1.reset, true)

end StreamMarkdownOrderedListPlugin

/-! ### Unordered list -/

/-- The fields of `StreamMarkdownUnorderedListPlugin`. -/
structure StreamMarkdownUnorderedListPlugin where
  includeMarker_ : Bool
  state_ : PluginState
  matchState_ : Nat
  deriving DecidableEq, Repr

namespace StreamMarkdownUnorderedListPlugin

/-- The method `reset`. -/
def reset (p : StreamMarkdownUnorderedListPlugin) : StreamMarkdownUnorderedListPlugin :=
  { p with state_ := .IDLE, matchState_ := 0 }

/-- The constructor. -/
def new (includeMarker : Bool) : StreamMarkdownUnorderedListPlugin :=
  reset { includeMarker_ := includeMarker, state_ := .IDLE, matchState_ := 0 }

/-- The method `processChar`. -/
def processChar (p : StreamMarkdownUnorderedListPlugin) (c : Nat) (atStartOfLine : Bool) :
    StreamMarkdownUnorderedListPlugin × Bool :=
  if p.state_ = .PROCESSING then
    if c = ch_nl then (p.reset, true) else (p, true)
  else
    let p1 := if atStartOfLine then { p with matchState_ := 0, state_ := .IDLE } else p
    if atStartOfLine = false ∧ p1.state_ ≠ .TRYING then (p1, true)
    else if p1.matchState_ = 0 then
      if c = ch_minus ∨ c = ch_plus ∨ c = ch_star then
        ({ p1 with state_ := .TRYING, matchState_ := 1 }, p1.includeMarker_)
      else (p1.reset, true)
    else if p1.matchState_ = 1 then
      if c = ch_space then
        ({ p1 with state_ := .PROCESSING, matchState_ := 0 }, p1.includeMarker_)
      else (p1.reset, true)
    else (p1.reset, true)

end StreamMarkdownUnorderedListPlugin

/-! ### Strikethrough -/

/-- The fields of `StreamMarkdownStrikethroughPlugin`. -/
structure StreamMarkdownStrikethroughPlugin where
  includeDelimiters_ : Bool
  state_ : PluginState
  startState_ : Nat
  endState_ : Nat
  deriving DecidableEq, Repr

namespace StreamMarkdownStrikethroughPlugin

/-- The method `reset`. -/
def reset (p : StreamMarkdownStrikethroughPlugin) : StreamMarkdownStrikethroughPlugin :=
  { p with state_ := .IDLE, startState_ := 0, endState_ := 0 }

/-- The constructor. -/
def new (includeDelimiters : Bool) : StreamMarkdownStrikethroughPlugin :=
  reset { includeDelimiters_ := includeDelimiters, state_ := .IDLE, startState_ := 0,
          endState_ := 0 }

/-- The method `processChar`. -/
def processChar (p : StreamMarkdownStrikethroughPlugin) (c : Nat) (_atStartOfLine : Bool) :
    StreamMarkdownStrikethroughPlugin × Bool :=
  if p.state_ = .PROCESSING then
    if p.endState_ = 0 then
      if c = ch_tilde then ({ p with endState_ := 1 }, p.includeDelimiters_)
      else (p, true)
    else if p.endState_ = 1 then
      if c = ch_tilde then (p.reset, p.includeDelimiters_)
      else ({ p with endState_ := 0 }, true)
    else ({ p with endState_ := 0 }, true)
  else if p.startState_ = 0 then
    if c = ch_tilde then ({ p with startState_ := 1, state_ := .TRYING }, p.includeDelimiters_)
    else (p, true)
  else if p.startState_ = 1 then
    if c = ch_tilde then ({ p with startState_ := 2, state_ := .TRYING }, p.includeDelimiters_)
    else (p.reset, true)
  else if p.startState_ = 2 then
    if c ≠ ch_tilde ∧ c ≠ ch_nl then
      ({ p with state_ := .PROCESSING, startState_ := 0, endState_ := 0 }, true)
    else (p.reset, true)
  else (p.reset, true)

end StreamMarkdownStrikethroughPlugin

/-! ### Underline -/

/-- The fields of `StreamMarkdownUnderlinePlugin`. -/
structure StreamMarkdownUnderlinePlugin where
  includeDelimiters_ : Bool
  state_ : PluginState
  startState_ : Nat
  endState_ : Nat
  deriving DecidableEq, Repr

namespace StreamMarkdownUnderlinePlugin

/-- The method `reset`. -/
def reset (p : StreamMarkdownUnderlinePlugin) : StreamMarkdownUnderlinePlugin :=
  { p with state_ := .IDLE, startState_ := 0, endState_ := 0 }

/-- The constructor. -/
def new (includeDelimiters : Bool) : StreamMarkdownUnderlinePlugin :=
  reset { includeDelimiters_ := includeDelimiters, state_ := .IDLE, startState_ := 0,
          endState_ := 0 }

/-- The method `processChar`. -/
def processChar (p : StreamMarkdownUnderlinePlugin) (c : Nat) (_atStartOfLine : Bool) :
    StreamMarkdownUnderlinePlugin × Bool :=
  if p.state_ = .PROCESSING then
    if p.endState_ = 0 then
      if c = ch_underscore then ({ p with endState_ := 1 }, p.includeDelimiters_)
      else (p, true)
    else if p.endState_ = 1 then
      if c = ch_underscore then (p.reset, p.includeDelimiters_)
      else ({ p with endState_ := 0 }, true)
    else ({ p with endState_ := 0 }, true)
  else if p.startState_ = 0 then
    if c = ch_underscore then
      ({ p with startState_ := 1, state_ := .TRYING }, p.includeDelimiters_)
    else (p, true)
  else if p.startState_ = 1 then
    if c = ch_underscore then
      ({ p with startState_ := 2, state_ := .TRYING }, p.includeDelimiters_)
    else (p.reset, true)
  else if p.startState_ = 2 then
    if c ≠ ch_underscore ∧ c ≠ ch_nl then
      ({ p with state_ := .PROCESSING, startState_ := 0, endState_ := 0 }, true)
    else (p.reset, true)
  else (p.reset, true)

end StreamMarkdownUnderlinePlugin

/-! ### Inline LaTeX, dollar form -/

/-- The fields of `StreamMarkdownInlineLaTeXPlugin`. -/
structure StreamMarkdownInlineLaTeXPlugin where
  includeDelimiters_ : Bool
  state_ : PluginState
  startState_ : Nat
  endState_ : Nat
  deriving DecidableEq, Repr

namespace StreamMarkdownInlineLaTeXPlugin

/-- The method `reset`. -/
def reset (p : StreamMarkdownInlineLaTeXPlugin) : StreamMarkdownInlineLaTeXPlugin :=
  { p with state_ := .IDLE, startState_ := 0, endState_ := 0 }

/-- The constructor. -/
def new (includeDelimiters : Bool) : StreamMarkdownInlineLaTeXPlugin :=
  reset { includeDelimiters_ := includeDelimiters, state_ := .IDLE, startState_ := 0,
          endState_ := 0 }

/-- The method `processChar`. -/
def processChar (p : StreamMarkdownInlineLaTeXPlugin) (c : Nat) (_atStartOfLine : Bool) :
    StreamMarkdownInlineLaTeXPlugin × Bool :=
  if p.state_ = .PROCESSING then
    if p.endState_ = 0 then
      if c = ch_dollar then (reset { p with endState_ := 1 }, p.includeDelimiters_)
      else (p, true)
    else (p, true)
  else if p.startState_ = 0 then
    if c = ch_dollar then ({ p with startState_ := 1, state_ := .TRYING }, p.includeDelimiters_)
    else (p, true)
  else if p.startState_ = 1 then
    if c ≠ ch_dollar ∧ c ≠ ch_nl then
      ({ p with state_ := .PROCESSING, startState_ := 0, endState_ := 0 }, true)
    else (p.reset, true)
  else (p.reset, true)

end StreamMarkdownInlineLaTeXPlugin

/-! ### Inline LaTeX, backslash-parenthesis form -/

/-- The fields of `StreamMarkdownInlineParenLaTeXPlugin`. -/
structure StreamMarkdownInlineParenLaTeXPlugin where
  includeDelimiters_ : Bool
  state_ : PluginState
  startState_ : Nat
  endState_ : Nat
  deriving DecidableEq, Repr

namespace StreamMarkdownInlineParenLaTeXPlugin

/-- The method `reset`. -/
def reset (p : StreamMarkdownInlineParenLaTeXPlugin) : StreamMarkdownInlineParenLaTeXPlugin :=
  { p with state_ := .IDLE, startState_ := 0, endState_ := 0 }

/-- The constructor. -/
def new (includeDelimiters : Bool) : StreamMarkdownInlineParenLaTeXPlugin :=
  reset { includeDelimiters_ := includeDelimiters, state_ := .IDLE, startState_ := 0,
          endState_ := 0 }

/-- The method `processChar`. -/
def processChar (p : StreamMarkdownInlineParenLaTeXPlugin) (c : Nat) (_atStartOfLine : Bool) :
    StreamMarkdownInlineParenLaTeXPlugin × Bool :=
  if p.state_ = .PROCESSING then
    if p.endState_ = 0 then
      if c = ch_backslash then ({ p with endState_ := 1 }, p.includeDelimiters_)
      else (p, true)
    else if p.endState_ = 1 then
      if c = ch_rparen then (p.reset, p.includeDelimiters_)
      else ({ p with endState_ := 0 }, true)
    else ({ p with endState_ := 0 }, true)
  else if p.startState_ = 0 then
    if c = ch_backslash then
      ({ p with startState_ := 1, state_ := .TRYING }, p.includeDelimiters_)
    else (p, true)
  else if p.startState_ = 1 then
    if c = ch_lparen then ({ p with startState_ := 2, state_ := .TRYING }, p.includeDelimiters_)
    else (p.reset, true)
  else if p.startState_ = 2 then
    if c ≠ ch_nl then ({ p with state_ := .PROCESSING, startState_ := 0, endState_ := 0 }, true)
    else (p.reset, true)
  else (p.reset, true)

end StreamMarkdownInlineParenLaTeXPlugin

/-! ### Block LaTeX, dollar form -/

/-- The fields of `StreamMarkdownBlockLaTeXPlugin`. -/
structure StreamMarkdownBlockLaTeXPlugin where
  includeDelimiters_ : Bool
  state_ : PluginState
  startState_ : Nat
  endState_ : Nat
  deriving DecidableEq, Repr

namespace StreamMarkdownBlockLaTeXPlugin

/-- The method `reset`. -/
def reset (p : StreamMarkdownBlockLaTeXPlugin) : StreamMarkdownBlockLaTeXPlugin :=
  { p with state_ := .IDLE, startState_ := 0, endState_ := 0 }

/-- The constructor. -/
def new (includeDelimiters : Bool) : StreamMarkdownBlockLaTeXPlugin :=
  reset { includeDelimiters_ := includeDelimiters, state_ := .IDLE, startState_ := 0,
          endState_ := 0 }

/-- The method `processChar`. -/
def processChar (p : StreamMarkdownBlockLaTeXPlugin) (c : Nat) (_atStartOfLine : Bool) :
    StreamMarkdownBlockLaTeXPlugin × Bool :=
  if p.state_ = .PROCESSING then
    if p.endState_ = 0 then
      if c = ch_dollar then ({ p with endState_ := 1 }, p.includeDelimiters_)
      else (p, true)
    else if p.endState_ = 1 then
      if c = ch_dollar then (p.reset, p.includeDelimiters_)
      else ({ p with endState_ := 0 }, true)
    else ({ p with endState_ := 0 }, true)
  else if p.startState_ = 0 then
    if c = ch_dollar then ({ p with startState_ := 1, state_ := .TRYING }, p.includeDelimiters_)
    else (p, true)
  else if p.startState_ = 1 then
    if c = ch_dollar then
      ({ p with state_ := .PROCESSING, startState_ := 0, endState_ := 0 }, p.includeDelimiters_)
    else (p.reset, true)
  else (p.reset, true)

end StreamMarkdownBlockLaTeXPlugin

/-! ### Block LaTeX, backslash-bracket form -/

/-- The fields of `StreamMarkdownBlockBracketLaTeXPlugin`. -/
structure StreamMarkdownBlockBracketLaTeXPlugin where
  includeDelimiters_ : Bool
  state_ : PluginState
  startState_ : Nat
  endState_ : Nat
  deriving DecidableEq, Repr

namespace StreamMarkdownBlockBracketLaTeXPlugin

/-- The method `reset`. -/
def reset (p : StreamMarkdownBlockBracketLaTeXPlugin) : StreamMarkdownBlockBracketLaTeXPlugin :=
  { p with state_ := .IDLE, startState_ := 0, endState_ := 0 }

/-- The constructor. -/
def new (includeDelimiters : Bool) : StreamMarkdownBlockBracketLaTeXPlugin :=
  reset { includeDelimiters_ := includeDelimiters, state_ := .IDLE, startState_ := 0,
          endState_ := 0 }

/-- The method `processChar`. -/
def processChar (p : StreamMarkdownBlockBracketLaTeXPlugin) (c : Nat) (_atStartOfLine : Bool) :
    StreamMarkdownBlockBracketLaTeXPlugin × Bool :=
  if p.state_ = .PROCESSING then
    if p.endState_ = 0 then
      if c = ch_backslash then ({ p with endState_ := 1 }, p.includeDelimiters_)
      else (p, true)
    else if p.endState_ = 1 then
      if c = ch_rbracket then (p.reset, p.includeDelimiters_)
      else ({ p with endState_ := 0 }, true)
    else ({ p with endState_ := 0 }, true)
  else if p.startState_ = 0 then
    if c = ch_backslash then
      ({ p with startState_ := 1, state_ := .TRYING }, p.includeDelimiters_)
    else (p, true)
  else if p.startState_ = 1 then
    if c = ch_lbracket then
      ({ p with state_ := .PROCESSING, startState_ := 0, endState_ := 0 }, p.includeDelimiters_)
    else (p.reset, true)
  else (p.reset, true)

end StreamMarkdownBlockBracketLaTeXPlugin

/-! ### Image -/

/-- The fields of `StreamMarkdownImagePlugin`. -/
structure StreamMarkdownImagePlugin where
  includeDelimiters_ : Bool
  state_ : PluginState
  phase_ : Nat
  deriving DecidableEq, Repr

namespace StreamMarkdownImagePlugin

/-- The method `reset`. -/
def reset (p : StreamMarkdownImagePlugin) : StreamMarkdownImagePlugin :=
  { p with state_ := .IDLE, phase_ := 0 }

/-- The constructor. -/
def new (includeDelimiters : Bool) : StreamMarkdownImagePlugin :=
  reset { includeDelimiters_ := includeDelimiters, state_ := .IDLE, phase_ := 0 }

/-- The method `processChar`. -/
def processChar (p : StreamMarkdownImagePlugin) (c : Nat) (_atStartOfLine : Bool) :
    StreamMarkdownImagePlugin × Bool :=
  if p.state_ = .IDLE then
    if c = ch_bang then ({ p with state_ := .TRYING, phase_ := 1 }, p.includeDelimiters_)
    else (p, true)
  else if p.state_ = .TRYING ∨ p.state_ = .PROCESSING then
    if c = ch_nl then (p.reset, true)
    else if p.phase_ = 1 then
      if c = ch_lbracket then
        ({ p with phase_ := 2, state_ := .PROCESSING }, p.includeDelimiters_)
      else (p.reset, true)
    else if p.phase_ = 2 then
      if c = ch_rbracket then ({ p with phase_ := 3 }, p.includeDelimiters_)
      else (p, p.includeDelimiters_)
    else if p.phase_ = 3 then
      if c = ch_lparen then ({ p with phase_ := 4 }, p.includeDelimiters_)
      else (p.reset, true)
    else if p.phase_ = 4 then
      if c = ch_rparen then (p.reset, p.includeDelimiters_)
      else (p, p.includeDelimiters_)
    else (p, true)
  else (p, true)

end StreamMarkdownImagePlugin

/-! ### Table -/

/-- The fields of `StreamMarkdownTablePlugin`. -/
structure StreamMarkdownTablePlugin where
  includeDelimiters_ : Bool
  state_ : PluginState
  tableRowCount_ : Nat
  foundHeaderSeparator_ : Bool
  headerSepMatchState_ : Nat
  deriving DecidableEq, Repr

namespace StreamMarkdownTablePlugin

/-- The method `reset`. -/
def reset (p : StreamMarkdownTablePlugin) : StreamMarkdownTablePlugin :=
  { p with state_ := .IDLE, tableRowCount_ := 0, foundHeaderSeparator_ := false,
           headerSepMatchState_ := 0 }

/-- The constructor. -/
def new (includeDelimiters : Bool) : StreamMarkdownTablePlugin :=
  reset { includeDelimiters_ := includeDelimiters, state_ := .IDLE, tableRowCount_ := 0,
          foundHeaderSeparator_ := false, headerSepMatchState_ := 0 }

/-- The method `processChar`. -/
def processChar (p : StreamMarkdownTablePlugin) (c : Nat) (atStartOfLine : Bool) :
    StreamMarkdownTablePlugin × Bool :=
  if c = ch_nl then
    if p.state_ = .PROCESSING then ({ p with state_ := .WAITFOR }, true) else (p, true)
  else if p.state_ = .WAITFOR ∧ atStartOfLine = true then
    if c = ch_pipe then
      ({ p with state_ := .PROCESSING, tableRowCount_ := p.tableRowCount_ + 1,
                headerSepMatchState_ := 0 }, p.includeDelimiters_)
    else (p.reset, true)
  else if atStartOfLine then
    if c = ch_pipe then
      let p1 :=
        if p.state_ = .IDLE then
          { p with state_ := .PROCESSING, tableRowCount_ := 1, foundHeaderSeparator_ := false }
        else if p.state_ = .PROCESSING then { p with tableRowCount_ := p.tableRowCount_ + 1 }
        else p
      ({ p1 with headerSepMatchState_ := 0 }, p1.includeDelimiters_)
    else if p.state_ = .PROCESSING then (p.reset, true)
    else (p, true)
  else if p.state_ = .PROCESSING then
    let p1 :=
      if p.tableRowCount_ = 2 ∧ p.foundHeaderSeparator_ = false ∧ p.headerSepMatchState_ = 0 then
        { p with headerSepMatchState_ := 1 }
      else p
    if p1.includeDelimiters_ then (p1, true)
    else (p1, decide (c ≠ ch_pipe))
  else (p, true)

end StreamMarkdownTablePlugin

/-! ## `plugins/StreamPlanExecutionPlugin.cpp` -/

/-- The nested `enum class StartState` of `StreamPlanExecutionPlugin`. -/
inductive PlanStartState where
  | IDLE
  | MATCHING
  deriving DecidableEq, Repr

/-- The fields of `StreamPlanExecutionPlugin`. -/
structure StreamPlanExecutionPlugin where
  includeTagsInOutput_ : Bool
  state_ : PluginState
  allowStartAfterEndTag_ : Bool
  startState_ : PlanStartState
  startMatchIndex_ : Nat
  endMatcher_ : KmpMatcher
  endInited_ : Bool
  deriving DecidableEq, Repr

namespace StreamPlanExecutionPlugin

/-- The array `kLit` of `processChar`: the code units of `<plan`. -/
def kLit : List Nat := [ch_lt, 112, 108, 97, 110]

/-- The method `resetInternal`. -/
def resetInternal (p : StreamPlanExecutionPlugin) : StreamPlanExecutionPlugin :=
  { p with state_ := .IDLE, startState_ := .IDLE, startMatchIndex_ := 0,
           endMatcher_ := p.endMatcher_.reset }

/-- The method `reset`. -/
def reset (p : StreamPlanExecutionPlugin) : StreamPlanExecutionPlugin := p.resetInternal

/-- The constructor: installs the pattern `</plan>` and resets. -/
def new (includeTagsInOutput : Bool) : StreamPlanExecutionPlugin :=
  reset { includeTagsInOutput_ := includeTagsInOutput, state_ := .IDLE,
          allowStartAfterEndTag_ := false, startState_ := .IDLE, startMatchIndex_ := 0,
          endMatcher_ := KmpMatcher.new.setPattern [ch_lt, ch_slash, 112, 108, 97, 110, ch_gt],
          endInited_ := true }

/-- The start-tag part of `processChar`, from `if (startState_ == StartState::IDLE)` on. -/
def processStart (p : StreamPlanExecutionPlugin) (c : Nat) : StreamPlanExecutionPlugin × Bool :=
  if p.startState_ = .IDLE then
    if c = ch_lt then
      ({ p with startState_ := .MATCHING, startMatchIndex_ := 1, state_ := .TRYING },
        p.includeTagsInOutput_)
    else (p, true)
  else
    if p.startMatchIndex_ < 5 then
      if c = kLit.getD p.startMatchIndex_ 0 then
        ({ p with startMatchIndex_ := p.startMatchIndex_ + 1, state_ := .TRYING },
          p.includeTagsInOutput_)
      else ({ p.resetInternal with allowStartAfterEndTag_ := false }, true)
    else if c = ch_gt then
      ({ p with state_ := .PROCESSING, startState_ := .IDLE, startMatchIndex_ := 0,
                allowStartAfterEndTag_ := false, endMatcher_ := p.endMatcher_.reset },
        p.includeTagsInOutput_)
    else ({ p with state_ := .TRYING }, p.includeTagsInOutput_)

/-- The method `processChar`. -/
def processChar (p : StreamPlanExecutionPlugin) (c : Nat) (atStartOfLine : Bool) :
    StreamPlanExecutionPlugin × Bool :=
  if p.state_ = .PROCESSING then
    if p.endInited_ then
      let r := p.endMatcher_.process c
      if r.2 then
        (resetInternal { p with endMatcher_ := r.1, allowStartAfterEndTag_ := true },
          p.includeTagsInOutput_)
      else ({ p with endMatcher_ := r.1 }, true)
    else (p, true)
  else if p.state_ = .IDLE ∧ atStartOfLine = false ∧
      (p.allowStartAfterEndTag_ = false ∨ c = ch_space ∨ c = ch_tab) then (p, true)
  else processStart p c

end StreamPlanExecutionPlugin

/-! ## `plugins/StreamXmlPlugin.cpp` -/

/-- The nested `enum class StartState` of `StreamXmlPlugin`. -/
inductive XmlStartState where
  | WAIT_LT
  | WAIT_FIRST_LETTER
  | IN_TAG_NAME
  | IN_ATTRS
  deriving DecidableEq, Repr

/-- The fields of `StreamXmlPlugin`. -/
structure StreamXmlPlugin where
  includeTagsInOutput_ : Bool
  state_ : PluginState
  startState_ : XmlStartState
  allowStartAfterEndTag_ : Bool
  allowStartAfterPunctuation_ : Bool
  tagName_ : List Nat
  endPattern_ : List Nat
  haveEndPattern_ : Bool
  endMatcher_ : KmpMatcher
  lastChar_ : Nat
  deriving DecidableEq, Repr

namespace StreamXmlPlugin

/-- The method `reset`. -/
def reset (p : StreamXmlPlugin) : StreamXmlPlugin :=
  { p with state_ := .IDLE, startState_ := .WAIT_LT, tagName_ := [],
           endMatcher_ := p.endMatcher_.reset, endPattern_ := [], haveEndPattern_ := false,
           lastChar_ := 0 }

/-- The constructor. -/
def new (includeTagsInOutput : Bool) : StreamXmlPlugin :=
  reset { includeTagsInOutput_ := includeTagsInOutput, state_ := .IDLE, startState_ := .WAIT_LT,
          allowStartAfterEndTag_ := false, allowStartAfterPunctuation_ := false,
          tagName_ := [], endPattern_ := [], haveEndPattern_ := false,
          endMatcher_ := KmpMatcher.new, lastChar_ := 0 }

/-- The static method `isAsciiLetter`. -/
def isAsciiLetter (c : Nat) : Bool :=
  (decide (65 ≤ c) && decide (c ≤ 90)) || (decide (97 ≤ c) && decide (c ≤ 122))

/-- The static method `isPunctuationTrigger` (the `case` labels of its `switch`). -/
def isPunctuationTrigger (c : Nat) : Bool :=
  decide (c ∈ [0xFF0C, 0x3002, 0xFF1F, 0xFF01, 0xFF1A, 0xFF08, 0xFF09, 0x3010, 0x3011,
    0x300A, 0x300B, ch_colon, ch_comma, ch_dot, ch_question, ch_bang, ch_tilde, 0xFF5E,
    ch_gt, 0xFF1E])

/-- The method `updatePunctuationAllowance`. -/
def updatePunctuationAllowance (p : StreamXmlPlugin) (c : Nat) : StreamXmlPlugin :=
  if isPunctuationTrigger c then { p with allowStartAfterPunctuation_ := true }
  else if c = ch_space ∨ c = ch_tab then p
  else { p with allowStartAfterPunctuation_ := false }

/-- The method `handleDefaultCharacter`. -/
def handleDefaultCharacter (p : StreamXmlPlugin) (c : Nat) : StreamXmlPlugin × Bool :=
  (p.updatePunctuationAllowance c, true)

/-- The method `processStartMatcher`. -/
def processStartMatcher (p : StreamXmlPlugin) (c : Nat) : StreamXmlPlugin × Bool :=
  match p.startState_ with
  | .WAIT_LT =>
    if c = ch_lt then
      ({ p with tagName_ := [], startState_ := .WAIT_FIRST_LETTER, state_ := .TRYING }, false)
    else (p, false)
  | .WAIT_FIRST_LETTER =>
    if isAsciiLetter c then
      ({ p with tagName_ := p.tagName_ ++ [c], startState_ := .IN_TAG_NAME, state_ := .TRYING },
        false)
    else ({ p with startState_ := .WAIT_LT, state_ := .IDLE }, false)
  | .IN_TAG_NAME =>
    if c = ch_space then ({ p with startState_ := .IN_ATTRS, state_ := .TRYING }, false)
    else if c = ch_gt then ({ p with startState_ := .WAIT_LT, state_ := .TRYING }, true)
    else ({ p with tagName_ := p.tagName_ ++ [c], state_ := .TRYING }, false)
  | .IN_ATTRS =>
    if c = ch_gt then ({ p with startState_ := .WAIT_LT, state_ := .TRYING }, true)
    else ({ p with state_ := .TRYING }, false)

/-- The method `buildEndPattern`. -/
def buildEndPattern (p : StreamXmlPlugin) : StreamXmlPlugin :=
  let endPattern := [ch_lt, ch_slash] ++ p.tagName_ ++ [ch_gt]
  { p with endPattern_ := endPattern, endMatcher_ := p.endMatcher_.setPattern endPattern,
           haveEndPattern_ := true }

/-- The lambda `finish` of `processChar`: record the code unit and return the result. -/
def finish (c : Nat) (r : StreamXmlPlugin × Bool) : StreamXmlPlugin × Bool :=
  ({ r.1 with lastChar_ := c }, r.2)

/-- The method `processChar`. -/
def processChar (p : StreamXmlPlugin) (c : Nat) (atStartOfLine : Bool) :
    StreamXmlPlugin × Bool :=
  let prevChar := p.lastChar_
  if p.state_ = .PROCESSING then
    if p.haveEndPattern_ then
      let r := p.endMatcher_.process c
      if r.2 then
        finish c (reset { p with endMatcher_ := r.1, allowStartAfterEndTag_ := true,
                                 allowStartAfterPunctuation_ := false }, p.includeTagsInOutput_)
      else finish c ({ p with endMatcher_ := r.1 }, p.includeTagsInOutput_)
    else finish c (p, p.includeTagsInOutput_)
  else if p.state_ = .IDLE ∧ atStartOfLine = false ∧
      ((p.allowStartAfterEndTag_ || p.allowStartAfterPunctuation_) = false ∨
        c = ch_space ∨ c = ch_tab) then
    finish c (p.handleDefaultCharacter c)
  else
    let previousState := p.state_
    let r := p.processStartMatcher c
    let p1 := r.1
    if r.2 then
      if prevChar = ch_slash then finish c (p1.reset, true)
      else
        let p2 := buildEndPattern { p1 with state_ := .PROCESSING,
                                            allowStartAfterEndTag_ := false,
                                            allowStartAfterPunctuation_ := false }
        finish c ({ p2 with startState_ := .WAIT_LT }, p2.includeTagsInOutput_)
    else if p1.state_ = .TRYING then
      finish c ({ p1 with allowStartAfterPunctuation_ := false }, p1.includeTagsInOutput_)
    else
      let p2 := if previousState = .TRYING then p1.reset else p1
      finish c (handleDefaultCharacter
        { p2 with allowStartAfterEndTag_ := false, allowStartAfterPunctuation_ := false } c)

end StreamXmlPlugin

/-! ## The polymorphic plugin (`StreamPlugin` and its virtual dispatch) -/

/-- A `std::unique_ptr<StreamPlugin>`: one of the concrete plugin classes. -/
inductive Plugin where
  | plan (p : StreamPlanExecutionPlugin)
  | header (p : StreamMarkdownHeaderPlugin)
  | fencedCode (p : StreamMarkdownFencedCodeBlockPlugin)
  | blockQuote (p : StreamMarkdownBlockQuotePlugin)
  | orderedList (p : StreamMarkdownOrderedListPlugin)
  | unorderedList (p : StreamMarkdownUnorderedListPlugin)
  | horizontalRule (p : StreamMarkdownHorizontalRulePlugin)
  | blockLaTeX (p : StreamMarkdownBlockLaTeXPlugin)
  | blockBracketLaTeX (p : StreamMarkdownBlockBracketLaTeXPlugin)
  | table (p : StreamMarkdownTablePlugin)
  | image (p : StreamMarkdownImagePlugin)
  | xml (p : StreamXmlPlugin)
  | bold (p : StreamMarkdownBoldPlugin)
  | italic (p : StreamMarkdownItalicPlugin)
  | inlineCode (p : StreamMarkdownInlineCodePlugin)
  | link (p : StreamMarkdownLinkPlugin)
  | strikethrough (p : StreamMarkdownStrikethroughPlugin)
  | underline (p : StreamMarkdownUnderlinePlugin)
  | inlineLaTeX (p : StreamMarkdownInlineLaTeXPlugin)
  | inlineParenLaTeX (p : StreamMarkdownInlineParenLaTeXPlugin)
  deriving DecidableEq, Repr

namespace Plugin

/-- The virtual method `state`. -/
def state : Plugin → PluginState
  | plan p => p.state_
  | header p => p.state_
  | fencedCode p => p.state_
  | blockQuote p => p.state_
  | orderedList p => p.state_
  | unorderedList p => p.state_
  | horizontalRule p => p.state_
  | blockLaTeX p => p.state_
  | blockBracketLaTeX p => p.state_
  | table p => p.state_
  | image p => p.state_
  | xml p => p.state_
  | bold p => p.state_
  | italic p => p.state_
  | inlineCode p => p.state_
  | link p => p.state_
  | strikethrough p => p.state_
  | underline p => p.state_
  | inlineLaTeX p => p.state_
  | inlineParenLaTeX p => p.state_

/-- The virtual method `reset`. -/
def reset : Plugin → Plugin
  | plan p => plan p.reset
  | header p => header p.reset
  | fencedCode p => fencedCode p.reset
  | blockQuote p => blockQuote p.reset
  | orderedList p => orderedList p.reset
  | unorderedList p => unorderedList p.reset
  | horizontalRule p => horizontalRule p.reset
  | blockLaTeX p => blockLaTeX p.reset
  | blockBracketLaTeX p => blockBracketLaTeX p.reset
  | table p => table p.reset
  | image p => image p.reset
  | xml p => xml p.reset
  | bold p => bold p.reset
  | italic p => italic p.reset
  | inlineCode p => inlineCode p.reset
  | link p => link p.reset
  | strikethrough p => strikethrough p.reset
  | underline p => underline p.reset
  | inlineLaTeX p => inlineLaTeX p.reset
  | inlineParenLaTeX p => inlineParenLaTeX p.reset

/-- The virtual method `initPlugin` (every override is `reset(); return true;`). -/
def initPlugin (p : Plugin) : Plugin := p.reset

/-- The virtual method `processChar`. -/
def processChar (q : Plugin) (c : Nat) (atStartOfLine : Bool) : Plugin × Bool :=
  match q with
  | plan p => let r := p.processChar c atStartOfLine; (plan r.1, r.2)
  | header p => let r := p.processChar c atStartOfLine; (header r.1, r.2)
  | fencedCode p => let r := p.processChar c atStartOfLine; (fencedCode r.1, r.2)
  | blockQuote p => let r := p.processChar c atStartOfLine; (blockQuote r.1, r.2)
  | orderedList p => let r := p.processChar c atStartOfLine; (orderedList r.1, r.2)
  | unorderedList p => let r := p.processChar c atStartOfLine; (unorderedList r.1, r.2)
  | horizontalRule p => let r := p.processChar c atStartOfLine; (horizontalRule r.1, r.2)
  | blockLaTeX p => let r := p.processChar c atStartOfLine; (blockLaTeX r.1, r.2)
  | blockBracketLaTeX p => let r := p.processChar c atStartOfLine; (blockBracketLaTeX r.1, r.2)
  | table p => let r := p.processChar c atStartOfLine; (table r.1, r.2)
  | image p => let r := p.processChar c atStartOfLine; (image r.1, r.2)
  | xml p => let r := p.processChar c atStartOfLine; (xml r.1, r.2)
  | bold p => let r := p.processChar c atStartOfLine; (bold r.1, r.2)
  | italic p => let r := p.processChar c atStartOfLine; (italic r.1, r.2)
  | inlineCode p => let r := p.processChar c atStartOfLine; (inlineCode r.1, r.2)
  | link p => let r := p.processChar c atStartOfLine; (link r.1, r.2)
  | strikethrough p => let r := p.processChar c atStartOfLine; (strikethrough r.1, r.2)
  | underline p => let r := p.processChar c atStartOfLine; (underline r.1, r.2)
  | inlineLaTeX p => let r := p.processChar c atStartOfLine; (inlineLaTeX r.1, r.2)
  | inlineParenLaTeX p => let r := p.processChar c atStartOfLine; (inlineParenLaTeX r.1, r.2)

end Plugin

/-! ## `StreamOperators.cpp`: segments and run coalescing -/

/-- Tag `MD_HEADER`. -/
abbrev MD_HEADER : Int := 0
/-- Tag `MD_BLOCK_QUOTE`. -/
abbrev MD_BLOCK_QUOTE : Int := 1
/-- Tag `MD_CODE_BLOCK`. -/
abbrev MD_CODE_BLOCK : Int := 2
/-- Tag `MD_ORDERED_LIST`. -/
abbrev MD_ORDERED_LIST : Int := 3
/-- Tag `MD_UNORDERED_LIST`. -/
abbrev MD_UNORDERED_LIST : Int := 4
/-- Tag `MD_HORIZONTAL_RULE`. -/
abbrev MD_HORIZONTAL_RULE : Int := 5
/-- Tag `MD_BLOCK_LATEX`. -/
abbrev MD_BLOCK_LATEX : Int := 6
/-- Tag `MD_TABLE`. -/
abbrev MD_TABLE : Int := 7
/-- Tag `MD_XML_BLOCK`. -/
abbrev MD_XML_BLOCK : Int := 8
/-- Tag `MD_PLAN_EXECUTION`. -/
abbrev MD_PLAN_EXECUTION : Int := 9
/-- Tag `MD_BOLD`. -/
abbrev MD_BOLD : Int := 10
/-- Tag `MD_ITALIC`. -/
abbrev MD_ITALIC : Int := 11
/-- Tag `MD_INLINE_CODE`. -/
abbrev MD_INLINE_CODE : Int := 12
/-- Tag `MD_LINK`. -/
abbrev MD_LINK : Int := 13
/-- Tag `MD_IMAGE`. -/
abbrev MD_IMAGE : Int := 14
/-- Tag `MD_STRIKETHROUGH`. -/
abbrev MD_STRIKETHROUGH : Int := 15
/-- Tag `MD_UNDERLINE`. -/
abbrev MD_UNDERLINE : Int := 16
/-- Tag `MD_INLINE_LATEX`. -/
abbrev MD_INLINE_LATEX : Int := 17
/-- Tag `MD_PLAIN_TEXT`. -/
abbrev MD_PLAIN_TEXT : Int := 18
/-- The boundary marker `SEG_BREAK`. -/
abbrev SEG_BREAK : Int := -1

/-- The struct `Segment` (`{type, start, end}`; `end` is a keyword of Lean). -/
structure Segment where
  type : Int
  start : Int
  end_ : Int
  deriving DecidableEq, Repr

/-- The struct `PluginEntry`. -/
structure PluginEntry where
  plugin : Plugin
  tag : Int
  deriving DecidableEq, Repr

/-- The output vector of a push together with the run variables `runTag`, `runStart`,
`runEnd` that `emitIndex`, `flushRun` and `emitBreak` take by reference. -/
structure Emitter where
  out : List Segment
  runTag : Int
  runStart : Int
  runEnd : Int
  deriving DecidableEq, Repr

/-- The emitter at the start of a push: `out` empty, `runTag = 0`, `runStart = runEnd = -1`. -/
def Emitter.new : Emitter := { out := [], runTag := 0, runStart := -1, runEnd := -1 }

/-- The function `emitIndex`. -/
def emitIndex (e : Emitter) (tag index : Int) : Emitter :=
  let e1 :=
    if 0 ≤ e.runStart ∧ (e.runTag ≠ tag ∨ e.runEnd ≠ index) then
      { e with out := e.out ++ [⟨e.runTag, e.runStart, e.runEnd⟩], runStart := -1, runEnd := -1 }
    else e
  if e1.runStart < 0 then { e1 with runTag := tag, runStart := index, runEnd := index + 1 }
  else { e1 with runEnd := index + 1 }

/-- The function `flushRun`. -/
def flushRun (e : Emitter) : Emitter :=
  let e1 :=
    if 0 ≤ e.runStart then { e with out := e.out ++ [⟨e.runTag, e.runStart, e.runEnd⟩] } else e
  { e1 with runStart := -1, runEnd := -1 }

/-- The function `emitBreak`. -/
def emitBreak (e : Emitter) (pos : Int) : Emitter :=
  let e1 := flushRun e
  { e1 with out := e1.out ++ [⟨SEG_BREAK, pos, pos⟩] }

/-! ## `StreamOperators.cpp`: `MarkdownSession` -/

/-- The nested struct `WaitforPending`. -/
structure WaitforPending where
  globalIndex : Int
  shouldEmit : Bool
  deriving DecidableEq, Repr

/-- The nested struct `PendingChar`. -/
structure PendingChar where
  c : Nat
  globalIndex : Int
  deriving DecidableEq, Repr

/-- The fields of `MarkdownSession`. The pointer `activePlugin_` always points into
`plugins_`, so it is the position of its target in the roster (`none` for `nullptr`). -/
structure MarkdownSession where
  plugins_ : List PluginEntry
  globalOffset_ : Int
  atStartOfLine_ : Bool
  activePlugin_ : Option Nat
  activeTag_ : Int
  activeIndex_ : Int
  evalStartGlobal_ : Int
  evaluationBuffer_ : List Nat
  evaluationEmitMask_ : List Nat
  waitforActive_ : Bool
  waitforAtStartOfLine_ : Bool
  waitforPending_ : List WaitforPending
  pendingChars_ : List PendingChar
  deriving DecidableEq, Repr

/-- The constructor of `MarkdownSession`: stores the roster and calls `initPlugin` on
every plugin; the other fields take their default member initialisers. -/
def MarkdownSession.new (plugins : List PluginEntry) : MarkdownSession :=
  { plugins_ := plugins.map (fun e => { e with plugin := e.plugin.initPlugin })
    globalOffset_ := 0
    atStartOfLine_ := true
    activePlugin_ := none
    activeTag_ := MD_PLAIN_TEXT
    activeIndex_ := -1
    evalStartGlobal_ := -1
    evaluationBuffer_ := []
    evaluationEmitMask_ := []
    waitforActive_ := false
    waitforAtStartOfLine_ := false
    waitforPending_ := []
    pendingChars_ := [] }

/-- The call `activePlugin_->processChar(c, atStartOfLine)`: the session with the target
plugin updated, and the returned keep decision. (The program only makes the call with a
non-null pointer; for a null or dangling pointer the model leaves the session unchanged.) -/
def MarkdownSession.activeProcessChar (s : MarkdownSession) (c : Nat) (atStartOfLine : Bool) :
    MarkdownSession × Bool :=
  match s.activePlugin_ with
  | none => (s, true)
  | some i =>
    match s.plugins_[i]? with
    | none => (s, true)
    | some e =>
      let r := e.plugin.processChar c atStartOfLine
      ({ s with plugins_ := s.plugins_.set i { e with plugin := r.1 } }, r.2)

/-- The call `activePlugin_->state()` (`IDLE` for a null or dangling pointer, which the
program never dereferences). -/
def MarkdownSession.activeState (s : MarkdownSession) : PluginState :=
  match s.activePlugin_ with
  | none => .IDLE
  | some i =>
    match s.plugins_[i]? with
    | none => .IDLE
    | some e => e.plugin.state

/-- The loop `for (auto& e : plugins_) e.plugin->reset();`. -/
def resetAll (plugins : List PluginEntry) : List PluginEntry :=
  plugins.map (fun e => { e with plugin := e.plugin.reset })

/-- The loop `for (const auto& pending : waitforPending_) if (pending.shouldEmit)
emitIndex(out, tag, pending.globalIndex, ...);`. -/
def emitPending (e : Emitter) (tag : Int) (pending : List WaitforPending) : Emitter :=
  pending.foldl (fun e pd => if pd.shouldEmit then emitIndex e tag pd.globalIndex else e) e

/-- The branch `if (waitforActive_)` of the lambda `processOne`. -/
def processWaitfor (s : MarkdownSession) (e : Emitter) (c : Nat) (globalIndex : Int) :
    MarkdownSession × Emitter :=
  let r := s.activeProcessChar c s.waitforAtStartOfLine_
  let s1 := r.1
  let nextShouldEmit := r.2
  if s1.activeState = .PROCESSING then
    let e1 := emitPending e s1.activeTag_ s1.waitforPending_
    let s2 := { s1 with waitforPending_ := [], waitforActive_ := false }
    let e2 := if nextShouldEmit then emitIndex e1 s2.activeTag_ globalIndex else e1
    (s2, e2)
  else
    let e1 := emitPending e MD_PLAIN_TEXT s1.waitforPending_
    let e2 := emitBreak e1 globalIndex
    ({ s1 with waitforPending_ := [], waitforActive_ := false, activePlugin_ := none,
               activeTag_ := MD_PLAIN_TEXT, activeIndex_ := -1,
               plugins_ := resetAll s1.plugins_,
               pendingChars_ := ⟨c, globalIndex⟩ :: s1.pendingChars_ }, e2)

/-- The branch `if (activePlugin_ != nullptr)` of the lambda `processOne`. -/
def processActive (s : MarkdownSession) (e : Emitter) (c : Nat) (atStartOfLine : Bool)
    (globalIndex : Int) : MarkdownSession × Emitter :=
  let r := s.activeProcessChar c atStartOfLine
  let s1 := r.1
  let shouldEmit := r.2
  if s1.activeState = .WAITFOR then
    ({ s1 with waitforActive_ := true, waitforAtStartOfLine_ := decide (c = ch_nl),
               waitforPending_ := s1.waitforPending_ ++ [⟨globalIndex, shouldEmit⟩] }, e)
  else
    let e1 := if shouldEmit then emitIndex e s1.activeTag_ globalIndex else e
    if s1.activeState ≠ .PROCESSING then
      ({ s1 with activePlugin_ := none, activeTag_ := MD_PLAIN_TEXT, activeIndex_ := -1 },
        emitBreak e1 (globalIndex + 1))
    else (s1, e1)

/-- The first loop of evaluation mode: feed `c` to every plugin from roster position `pi`
on, setting bit `pi` of the `uint32_t` mask for every plugin that votes keep. -/
def evalAll (c : Nat) (atStartOfLine : Bool) :
    List PluginEntry → Nat → Nat → List PluginEntry × Nat
  | [], _, emitMask => ([], emitMask)
  | e :: es, pi, emitMask =>
    let r := e.plugin.processChar c atStartOfLine
    let emitMask := if r.2 then (emitMask ||| (1 <<< pi)) % 4294967296 else emitMask
    let rest := evalAll c atStartOfLine es (pi + 1) emitMask
    ({ e with plugin := r.1 } :: rest.1, rest.2)

/-- The second loop of evaluation mode: the first roster position, counted from `pi`, whose
plugin is `PROCESSING` (`none` for `successful == -1`). -/
def findSuccessful : List PluginEntry → Nat → Option Nat
  | [], _ => none
  | e :: es, pi => if e.plugin.state = .PROCESSING then some pi else findSuccessful es (pi + 1)

/-- The loop that emits the buffered code units whose mask has the winner's bit set. -/
def emitBuffered (e : Emitter) (tag evalStartGlobal : Int) (masks : List Nat) (successful : Nat)
    (size : Nat) : Emitter :=
  (List.range size).foldl
    (fun e (bi : Nat) =>
      if (masks.getD bi 0) &&& ((1 <<< successful) % 4294967296) ≠ 0 then
        emitIndex e tag (evalStartGlobal + (bi : Int))
      else e) e

/-- The loop that resets every plugin except the winner (positions counted from `pi`). -/
def resetOthers : List PluginEntry → Nat → Nat → List PluginEntry
  | [], _, _ => []
  | e :: es, pi, successful =>
    (if pi ≠ successful then { e with plugin := e.plugin.reset } else e) ::
      resetOthers es (pi + 1) successful

/-- The loop that looks for a plugin in `TRYING`. -/
def anyTrying (plugins : List PluginEntry) : Bool :=
  plugins.any (fun e => decide (e.plugin.state = .TRYING))

/-- The loop that flushes the whole evaluation buffer as `PLAIN_TEXT`. -/
def emitPlain (e : Emitter) (evalStartGlobal : Int) (size : Nat) : Emitter :=
  (List.range size).foldl
    (fun e (bi : Nat) => emitIndex e MD_PLAIN_TEXT (evalStartGlobal + (bi : Int))) e

/-- The evaluation mode of the lambda `processOne` (from `// Evaluation mode` on). -/
def processEvaluation (s : MarkdownSession) (e : Emitter) (c : Nat) (atStartOfLine : Bool)
    (globalIndex : Int) : MarkdownSession × Emitter :=
  let evalStartGlobal := if s.evalStartGlobal_ < 0 then globalIndex else s.evalStartGlobal_
  let evaluationBuffer := s.evaluationBuffer_ ++ [c]
  let r := evalAll c atStartOfLine s.plugins_ 0 0
  let evaluationEmitMask := s.evaluationEmitMask_ ++ [r.2]
  match findSuccessful r.1 0 with
  | some successful =>
    let activeTag := (r.1[successful]?.map (fun x => x.tag)).getD MD_PLAIN_TEXT
    let e1 := flushRun e
    let e2 := emitBuffered e1 activeTag evalStartGlobal evaluationEmitMask successful
      evaluationBuffer.length
    ({ s with activeIndex_ := successful, activePlugin_ := some successful,
              activeTag_ := activeTag, evaluationBuffer_ := [], evaluationEmitMask_ := [],
              evalStartGlobal_ := -1,
              plugins_ := resetOthers r.1 0 successful }, e2)
  | none =>
    if anyTrying r.1 = false then
      ({ s with evaluationBuffer_ := [], evaluationEmitMask_ := [], evalStartGlobal_ := -1,
                plugins_ := resetAll r.1 },
        emitPlain e evalStartGlobal evaluationBuffer.length)
    else
      ({ s with evalStartGlobal_ := evalStartGlobal, evaluationBuffer_ := evaluationBuffer,
                evaluationEmitMask_ := evaluationEmitMask, plugins_ := r.1 }, e)

/-- The lambda `processOne` of `MarkdownSession::push`. -/
def processOne (s : MarkdownSession) (e : Emitter) (c : Nat) (atStartOfLine : Bool)
    (forcedGlobalIndex : Int) : MarkdownSession × Emitter :=
  let globalIndex := if 0 ≤ forcedGlobalIndex then forcedGlobalIndex else s.globalOffset_
  let s1 := { s with globalOffset_ :=
    if forcedGlobalIndex < 0 then s.globalOffset_ + 1 else s.globalOffset_ }
  if s1.waitforActive_ then processWaitfor s1 e c globalIndex
  else if s1.activePlugin_.isSome then processActive s1 e c atStartOfLine globalIndex
  else processEvaluation s1 e c atStartOfLine globalIndex

/-- The loop `while (i < len || !pendingChars_.empty())` of `push`, on the code units of
the chunk not yet read and the local variable `atStartOfLine`. The first argument bounds
the number of iterations (`pushFuel` is always enough, see `pushLoop_fuel`). -/
def pushLoop : Nat → MarkdownSession → Emitter → Bool → List Nat →
    MarkdownSession × Emitter × Bool
  | 0, s, e, atStartOfLine, _ => (s, e, atStartOfLine)
  | fuel + 1, s, e, atStartOfLine, chars =>
    match s.pendingChars_ with
    | pc :: rest =>
      let r := processOne { s with pendingChars_ := rest } e pc.c atStartOfLine pc.globalIndex
      pushLoop fuel r.1 r.2 (decide (pc.c = ch_nl)) chars
    | [] =>
      match chars with
      | [] => (s, e, atStartOfLine)
      | c :: cs =>
        let r := processOne s e c atStartOfLine (-1)
        pushLoop fuel r.1 r.2 (decide (c = ch_nl)) cs

/-- A number of iterations that the loop of `push` never exceeds. -/
def pushFuel (s : MarkdownSession) (chars : List Nat) : Nat :=
  3 * chars.length + 2 * s.pendingChars_.length + 2

/-- The method `MarkdownSession::push` on a chunk (`len` is the length of the list):
the session afterwards and the returned segments. -/
def MarkdownSession.push (s : MarkdownSession) (chars : List Nat) :
    MarkdownSession × List Segment :=
  let r := pushLoop (pushFuel s chars) s Emitter.new s.atStartOfLine_ chars
  ({ r.1 with atStartOfLine_ := r.2.2 }, (flushRun r.2.1).out)

/-- The function `createMarkdownBlockSession`. -/
def createMarkdownBlockSession : MarkdownSession :=
  MarkdownSession.new
    [ ⟨.plan (StreamPlanExecutionPlugin.new true), MD_PLAN_EXECUTION⟩,
      ⟨.header (StreamMarkdownHeaderPlugin.new true), MD_HEADER⟩,
      ⟨.fencedCode (StreamMarkdownFencedCodeBlockPlugin.new true), MD_CODE_BLOCK⟩,
      ⟨.blockQuote (StreamMarkdownBlockQuotePlugin.new false), MD_BLOCK_QUOTE⟩,
      ⟨.orderedList (StreamMarkdownOrderedListPlugin.new true), MD_ORDERED_LIST⟩,
      ⟨.unorderedList (StreamMarkdownUnorderedListPlugin.new false), MD_UNORDERED_LIST⟩,
      ⟨.horizontalRule (StreamMarkdownHorizontalRulePlugin.new true), MD_HORIZONTAL_RULE⟩,
      ⟨.blockLaTeX (StreamMarkdownBlockLaTeXPlugin.new false), MD_BLOCK_LATEX⟩,
      ⟨.blockBracketLaTeX (StreamMarkdownBlockBracketLaTeXPlugin.new true), MD_BLOCK_LATEX⟩,
      ⟨.table (StreamMarkdownTablePlugin.new true), MD_TABLE⟩,
      ⟨.image (StreamMarkdownImagePlugin.new true), MD_IMAGE⟩,
      ⟨.xml (StreamXmlPlugin.new true), MD_XML_BLOCK⟩ ]

/-- The function `createMarkdownInlineSession`. -/
def createMarkdownInlineSession : MarkdownSession :=
  MarkdownSession.new
    [ ⟨.bold (StreamMarkdownBoldPlugin.new false), MD_BOLD⟩,
      ⟨.italic (StreamMarkdownItalicPlugin.new false), MD_ITALIC⟩,
      ⟨.inlineCode (StreamMarkdownInlineCodePlugin.new false), MD_INLINE_CODE⟩,
      ⟨.link StreamMarkdownLinkPlugin.new, MD_LINK⟩,
      ⟨.strikethrough (StreamMarkdownStrikethroughPlugin.new false), MD_STRIKETHROUGH⟩,
      ⟨.underline (StreamMarkdownUnderlinePlugin.new true), MD_UNDERLINE⟩,
      ⟨.inlineLaTeX (StreamMarkdownInlineLaTeXPlugin.new false), MD_INLINE_LATEX⟩,
      ⟨.inlineParenLaTeX (StreamMarkdownInlineParenLaTeXPlugin.new true), MD_INLINE_LATEX⟩ ]

/-- The function `markdownSessionPush`. A null `session` or `chars` pointer is `none`; a
non-null `chars` points to a buffer of which `push` reads the first `len` code units (the
program requires the buffer to hold that many). The session object afterwards is returned
next to the segments. -/
def markdownSessionPush (session : Option MarkdownSession) (chars : Option (List Nat))
    (len : Int) : Option MarkdownSession × List Segment :=
  match session, chars with
  | some s, some cs =>
    if len ≤ 0 then (some s, [])
    else
      let r := s.push (cs.take len.toNat)
      (some r.1, r.2)
  | _, _ => (session, [])

/-- Push the chunks in order; the session afterwards and the concatenation of the
segment sequences the pushes returned. -/
def pushAll (s : MarkdownSession) : List (List Nat) → MarkdownSession × List Segment
  | [] => (s, [])
  | chunk :: chunks =>
    let r := s.push chunk
    let rest := pushAll r.1 chunks
    (rest.1, r.2 ++ rest.2)

/-! ## `StreamOperators.cpp`: `splitByXml` -/

/-- The local variables of `splitByXml`. `activePlugin` can only point to `xmlPlugin`, so
it is the flag `activePlugin != nullptr`. -/
structure XmlSplit where
  segments : List Segment
  xmlPlugin : StreamXmlPlugin
  activePlugin : Bool
  activeStart : Int
  defaultStart : Int
  evalStart : Int
  atStartOfLine : Bool
  deriving DecidableEq, Repr

namespace XmlSplit

/-- The lambda `flushDefaultIfNeeded`. -/
def flushDefaultIfNeeded (x : XmlSplit) (endExclusive : Int) : XmlSplit :=
  let x1 :=
    if x.defaultStart < endExclusive then
      { x with segments := x.segments ++ [⟨0, x.defaultStart, endExclusive⟩] }
    else x
  { x1 with defaultStart := endExclusive }

/-- The lambda `openActive`. -/
def openActive (x : XmlSplit) (start : Int) : XmlSplit :=
  { x with activePlugin := true, activeStart := start }

/-- The lambda `closeActive`. -/
def closeActive (x : XmlSplit) (endExclusive : Int) : XmlSplit :=
  let x1 :=
    if x.activePlugin = true ∧ 0 ≤ x.activeStart ∧ x.activeStart < endExclusive then
      { x with segments := x.segments ++ [⟨1, x.activeStart, endExclusive⟩] }
    else x
  { x1 with activePlugin := false, activeStart := -1 }

/-- The body of the `for` loop of `splitByXml` at index `i` with `c = chars[i]`. -/
def step (x : XmlSplit) (i : Int) (c : Nat) : XmlSplit :=
  let isAtStartForCurrent := x.atStartOfLine
  let x := { x with atStartOfLine := decide (c = ch_nl) }
  if x.activePlugin then
    let x1 := { x with xmlPlugin := (x.xmlPlugin.processChar c isAtStartForCurrent).1 }
    if x1.xmlPlugin.state_ ≠ .PROCESSING then
      { x1.closeActive (i + 1) with defaultStart := i + 1 }
    else x1
  else
    let x1 := if x.evalStart = -1 then { x with evalStart := i } else x
    let x2 := { x1 with xmlPlugin := (x1.xmlPlugin.processChar c isAtStartForCurrent).1 }
    if x2.xmlPlugin.state_ = .PROCESSING then
      let x3 := x2.flushDefaultIfNeeded x2.evalStart
      { x3.openActive x3.evalStart with evalStart := -1 }
    else if x2.xmlPlugin.state_ ≠ .TRYING then { x2 with evalStart := -1 }
    else x2

/-- The `for` loop of `splitByXml` from index `i` on the code units not yet read. -/
def loop (x : XmlSplit) (i : Int) : List Nat → XmlSplit
  | [] => x
  | c :: cs => loop (x.step i c) (i + 1) cs

end XmlSplit

/-- The function `splitByXml` (`len` is the length of the list). -/
def splitByXml (chars : List Nat) : List Segment :=
  let len : Int := chars.length
  let x0 : XmlSplit :=
    { segments := [], xmlPlugin := (StreamXmlPlugin.new true).reset, activePlugin := false,
      activeStart := -1, defaultStart := 0, evalStart := -1, atStartOfLine := true }
  let x1 := XmlSplit.loop x0 0 chars
  let x2 := if x1.activePlugin then { x1.closeActive len with defaultStart := len } else x1
  (x2.flushDefaultIfNeeded len).segments

/-! ## Borders of the pattern and the invariant of the KMP matcher -/

/-- `l` is the length of a border of the prefix of length `q` of `P`: the prefix of
length `l` is a suffix of the prefix of length `q`. -/
def Bd (P : List Nat) (q l : Nat) : Prop := l ≤ q ∧ P.take l <:+ P.take q

/-- The failure table `pi` is right up to prefix length `n`: for `1 ≤ q ≤ n`, entry
`q - 1` is the length of the longest proper border of the prefix of length `q`. -/
def PiValid (P pi : List Nat) (n : Nat) : Prop :=
  ∀ q, 1 ≤ q → q ≤ n →
    pi.getD (q - 1) 0 < q ∧ Bd P q (pi.getD (q - 1) 0) ∧
      ∀ l, l < q → Bd P q l → l ≤ pi.getD (q - 1) 0

/-- The matcher invariant after the code units `T` have been fed: the table is right, and
`j_` is the length of the longest prefix of the pattern, other than the whole pattern,
that is a suffix of `T`. -/
def KmpInv (m : KmpMatcher) (T : List Nat) : Prop :=
  m.pattern_ ≠ [] ∧ m.pi_.length = m.pattern_.length ∧
  PiValid m.pattern_ m.pi_ m.pattern_.length ∧
  m.j_ < m.pattern_.length ∧ m.pattern_.take m.j_ <:+ T ∧
  ∀ l, l < m.pattern_.length → m.pattern_.take l <:+ T → l ≤ m.j_

/-! ## Vocabulary of the properties -/

/-- What a segment sequence says once run coalescing is undone: code unit `index` is
tagged `tag`, or there is a group boundary at `pos`. -/
inductive Ev where
  | idx (tag index : Int)
  | brk (pos : Int)
  deriving DecidableEq, Repr

/-- The events of one segment: a `SEG_BREAK` is a boundary at its position, any other
segment tags each index of `[start, end)` in ascending order. -/
def Segment.events (s : Segment) : List Ev :=
  if s.type = SEG_BREAK then [Ev.brk s.start]
  else (List.range (s.end_ - s.start).toNat).map (fun (k : Nat) => Ev.idx s.type (s.start + (k : Int)))

/-- The events of a segment sequence, in order. -/
def segEvents : List Segment → List Ev
  | [] => []
  | s :: rest => s.events ++ segEvents rest

/-- The pair `(tag, index)` of a tagging event. -/
def Ev.tagged : Ev → Option (Int × Int)
  | Ev.idx tag index => some (tag, index)
  | Ev.brk _ => none

/-- The `(tag, index)` pairs that the non-break segments of a sequence assign, in order. -/
def taggedIndices (l : List Segment) : List (Int × Int) := (segEvents l).filterMap Ev.tagged

/-- The non-break segments of a sequence, in order. -/
def nonBreak (l : List Segment) : List Segment := l.filter (fun s => decide (s.type ≠ SEG_BREAK))

/-- The open run of an emitter as a segment (none when `runStart < 0`). -/
def Emitter.runSeg (e : Emitter) : List Segment :=
  if 0 ≤ e.runStart then [⟨e.runTag, e.runStart, e.runEnd⟩] else []

/-- The segments an emitter stands for: those already in `out`, then the open run. -/
def Emitter.segs (e : Emitter) : List Segment := e.out ++ e.runSeg

/-- The open run, if any, is a non-empty range with a tag other than `SEG_BREAK`. -/
def Emitter.RunOK (e : Emitter) : Prop :=
  0 ≤ e.runStart → e.runStart < e.runEnd ∧ e.runTag ≠ SEG_BREAK

/-- An operation on the emitter that only appends events: whatever the emitter it is
applied to, the events afterwards are the events before followed by the events the
operation yields on the empty emitter. -/
def Traces (F : Emitter → Emitter) : Prop :=
  ∀ e, e.RunOK →
    (F e).RunOK ∧ segEvents (F e).segs = segEvents e.segs ++ segEvents (F Emitter.new).segs

/-- The state of a session is fit for `processOne`: no tag of the roster is `SEG_BREAK`,
nor is the active tag, and every index in use is non-negative. -/
structure CallOK (s : MarkdownSession) : Prop where
  tags : ∀ t ∈ s.plugins_.map (fun x => x.tag), t ≠ SEG_BREAK
  activeTag : s.activeTag_ ≠ SEG_BREAK
  offset : 0 ≤ s.globalOffset_
  waitfor : ∀ pd ∈ s.waitforPending_, 0 ≤ pd.globalIndex
  pending : ∀ pc ∈ s.pendingChars_, 0 ≤ pc.globalIndex

/-- The termination measure of the loop of `push`: every iteration lowers it. -/
def loopMeasure (s : MarkdownSession) (chars : List Nat) : Nat :=
  3 * chars.length + 2 * s.pendingChars_.length + (if s.waitforActive_ then 1 else 0)

/-- Segment well-formedness and order, above the watermark `lo` and below the bound `hi`:
every non-break segment `[start, end)` has `lo ≤ start < end ≤ hi` where `lo` is the end
of the previous non-break segment, and every `SEG_BREAK` has `start = end`. -/
def segsOrdered (lo hi : Int) : List Segment → Prop
  | [] => True
  | s :: rest =>
    if s.type = SEG_BREAK then s.start = s.end_ ∧ segsOrdered lo hi rest
    else (lo ≤ s.start ∧ s.start < s.end_ ∧ s.end_ ≤ hi) ∧ segsOrdered s.end_ hi rest

/-- The end of the last non-break segment of a sequence (`lo` when there is none). -/
def lastEnd (lo : Int) : List Segment → Int
  | [] => lo
  | s :: rest => if s.type = SEG_BREAK then lastEnd lo rest else lastEnd s.end_ rest

/-- The segments returned by a sequence of pushes are well-formed and ordered: `lo` is the
end of the last non-break segment returned so far and `pushed` the number of code units
pushed so far. -/
def pushesOrdered (s : MarkdownSession) (lo pushed : Int) : List (List Nat) → Prop
  | [] => True
  | chunk :: rest =>
    segsOrdered lo (pushed + chunk.length) (s.push chunk).2 ∧
      pushesOrdered (s.push chunk).1 (lastEnd lo (s.push chunk).2) (pushed + chunk.length) rest

/-- The invariant form of `segsOrdered`: the same conditions, with the end of the last
non-break segment (or `lo`) at most `hi`. -/
def SegsOK (lo hi : Int) : List Segment → Prop
  | [] => lo ≤ hi
  | s :: rest =>
    if s.type = SEG_BREAK then s.start = s.end_ ∧ SegsOK lo hi rest
    else (lo ≤ s.start ∧ s.start < s.end_) ∧ SegsOK s.end_ hi rest

/-- The emitter invariant: the run variables are sound and the segments the emitter
stands for are ordered above `lo` and end at or below `hi`. -/
def EmInv (lo : Int) (e : Emitter) (hi : Int) : Prop := e.RunOK ∧ SegsOK lo hi e.segs

/-- The global index the next call of `processOne` works on: that of the re-queued code
unit if there is one, the global offset otherwise. -/
def nextIndex (s : MarkdownSession) : Int :=
  match s.pendingChars_ with
  | [] => s.globalOffset_
  | pc :: _ => pc.globalIndex

/-- The low-water mark of a session: the first global index whose emission is still
open (the next index, less the code units held in the WAITFOR list or the evaluation
buffer). -/
def lowMark (s : MarkdownSession) : Int :=
  nextIndex s - s.waitforPending_.length - s.evaluationBuffer_.length

/-- Consistency of the bookkeeping of a session whose next global index is `G`. -/
structure Core (s : MarkdownSession) (G : Int) : Prop where
  tags : ∀ t ∈ s.plugins_.map (fun x => x.tag), t ≠ SEG_BREAK
  activeTag : s.activeTag_ ≠ SEG_BREAK
  waitfor_on : s.waitforActive_ = true →
    (∃ b, s.waitforPending_ = [⟨G - 1, b⟩]) ∧ s.evaluationBuffer_ = []
  waitfor_off : s.waitforActive_ = false → s.waitforPending_ = []
  buffer_on : s.evaluationBuffer_ ≠ [] →
    s.evalStartGlobal_ = G - s.evaluationBuffer_.length ∧ s.waitforActive_ = false ∧
      s.activePlugin_ = none
  buffer_off : s.evaluationBuffer_ = [] → s.evalStartGlobal_ < 0
  low : 0 ≤ G - s.waitforPending_.length - s.evaluationBuffer_.length

/-- The session invariant: the bookkeeping is consistent, and the pending-char queue is
empty or holds the one code unit a WAITFOR rejection has just re-queued. -/
structure SessInv (s : MarkdownSession) : Prop where
  core : Core s (nextIndex s)
  next : s.pendingChars_ = [] ∨
    ∃ c, s.pendingChars_ = [⟨c, s.globalOffset_ - 1⟩] ∧ s.waitforActive_ = false ∧
      s.activePlugin_ = none ∧ s.evaluationBuffer_ = []

/-- The input of the scenario "Fenced code crossing chunks": three backticks, `py`, a
newline, `print(1)`, a newline, three backticks, a newline (19 code units). -/
def fencedInput : List Nat := u16 "```py\nprint(1)\n```\n"

/-- Every two neighbours of a segment sequence are related by `R`. -/
def adjacentAll (R : Segment → Segment → Prop) : List Segment → Prop
  | a :: b :: rest => R a b ∧ adjacentAll R (b :: rest)
  | _ => True

/-- Decision procedure for `adjacentAll`. -/
def adjacentAll.dec (R : Segment → Segment → Prop) [DecidableRel R] :
    (l : List Segment) → Decidable (adjacentAll R l)
  | [] => isTrue trivial
  | [_] => isTrue trivial
  | a :: b :: rest =>
    have := adjacentAll.dec R (b :: rest)
    inferInstanceAs (Decidable (R a b ∧ adjacentAll R (b :: rest)))

instance (R : Segment → Segment → Prop) [DecidableRel R] (l : List Segment) :
    Decidable (adjacentAll R l) := adjacentAll.dec R l

/-- Two segments are non-break segments of the same tag. -/
def SameTag (a b : Segment) : Prop := a.type ≠ SEG_BREAK ∧ a.type = b.type

instance : DecidableRel SameTag := fun _ _ => inferInstanceAs (Decidable (_ ∧ _))

/-- Group boundaries are explicit: no two neighbouring segments are non-break segments of
the same tag (two non-break segments of the same tag have a `SEG_BREAK` between them). -/
def boundariesExplicit (l : List Segment) : Prop := adjacentAll (fun a b => ¬ SameTag a b) l

instance (l : List Segment) : Decidable (boundariesExplicit l) :=
  @adjacentAll.dec (fun a b => ¬ SameTag a b) (fun _ _ => inferInstanceAs (Decidable (¬ _))) l

/-- Two neighbours that are non-break segments of the same tag are separated by a gap:
the first ends before the second starts. -/
def Gap (a b : Segment) : Prop := SameTag a b → a.end_ < b.start

instance : DecidableRel Gap := fun _ _ => inferInstanceAs (Decidable (_ → _))

/-- No two neighbouring non-break segments of the same tag abut. -/
def noAbut (l : List Segment) : Prop := adjacentAll Gap l

instance (l : List Segment) : Decidable (noAbut l) := adjacentAll.dec Gap l

/-- The condition under which `emitIndex e t i` may open a run on an emitter without an
open run: the last segment in `out` is a break, or has another tag, or ends before `i`. -/
def ClosedOK (e : Emitter) (t i : Int) : Prop :=
  e.runStart < 0 → ∀ x ∈ e.out.getLast?, x.type = SEG_BREAK ∨ x.type ≠ t ∨ x.end_ < i

/-- The tags of a session: no roster tag is `PLAIN_TEXT`, and the active tag is
`PLAIN_TEXT` exactly when no plugin is active. -/
structure TagInv (s : MarkdownSession) : Prop where
  roster : ∀ t ∈ s.plugins_.map (fun x => x.tag), t ≠ MD_PLAIN_TEXT
  idle : s.activePlugin_ = none → s.activeTag_ = MD_PLAIN_TEXT
  active : s.activePlugin_ ≠ none → s.activeTag_ ≠ MD_PLAIN_TEXT

/-- The emitter of a push in relation to the session: neighbouring segments of the same
tag do not abut, an open run has the active tag, and without an open run the last segment
is a break or a `PLAIN_TEXT` segment that ended before the low-water mark `L` when a
plugin became active. -/
structure GapInv (s : MarkdownSession) (e : Emitter) (L : Int) : Prop where
  chain : noAbut e.segs
  runTag : 0 ≤ e.runStart → e.runTag = s.activeTag_
  closed : e.runStart < 0 → ∀ x ∈ e.out.getLast?,
    x.type = SEG_BREAK ∨ (x.type = MD_PLAIN_TEXT ∧ s.activePlugin_ ≠ none ∧ x.end_ < L)

/-! ## Vocabulary of the session invariants -/

/-- The state of the plugin at roster position `i` (`none` past the end of the roster). -/
def stateAt (plugins : List PluginEntry) (i : Nat) : Option PluginState :=
  plugins[i]?.map (fun x => x.plugin.state)

/-- The tag of the plugin at roster position `i` (`none` past the end of the roster). -/
def tagAt (plugins : List PluginEntry) (i : Nat) : Option Int :=
  plugins[i]?.map (fun x => x.tag)

/-- The segments that an operation appended to the emitter `e` (those of `e2` after the
ones `e` stood for) all carry the tag `t`. -/
def EmitsOnly (t : Int) (e e2 : Emitter) : Prop :=
  ∃ added : List Segment, e2.segs = e.segs ++ added ∧ ∀ sg ∈ added, sg.type = t

/-- The include flag a plugin was constructed with (the link plugin has no such flag and
never drops a code unit). -/
def Plugin.includeFlag : Plugin → Bool
  | .plan p => p.includeTagsInOutput_
  | .header p => p.includeMarker_
  | .fencedCode p => p.includeFences_
  | .blockQuote p => p.includeMarker_
  | .orderedList p => p.includeMarker_
  | .unorderedList p => p.includeMarker_
  | .horizontalRule p => p.includeMarker_
  | .blockLaTeX p => p.includeDelimiters_
  | .blockBracketLaTeX p => p.includeDelimiters_
  | .table p => p.includeDelimiters_
  | .image p => p.includeDelimiters_
  | .xml p => p.includeTagsInOutput_
  | .bold p => p.includeAsterisks_
  | .italic p => p.includeAsterisks_
  | .inlineCode p => p.includeTicks_
  | .link _ => true
  | .strikethrough p => p.includeDelimiters_
  | .underline p => p.includeDelimiters_
  | .inlineLaTeX p => p.includeDelimiters_
  | .inlineParenLaTeX p => p.includeDelimiters_

/-- The unique-active-plugin property of a roster and an active position: an active
plugin is `PROCESSING` or `WAITFOR` and every other plugin is `IDLE`; without an active
plugin no plugin is `PROCESSING` or `WAITFOR`. -/
structure UniqueActiveOf (plugins : List PluginEntry) (act : Option Nat) : Prop where
  set : ∀ i, act = some i →
    (stateAt plugins i = some .PROCESSING ∨ stateAt plugins i = some .WAITFOR) ∧
    ∀ j q, j ≠ i → stateAt plugins j = some q → q = .IDLE
  unset : act = none →
    ∀ j, stateAt plugins j ≠ some .PROCESSING ∧ stateAt plugins j ≠ some .WAITFOR

/-- The unique-active-plugin property of a session state. -/
def UniqueActive (s : MarkdownSession) : Prop := UniqueActiveOf s.plugins_ s.activePlugin_

/-- The state of the session after `k` iterations of the loop of `push` on the chunk
`chars` (after the last iteration once `k` is large enough); `k = 0` is the state the
push starts from. -/
def stateAfter (s : MarkdownSession) (chars : List Nat) (k : Nat) : MarkdownSession :=
  (pushLoop k s Emitter.new s.atStartOfLine_ chars).1

/-- The bound on the WAITFOR pending list: at most one entry, and exactly one precisely
while `waitforActive_` is set. -/
def WaitforOK (s : MarkdownSession) : Prop :=
  s.waitforPending_.length ≤ 1 ∧ (s.waitforPending_.length = 1 ↔ s.waitforActive_ = true)

/-- The plugin after a history of calls made on it: `none` is a call of `reset`,
`some (c, sol)` a call of `processChar(c, sol)`. -/
def Plugin.run (q : Plugin) : List (Option (Nat × Bool)) → Plugin
  | [] => q
  | none :: ops => Plugin.run q.reset ops
  | some (c, sol) :: ops => Plugin.run (q.processChar c sol).1 ops

/-- Feed code units, each with its `atStartOfLine` flag, to the XML plugin one at a time. -/
def StreamXmlPlugin.feed (p : StreamXmlPlugin) : List (Nat × Bool) → StreamXmlPlugin
  | [] => p
  | (c, sol) :: rest => StreamXmlPlugin.feed (p.processChar c sol).1 rest

/-- The closing tag of the tag name `t`: the code units of `</`, then `t`, then `>`. -/
def xmlCloser (t : List Nat) : List Nat := [ch_lt, ch_slash] ++ t ++ [ch_gt]

/-- The XML plugin is inside a region opened on the tag name `t` and has been fed the code
units `T` since the opening `>`. -/
def XmlOpen (p : StreamXmlPlugin) (t T : List Nat) : Prop :=
  p.state_ = .PROCESSING ∧ p.haveEndPattern_ = true ∧ p.endMatcher_.pattern_ = xmlCloser t ∧
    KmpInv p.endMatcher_ T

/-- The XML plugin after a history of calls made on it: `none` is a call of `reset`,
`some (c, sol)` a call of `processChar(c, sol)`. -/
def StreamXmlPlugin.run (p : StreamXmlPlugin) : List (Option (Nat × Bool)) → StreamXmlPlugin
  | [] => p
  | none :: ops => StreamXmlPlugin.run p.reset ops
  | some (c, sol) :: ops => StreamXmlPlugin.run (p.processChar c sol).1 ops

/-- A code unit is a space or a tab. -/
def isBlank (c : Nat) : Prop := c = ch_space ∨ c = ch_tab

instance (c : Nat) : Decidable (isBlank c) := inferInstanceAs (Decidable (_ ∨ _))

/-- The last code unit of a history of `processChar` calls that is neither a space nor a
tab (`none` if there is none). -/
def lastNonBlank (hist : List (Nat × Bool)) : Option Nat :=
  (hist.map Prod.fst).reverse.find? (fun c => decide (¬ isBlank c))

/-- Allowance (a) in the words of the specification: the last code unit the plugin
processed, other than spaces and tabs, was a punctuation trigger. -/
def afterPunctuation (hist : List (Nat × Bool)) : Bool :=
  (lastNonBlank hist).any StreamXmlPlugin.isPunctuationTrigger

/-- The bold plugin of an inline session is the active plugin, inside a bold group with no
closing asterisk pending: it is first in the roster, `PROCESSING` with `endMatch_ = 0`,
the active tag is `MD_BOLD`, and neither a WAITFOR nor a re-queued code unit is pending. -/
def BoldActive (s : MarkdownSession) : Prop :=
  s.activePlugin_ = some 0 ∧
  s.plugins_.head? = some ⟨.bold ⟨false, .PROCESSING, 0, 0⟩, MD_BOLD⟩ ∧
  s.activeTag_ = MD_BOLD ∧ s.waitforActive_ = false ∧ s.pendingChars_ = []

instance (s : MarkdownSession) : Decidable (BoldActive s) :=
  inferInstanceAs (Decidable (_ ∧ _ ∧ _ ∧ _ ∧ _))

/-- Record the global index `i` in front of the trace of the rest of the loop. -/
def traceCons (i : Int) (r : (MarkdownSession × Emitter × Bool) × List Int) :
    (MarkdownSession × Emitter × Bool) × List Int :=
  (r.1, i :: r.2)

/-- The local `globalIndex` of the lambda `processOne`: the forced index if there is one,
the global offset otherwise. -/
def handedIndex (s : MarkdownSession) (forcedGlobalIndex : Int) : Int :=
  if 0 ≤ forcedGlobalIndex then forcedGlobalIndex else s.globalOffset_

/-- The loop of `push` instrumented: next to what `pushLoop` returns, the global indices
of the code units handed to `processOne`, one entry per iteration, in order. -/
def pushLoopTraced : Nat → MarkdownSession → Emitter → Bool → List Nat →
    (MarkdownSession × Emitter × Bool) × List Int
  | 0, s, e, atStartOfLine, _ => ((s, e, atStartOfLine), [])
  | fuel + 1, s, e, atStartOfLine, chars =>
    match s.pendingChars_ with
    | pc :: rest =>
      let r := processOne { s with pendingChars_ := rest } e pc.c atStartOfLine pc.globalIndex
      traceCons (handedIndex s pc.globalIndex)
        (pushLoopTraced fuel r.1 r.2 (decide (pc.c = ch_nl)) chars)
    | [] =>
      match chars with
      | [] => ((s, e, atStartOfLine), [])
      | c :: cs =>
        let r := processOne s e c atStartOfLine (-1)
        traceCons (handedIndex s (-1)) (pushLoopTraced fuel r.1 r.2 (decide (c = ch_nl)) cs)

/-- The global indices handed to `processOne` by `push` on the chunk `chars`. -/
def pushTrace (s : MarkdownSession) (chars : List Nat) : List Int :=
  (pushLoopTraced (pushFuel s chars) s Emitter.new s.atStartOfLine_ chars).2

/-- The loop `while (k > 0 && c != pattern_[k])` has ended at `k`: its condition is
false. -/
def fallbackDone (pattern : List Nat) (c k : Nat) : Prop := ¬ (0 < k ∧ c ≠ pattern.getD k 0)

/-- Every inner `while` loop of `setPattern` ends within the number of iterations that
`setPatternLoop` grants it (the same traversal as `setPatternLoop`). -/
def setPatternLoopEnds (pattern : List Nat) : Nat → Nat → List Nat → Prop
  | 0, _, _ => True
  | n + 1, i, pi =>
    fallbackDone pattern (pattern.getD i 0)
        (kmpFallback pattern pi (pattern.getD i 0) (pi.getD (i - 1) 0) (pi.getD (i - 1) 0)) ∧
      setPatternLoopEnds pattern n (i + 1)
        (pi.set i
          (if pattern.getD i 0 = pattern.getD (kmpFallback pattern pi (pattern.getD i 0)
              (pi.getD (i - 1) 0) (pi.getD (i - 1) 0)) 0
            then kmpFallback pattern pi (pattern.getD i 0) (pi.getD (i - 1) 0)
              (pi.getD (i - 1) 0) + 1
            else kmpFallback pattern pi (pattern.getD i 0) (pi.getD (i - 1) 0)
              (pi.getD (i - 1) 0)))

/-- Every inner loop of `setPattern(p)` ends within its bound. -/
def setPatternEnds (p : List Nat) : Prop :=
  setPatternLoopEnds p (p.length - 1) 1 (List.replicate p.length 0)

/-- The `while` loop of `process(c)` ends within the number of iterations that
`KmpMatcher.process` grants it. -/
def KmpMatcher.processEnds (m : KmpMatcher) (c : Nat) : Prop :=
  m.pattern_ = [] ∨ fallbackDone m.pattern_ c (kmpFallback m.pattern_ m.pi_ c m.j_ m.j_)

/-- The matcher of a plugin, when `processChar` can call `process` on it, is in a state
that `setPattern` and `process` produce. -/
def Plugin.MatcherOK : Plugin → Prop
  | .plan p => p.endInited_ = true → ∃ T, KmpInv p.endMatcher_ T
  | .xml p => p.haveEndPattern_ = true → ∃ T, KmpInv p.endMatcher_ T
  | _ => True

/-- Whenever `processChar(c, _)` of the plugin can call `process(c)` on its matcher, the
loop of that call ends within its bound. -/
def Plugin.LoopEnds : Plugin → Nat → Prop
  | .plan p, c => p.endInited_ = true → p.endMatcher_.processEnds c
  | .xml p, c => p.haveEndPattern_ = true → p.endMatcher_.processEnds c
  | _, _ => True

/-- Every plugin of a roster satisfies `Plugin.MatcherOK`. -/
def MatchersOK (plugins : List PluginEntry) : Prop :=
  ∀ (j : Nat) (x : PluginEntry), plugins[j]? = some x → x.plugin.MatcherOK

/-! ## Vocabulary of the plugin claims -/

/-- The kinds of plugin, under the names the specification gives them. -/
inductive PluginKind where
  | planExecution | header | fencedCode | blockQuote | orderedList | unorderedList
  | horizontalRule | blockLatexDollar | blockLatexBracket | table | image | xml
  | bold | italic | inlineCode | link | strikethrough | underline
  | inlineLatexDollar | inlineLatexParen
  deriving DecidableEq, Repr

/-- The kind of a plugin: which concrete class the roster entry points to. -/
def Plugin.kind : Plugin → PluginKind
  | .plan _ => .planExecution
  | .header _ => .header
  | .fencedCode _ => .fencedCode
  | .blockQuote _ => .blockQuote
  | .orderedList _ => .orderedList
  | .unorderedList _ => .unorderedList
  | .horizontalRule _ => .horizontalRule
  | .blockLaTeX _ => .blockLatexDollar
  | .blockBracketLaTeX _ => .blockLatexBracket
  | .table _ => .table
  | .image _ => .image
  | .xml _ => .xml
  | .bold _ => .bold
  | .italic _ => .italic
  | .inlineCode _ => .inlineCode
  | .link _ => .link
  | .strikethrough _ => .strikethrough
  | .underline _ => .underline
  | .inlineLaTeX _ => .inlineLatexDollar
  | .inlineParenLaTeX _ => .inlineLatexParen

/-- A line as it is fed to a plugin: the first code unit with `atStartOfLine = true`, the
others with `atStartOfLine = false`. -/
def asLine : List Nat → List (Nat × Bool)
  | [] => []
  | c :: cs => (c, true) :: cs.map (fun x => (x, false))

/-- Feeding a header plugin a list of (code unit, `atStartOfLine`) pairs, one `processChar`
call each. -/
def StreamMarkdownHeaderPlugin.feed (p : StreamMarkdownHeaderPlugin) :
    List (Nat × Bool) → StreamMarkdownHeaderPlugin
  | [] => p
  | x :: xs => StreamMarkdownHeaderPlugin.feed (p.processChar x.1 x.2).1 xs

/-- Feeding a fenced-code plugin a list of (code unit, `atStartOfLine`) pairs, one
`processChar` call each. -/
def StreamMarkdownFencedCodeBlockPlugin.feed (p : StreamMarkdownFencedCodeBlockPlugin) :
    List (Nat × Bool) → StreamMarkdownFencedCodeBlockPlugin
  | [] => p
  | x :: xs => StreamMarkdownFencedCodeBlockPlugin.feed (p.processChar x.1 x.2).1 xs

/-- Feeding an inline-code plugin a list of (code unit, `atStartOfLine`) pairs, one
`processChar` call each. -/
def StreamMarkdownInlineCodePlugin.feed (p : StreamMarkdownInlineCodePlugin) :
    List (Nat × Bool) → StreamMarkdownInlineCodePlugin
  | [] => p
  | x :: xs => StreamMarkdownInlineCodePlugin.feed (p.processChar x.1 x.2).1 xs

/-- Feeding a bold plugin a list of (code unit, `atStartOfLine`) pairs, one `processChar`
call each. -/
def StreamMarkdownBoldPlugin.feed (p : StreamMarkdownBoldPlugin) :
    List (Nat × Bool) → StreamMarkdownBoldPlugin
  | [] => p
  | x :: xs => StreamMarkdownBoldPlugin.feed (p.processChar x.1 x.2).1 xs

/-- The keep/drop answers of a bold plugin on a list of (code unit, `atStartOfLine`) pairs,
in order. -/
def StreamMarkdownBoldPlugin.keeps (p : StreamMarkdownBoldPlugin) : List (Nat × Bool) → List Bool
  | [] => []
  | x :: xs => (p.processChar x.1 x.2).2 :: StreamMarkdownBoldPlugin.keeps (p.processChar x.1 x.2).1 xs

/-- Feeding a link plugin a list of (code unit, `atStartOfLine`) pairs, one `processChar`
call each. -/
def StreamMarkdownLinkPlugin.feed (p : StreamMarkdownLinkPlugin) :
    List (Nat × Bool) → StreamMarkdownLinkPlugin
  | [] => p
  | x :: xs => StreamMarkdownLinkPlugin.feed (p.processChar x.1 x.2).1 xs

/-- Feeding a horizontal-rule plugin a list of (code unit, `atStartOfLine`) pairs, one
`processChar` call each. -/
def StreamMarkdownHorizontalRulePlugin.feed (p : StreamMarkdownHorizontalRulePlugin) :
    List (Nat × Bool) → StreamMarkdownHorizontalRulePlugin
  | [] => p
  | x :: xs => StreamMarkdownHorizontalRulePlugin.feed (p.processChar x.1 x.2).1 xs

/-- The number of copies of the marker `m` in a run of code units. -/
def markerCount (m : Nat) (run : List (Nat × Bool)) : Nat :=
  run.countP (fun x => decide (x.1 = m))

/-! ## The calls of `processOne` that a push makes -/

/-- One call of `processOne` as the loop of `push` makes it: the code unit, the global index
it is processed with, and the start-of-line flag the plugins are given with it. -/
structure Handed where
  c : Nat
  globalIndex : Int
  atStartOfLine : Bool
  deriving DecidableEq, Repr

/-- The start-of-line flag that reaches the plugins in a call of `processOne`: the saved
`waitforAtStartOfLine_` while a WAITFOR is being resolved, the flag of the loop otherwise. -/
def presentedFlag (s : MarkdownSession) (atStartOfLine : Bool) : Bool :=
  if s.waitforActive_ then s.waitforAtStartOfLine_ else atStartOfLine

/-- The loop of `push`, instrumented: the calls of `processOne` it makes, in order. -/
def pushLoopLog : Nat → MarkdownSession → Emitter → Bool → List Nat → List Handed
  | 0, _, _, _, _ => []
  | fuel + 1, s, e, atStartOfLine, chars =>
    match s.pendingChars_ with
    | pc :: rest =>
      let r := processOne { s with pendingChars_ := rest } e pc.c atStartOfLine pc.globalIndex
      ⟨pc.c, handedIndex s pc.globalIndex, presentedFlag s atStartOfLine⟩ ::
        pushLoopLog fuel r.1 r.2 (decide (pc.c = ch_nl)) chars
    | [] =>
      match chars with
      | [] => []
      | c :: cs =>
        let r := processOne s e c atStartOfLine (-1)
        ⟨c, handedIndex s (-1), presentedFlag s atStartOfLine⟩ ::
          pushLoopLog fuel r.1 r.2 (decide (c = ch_nl)) cs

/-- The calls of `processOne` that `push` makes on the chunk `chars`. -/
def pushLog (s : MarkdownSession) (chars : List Nat) : List Handed :=
  pushLoopLog (pushFuel s chars) s Emitter.new s.atStartOfLine_ chars

/-- A segment covers the global index `i`: it is not a `SEG_BREAK` and `i` lies in its
range `[start, end)`. -/
def Segment.covers (sg : Segment) (i : Int) : Bool :=
  decide (sg.type ≠ SEG_BREAK) && decide (sg.start ≤ i) && decide (i < sg.end_)

/-! ## Vocabulary of the last claims -/

/-- Feeding a block-quote plugin a list of (code unit, `atStartOfLine`) pairs, one
`processChar` call each. -/
def StreamMarkdownBlockQuotePlugin.feed (p : StreamMarkdownBlockQuotePlugin) :
    List (Nat × Bool) → StreamMarkdownBlockQuotePlugin
  | [] => p
  | x :: xs => StreamMarkdownBlockQuotePlugin.feed (p.processChar x.1 x.2).1 xs

/-! ### The KMP matcher with every vector access checked -/

/-- The loop of `kmpFallback` with the reads `pattern_[k]` and `pi_[k - 1]` checked: `none`
as soon as a read is out of bounds. The read of `pattern_[k]` is made only when `k > 0`,
as the `&&` of the program does. -/
def kmpFallbackChecked (pattern pi : List Nat) (c : Nat) : Nat → Nat → Option Nat
  | 0, k => some k
  | fuel + 1, k =>
    if 0 < k then
      match pattern[k]? with
      | none => none
      | some x =>
        if c ≠ x then
          match pi[k - 1]? with
          | none => none
          | some k1 => kmpFallbackChecked pattern pi c fuel k1
        else some k
    else some k

/-- The loop of `setPattern` with the reads `pi_[i - 1]`, `pattern_[i]`, `pattern_[k]`,
those of the inner loop, and the write `pi_[i] = k` checked. -/
def setPatternLoopChecked (pattern : List Nat) : Nat → Nat → List Nat → Option (List Nat)
  | 0, _, pi => some pi
  | n + 1, i, pi =>
    match pi[i - 1]?, pattern[i]? with
    | some k0, some x =>
      match kmpFallbackChecked pattern pi x k0 k0 with
      | none => none
      | some k =>
        match pattern[k]? with
        | none => none
        | some y =>
          if i < pi.length then
            setPatternLoopChecked pattern n (i + 1) (pi.set i (if x = y then k + 1 else k))
          else none
    | _, _ => none

/-- The method `KmpMatcher::setPattern` with every vector access checked. -/
def KmpMatcher.setPatternChecked (_m : KmpMatcher) (p : List Nat) : Option KmpMatcher :=
  match setPatternLoopChecked p (p.length - 1) 1 (List.replicate p.length 0) with
  | none => none
  | some pi => some { pattern_ := p, pi_ := pi, j_ := 0 }

/-- The method `KmpMatcher::process` with every vector access checked; on the empty
pattern it returns before any access. -/
def KmpMatcher.processChecked (m : KmpMatcher) (c : Nat) : Option (KmpMatcher × Bool) :=
  if m.pattern_ = [] then some (m, false)
  else
    match kmpFallbackChecked m.pattern_ m.pi_ c m.j_ m.j_ with
    | none => none
    | some j0 =>
      match m.pattern_[j0]? with
      | none => none
      | some x =>
        let j := if c = x then j0 + 1 else j0
        if j = m.pattern_.length then
          match m.pi_[j - 1]? with
          | none => none
          | some v => some ({ m with j_ := v }, true)
        else some ({ m with j_ := j }, false)

/-- The matcher after a history of calls: `none` is a call of `reset`, `some c` a call of
`process(c)`. -/
def KmpMatcher.run (m : KmpMatcher) : List (Option Nat) → KmpMatcher
  | [] => m
  | none :: ops => KmpMatcher.run m.reset ops
  | some c :: ops => KmpMatcher.run (m.process c).1 ops

/-! ### Run coalescing -/

/-- A sequence of `emitIndex` and `emitBreak` calls, applied in order to an emitter:
`Ev.idx tag index` stands for `emitIndex(tag, index)`, `Ev.brk pos` for `emitBreak(pos)`. -/
def emitOps (e : Emitter) : List Ev → Emitter
  | [] => e
  | Ev.idx tag index :: ops => emitOps (emitIndex e tag index) ops
  | Ev.brk pos :: ops => emitOps (emitBreak e pos) ops

/-- The segments produced by a sequence of calls on an emitter with no open run, followed
by `flushRun`. -/
def emitted (ops : List Ev) : List Segment := (flushRun (emitOps Emitter.new ops)).out

/-- Two neighbouring non-break segments of the same tag are not contiguous: the first does
not end where the second starts. -/
def Cut (a b : Segment) : Prop := SameTag a b → a.end_ ≠ b.start

instance : DecidableRel Cut := fun _ _ => inferInstanceAs (Decidable (_ → _))

/-- The invariant of maximal runs: neighbouring segments of the same tag are not
contiguous, and when no run is open the last segment, if any, is a break. -/
def CutInv (e : Emitter) : Prop :=
  adjacentAll Cut e.segs ∧ (e.runStart < 0 → ∀ x ∈ e.out.getLast?, x.type = SEG_BREAK)

/-- A call as the program makes it: `emitIndex` with a tag other than `SEG_BREAK` and a
non-negative index; `emitBreak` with any position. -/
def Ev.isCall : Ev → Prop
  | Ev.idx tag index => tag ≠ SEG_BREAK ∧ 0 ≤ index
  | Ev.brk _ => True

instance (op : Ev) : Decidable op.isCall := by
  cases op <;> unfold Ev.isCall <;> infer_instance

/-! ### Reset against a fresh plugin -/

/-- A freshly initialised plugin of the same class and configuration: the constructor
with the include flag of the given plugin, then `initPlugin`. -/
def Plugin.fresh : Plugin → Plugin
  | .plan p => (Plugin.plan (StreamPlanExecutionPlugin.new p.includeTagsInOutput_)).initPlugin
  | .header p => (Plugin.header (StreamMarkdownHeaderPlugin.new p.includeMarker_)).initPlugin
  | .fencedCode p =>
    (Plugin.fencedCode (StreamMarkdownFencedCodeBlockPlugin.new p.includeFences_)).initPlugin
  | .blockQuote p =>
    (Plugin.blockQuote (StreamMarkdownBlockQuotePlugin.new p.includeMarker_)).initPlugin
  | .orderedList p =>
    (Plugin.orderedList (StreamMarkdownOrderedListPlugin.new p.includeMarker_)).initPlugin
  | .unorderedList p =>
    (Plugin.unorderedList (StreamMarkdownUnorderedListPlugin.new p.includeMarker_)).initPlugin
  | .horizontalRule p =>
    (Plugin.horizontalRule (StreamMarkdownHorizontalRulePlugin.new p.includeMarker_)).initPlugin
  | .blockLaTeX p =>
    (Plugin.blockLaTeX (StreamMarkdownBlockLaTeXPlugin.new p.includeDelimiters_)).initPlugin
  | .blockBracketLaTeX p =>
    (Plugin.blockBracketLaTeX
      (StreamMarkdownBlockBracketLaTeXPlugin.new p.includeDelimiters_)).initPlugin
  | .table p => (Plugin.table (StreamMarkdownTablePlugin.new p.includeDelimiters_)).initPlugin
  | .image p => (Plugin.image (StreamMarkdownImagePlugin.new p.includeDelimiters_)).initPlugin
  | .xml p => (Plugin.xml (StreamXmlPlugin.new p.includeTagsInOutput_)).initPlugin
  | .bold p => (Plugin.bold (StreamMarkdownBoldPlugin.new p.includeAsterisks_)).initPlugin
  | .italic p => (Plugin.italic (StreamMarkdownItalicPlugin.new p.includeAsterisks_)).initPlugin
  | .inlineCode p =>
    (Plugin.inlineCode (StreamMarkdownInlineCodePlugin.new p.includeTicks_)).initPlugin
  | .link _ => (Plugin.link StreamMarkdownLinkPlugin.new).initPlugin
  | .strikethrough p =>
    (Plugin.strikethrough (StreamMarkdownStrikethroughPlugin.new p.includeDelimiters_)).initPlugin
  | .underline p =>
    (Plugin.underline (StreamMarkdownUnderlinePlugin.new p.includeDelimiters_)).initPlugin
  | .inlineLaTeX p =>
    (Plugin.inlineLaTeX (StreamMarkdownInlineLaTeXPlugin.new p.includeDelimiters_)).initPlugin
  | .inlineParenLaTeX p =>
    (Plugin.inlineParenLaTeX
      (StreamMarkdownInlineParenLaTeXPlugin.new p.includeDelimiters_)).initPlugin

/-- Feeding a plan plugin a list of (code unit, `atStartOfLine`) pairs, one `processChar`
call each. -/
def StreamPlanExecutionPlugin.feed (p : StreamPlanExecutionPlugin) :
    List (Nat × Bool) → StreamPlanExecutionPlugin
  | [] => p
  | x :: xs => StreamPlanExecutionPlugin.feed (p.processChar x.1 x.2).1 xs

/-- The `SEG_BREAK` segments of a sequence, in order. -/
def breakSegs (l : List Segment) : List Segment := l.filter (fun s => decide (s.type = SEG_BREAK))

/-- The break segment an event stands for, if it is a break. -/
def Ev.breakSeg : Ev → Option Segment
  | Ev.idx _ _ => none
  | Ev.brk pos => some ⟨SEG_BREAK, pos, pos⟩

/-! ### `splitByXml` tiles its input -/

/-- The function `splitByXml` with its `len` argument: the first `len` code units of the
array are read (none when `len ≤ 0`), and the final calls are made with `len`. -/
def splitByXmlLen (chars : List Nat) (len : Int) : List Segment :=
  let x0 : XmlSplit :=
    { segments := [], xmlPlugin := (StreamXmlPlugin.new true).reset, activePlugin := false,
      activeStart := -1, defaultStart := 0, evalStart := -1, atStartOfLine := true }
  let x1 := XmlSplit.loop x0 0 (chars.take len.toNat)
  let x2 := if x1.activePlugin then { x1.closeActive len with defaultStart := len } else x1
  (x2.flushDefaultIfNeeded len).segments

/-- The segments tile the range from `a` to `b`: each is non-empty and has tag 0 or 1, the
first starts at `a`, each next one starts where the one before ends, and the last ends
at `b` (with no segment, `a = b`). -/
def Tiles : Int → List Segment → Int → Prop
  | a, [], b => a = b
  | a, sg :: rest, b =>
    sg.start = a ∧ sg.start < sg.end_ ∧ (sg.type = 0 ∨ sg.type = 1) ∧ Tiles sg.end_ rest b

/-- Two neighbouring segments are not both of tag 0. -/
def NotBothDefault (a b : Segment) : Prop := ¬ (a.type = 0 ∧ b.type = 0)

instance : DecidableRel NotBothDefault := fun _ _ => inferInstanceAs (Decidable (¬ _))

/-- The invariant of the loop of `splitByXml` before the code unit at index `i`: the
segments pushed so far tile `[0, defaultStart)` with no two neighbours of tag 0; an open
XML region starts at `defaultStart`, before `i`; with no region open, the last segment
pushed is an XML one and a start attempt, if any, began at or after `defaultStart`. -/
structure SplitInv (x : XmlSplit) (i : Int) : Prop where
  tiles : Tiles 0 x.segments x.defaultStart
  adj : adjacentAll NotBothDefault x.segments
  lo : 0 ≤ x.defaultStart
  hi : x.defaultStart ≤ i
  active : x.activePlugin = true →
    x.activeStart = x.defaultStart ∧ x.activeStart < i ∧ x.evalStart = -1
  idle : x.activePlugin = false →
    (x.evalStart = -1 ∨ (x.defaultStart ≤ x.evalStart ∧ x.evalStart < i)) ∧
      ∀ y ∈ x.segments.getLast?, y.type = 1

/-- The evaluation-buffer invariant of a session state: the emit-mask list is as long as
the evaluation buffer; some roster plugin is `TRYING` while the buffer holds a code unit;
`evalStartGlobal_` is -1 while the buffer is empty. -/
structure BufInv (s : MarkdownSession) : Prop where
  mask : s.evaluationEmitMask_.length = s.evaluationBuffer_.length
  trying : s.evaluationBuffer_ ≠ [] → ∃ j, stateAt s.plugins_ j = some .TRYING
  cleared : s.evaluationBuffer_ = [] → s.evalStartGlobal_ = -1

/-! ### The start gate of the XML plugin -/

/-- Consistency of the state of the XML plugin with its start matcher: an idle plugin
waits for `<`, a plugin in `TRYING` is inside a tag attempt with the punctuation
allowance cleared, and the plugin is never in `WAITFOR`. -/
def StreamXmlPlugin.Wf (q : StreamXmlPlugin) : Prop :=
  (q.state_ = .IDLE → q.startState_ = .WAIT_LT) ∧
  (q.state_ = .TRYING → q.startState_ ≠ .WAIT_LT ∧ q.allowStartAfterPunctuation_ = false) ∧
  q.state_ ≠ .WAITFOR

/-- The call `processChar(c, _)` on the plugin `q` completes a self-closing tag: `q` is
inside a tag (in the tag name or in the attributes), `c` is `>` and the code unit
processed before it was `/`. -/
def StreamXmlPlugin.completesSelfClosing (q : StreamXmlPlugin) (c : Nat) : Prop :=
  q.state_ = .TRYING ∧ (q.startState_ = .IN_TAG_NAME ∨ q.startState_ = .IN_ATTRS) ∧
    c = ch_gt ∧ q.lastChar_ = ch_slash

instance (q : StreamXmlPlugin) (c : Nat) : Decidable (q.completesSelfClosing c) :=
  inferInstanceAs (Decidable (_ ∧ _ ∧ _ ∧ _))

/-- A call on an idle XML plugin that the start gate passes over: `reset()` (`none`), or a space
or a tab processed with `atStartOfLine = false`. -/
def idleFiller : Option (Nat × Bool) → Prop
  | none => True
  | some (c, sol) => isBlank c ∧ sol = false

instance : (x : Option (Nat × Bool)) → Decidable (idleFiller x)
  | none => isTrue trivial
  | some (_, _) => inferInstanceAs (Decidable (_ ∧ _))

/-! # Theorems -/

set_option maxRecDepth 100000

/-! ## The KMP matcher -/

theorem concat_suffix_concat {xs ys : List Nat} {a b : Nat} :
    xs ++ [a] <:+ ys ++ [b] ↔ xs <:+ ys ∧ a = b := by
  rw [← List.reverse_prefix, ← List.reverse_prefix]
  simp [List.cons_prefix_cons, and_comm]

theorem take_succ_getD (P : List Nat) {l : Nat} (h : l < P.length) :
    P.take (l + 1) = P.take l ++ [P.getD l 0] := by
  rw [List.take_succ]
  simp [List.getD, List.getElem?_eq_getElem h]

theorem take_succ_suffix_concat (P T : List Nat) (c : Nat) {l : Nat} (h : l < P.length) :
    P.take (l + 1) <:+ T ++ [c] ↔ P.take l <:+ T ∧ P.getD l 0 = c := by
  rw [take_succ_getD P h, concat_suffix_concat]

theorem take_suffix_of_le {P T : List Nat} {l j : Nat} (hl : P.take l <:+ T)
    (hj : P.take j <:+ T) (hlj : l ≤ j) : P.take l <:+ P.take j := by
  apply List.suffix_of_suffix_length_le hl hj
  simp only [List.length_take]
  omega

theorem bd_trans {P : List Nat} {a b c : Nat} (h1 : Bd P b a) (h2 : Bd P c b) : Bd P c a :=
  ⟨le_trans h1.1 h2.1, h1.2.trans h2.2⟩

theorem piValid_mono {P pi : List Nat} {n n' : Nat} (h : PiValid P pi n) (hn : n' ≤ n) :
    PiValid P pi n' := fun q h1 h2 => h q h1 (le_trans h2 hn)

/-- The loop of `kmpFallback`, started with at least `k` iterations allowed on a border
`k` of the prefix of length `j`, stops at the longest border `k'` (not longer than `k`) that
is `0` or is followed in the pattern by `c`: the exit condition of the `while` holds, so
the bound on the iterations was not what stopped it. -/
theorem kmpFallback_spec (P pi : List Nat) (c j : Nat) (hpi : PiValid P pi j) :
    ∀ fuel k, k ≤ fuel → Bd P j k →
      (∀ l, k < l → l ≤ j → Bd P j l → c ≠ P.getD l 0) →
      Bd P j (kmpFallback P pi c fuel k) ∧
      (kmpFallback P pi c fuel k = 0 ∨ c = P.getD (kmpFallback P pi c fuel k) 0) ∧
      ∀ l, kmpFallback P pi c fuel k < l → l ≤ j → Bd P j l → c ≠ P.getD l 0 := by
  intro fuel
  induction fuel with
  | zero =>
    intro k hk hb hmax
    have : k = 0 := by omega
    subst this
    exact ⟨hb, Or.inl rfl, hmax⟩
  | succ fuel ih =>
    intro k hk hb hmax
    unfold kmpFallback
    by_cases hc : 0 < k ∧ c ≠ P.getD k 0
    · rw [if_pos hc]
      obtain ⟨hlt, hbd, hmx⟩ := hpi k hc.1 hb.1
      apply ih _ (by omega) (bd_trans hbd hb)
      intro l hl hlj hbl
      rcases Nat.lt_trichotomy k l with h | h | h
      · exact hmax l h hlj hbl
      · subst h; exact hc.2
      · exfalso
        have hbk : Bd P k l := ⟨le_of_lt h, by
          apply List.suffix_of_suffix_length_le hbl.2 hb.2
          simp only [List.length_take]; omega⟩
        have := hmx l h hbk
        omega
    · rw [if_neg hc]
      refine ⟨hb, ?_, hmax⟩
      by_cases h0 : k = 0
      · exact Or.inl h0
      · right
        by_contra hne
        exact hc ⟨Nat.pos_of_ne_zero h0, hne⟩

/-- One KMP transition: from the longest prefix (of length `j`, not the whole pattern)
that is a suffix of `T`, the fallback loop followed by the comparison with `c` yields the
longest prefix that is a suffix of `T ++ [c]`. -/
theorem kmp_extend (P pi T : List Nat) (c j : Nat) (hjm : j < P.length)
    (hT : P.take j <:+ T) (hpi : PiValid P pi j) :
    (if c = P.getD (kmpFallback P pi c j j) 0 then kmpFallback P pi c j j + 1
      else kmpFallback P pi c j j) ≤ j + 1 ∧
    P.take (if c = P.getD (kmpFallback P pi c j j) 0 then kmpFallback P pi c j j + 1
      else kmpFallback P pi c j j) <:+ T ++ [c] ∧
    ∀ l0, l0 ≤ j → P.take l0 <:+ T → P.getD l0 0 = c →
      l0 + 1 ≤ (if c = P.getD (kmpFallback P pi c j j) 0 then kmpFallback P pi c j j + 1
        else kmpFallback P pi c j j) := by
  obtain ⟨hb, hz, hmax⟩ := kmpFallback_spec P pi c j hpi j j le_rfl
    ⟨le_rfl, List.suffix_refl _⟩ (fun l h1 h2 _ => absurd h2 (by omega))
  generalize kmpFallback P pi c j j = k at hb hz hmax
  have hkj : k ≤ j := hb.1
  refine ⟨?_, ?_, ?_⟩
  · split <;> omega
  · split
    · next h =>
      rw [take_succ_suffix_concat P T c (by omega)]
      exact ⟨hb.2.trans hT, h.symm⟩
    · next h =>
      rcases hz with hz | hz
      · subst hz; simp
      · exact absurd hz h
  · intro l0 hl0 hs hc
    have hbl : Bd P j l0 := ⟨hl0, take_suffix_of_le hs hT hl0⟩
    have hle : l0 ≤ k := by
      by_contra hgt
      exact hmax l0 (by omega) hl0 hbl hc.symm
    rcases Nat.eq_or_lt_of_le hle with h | h
    · subst h; rw [if_pos hc.symm]
    · rcases hz with hz | hz
      · omega
      · rw [if_pos hz]; omega

theorem setPatternLoop_spec (P : List Nat) :
    ∀ n i pi, pi.length = P.length → 1 ≤ i → i + n = P.length → PiValid P pi i →
      (setPatternLoop P n i pi).length = P.length ∧
      PiValid P (setPatternLoop P n i pi) P.length := by
  intro n
  induction n with
  | zero =>
    intro i pi hlen _ hin hv
    have : i = P.length := by omega
    subst this
    exact ⟨hlen, hv⟩
  | succ n ih =>
    intro i pi hlen hi hin hv
    unfold setPatternLoop
    obtain ⟨hk0, hb0, hm0⟩ := hv i hi le_rfl
    have hi' : i - 1 + 1 = i := by omega
    obtain ⟨h1, h2, h3⟩ := kmp_extend P pi (P.take i) (P.getD i 0) (pi.getD (i - 1) 0)
      (by omega) hb0.2 (piValid_mono hv (by omega))
    simp only []
    generalize (if P.getD i 0 = P.getD (kmpFallback P pi (P.getD i 0) (pi.getD (i - 1) 0)
      (pi.getD (i - 1) 0)) 0 then kmpFallback P pi (P.getD i 0) (pi.getD (i - 1) 0)
      (pi.getD (i - 1) 0) + 1 else kmpFallback P pi (P.getD i 0) (pi.getD (i - 1) 0)
      (pi.getD (i - 1) 0)) = knew at h1 h2 h3
    apply ih (i + 1) (pi.set i knew) (by simpa using hlen) (by omega) (by omega)
    intro q hq1 hq2
    rcases Nat.eq_or_lt_of_le hq2 with hq | hq
    · subst hq
      have hget : (pi.set i knew).getD (i + 1 - 1) 0 = knew := by
        simp [List.getD, List.getElem?_set, show i < pi.length by omega]
      rw [hget]
      rw [← take_succ_getD P (by omega)] at h2
      refine ⟨by omega, ⟨by omega, h2⟩, ?_⟩
      intro l hl hbl
      cases l with
      | zero => omega
      | succ l0 =>
        have hsplit := (take_succ_suffix_concat P (P.take i) (P.getD i 0)
          (show l0 < P.length by omega)).1 (by rw [← take_succ_getD P (by omega)]; exact hbl.2)
        have hl0 : l0 ≤ pi.getD (i - 1) 0 := hm0 l0 (by omega) ⟨by omega, hsplit.1⟩
        exact h3 l0 hl0 hsplit.1 hsplit.2
    · have hget : (pi.set i knew).getD (q - 1) 0 = pi.getD (q - 1) 0 := by
        simp [List.getD, List.getElem?_set, show ¬ i = q - 1 by omega]
      rw [hget]
      exact hv q hq1 (by omega)

theorem setPattern_inv (m : KmpMatcher) (p : List Nat) (hp : p ≠ []) :
    KmpInv (m.setPattern p) [] := by
  have hlen : 1 ≤ p.length := List.length_pos.2 hp
  have hinit : PiValid p (List.replicate p.length 0) 1 := by
    intro q hq1 hq2
    have : q = 1 := by omega
    subst this
    simp only [Nat.sub_self]
    have h0 : (List.replicate p.length 0).getD 0 0 = 0 := by
      simp [List.getD]
    rw [h0]
    exact ⟨by omega, ⟨by omega, by simp⟩, fun l hl _ => by omega⟩
  obtain ⟨h1, h2⟩ := setPatternLoop_spec p (p.length - 1) 1 (List.replicate p.length 0)
    (by simp) le_rfl (by omega) hinit
  refine ⟨hp, h1, h2, hlen, by simp [KmpMatcher.setPattern], ?_⟩
  intro l _ hs
  simp only [KmpMatcher.setPattern] at hs ⊢
  have := hs.length_le
  simp only [List.length_take, List.length_nil] at this
  omega

theorem process_spec (m : KmpMatcher) (T : List Nat) (c : Nat) (h : KmpInv m T) :
    KmpInv (m.process c).1 (T ++ [c]) ∧ (m.process c).1.pattern_ = m.pattern_ ∧
    ((m.process c).2 = true ↔ m.pattern_ <:+ T ++ [c]) := by
  obtain ⟨hne, hlen, hpi, hj, hsuf, hmax⟩ := h
  obtain ⟨h1, h2, h3⟩ := kmp_extend m.pattern_ m.pi_ T c m.j_ hj hsuf (piValid_mono hpi (by omega))
  have hB : ∀ l, l ≤ m.pattern_.length → m.pattern_.take l <:+ T ++ [c] →
      l ≤ (if c = m.pattern_.getD (kmpFallback m.pattern_ m.pi_ c m.j_ m.j_) 0 then
        kmpFallback m.pattern_ m.pi_ c m.j_ m.j_ + 1
        else kmpFallback m.pattern_ m.pi_ c m.j_ m.j_) := by
    intro l hl hs
    cases l with
    | zero => omega
    | succ l0 =>
      have hsplit := (take_succ_suffix_concat m.pattern_ T c (show l0 < _ by omega)).1 hs
      exact h3 l0 (hmax l0 (by omega) hsplit.1) hsplit.1 hsplit.2
  unfold KmpMatcher.process
  rw [if_neg hne]
  simp only []
  generalize (if c = m.pattern_.getD (kmpFallback m.pattern_ m.pi_ c m.j_ m.j_) 0 then
        kmpFallback m.pattern_ m.pi_ c m.j_ m.j_ + 1
        else kmpFallback m.pattern_ m.pi_ c m.j_ m.j_) = j' at h1 h2 hB
  by_cases hjm : j' = m.pattern_.length
  · rw [if_pos hjm]
    have hfull : m.pattern_ <:+ T ++ [c] := by
      have := h2
      rw [hjm, List.take_length] at this
      exact this
    obtain ⟨hlt, hbd, hmx⟩ := hpi m.pattern_.length (by omega) le_rfl
    rw [hjm]
    refine ⟨⟨hne, hlen, hpi, hlt, ?_, ?_⟩, rfl, by simpa using hfull⟩
    · have := hbd.2
      rw [List.take_length] at this
      exact this.trans hfull
    · intro l hl hs
      have hl' : l < m.pattern_.length := hl
      apply hmx l hl' ⟨by omega, ?_⟩
      rw [List.take_length]
      apply List.suffix_of_suffix_length_le hs hfull
      simp only [List.length_take]; omega
  · rw [if_neg hjm]
    have hlt : j' < m.pattern_.length := by omega
    refine ⟨⟨hne, hlen, hpi, hlt, h2,
      fun l hl hs => hB l (le_of_lt (show l < m.pattern_.length from hl)) hs⟩, rfl, ?_⟩
    constructor
    · intro hf; simp at hf
    · intro hs
      exfalso
      have := hB m.pattern_.length le_rfl (by rw [List.take_length]; exact hs)
      omega

theorem feed_spec (m : KmpMatcher) (T : List Nat) (h : KmpInv m T) (cs : List Nat) :
    (m.feed cs).length = cs.length ∧
    ∀ k, k < cs.length →
      ((m.feed cs).getD k false = true ↔ m.pattern_ <:+ T ++ cs.take (k + 1)) := by
  induction cs generalizing m T with
  | nil => exact ⟨rfl, fun k hk => absurd hk (by simp)⟩
  | cons c cs ih =>
    obtain ⟨hinv, hpat, hret⟩ := process_spec m T c h
    obtain ⟨ihl, ihk⟩ := ih (m.process c).1 (T ++ [c]) hinv
    refine ⟨by simp [KmpMatcher.feed, ihl], ?_⟩
    intro k hk
    cases k with
    | zero => simpa [KmpMatcher.feed] using hret
    | succ k =>
      have := ihk k (by simpa using hk)
      rw [hpat] at this
      simpa [KmpMatcher.feed, List.append_assoc] using this

/-! ## Run coalescing -/

theorem segEvents_append (a b : List Segment) : segEvents (a ++ b) = segEvents a ++ segEvents b := by
  induction a with
  | nil => rfl
  | cons s a ih => simp [segEvents, ih]

theorem segEvents_singleton (s : Segment) : segEvents [s] = s.events := by
  simp [segEvents]

theorem events_unit {t i : Int} (ht : t ≠ SEG_BREAK) :
    (Segment.mk t i (i + 1)).events = [Ev.idx t i] := by
  simp [Segment.events, ht, List.range_succ]

theorem events_extend {t s i : Int} (ht : t ≠ SEG_BREAK) (h : s < i) :
    (Segment.mk t s (i + 1)).events = (Segment.mk t s i).events ++ [Ev.idx t i] := by
  simp only [Segment.events, if_neg ht]
  have h1 : (i + 1 - s).toNat = (i - s).toNat + 1 := by omega
  rw [h1, List.range_succ, List.map_append]
  simp only [List.map_cons, List.map_nil]
  have h2 : ((i - s).toNat : Int) = i - s := by omega
  rw [h2]
  have h3 : s + (i - s) = i := by omega
  rw [h3]

theorem flushRun_segs (e : Emitter) : (flushRun e).segs = e.segs := by
  unfold flushRun Emitter.segs Emitter.runSeg
  by_cases h : 0 ≤ e.runStart <;> simp [h]

theorem flushRun_out (e : Emitter) : (flushRun e).out = e.segs := by
  unfold flushRun Emitter.segs Emitter.runSeg
  by_cases h : 0 ≤ e.runStart <;> simp [h]

theorem flushRun_runOK (e : Emitter) : (flushRun e).RunOK := by
  intro h
  simp [flushRun] at h

theorem emitBreak_segs (e : Emitter) (pos : Int) :
    (emitBreak e pos).segs = e.segs ++ [⟨SEG_BREAK, pos, pos⟩] := by
  have h := flushRun_out e
  simp only [emitBreak, Emitter.segs, Emitter.runSeg, h]
  simp [flushRun]

theorem emitBreak_runOK (e : Emitter) (pos : Int) : (emitBreak e pos).RunOK := by
  intro h
  simp [emitBreak, flushRun] at h

/-- The three shapes of `emitIndex`: the index extends the open run, or the open run is
closed and a unit run is opened, or (no run open) a unit run is opened. -/
theorem emitIndex_cases (e : Emitter) (t i : Int) :
    (0 ≤ e.runStart ∧ e.runTag = t ∧ e.runEnd = i ∧
      emitIndex e t i = { e with runEnd := i + 1 }) ∨
    (0 ≤ e.runStart ∧ (e.runTag ≠ t ∨ e.runEnd ≠ i) ∧
      emitIndex e t i = { out := e.out ++ [⟨e.runTag, e.runStart, e.runEnd⟩], runTag := t,
                          runStart := i, runEnd := i + 1 }) ∨
    (e.runStart < 0 ∧
      emitIndex e t i = { out := e.out, runTag := t, runStart := i, runEnd := i + 1 }) := by
  unfold emitIndex
  by_cases h0 : 0 ≤ e.runStart
  · by_cases h1 : e.runTag ≠ t ∨ e.runEnd ≠ i
    · right; left
      refine ⟨h0, h1, ?_⟩
      simp [h0, h1]
    · left
      have h1' : e.runTag = t ∧ e.runEnd = i := by
        constructor <;> by_contra hh <;> simp [hh] at h1
      refine ⟨h0, h1'.1, h1'.2, ?_⟩
      simp [h0, h1'.1, h1'.2, not_lt.2 h0]
  · right; right
    have h0' : e.runStart < 0 := by omega
    refine ⟨h0', ?_⟩
    simp [h0, h0']

theorem emitIndex_events (e : Emitter) (t i : Int) (ht : t ≠ SEG_BREAK) (hi : 0 ≤ i)
    (he : e.RunOK) :
    (emitIndex e t i).RunOK ∧
      segEvents (emitIndex e t i).segs = segEvents e.segs ++ [Ev.idx t i] := by
  rcases emitIndex_cases e t i with ⟨h0, h1, h2, h⟩ | ⟨h0, _, h⟩ | ⟨h0, h⟩ <;> rw [h]
  · obtain ⟨h3, h4⟩ := he h0
    constructor
    · intro _; exact ⟨by simp only; omega, h4⟩
    · simp only [Emitter.segs, Emitter.runSeg, if_pos h0, segEvents_append, segEvents_singleton,
        List.append_assoc]
      rw [h1, events_extend ht (by omega), ← h2]
  · constructor
    · intro _; exact ⟨by simp only; omega, ht⟩
    · simp only [Emitter.segs, Emitter.runSeg, if_pos hi, if_pos h0, segEvents_append,
        segEvents_singleton, events_unit ht]
  · constructor
    · intro _; exact ⟨by simp only; omega, ht⟩
    · simp [Emitter.segs, Emitter.runSeg, if_pos hi, if_neg (not_le.2 h0), segEvents_append,
        segEvents_singleton, events_unit ht]

/-! ## Emitter operations append events -/

theorem runOK_new : Emitter.new.RunOK := by
  intro h; simp [Emitter.new] at h

theorem segs_new : Emitter.new.segs = [] := by
  simp [Emitter.new, Emitter.segs, Emitter.runSeg]

theorem traces_id : Traces (fun e => e) := by
  intro e he
  exact ⟨he, by simp [segs_new, segEvents]⟩

theorem traces_comp {F G : Emitter → Emitter} (hF : Traces F) (hG : Traces G) :
    Traces (fun e => G (F e)) := by
  intro e he
  obtain ⟨h1, h2⟩ := hF e he
  obtain ⟨h3, h4⟩ := hG (F e) h1
  obtain ⟨h5, h6⟩ := hF Emitter.new runOK_new
  obtain ⟨_, h8⟩ := hG (F Emitter.new) h5
  refine ⟨h3, ?_⟩
  rw [h4, h2, h8, h6]
  simp [segs_new, segEvents]

theorem traces_emitIndex {t i : Int} (ht : t ≠ SEG_BREAK) (hi : 0 ≤ i) :
    Traces (fun e => emitIndex e t i) := by
  intro e he
  obtain ⟨h1, h2⟩ := emitIndex_events e t i ht hi he
  obtain ⟨_, h4⟩ := emitIndex_events Emitter.new t i ht hi runOK_new
  refine ⟨h1, ?_⟩
  rw [h2, h4]
  simp [segs_new, segEvents]

theorem traces_flushRun : Traces flushRun := by
  intro e _
  refine ⟨flushRun_runOK e, ?_⟩
  rw [flushRun_segs, flushRun_segs]
  simp [segs_new, segEvents]

theorem traces_emitBreak (pos : Int) : Traces (fun e => emitBreak e pos) := by
  intro e _
  refine ⟨emitBreak_runOK e pos, ?_⟩
  rw [emitBreak_segs, emitBreak_segs]
  simp [segs_new, segEvents, segEvents_append]

theorem traces_ite (b : Bool) {F G : Emitter → Emitter} (hF : Traces F) (hG : Traces G) :
    Traces (fun e => if b = true then F e else G e) := by
  cases b
  · simpa using hG
  · simpa using hF

theorem traces_ite_prop (p : Prop) [Decidable p] {F G : Emitter → Emitter} (hF : Traces F)
    (hG : Traces G) : Traces (fun e => if p then F e else G e) := by
  by_cases h : p
  · simpa [h] using hF
  · simpa [h] using hG

theorem traces_foldl {α : Type} (f : Emitter → α → Emitter) (l : List α)
    (h : ∀ x ∈ l, Traces (fun e => f e x)) : Traces (fun e => l.foldl f e) := by
  induction l with
  | nil => exact traces_id
  | cons x l ih =>
    simp only [List.foldl_cons]
    exact traces_comp (F := fun e => f e x) (G := fun e => l.foldl f e)
      (h x (List.mem_cons_self _ _)) (ih (fun y hy => h y (List.mem_cons_of_mem _ hy)))

theorem traces_emitPending {tag : Int} (ht : tag ≠ SEG_BREAK) (pending : List WaitforPending)
    (h : ∀ pd ∈ pending, 0 ≤ pd.globalIndex) : Traces (fun e => emitPending e tag pending) := by
  unfold emitPending
  apply traces_foldl
  intro pd hpd
  exact traces_ite pd.shouldEmit (traces_emitIndex ht (h pd hpd)) traces_id

theorem traces_emitBuffered {tag start : Int} (ht : tag ≠ SEG_BREAK) (hs : 0 ≤ start)
    (masks : List Nat) (successful size : Nat) :
    Traces (fun e => emitBuffered e tag start masks successful size) := by
  unfold emitBuffered
  apply traces_foldl
  intro bi _
  exact traces_ite_prop _ (traces_emitIndex ht (by omega)) traces_id

theorem traces_emitPlain {start : Int} (hs : 0 ≤ start) (size : Nat) :
    Traces (fun e => emitPlain e start size) := by
  unfold emitPlain
  apply traces_foldl
  intro bi _
  exact traces_emitIndex (by decide) (by omega)

/-! ## The session part of a step does not depend on the emitter -/

theorem evalAll_tags (c : Nat) (sol : Bool) (ps : List PluginEntry) (pi m : Nat) :
    (evalAll c sol ps pi m).1.map (fun x => x.tag) = ps.map (fun x => x.tag) := by
  induction ps generalizing pi m with
  | nil => rfl
  | cons p ps ih => simp [evalAll, ih]

theorem resetAll_tags (ps : List PluginEntry) :
    (resetAll ps).map (fun x => x.tag) = ps.map (fun x => x.tag) := by
  simp [resetAll, Function.comp_def]

theorem resetOthers_tags (ps : List PluginEntry) (pi k : Nat) :
    (resetOthers ps pi k).map (fun x => x.tag) = ps.map (fun x => x.tag) := by
  induction ps generalizing pi with
  | nil => rfl
  | cons p ps ih =>
    simp only [resetOthers, List.map_cons, ih]
    split <;> rfl

theorem set_tags (ps : List PluginEntry) (i : Nat) (e : PluginEntry) (q : Plugin)
    (h : ps[i]? = some e) :
    (ps.set i { e with plugin := q }).map (fun x => x.tag) = ps.map (fun x => x.tag) := by
  induction ps generalizing i with
  | nil => rfl
  | cons p ps ih =>
    cases i with
    | zero =>
      simp only [List.getElem?_cons_zero, Option.some.injEq] at h
      subst h
      rfl
    | succ i =>
      simp only [List.getElem?_cons_succ] at h
      simp [List.set, ih i h]

/-- The call of the active plugin changes nothing in the session but the roster, and in
the roster nothing but plugin states. -/
theorem activeProcessChar_eq (s : MarkdownSession) (c : Nat) (b : Bool) :
    ∃ ps, (s.activeProcessChar c b).1 = { s with plugins_ := ps } ∧
      ps.map (fun x => x.tag) = s.plugins_.map (fun x => x.tag) := by
  unfold MarkdownSession.activeProcessChar
  split
  · exact ⟨s.plugins_, rfl, rfl⟩
  · split
    · exact ⟨s.plugins_, rfl, rfl⟩
    · next i en h2 => exact ⟨_, rfl, set_tags _ _ _ _ h2⟩

theorem processWaitfor_fst (s : MarkdownSession) (e e' : Emitter) (c : Nat) (g : Int) :
    (processWaitfor s e c g).1 = (processWaitfor s e' c g).1 := by
  unfold processWaitfor
  simp only []
  split <;> rfl

theorem processActive_fst (s : MarkdownSession) (e e' : Emitter) (c : Nat) (sol : Bool)
    (g : Int) : (processActive s e c sol g).1 = (processActive s e' c sol g).1 := by
  unfold processActive
  simp only []
  split
  · rfl
  · split <;> rfl

theorem processEvaluation_fst (s : MarkdownSession) (e e' : Emitter) (c : Nat) (sol : Bool)
    (g : Int) : (processEvaluation s e c sol g).1 = (processEvaluation s e' c sol g).1 := by
  unfold processEvaluation
  simp only []
  cases findSuccessful (evalAll c sol s.plugins_ 0 0).1 0 with
  | some k => rfl
  | none =>
    simp only []
    split <;> rfl

theorem processOne_fst (s : MarkdownSession) (e e' : Emitter) (c : Nat) (sol : Bool)
    (f : Int) : (processOne s e c sol f).1 = (processOne s e' c sol f).1 := by
  unfold processOne
  simp only []
  split
  · exact processWaitfor_fst _ _ _ _ _
  · split
    · exact processActive_fst _ _ _ _ _ _
    · exact processEvaluation_fst _ _ _ _ _ _

/-! ## Every step only appends events -/

theorem processWaitfor_traces (s : MarkdownSession) (c : Nat) (g : Int) (h : CallOK s)
    (hg : 0 ≤ g) : Traces (fun e => (processWaitfor s e c g).2) := by
  obtain ⟨ps, hs1, _⟩ := activeProcessChar_eq s c s.waitforAtStartOfLine_
  unfold processWaitfor
  simp only [hs1]
  by_cases hst : MarkdownSession.activeState { s with plugins_ := ps } = .PROCESSING
  · simp only [if_pos hst]
    exact traces_ite _
      (traces_comp (traces_emitPending h.activeTag _ h.waitfor) (traces_emitIndex h.activeTag hg))
      (traces_emitPending h.activeTag _ h.waitfor)
  · simp only [if_neg hst]
    exact traces_comp (traces_emitPending (by decide) _ h.waitfor) (traces_emitBreak g)

theorem processActive_traces (s : MarkdownSession) (c : Nat) (sol : Bool) (g : Int)
    (h : CallOK s) (hg : 0 ≤ g) : Traces (fun e => (processActive s e c sol g).2) := by
  obtain ⟨ps, hs1, _⟩ := activeProcessChar_eq s c sol
  unfold processActive
  simp only [hs1]
  by_cases hst : MarkdownSession.activeState { s with plugins_ := ps } = .WAITFOR
  · simp only [if_pos hst]
    exact traces_id
  · simp only [if_neg hst]
    by_cases hst2 : MarkdownSession.activeState { s with plugins_ := ps } ≠ .PROCESSING
    · simp only [if_pos hst2]
      exact traces_comp (traces_ite _ (traces_emitIndex h.activeTag hg) traces_id)
        (traces_emitBreak _)
    · simp only [if_neg hst2]
      exact traces_ite _ (traces_emitIndex h.activeTag hg) traces_id

theorem getElem?_tag_ne (ps : List PluginEntry) (k : Nat)
    (h : ∀ t ∈ ps.map (fun x => x.tag), t ≠ SEG_BREAK) :
    (ps[k]?.map (fun x => x.tag)).getD MD_PLAIN_TEXT ≠ SEG_BREAK := by
  cases hk : ps[k]? with
  | none => simp only [Option.map_none', Option.getD_none]; decide
  | some x =>
    simp only [Option.map_some', Option.getD_some]
    exact h _ (List.mem_map.2 ⟨x, List.getElem?_mem hk, rfl⟩)

theorem processEvaluation_traces (s : MarkdownSession) (c : Nat) (sol : Bool) (g : Int)
    (h : CallOK s) (hg : 0 ≤ g) : Traces (fun e => (processEvaluation s e c sol g).2) := by
  have hstart : 0 ≤ (if s.evalStartGlobal_ < 0 then g else s.evalStartGlobal_) := by
    split <;> omega
  have htags : ∀ t ∈ (evalAll c sol s.plugins_ 0 0).1.map (fun x => x.tag), t ≠ SEG_BREAK := by
    rw [evalAll_tags]; exact h.tags
  unfold processEvaluation
  simp only []
  cases findSuccessful (evalAll c sol s.plugins_ 0 0).1 0 with
  | some k =>
    simp only []
    exact traces_comp traces_flushRun
      (traces_emitBuffered (getElem?_tag_ne _ k htags) hstart _ _ _)
  | none =>
    simp only []
    by_cases ht : anyTrying (evalAll c sol s.plugins_ 0 0).1 = false
    · simp only [if_pos ht]
      exact traces_emitPlain hstart _
    · simp only [if_neg ht]
      exact traces_id

theorem processOne_traces (s : MarkdownSession) (c : Nat) (sol : Bool) (f : Int)
    (h : CallOK s) : Traces (fun e => (processOne s e c sol f).2) := by
  have hg : 0 ≤ (if 0 ≤ f then f else s.globalOffset_) := by
    split
    · assumption
    · exact h.offset
  have h1 : CallOK { s with globalOffset_ :=
      if f < 0 then s.globalOffset_ + 1 else s.globalOffset_ } :=
    { h with offset := by have := h.offset; simp only; split <;> omega }
  unfold processOne
  simp only []
  by_cases hw : s.waitforActive_ = true
  · simp only [if_pos hw]
    exact processWaitfor_traces _ c _ h1 hg
  · simp only [if_neg hw]
    by_cases ha : s.activePlugin_.isSome = true
    · simp only [if_pos ha]
      exact processActive_traces _ c sol _ h1 hg
    · simp only [if_neg ha]
      exact processEvaluation_traces _ c sol _ h1 hg

/-! ## Fitness for `processOne` is kept by every step -/

theorem processWaitfor_callOK (s : MarkdownSession) (e : Emitter) (c : Nat) (g : Int)
    (h : CallOK s) (hg : 0 ≤ g) : CallOK (processWaitfor s e c g).1 := by
  obtain ⟨ps, hs1, htag⟩ := activeProcessChar_eq s c s.waitforAtStartOfLine_
  unfold processWaitfor
  simp only [hs1]
  split
  · exact ⟨by simp only [htag]; exact h.tags, h.activeTag, h.offset, by simp, h.pending⟩
  · refine ⟨by simp only [resetAll_tags, htag]; exact h.tags,
      (by decide : MD_PLAIN_TEXT ≠ SEG_BREAK), h.offset, by simp, ?_⟩
    intro pc hpc
    simp only [List.mem_cons] at hpc
    rcases hpc with rfl | hpc
    · exact hg
    · exact h.pending pc hpc

theorem processActive_callOK (s : MarkdownSession) (e : Emitter) (c : Nat) (sol : Bool)
    (g : Int) (h : CallOK s) (hg : 0 ≤ g) : CallOK (processActive s e c sol g).1 := by
  obtain ⟨ps, hs1, htag⟩ := activeProcessChar_eq s c sol
  unfold processActive
  simp only [hs1]
  split
  · refine ⟨by simp only [htag]; exact h.tags, h.activeTag, h.offset, ?_, h.pending⟩
    intro pd hpd
    simp only [List.mem_append, List.mem_singleton] at hpd
    rcases hpd with hpd | rfl
    · exact h.waitfor pd hpd
    · exact hg
  · split
    · exact ⟨by simp only [htag]; exact h.tags, (by decide : MD_PLAIN_TEXT ≠ SEG_BREAK),
        h.offset, h.waitfor, h.pending⟩
    · exact ⟨by simp only [htag]; exact h.tags, h.activeTag, h.offset, h.waitfor, h.pending⟩

theorem processEvaluation_callOK (s : MarkdownSession) (e : Emitter) (c : Nat) (sol : Bool)
    (g : Int) (h : CallOK s) : CallOK (processEvaluation s e c sol g).1 := by
  have htags : ∀ t ∈ (evalAll c sol s.plugins_ 0 0).1.map (fun x => x.tag), t ≠ SEG_BREAK := by
    rw [evalAll_tags]; exact h.tags
  unfold processEvaluation
  simp only []
  cases findSuccessful (evalAll c sol s.plugins_ 0 0).1 0 with
  | some k =>
    exact ⟨by simp only [resetOthers_tags]; exact htags, getElem?_tag_ne _ k htags, h.offset,
      h.waitfor, h.pending⟩
  | none =>
    simp only []
    split
    · exact ⟨by simp only [resetAll_tags]; exact htags, h.activeTag, h.offset, h.waitfor,
        h.pending⟩
    · exact ⟨htags, h.activeTag, h.offset, h.waitfor, h.pending⟩

theorem processOne_callOK (s : MarkdownSession) (e : Emitter) (c : Nat) (sol : Bool) (f : Int)
    (h : CallOK s) : CallOK (processOne s e c sol f).1 := by
  have hg : 0 ≤ (if 0 ≤ f then f else s.globalOffset_) := by
    split
    · assumption
    · exact h.offset
  have h1 : CallOK { s with globalOffset_ :=
      if f < 0 then s.globalOffset_ + 1 else s.globalOffset_ } :=
    { h with offset := by have := h.offset; simp only; split <;> omega }
  unfold processOne
  simp only []
  split
  · exact processWaitfor_callOK _ e c _ h1 hg
  · split
    · exact processActive_callOK _ e c sol _ h1 hg
    · exact processEvaluation_callOK _ e c sol _ h1

/-! ## Termination of the loop of `push` -/

theorem processWaitfor_measure (s : MarkdownSession) (e : Emitter) (c : Nat) (g : Int) :
    2 * (processWaitfor s e c g).1.pendingChars_.length +
      (if (processWaitfor s e c g).1.waitforActive_ then 1 else 0) ≤
    2 * s.pendingChars_.length + 2 := by
  obtain ⟨ps, hs1, _⟩ := activeProcessChar_eq s c s.waitforAtStartOfLine_
  unfold processWaitfor
  simp only [hs1]
  split
  · simp
  · simp only [List.length_cons]
    simp only [Bool.false_eq_true, if_false]
    omega

theorem processActive_measure (s : MarkdownSession) (e : Emitter) (c : Nat) (sol : Bool)
    (g : Int) :
    2 * (processActive s e c sol g).1.pendingChars_.length +
      (if (processActive s e c sol g).1.waitforActive_ then 1 else 0) ≤
    2 * s.pendingChars_.length + 1 := by
  obtain ⟨ps, hs1, _⟩ := activeProcessChar_eq s c sol
  unfold processActive
  simp only [hs1]
  split
  · simp
  · split <;> (simp only []; split <;> omega)

theorem processEvaluation_measure (s : MarkdownSession) (e : Emitter) (c : Nat) (sol : Bool)
    (g : Int) :
    (processEvaluation s e c sol g).1.pendingChars_ = s.pendingChars_ ∧
    (processEvaluation s e c sol g).1.waitforActive_ = s.waitforActive_ := by
  unfold processEvaluation
  simp only []
  cases findSuccessful (evalAll c sol s.plugins_ 0 0).1 0 with
  | some k => exact ⟨rfl, rfl⟩
  | none =>
    simp only []
    split <;> exact ⟨rfl, rfl⟩

theorem processOne_measure (s : MarkdownSession) (e : Emitter) (c : Nat) (sol : Bool)
    (f : Int) :
    2 * (processOne s e c sol f).1.pendingChars_.length +
      (if (processOne s e c sol f).1.waitforActive_ then 1 else 0) ≤
    2 * s.pendingChars_.length + (if s.waitforActive_ then 1 else 0) + 1 := by
  unfold processOne
  simp only []
  by_cases hw : s.waitforActive_ = true
  · rw [if_pos hw]
    have := processWaitfor_measure { s with globalOffset_ :=
      if f < 0 then s.globalOffset_ + 1 else s.globalOffset_ } e c
      (if 0 ≤ f then f else s.globalOffset_)
    simp only [hw, if_true] at this ⊢
    omega
  · rw [if_neg hw]
    have hw' : s.waitforActive_ = false := by simpa using hw
    split
    · have := processActive_measure { s with globalOffset_ :=
        if f < 0 then s.globalOffset_ + 1 else s.globalOffset_ } e c sol
        (if 0 ≤ f then f else s.globalOffset_)
      simp only [hw'] at this ⊢
      omega
    · obtain ⟨h1, h2⟩ := processEvaluation_measure { s with globalOffset_ :=
        if f < 0 then s.globalOffset_ + 1 else s.globalOffset_ } e c sol
        (if 0 ≤ f then f else s.globalOffset_)
      rw [h1, h2]
      simp only [hw', Bool.false_eq_true, if_false]
      omega

/-- An iteration that pops a re-queued code unit lowers the measure. -/
theorem measure_pop (s : MarkdownSession) (e : Emitter) (pc : PendingChar)
    (rest : List PendingChar) (sol : Bool) (chars : List Nat)
    (h : s.pendingChars_ = pc :: rest) :
    loopMeasure (processOne { s with pendingChars_ := rest } e pc.c sol pc.globalIndex).1 chars <
      loopMeasure s chars := by
  have := processOne_measure { s with pendingChars_ := rest } e pc.c sol pc.globalIndex
  simp only [loopMeasure, h, List.length_cons] at this ⊢
  omega

/-- An iteration that reads a code unit of the chunk lowers the measure. -/
theorem measure_read (s : MarkdownSession) (e : Emitter) (c : Nat) (sol : Bool)
    (cs : List Nat) :
    loopMeasure (processOne s e c sol (-1)).1 cs < loopMeasure s (c :: cs) := by
  have := processOne_measure s e c sol (-1)
  simp only [loopMeasure, List.length_cons] at this ⊢
  omega

/-- The loop of `push` ends: with any two bounds above the measure it returns the same
result, so the bound is never what stops it. -/
theorem pushLoop_fuel : ∀ (fuel fuel' : Nat) (s : MarkdownSession) (e : Emitter) (sol : Bool)
    (chars : List Nat), loopMeasure s chars < fuel → loopMeasure s chars < fuel' →
    pushLoop fuel s e sol chars = pushLoop fuel' s e sol chars := by
  intro fuel
  induction fuel with
  | zero => intro fuel' s e sol chars h; omega
  | succ fuel ih =>
    intro fuel' s e sol chars h h'
    cases fuel' with
    | zero => omega
    | succ fuel' =>
      unfold pushLoop
      split
      · next pc rest hp =>
        have := measure_pop s e pc rest sol chars hp
        exact ih fuel' _ _ _ _ (by omega) (by omega)
      · split
        · rfl
        · next c cs =>
          have := measure_read s e c sol cs
          exact ih fuel' _ _ _ _ (by omega) (by omega)

/-- When the loop of `push` ends, the pending-char queue is empty. -/
theorem pushLoop_pending : ∀ (fuel : Nat) (s : MarkdownSession) (e : Emitter) (sol : Bool)
    (chars : List Nat), loopMeasure s chars < fuel →
    (pushLoop fuel s e sol chars).1.pendingChars_ = [] := by
  intro fuel
  induction fuel with
  | zero => intro s e sol chars h; omega
  | succ fuel ih =>
    intro s e sol chars h
    unfold pushLoop
    split
    · next pc rest hp =>
      have := measure_pop s e pc rest sol chars hp
      exact ih _ _ _ _ (by omega)
    · next hp =>
      split
      · exact hp
      · next c cs =>
        have := measure_read s e c sol cs
        exact ih _ _ _ _ (by omega)

theorem pushFuel_gt (s : MarkdownSession) (chars : List Nat) :
    loopMeasure s chars < pushFuel s chars := by
  unfold loopMeasure pushFuel
  split <;> omega

/-! ## The loop of `push`: unfolding, emitter independence, concatenation of chunks -/

theorem pushLoop_pop (fuel : Nat) (s : MarkdownSession) (e : Emitter) (sol : Bool)
    (chars : List Nat) (pc : PendingChar) (rest : List PendingChar)
    (h : s.pendingChars_ = pc :: rest) :
    pushLoop (fuel + 1) s e sol chars =
      pushLoop fuel (processOne { s with pendingChars_ := rest } e pc.c sol pc.globalIndex).1
        (processOne { s with pendingChars_ := rest } e pc.c sol pc.globalIndex).2
        (decide (pc.c = ch_nl)) chars := by
  conv => lhs; unfold pushLoop
  simp only [h]

theorem pushLoop_done (fuel : Nat) (s : MarkdownSession) (e : Emitter) (sol : Bool)
    (h : s.pendingChars_ = []) : pushLoop (fuel + 1) s e sol [] = (s, e, sol) := by
  unfold pushLoop
  simp only [h]

theorem pushLoop_read (fuel : Nat) (s : MarkdownSession) (e : Emitter) (sol : Bool) (c : Nat)
    (cs : List Nat) (h : s.pendingChars_ = []) :
    pushLoop (fuel + 1) s e sol (c :: cs) =
      pushLoop fuel (processOne s e c sol (-1)).1 (processOne s e c sol (-1)).2
        (decide (c = ch_nl)) cs := by
  conv => lhs; unfold pushLoop
  simp only [h]

theorem callOK_pop {s : MarkdownSession} (h : CallOK s) (pc : PendingChar)
    (rest : List PendingChar) (hp : s.pendingChars_ = pc :: rest) :
    CallOK { s with pendingChars_ := rest } :=
  { h with pending := fun x hx => h.pending x (by rw [hp]; exact List.mem_cons_of_mem _ hx) }

/-- The session and the start-of-line flag the loop ends with do not depend on the
emitter it was started with, the loop only appends events, and the session it ends with
is again fit for `processOne`. -/
theorem pushLoop_emitter : ∀ (fuel : Nat) (s : MarkdownSession) (sol : Bool) (chars : List Nat),
    CallOK s →
    (∀ e, (pushLoop fuel s e sol chars).1 = (pushLoop fuel s Emitter.new sol chars).1 ∧
      (pushLoop fuel s e sol chars).2.2 = (pushLoop fuel s Emitter.new sol chars).2.2) ∧
    Traces (fun e => (pushLoop fuel s e sol chars).2.1) ∧
    CallOK (pushLoop fuel s Emitter.new sol chars).1 := by
  intro fuel
  induction fuel with
  | zero =>
    intro s sol chars h
    exact ⟨fun e => ⟨rfl, rfl⟩, traces_id, h⟩
  | succ fuel ih =>
    intro s sol chars h
    cases hp : s.pendingChars_ with
    | cons pc rest =>
      have h0 := callOK_pop h pc rest hp
      have hfst := fun e => processOne_fst { s with pendingChars_ := rest } e Emitter.new pc.c
        sol pc.globalIndex
      obtain ⟨i1, i2, i3⟩ := ih
        (processOne { s with pendingChars_ := rest } Emitter.new pc.c sol pc.globalIndex).1
        (decide (pc.c = ch_nl)) chars (processOne_callOK _ _ _ _ _ h0)
      refine ⟨?_, ?_, ?_⟩
      · intro e
        rw [pushLoop_pop fuel s e sol chars pc rest hp,
          pushLoop_pop fuel s Emitter.new sol chars pc rest hp, hfst e]
        exact ⟨(i1 _).1.trans (i1 _).1.symm, (i1 _).2.trans (i1 _).2.symm⟩
      · have := traces_comp (processOne_traces { s with pendingChars_ := rest } pc.c sol
          pc.globalIndex h0) i2
        simp only [pushLoop_pop fuel s _ sol chars pc rest hp, hfst]
        exact this
      · rw [pushLoop_pop fuel s Emitter.new sol chars pc rest hp]
        rw [(i1 _).1]
        exact i3
    | nil =>
      cases chars with
      | nil =>
        refine ⟨fun e => ?_, ?_, ?_⟩
        · rw [pushLoop_done fuel s e sol hp, pushLoop_done fuel s Emitter.new sol hp]
          exact ⟨rfl, rfl⟩
        · simp only [pushLoop_done fuel s _ sol hp]
          exact traces_id
        · rw [pushLoop_done fuel s Emitter.new sol hp]
          exact h
      | cons c cs =>
        have hfst := fun e => processOne_fst s e Emitter.new c sol (-1)
        obtain ⟨i1, i2, i3⟩ := ih (processOne s Emitter.new c sol (-1)).1
          (decide (c = ch_nl)) cs (processOne_callOK _ _ _ _ _ h)
        refine ⟨?_, ?_, ?_⟩
        · intro e
          rw [pushLoop_read fuel s e sol c cs hp, pushLoop_read fuel s Emitter.new sol c cs hp,
            hfst e]
          exact ⟨(i1 _).1.trans (i1 _).1.symm, (i1 _).2.trans (i1 _).2.symm⟩
        · have := traces_comp (processOne_traces s c sol (-1) h) i2
          simp only [pushLoop_read fuel s _ sol c cs hp, hfst]
          exact this
        · rw [pushLoop_read fuel s Emitter.new sol c cs hp]
          rw [(i1 _).1]
          exact i3

theorem pushLoop_measure_le : ∀ (fuel : Nat) (s : MarkdownSession) (e : Emitter) (sol : Bool)
    (a b : List Nat), loopMeasure (pushLoop fuel s e sol a).1 b ≤ loopMeasure s (a ++ b) := by
  intro fuel
  induction fuel with
  | zero =>
    intro s e sol a b
    simp only [pushLoop, loopMeasure, List.length_append]
    omega
  | succ fuel ih =>
    intro s e sol a b
    cases hp : s.pendingChars_ with
    | cons pc rest =>
      rw [pushLoop_pop fuel s e sol a pc rest hp]
      have := measure_pop s e pc rest sol (a ++ b) hp
      have := ih (processOne { s with pendingChars_ := rest } e pc.c sol pc.globalIndex).1
        (processOne { s with pendingChars_ := rest } e pc.c sol pc.globalIndex).2
        (decide (pc.c = ch_nl)) a b
      omega
    | nil =>
      cases a with
      | nil =>
        rw [pushLoop_done fuel s e sol hp]
        simp
      | cons c cs =>
        rw [pushLoop_read fuel s e sol c cs hp]
        have := measure_read s e c sol (cs ++ b)
        have := ih (processOne s e c sol (-1)).1 (processOne s e c sol (-1)).2
          (decide (c = ch_nl)) cs b
        simp only [List.cons_append]
        omega

/-- Running the loop over `a ++ b` is running it over `a` and then, from where that ended,
over `b`. -/
theorem pushLoop_append : ∀ (fuel : Nat) (s : MarkdownSession) (e : Emitter) (sol : Bool)
    (a b : List Nat), loopMeasure s (a ++ b) < fuel →
    pushLoop fuel s e sol (a ++ b) =
      pushLoop fuel (pushLoop fuel s e sol a).1 (pushLoop fuel s e sol a).2.1
        (pushLoop fuel s e sol a).2.2 b := by
  intro fuel
  induction fuel with
  | zero => intro s e sol a b h; omega
  | succ fuel ih =>
    intro s e sol a b h
    cases hp : s.pendingChars_ with
    | cons pc rest =>
      have hm := measure_pop s e pc rest sol (a ++ b) hp
      rw [pushLoop_pop fuel s e sol (a ++ b) pc rest hp, pushLoop_pop fuel s e sol a pc rest hp,
        ih _ _ _ a b (by omega)]
      have := pushLoop_measure_le fuel
        (processOne { s with pendingChars_ := rest } e pc.c sol pc.globalIndex).1
        (processOne { s with pendingChars_ := rest } e pc.c sol pc.globalIndex).2
        (decide (pc.c = ch_nl)) a b
      exact pushLoop_fuel _ _ _ _ _ _ (by omega) (by omega)
    | nil =>
      cases a with
      | nil => rw [pushLoop_done fuel s e sol hp]; rfl
      | cons c cs =>
        have hm := measure_read s e c sol (cs ++ b)
        simp only [List.cons_append] at h ⊢
        rw [pushLoop_read fuel s e sol c (cs ++ b) hp, pushLoop_read fuel s e sol c cs hp,
          ih _ _ _ cs b (by omega)]
        have := pushLoop_measure_le fuel (processOne s e c sol (-1)).1
          (processOne s e c sol (-1)).2 (decide (c = ch_nl)) cs b
        exact pushLoop_fuel _ _ _ _ _ _ (by omega) (by omega)

/-! ## The member `atStartOfLine_` is not read inside the loop -/

theorem activeProcessChar_sol (s : MarkdownSession) (b : Bool) (c : Nat) (x : Bool) :
    MarkdownSession.activeProcessChar { s with atStartOfLine_ := b } c x =
      ({ (s.activeProcessChar c x).1 with atStartOfLine_ := b }, (s.activeProcessChar c x).2) := by
  unfold MarkdownSession.activeProcessChar
  simp only []
  cases h : s.activePlugin_ with
  | none => simp only [h]
  | some i =>
    simp only []
    cases h2 : s.plugins_[i]? with
    | none => simp only [h]
    | some en => simp only [h]

theorem activeState_sol (s : MarkdownSession) (b : Bool) :
    MarkdownSession.activeState { s with atStartOfLine_ := b } = s.activeState := rfl

theorem processWaitfor_sol (s : MarkdownSession) (b : Bool) (e : Emitter) (c : Nat) (g : Int) :
    processWaitfor { s with atStartOfLine_ := b } e c g =
      ({ (processWaitfor s e c g).1 with atStartOfLine_ := b }, (processWaitfor s e c g).2) := by
  unfold processWaitfor
  simp only [activeProcessChar_sol, activeState_sol]
  split <;> rfl

theorem processActive_sol (s : MarkdownSession) (b : Bool) (e : Emitter) (c : Nat) (sol : Bool)
    (g : Int) :
    processActive { s with atStartOfLine_ := b } e c sol g =
      ({ (processActive s e c sol g).1 with atStartOfLine_ := b },
        (processActive s e c sol g).2) := by
  unfold processActive
  simp only [activeProcessChar_sol, activeState_sol]
  split
  · rfl
  · split <;> rfl

theorem processEvaluation_sol (s : MarkdownSession) (b : Bool) (e : Emitter) (c : Nat)
    (sol : Bool) (g : Int) :
    processEvaluation { s with atStartOfLine_ := b } e c sol g =
      ({ (processEvaluation s e c sol g).1 with atStartOfLine_ := b },
        (processEvaluation s e c sol g).2) := by
  unfold processEvaluation
  simp only []
  cases findSuccessful (evalAll c sol s.plugins_ 0 0).1 0 with
  | some k => rfl
  | none =>
    simp only []
    split <;> rfl

theorem processOne_sol (s : MarkdownSession) (b : Bool) (e : Emitter) (c : Nat) (sol : Bool)
    (f : Int) :
    processOne { s with atStartOfLine_ := b } e c sol f =
      ({ (processOne s e c sol f).1 with atStartOfLine_ := b }, (processOne s e c sol f).2) := by
  unfold processOne
  simp only []
  split
  · exact processWaitfor_sol
      { s with globalOffset_ := if f < 0 then s.globalOffset_ + 1 else s.globalOffset_ } b e c _
  · split
    · exact processActive_sol
        { s with globalOffset_ := if f < 0 then s.globalOffset_ + 1 else s.globalOffset_ }
        b e c sol _
    · exact processEvaluation_sol
        { s with globalOffset_ := if f < 0 then s.globalOffset_ + 1 else s.globalOffset_ }
        b e c sol _

theorem pending_cases (s : MarkdownSession) :
    s.pendingChars_ = [] ∨ ∃ pc rest, s.pendingChars_ = pc :: rest := by
  cases s.pendingChars_ with
  | nil => exact Or.inl rfl
  | cons pc rest => exact Or.inr ⟨pc, rest, rfl⟩

theorem pushLoop_sol : ∀ (fuel : Nat) (s : MarkdownSession) (b : Bool) (e : Emitter) (sol : Bool)
    (chars : List Nat),
    pushLoop fuel { s with atStartOfLine_ := b } e sol chars =
      ({ (pushLoop fuel s e sol chars).1 with atStartOfLine_ := b },
        (pushLoop fuel s e sol chars).2) := by
  intro fuel
  induction fuel with
  | zero => intro s b e sol chars; rfl
  | succ fuel ih =>
    intro s b e sol chars
    rcases pending_cases s with hp | ⟨pc, rest, hp⟩
    · cases chars with
      | nil =>
        rw [pushLoop_done fuel { s with atStartOfLine_ := b } e sol hp,
          pushLoop_done fuel s e sol hp]
      | cons c cs =>
        rw [pushLoop_read fuel { s with atStartOfLine_ := b } e sol c cs hp,
          pushLoop_read fuel s e sol c cs hp, processOne_sol]
        exact ih _ b _ _ _
    · rw [pushLoop_pop fuel { s with atStartOfLine_ := b } e sol chars pc rest hp,
        pushLoop_pop fuel s e sol chars pc rest hp]
      have := processOne_sol { s with pendingChars_ := rest } b e pc.c sol pc.globalIndex
      simp only [] at this
      rw [this]
      exact ih _ b _ _ _

/-! ## Pushing in chunks -/

theorem push_eq (s : MarkdownSession) (chars : List Nat) (fuel : Nat)
    (h : loopMeasure s chars < fuel) :
    s.push chars =
      ({ (pushLoop fuel s Emitter.new s.atStartOfLine_ chars).1 with
          atStartOfLine_ := (pushLoop fuel s Emitter.new s.atStartOfLine_ chars).2.2 },
        (flushRun (pushLoop fuel s Emitter.new s.atStartOfLine_ chars).2.1).out) := by
  unfold MarkdownSession.push
  simp only []
  rw [pushLoop_fuel (pushFuel s chars) fuel s _ _ _ (pushFuel_gt s chars) h]

theorem measure_le_append (s : MarkdownSession) (a b : List Nat) :
    loopMeasure s a ≤ loopMeasure s (a ++ b) := by
  simp only [loopMeasure, List.length_append]
  omega

theorem push_callOK (s : MarkdownSession) (chars : List Nat) (h : CallOK s) :
    CallOK (s.push chars).1 ∧ (s.push chars).1.pendingChars_ = [] := by
  rw [push_eq s chars _ (pushFuel_gt s chars)]
  obtain ⟨_, _, ok⟩ := pushLoop_emitter (pushFuel s chars) s s.atStartOfLine_ chars h
  exact ⟨⟨ok.tags, ok.activeTag, ok.offset, ok.waitfor, ok.pending⟩,
    pushLoop_pending _ _ _ _ _ (pushFuel_gt s chars)⟩

/-- Pushing `a ++ b` in one push leaves the session in the state that pushing `a` and
then `b` leaves it in, and returns segments with the same events. -/
theorem push_append (s : MarkdownSession) (a b : List Nat) (h : CallOK s) :
    (s.push (a ++ b)).1 = ((s.push a).1.push b).1 ∧
    segEvents (s.push (a ++ b)).2 = segEvents (s.push a).2 ++ segEvents ((s.push a).1.push b).2 := by
  have hF := pushFuel_gt s (a ++ b)
  have hFa : loopMeasure s a < pushFuel s (a ++ b) :=
    lt_of_le_of_lt (measure_le_append s a b) hF
  have hm := pushLoop_measure_le (pushFuel s (a ++ b)) s Emitter.new s.atStartOfLine_ a b
  obtain ⟨_, t1, ok1⟩ := pushLoop_emitter (pushFuel s (a ++ b)) s s.atStartOfLine_ a h
  have run1 : (pushLoop (pushFuel s (a ++ b)) s Emitter.new s.atStartOfLine_ a).2.1.RunOK :=
    (t1 Emitter.new runOK_new).1
  have happ := pushLoop_append (pushFuel s (a ++ b)) s Emitter.new s.atStartOfLine_ a b hF
  rw [push_eq s (a ++ b) _ hF, push_eq s a _ hFa, happ]
  generalize pushLoop (pushFuel s (a ++ b)) s Emitter.new s.atStartOfLine_ a = r1
    at hm ok1 run1 happ
  obtain ⟨i1, t2, _⟩ := pushLoop_emitter (pushFuel s (a ++ b)) r1.1 r1.2.2 b ok1
  have hb : loopMeasure { r1.1 with atStartOfLine_ := r1.2.2 } b < pushFuel s (a ++ b) := by
    have : loopMeasure { r1.1 with atStartOfLine_ := r1.2.2 } b = loopMeasure r1.1 b := rfl
    omega
  rw [push_eq { r1.1 with atStartOfLine_ := r1.2.2 } b _ hb]
  simp only [pushLoop_sol]
  obtain ⟨h1, h2⟩ := i1 r1.2.1
  obtain ⟨_, h3⟩ := t2 r1.2.1 run1
  simp only [flushRun_out] at h3 ⊢
  rw [h1, h2, h3]
  exact ⟨rfl, rfl⟩

theorem push_nil (s : MarkdownSession) (h : s.pendingChars_ = []) : s.push [] = (s, []) := by
  unfold MarkdownSession.push
  simp only [pushFuel, pushLoop_done _ s _ _ h]
  rfl

/-- Pushing chunks one after the other leaves the session in the state that one push of
their concatenation leaves it in, and returns segments with the same events. -/
theorem pushAll_join (chunks : List (List Nat)) :
    ∀ (s : MarkdownSession), CallOK s → s.pendingChars_ = [] →
      (pushAll s chunks).1 = (s.push chunks.flatten).1 ∧
      segEvents (pushAll s chunks).2 = segEvents (s.push chunks.flatten).2 := by
  induction chunks with
  | nil =>
    intro s _ hp
    rw [List.flatten_nil, push_nil s hp]
    exact ⟨rfl, rfl⟩
  | cons c cs ih =>
    intro s h _
    obtain ⟨ok, hp'⟩ := push_callOK s c h
    obtain ⟨i1, i2⟩ := ih (s.push c).1 ok hp'
    obtain ⟨a1, a2⟩ := push_append s c cs.flatten h
    simp only [pushAll, List.flatten_cons, segEvents_append]
    rw [i1, i2, a1, a2]
    exact ⟨rfl, rfl⟩

theorem callOK_new (plugins : List PluginEntry)
    (h : ∀ t ∈ plugins.map (fun x => x.tag), t ≠ SEG_BREAK) :
    CallOK (MarkdownSession.new plugins) := by
  refine ⟨?_, (by decide : MD_PLAIN_TEXT ≠ SEG_BREAK), le_refl (0 : Int),
    by simp [MarkdownSession.new], by simp [MarkdownSession.new]⟩
  simpa [MarkdownSession.new, Function.comp_def] using h

theorem callOK_block : CallOK createMarkdownBlockSession :=
  callOK_new _ (by decide)

theorem callOK_inline : CallOK createMarkdownInlineSession :=
  callOK_new _ (by decide)

/-! ## Order of the segments: the emitter -/

theorem segsOK_mono {lo hi hi' : Int} (h : hi ≤ hi') :
    ∀ {l : List Segment}, SegsOK lo hi l → SegsOK lo hi' l := by
  intro l
  induction l generalizing lo with
  | nil => intro hl; exact le_trans hl h
  | cons s rest ih =>
    intro hl
    unfold SegsOK at hl ⊢
    split
    · next hb => rw [if_pos hb] at hl; exact ⟨hl.1, ih hl.2⟩
    · next hb => rw [if_neg hb] at hl; exact ⟨hl.1, ih hl.2⟩

theorem segsOK_lo_le {lo hi : Int} : ∀ {l : List Segment}, SegsOK lo hi l → lo ≤ hi := by
  intro l
  induction l generalizing lo with
  | nil => intro hl; exact hl
  | cons s rest ih =>
    intro hl
    unfold SegsOK at hl
    split at hl
    · exact ih hl.2
    · have := ih hl.2
      omega

theorem segsOK_append_break {lo hi : Int} (pos : Int) :
    ∀ {l : List Segment}, SegsOK lo hi l → SegsOK lo hi (l ++ [⟨SEG_BREAK, pos, pos⟩]) := by
  intro l
  induction l generalizing lo with
  | nil => intro hl; simp only [List.nil_append, SegsOK, if_true]; exact ⟨trivial, hl⟩
  | cons s rest ih =>
    intro hl
    simp only [List.cons_append]
    unfold SegsOK at hl ⊢
    split
    · next hb => rw [if_pos hb] at hl; exact ⟨hl.1, ih hl.2⟩
    · next hb => rw [if_neg hb] at hl; exact ⟨hl.1, ih hl.2⟩

/-- A sequence that ends in a non-break segment is ordered exactly when the sequence
before it is ordered below its start and it is a non-empty range below the bound. -/
theorem segsOK_append_seg {lo hi : Int} (s : Segment) (hs : s.type ≠ SEG_BREAK) :
    ∀ {l : List Segment}, SegsOK lo hi (l ++ [s]) ↔
      (SegsOK lo s.start l ∧ s.start < s.end_ ∧ s.end_ ≤ hi) := by
  intro l
  induction l generalizing lo with
  | nil =>
    simp only [List.nil_append, SegsOK, if_neg hs]
    constructor
    · rintro ⟨⟨h1, h2⟩, h3⟩; exact ⟨h1, h2, h3⟩
    · rintro ⟨h1, h2, h3⟩; exact ⟨⟨h1, h2⟩, h3⟩
  | cons x rest ih =>
    simp only [List.cons_append]
    by_cases hb : x.type = SEG_BREAK
    · simp only [SegsOK, if_pos hb, ih]
      tauto
    · simp only [SegsOK, if_neg hb, ih]
      tauto

theorem emInv_new {lo hi : Int} (h : lo ≤ hi) : EmInv lo Emitter.new hi := by
  refine ⟨runOK_new, ?_⟩
  rw [segs_new]
  exact h

theorem emInv_mono {lo hi hi' : Int} {e : Emitter} (h : EmInv lo e hi) (hh : hi ≤ hi') :
    EmInv lo e hi' := ⟨h.1, segsOK_mono hh h.2⟩

theorem emInv_flushRun {lo hi : Int} {e : Emitter} (h : EmInv lo e hi) :
    EmInv lo (flushRun e) hi := by
  refine ⟨flushRun_runOK e, ?_⟩
  rw [flushRun_segs]
  exact h.2

theorem emInv_emitBreak {lo hi : Int} {e : Emitter} (pos : Int) (h : EmInv lo e hi) :
    EmInv lo (emitBreak e pos) hi := by
  refine ⟨emitBreak_runOK e pos, ?_⟩
  rw [emitBreak_segs]
  exact segsOK_append_break pos h.2

/-- Emitting an index at or above everything emitted so far keeps the order; everything
emitted then ends at or below the index plus one. -/
theorem emInv_emitIndex {lo hi : Int} {e : Emitter} {t i : Int} (h : EmInv lo e hi)
    (ht : t ≠ SEG_BREAK) (hi' : hi ≤ i) : EmInv lo (emitIndex e t i) (i + 1) := by
  obtain ⟨hrun, hseg⟩ := h
  have hlo := segsOK_lo_le hseg
  rcases emitIndex_cases e t i with ⟨h0, h1, h2, he⟩ | ⟨h0, _, he⟩ | ⟨h0, he⟩ <;> rw [he]
  · obtain ⟨h3, h4⟩ := hrun h0
    refine ⟨fun _ => ⟨by simp only; omega, h4⟩, ?_⟩
    simp only [Emitter.segs, Emitter.runSeg, if_pos h0] at hseg ⊢
    rw [segsOK_append_seg _ h4] at hseg ⊢
    exact ⟨hseg.1, by simp only; omega, le_refl _⟩
  · obtain ⟨h3, h4⟩ := hrun h0
    have h0' : (0 : Int) ≤ i := by
      simp only [Emitter.segs, Emitter.runSeg, if_pos h0] at hseg
      rw [segsOK_append_seg _ h4] at hseg
      have := hseg.2.2
      simp only at this h3
      omega
    refine ⟨fun _ => ⟨by simp only; omega, ht⟩, ?_⟩
    simp only [Emitter.segs, Emitter.runSeg, if_pos h0, if_pos h0'] at hseg ⊢
    rw [segsOK_append_seg ⟨t, i, i + 1⟩ ht]
    exact ⟨segsOK_mono hi' hseg, by simp only; omega, le_refl _⟩
  · by_cases h0' : (0 : Int) ≤ i
    · refine ⟨fun _ => ⟨by simp only; omega, ht⟩, ?_⟩
      simp only [Emitter.segs, Emitter.runSeg, if_neg (not_le.2 h0), if_pos h0',
        List.append_nil] at hseg ⊢
      rw [segsOK_append_seg ⟨t, i, i + 1⟩ ht]
      exact ⟨segsOK_mono hi' hseg, by simp only; omega, le_refl _⟩
    · refine ⟨fun hh => absurd hh h0', ?_⟩
      simp only [Emitter.segs, Emitter.runSeg, if_neg (not_le.2 h0), if_neg h0',
        List.append_nil] at hseg ⊢
      exact segsOK_mono (by omega) hseg

theorem emInv_emitIf {lo hi : Int} {e : Emitter} {t i : Int} (b : Bool) (h : EmInv lo e hi)
    (ht : t ≠ SEG_BREAK) (hi' : hi ≤ i) :
    EmInv lo (if b = true then emitIndex e t i else e) (i + 1) := by
  cases b
  · exact emInv_mono h (by omega)
  · exact emInv_emitIndex h ht hi'

/-- Emitting, in ascending order, any of the indices `start, ..., start + n - 1`. -/
theorem emInv_foldl_range {lo hi start : Int} {t : Int} (ht : t ≠ SEG_BREAK)
    (p : Nat → Prop) [DecidablePred p] (n : Nat) :
    ∀ {e : Emitter}, EmInv lo e hi → hi ≤ start →
      EmInv lo ((List.range n).foldl
        (fun e (bi : Nat) => if p bi then emitIndex e t (start + (bi : Int)) else e) e)
        (start + n) := by
  induction n with
  | zero =>
    intro e h hs
    simpa using emInv_mono h hs
  | succ n ih =>
    intro e h hs
    rw [List.range_succ, List.foldl_append]
    simp only [List.foldl_cons, List.foldl_nil]
    have := ih h hs
    split
    · have h2 := emInv_emitIndex this ht (le_refl _)
      have e1 : start + ((n + 1 : Nat) : Int) = start + (n : Int) + 1 := by push_cast; ring
      rw [e1]; exact h2
    · exact emInv_mono this (by push_cast; omega)

/-! ## Order of the segments: the session -/

theorem emitPending_single (e : Emitter) (tag g : Int) (b : Bool) :
    emitPending e tag [⟨g, b⟩] = if b = true then emitIndex e tag g else e := by
  simp [emitPending]

theorem processWaitfor_inv (s : MarkdownSession) (e : Emitter) (c : Nat) (G lo : Int)
    (hc : Core s G) (hp : s.pendingChars_ = []) (ho : s.globalOffset_ = G + 1)
    (hw : s.waitforActive_ = true)
    (he : EmInv lo e (G - s.waitforPending_.length - s.evaluationBuffer_.length)) :
    SessInv (processWaitfor s e c G).1 ∧
    EmInv lo (processWaitfor s e c G).2 (lowMark (processWaitfor s e c G).1) ∧
    (processWaitfor s e c G).1.globalOffset_ = G + 1 := by
  obtain ⟨ps, hs1, htag⟩ := activeProcessChar_eq s c s.waitforAtStartOfLine_
  obtain ⟨⟨b, hwp⟩, hbuf⟩ := hc.waitfor_on hw
  have hlow := hc.low
  rw [hwp, hbuf] at hlow he
  simp only [List.length_singleton, List.length_nil, Nat.cast_one, Nat.cast_zero,
    sub_zero] at hlow he
  have h1 : EmInv lo (if b = true then emitIndex e s.activeTag_ (G - 1) else e) G := by
    have := emInv_emitIf b he hc.activeTag (le_refl _)
    simpa using this
  have h2 : EmInv lo (if b = true then emitIndex e MD_PLAIN_TEXT (G - 1) else e) G := by
    have := emInv_emitIf b he (by decide : MD_PLAIN_TEXT ≠ SEG_BREAK) (le_refl _)
    simpa using this
  unfold processWaitfor
  simp only [hs1, hwp, emitPending_single]
  split
  · refine ⟨⟨⟨?_, hc.activeTag, ?_, ?_, ?_, ?_, ?_⟩, Or.inl hp⟩, ?_, ho⟩
    · simp only [htag]; exact hc.tags
    · intro h; simp at h
    · intro _; rfl
    · intro h; exact absurd hbuf h
    · intro _; exact hc.buffer_off hbuf
    · simp only [nextIndex, hp, ho, hbuf, List.length_nil, Nat.cast_zero]; omega
    · simp only [lowMark, nextIndex, hp, ho, hbuf, List.length_nil, Nat.cast_zero, sub_zero]
      exact emInv_emitIf _ h1 hc.activeTag (le_refl _)
  · refine ⟨⟨⟨?_, (by decide : MD_PLAIN_TEXT ≠ SEG_BREAK), ?_, ?_, ?_, ?_, ?_⟩,
      Or.inr ⟨c, ?_, rfl, rfl, hbuf⟩⟩, ?_, ho⟩
    · simp only [resetAll_tags, htag]; exact hc.tags
    · intro h; simp at h
    · intro _; rfl
    · intro h; exact absurd hbuf h
    · intro _; exact hc.buffer_off hbuf
    · simp only [nextIndex, hp, hbuf, List.length_nil, Nat.cast_zero]; omega
    · simp only [hp, ho]; simp
    · simp only [lowMark, nextIndex, hp, hbuf, List.length_nil, Nat.cast_zero, sub_zero]
      exact emInv_emitBreak G h2

theorem processActive_inv (s : MarkdownSession) (e : Emitter) (c : Nat) (sol : Bool)
    (G lo : Int) (hc : Core s G) (hp : s.pendingChars_ = []) (ho : s.globalOffset_ = G + 1)
    (hw : s.waitforActive_ = false) (ha : s.activePlugin_.isSome = true)
    (he : EmInv lo e (G - s.waitforPending_.length - s.evaluationBuffer_.length)) :
    SessInv (processActive s e c sol G).1 ∧
    EmInv lo (processActive s e c sol G).2 (lowMark (processActive s e c sol G).1) ∧
    (processActive s e c sol G).1.globalOffset_ = G + 1 := by
  obtain ⟨ps, hs1, htag⟩ := activeProcessChar_eq s c sol
  have hwp := hc.waitfor_off hw
  have hbuf : s.evaluationBuffer_ = [] := by
    by_contra hne
    have := (hc.buffer_on hne).2.2
    rw [this] at ha
    simp at ha
  have hlow := hc.low
  rw [hwp, hbuf] at hlow he
  simp only [List.length_nil, Nat.cast_zero, sub_zero] at hlow he
  have h1 := emInv_emitIf (s.activeProcessChar c sol).2 he hc.activeTag (le_refl _)
  unfold processActive
  simp only [hs1]
  split
  · refine ⟨⟨⟨?_, hc.activeTag, ?_, ?_, ?_, ?_, ?_⟩, Or.inl hp⟩, ?_, ho⟩
    · simp only [htag]; exact hc.tags
    · intro _
      refine ⟨⟨(s.activeProcessChar c sol).2, ?_⟩, hbuf⟩
      simp only [nextIndex, hp, ho, hwp, List.nil_append]
      simp
    · intro h; simp at h
    · intro h; exact absurd hbuf h
    · intro _; exact hc.buffer_off hbuf
    · simp only [nextIndex, hp, ho, hbuf, hwp, List.nil_append, List.length_singleton,
        List.length_nil, Nat.cast_zero, Nat.cast_one]
      omega
    · simp only [lowMark, nextIndex, hp, ho, hbuf, hwp, List.nil_append, List.length_singleton,
        List.length_nil, Nat.cast_zero, Nat.cast_one]
      exact emInv_mono he (by omega)
  · split
    · refine ⟨⟨⟨?_, (by decide : MD_PLAIN_TEXT ≠ SEG_BREAK), ?_, ?_, ?_, ?_, ?_⟩, Or.inl hp⟩,
        ?_, ho⟩
      · simp only [htag]; exact hc.tags
      · intro h; rw [hw] at h; simp at h
      · intro _; exact hwp
      · intro h; exact absurd hbuf h
      · intro _; exact hc.buffer_off hbuf
      · simp only [nextIndex, hp, ho, hbuf, hwp, List.length_nil, Nat.cast_zero]; omega
      · simp only [lowMark, nextIndex, hp, ho, hbuf, hwp, List.length_nil, Nat.cast_zero,
          sub_zero]
        exact emInv_emitBreak _ h1
    · refine ⟨⟨⟨?_, hc.activeTag, ?_, ?_, ?_, ?_, ?_⟩, Or.inl hp⟩, ?_, ho⟩
      · simp only [htag]; exact hc.tags
      · intro h; rw [hw] at h; simp at h
      · intro _; exact hwp
      · intro h; exact absurd hbuf h
      · intro _; exact hc.buffer_off hbuf
      · simp only [nextIndex, hp, ho, hbuf, hwp, List.length_nil, Nat.cast_zero]; omega
      · simp only [lowMark, nextIndex, hp, ho, hbuf, hwp, List.length_nil, Nat.cast_zero,
          sub_zero]
        exact h1

theorem emInv_emitBuffered {lo hi start tag : Int} {e : Emitter} (ht : tag ≠ SEG_BREAK)
    (masks : List Nat) (k n : Nat) (h : EmInv lo e hi) (hs : hi ≤ start) :
    EmInv lo (emitBuffered e tag start masks k n) (start + n) :=
  emInv_foldl_range ht (fun bi => (masks.getD bi 0) &&& ((1 <<< k) % 4294967296) ≠ 0) n h hs

theorem emInv_emitPlain {lo hi start : Int} {e : Emitter} (n : Nat) (h : EmInv lo e hi)
    (hs : hi ≤ start) : EmInv lo (emitPlain e start n) (start + n) := by
  have := emInv_foldl_range (t := MD_PLAIN_TEXT) (by decide) (fun _ => True) n h hs
  simpa [emitPlain] using this

theorem processEvaluation_inv (s : MarkdownSession) (e : Emitter) (c : Nat) (sol : Bool)
    (G lo : Int) (hc : Core s G) (hp : s.pendingChars_ = []) (ho : s.globalOffset_ = G + 1)
    (hw : s.waitforActive_ = false) (ha : s.activePlugin_ = none)
    (he : EmInv lo e (G - s.waitforPending_.length - s.evaluationBuffer_.length)) :
    SessInv (processEvaluation s e c sol G).1 ∧
    EmInv lo (processEvaluation s e c sol G).2 (lowMark (processEvaluation s e c sol G).1) ∧
    (processEvaluation s e c sol G).1.globalOffset_ = G + 1 := by
  have hwp := hc.waitfor_off hw
  have hlow := hc.low
  rw [hwp] at hlow he
  simp only [List.length_nil, Nat.cast_zero, sub_zero] at hlow he
  have hstart : (if s.evalStartGlobal_ < 0 then G else s.evalStartGlobal_) =
      G - s.evaluationBuffer_.length := by
    by_cases hb : s.evaluationBuffer_ = []
    · rw [if_pos (hc.buffer_off hb), hb]; simp
    · have := (hc.buffer_on hb).1
      rw [if_neg (by omega), this]
  have htags : ∀ t ∈ (evalAll c sol s.plugins_ 0 0).1.map (fun x => x.tag), t ≠ SEG_BREAK := by
    rw [evalAll_tags]; exact hc.tags
  have hend : G - (s.evaluationBuffer_.length : Int) + ((s.evaluationBuffer_ ++ [c]).length : Nat)
      = G + 1 := by
    simp only [List.length_append, List.length_singleton]; push_cast; omega
  unfold processEvaluation
  simp only [hstart]
  cases findSuccessful (evalAll c sol s.plugins_ 0 0).1 0 with
  | some k =>
    simp only []
    refine ⟨⟨⟨?_, getElem?_tag_ne _ k htags, ?_, ?_, ?_, ?_, ?_⟩, Or.inl hp⟩, ?_, ho⟩
    · simp only [resetOthers_tags]; exact htags
    · intro h; rw [hw] at h; simp at h
    · intro _; exact hwp
    · intro h; exact absurd rfl h
    · intro _; exact (by decide : (-1 : Int) < 0)
    · simp only [nextIndex, hp, ho, hwp, List.length_nil, Nat.cast_zero]; omega
    · simp only [lowMark, nextIndex, hp, ho, hwp, List.length_nil, Nat.cast_zero, sub_zero]
      have := emInv_emitBuffered (getElem?_tag_ne _ k htags)
        (s.evaluationEmitMask_ ++ [(evalAll c sol s.plugins_ 0 0).2]) k
        (s.evaluationBuffer_ ++ [c]).length (emInv_flushRun he) (le_refl _)
      rw [hend] at this
      exact this
  | none =>
    simp only []
    split
    · refine ⟨⟨⟨?_, hc.activeTag, ?_, ?_, ?_, ?_, ?_⟩, Or.inl hp⟩, ?_, ho⟩
      · simp only [resetAll_tags]; exact htags
      · intro h; rw [hw] at h; simp at h
      · intro _; exact hwp
      · intro h; exact absurd rfl h
      · intro _; exact (by decide : (-1 : Int) < 0)
      · simp only [nextIndex, hp, ho, hwp, List.length_nil, Nat.cast_zero]; omega
      · simp only [lowMark, nextIndex, hp, ho, hwp, List.length_nil, Nat.cast_zero, sub_zero]
        have := emInv_emitPlain (s.evaluationBuffer_ ++ [c]).length he (le_refl _)
        rw [hend] at this
        exact this
    · refine ⟨⟨⟨htags, hc.activeTag, ?_, ?_, ?_, ?_, ?_⟩, Or.inl hp⟩, ?_, ho⟩
      · intro h; rw [hw] at h; simp at h
      · intro _; exact hwp
      · intro _
        refine ⟨?_, hw, ha⟩
        simp only [nextIndex, hp, ho, List.length_append, List.length_singleton]
        push_cast; omega
      · intro h; simp at h
      · simp only [nextIndex, hp, ho, hwp, List.length_nil, Nat.cast_zero, List.length_append,
          List.length_singleton]
        push_cast; omega
      · simp only [lowMark, nextIndex, hp, ho, hwp, List.length_nil, Nat.cast_zero,
          List.length_append, List.length_singleton]
        exact emInv_mono he (by push_cast; omega)

theorem core_withOffset {s : MarkdownSession} {G : Int} (h : Core s G) (x : Int) :
    Core { s with globalOffset_ := x } G :=
  ⟨h.tags, h.activeTag, h.waitfor_on, h.waitfor_off, h.buffer_on, h.buffer_off, h.low⟩

theorem core_withPending {s : MarkdownSession} {G : Int} (h : Core s G) (x : List PendingChar) :
    Core { s with pendingChars_ := x } G :=
  ⟨h.tags, h.activeTag, h.waitfor_on, h.waitfor_off, h.buffer_on, h.buffer_off, h.low⟩

/-- One iteration of the loop of `push` that reads a code unit of the chunk. -/
theorem processOne_inv_read (s : MarkdownSession) (e : Emitter) (c : Nat) (sol : Bool)
    (lo : Int) (hs : SessInv s) (hp : s.pendingChars_ = []) (he : EmInv lo e (lowMark s)) :
    SessInv (processOne s e c sol (-1)).1 ∧
    EmInv lo (processOne s e c sol (-1)).2 (lowMark (processOne s e c sol (-1)).1) ∧
    (processOne s e c sol (-1)).1.globalOffset_ = s.globalOffset_ + 1 := by
  have hn : nextIndex s = s.globalOffset_ := by simp only [nextIndex, hp]
  have hc := hs.core
  rw [hn] at hc
  have hc1 := core_withOffset hc (s.globalOffset_ + 1)
  simp only [lowMark, hn] at he
  unfold processOne
  simp only [show ¬ (0 : Int) ≤ -1 by decide, show (-1 : Int) < 0 by decide, if_true, if_false]
  by_cases hw : s.waitforActive_ = true
  · rw [if_pos hw]
    exact processWaitfor_inv _ e c _ lo hc1 hp rfl hw he
  · rw [if_neg hw]
    have hw' : s.waitforActive_ = false := by simpa using hw
    by_cases ha : s.activePlugin_.isSome = true
    · rw [if_pos ha]
      exact processActive_inv _ e c sol _ lo hc1 hp rfl hw' ha he
    · rw [if_neg ha]
      have ha' : s.activePlugin_ = none := by simpa using ha
      exact processEvaluation_inv _ e c sol _ lo hc1 hp rfl hw' ha' he

/-- One iteration of the loop of `push` that pops the re-queued code unit. -/
theorem processOne_inv_pop (s : MarkdownSession) (e : Emitter) (pc : PendingChar)
    (rest : List PendingChar) (sol : Bool) (lo : Int) (hs : SessInv s)
    (hp : s.pendingChars_ = pc :: rest) (he : EmInv lo e (lowMark s)) :
    SessInv (processOne { s with pendingChars_ := rest } e pc.c sol pc.globalIndex).1 ∧
    EmInv lo (processOne { s with pendingChars_ := rest } e pc.c sol pc.globalIndex).2
      (lowMark (processOne { s with pendingChars_ := rest } e pc.c sol pc.globalIndex).1) ∧
    (processOne { s with pendingChars_ := rest } e pc.c sol pc.globalIndex).1.globalOffset_ =
      s.globalOffset_ := by
  rcases hs.next with hnil | ⟨c, hcons, hw, ha, hbuf⟩
  · rw [hnil] at hp; cases hp
  · rw [hcons] at hp
    simp only [List.cons.injEq] at hp
    obtain ⟨hpc, hrest⟩ := hp
    subst hpc hrest
    have hn : nextIndex s = s.globalOffset_ - 1 := by simp only [nextIndex, hcons]
    have hc := hs.core
    rw [hn] at hc
    have hwp := hc.waitfor_off hw
    have hlow := hc.low
    rw [hwp, hbuf] at hlow
    simp only [List.length_nil, Nat.cast_zero, sub_zero] at hlow
    have hc1 := core_withOffset (core_withPending hc []) s.globalOffset_
    simp only [lowMark, hn] at he
    have hwn : ¬ s.waitforActive_ = true := by rw [hw]; simp
    have han : ¬ s.activePlugin_.isSome = true := by rw [ha]; simp
    unfold processOne
    simp only [if_pos hlow, if_neg (not_lt.2 hlow), if_neg hwn, if_neg han]
    have := processEvaluation_inv _ e c sol _ lo hc1 rfl (by simp) hw ha he
    simpa using this

/-- The loop of `push` keeps the session invariant and the order of the segments, and
advances the global offset by the number of code units read. -/
theorem pushLoop_inv : ∀ (fuel : Nat) (s : MarkdownSession) (e : Emitter) (sol : Bool)
    (chars : List Nat) (lo : Int), loopMeasure s chars < fuel → SessInv s →
    EmInv lo e (lowMark s) →
    SessInv (pushLoop fuel s e sol chars).1 ∧
    EmInv lo (pushLoop fuel s e sol chars).2.1 (lowMark (pushLoop fuel s e sol chars).1) ∧
    (pushLoop fuel s e sol chars).1.globalOffset_ = s.globalOffset_ + chars.length := by
  intro fuel
  induction fuel with
  | zero => intro s e sol chars lo h; omega
  | succ fuel ih =>
    intro s e sol chars lo h hs he
    rcases pending_cases s with hp | ⟨pc, rest, hp⟩
    · cases chars with
      | nil =>
        rw [pushLoop_done fuel s e sol hp]
        exact ⟨hs, he, by simp⟩
      | cons c cs =>
        rw [pushLoop_read fuel s e sol c cs hp]
        obtain ⟨h1, h2, h3⟩ := processOne_inv_read s e c sol lo hs hp he
        have hm := measure_read s e c sol cs
        obtain ⟨i1, i2, i3⟩ := ih _ _ (decide (c = ch_nl)) cs lo (by omega) h1 h2
        refine ⟨i1, i2, ?_⟩
        rw [i3, h3]
        simp only [List.length_cons]
        push_cast; ring
    · rw [pushLoop_pop fuel s e sol chars pc rest hp]
      obtain ⟨h1, h2, h3⟩ := processOne_inv_pop s e pc rest sol lo hs hp he
      have hm := measure_pop s e pc rest sol chars hp
      obtain ⟨i1, i2, i3⟩ := ih _ _ (decide (pc.c = ch_nl)) chars lo (by omega) h1 h2
      exact ⟨i1, i2, by rw [i3, h3]⟩

theorem sessInv_withSol {s : MarkdownSession} (h : SessInv s) (b : Bool) :
    SessInv { s with atStartOfLine_ := b } :=
  ⟨⟨h.core.tags, h.core.activeTag, h.core.waitfor_on, h.core.waitfor_off, h.core.buffer_on,
    h.core.buffer_off, h.core.low⟩, h.next⟩

/-- A push keeps the session invariant, empties the pending-char queue, advances the
global offset by the length of the chunk, and returns segments that are ordered above
`lo` and end at or below the low-water mark of the session afterwards. -/
theorem push_inv (s : MarkdownSession) (chars : List Nat) (lo : Int) (hs : SessInv s)
    (hlo : lo ≤ lowMark s) :
    SessInv (s.push chars).1 ∧ (s.push chars).1.pendingChars_ = [] ∧
    SegsOK lo (lowMark (s.push chars).1) (s.push chars).2 ∧
    (s.push chars).1.globalOffset_ = s.globalOffset_ + chars.length := by
  have hF := pushFuel_gt s chars
  obtain ⟨h1, h2, h3⟩ := pushLoop_inv (pushFuel s chars) s Emitter.new s.atStartOfLine_ chars lo
    hF hs (emInv_new hlo)
  have h4 := pushLoop_pending (pushFuel s chars) s Emitter.new s.atStartOfLine_ chars hF
  rw [push_eq s chars _ hF]
  refine ⟨sessInv_withSol h1 _, h4, ?_, h3⟩
  rw [flushRun_out]
  exact h2.2

theorem segsOK_ordered {lo h hi : Int} (hh : h ≤ hi) :
    ∀ {l : List Segment}, SegsOK lo h l → segsOrdered lo hi l ∧ lastEnd lo l ≤ h := by
  intro l
  induction l generalizing lo with
  | nil => intro hl; exact ⟨trivial, hl⟩
  | cons s rest ih =>
    intro hl
    unfold SegsOK at hl
    unfold segsOrdered lastEnd
    split
    · next hb =>
      rw [if_pos hb] at hl
      exact ⟨⟨hl.1, (ih hl.2).1⟩, (ih hl.2).2⟩
    · next hb =>
      rw [if_neg hb] at hl
      have := segsOK_lo_le hl.2
      exact ⟨⟨⟨hl.1.1, hl.1.2, by omega⟩, (ih hl.2).1⟩, (ih hl.2).2⟩

theorem lowMark_le_offset (s : MarkdownSession) (h : s.pendingChars_ = []) :
    lowMark s ≤ s.globalOffset_ := by
  simp only [lowMark, nextIndex, h]
  omega

theorem pushes_ordered (chunks : List (List Nat)) :
    ∀ (s : MarkdownSession) (lo pushed : Int), SessInv s → s.pendingChars_ = [] →
      lo ≤ lowMark s → s.globalOffset_ = pushed → pushesOrdered s lo pushed chunks := by
  induction chunks with
  | nil => intro s lo pushed _ _ _ _; trivial
  | cons c cs ih =>
    intro s lo pushed hs hp hlo hoff
    obtain ⟨h1, h2, h3, h4⟩ := push_inv s c lo hs hlo
    have hle := lowMark_le_offset _ h2
    rw [h4, hoff] at hle
    obtain ⟨o1, o2⟩ := segsOK_ordered hle h3
    exact ⟨o1, ih _ _ _ h1 h2 o2 (by rw [h4, hoff])⟩

theorem sessInv_new (plugins : List PluginEntry)
    (h : ∀ t ∈ plugins.map (fun x => x.tag), t ≠ SEG_BREAK) :
    SessInv (MarkdownSession.new plugins) := by
  refine ⟨⟨?_, (by decide : MD_PLAIN_TEXT ≠ SEG_BREAK), ?_, ?_, ?_, ?_, ?_⟩, Or.inl rfl⟩
  · simpa [MarkdownSession.new, Function.comp_def] using h
  · intro hw; simp [MarkdownSession.new] at hw
  · intro _; rfl
  · intro hb; simp [MarkdownSession.new] at hb
  · intro _; exact (by decide : (-1 : Int) < 0)
  · simp [MarkdownSession.new, nextIndex]

/-! ## Neighbouring segments of the same tag: the emitter -/

theorem adjacentAll_concat (R : Segment → Segment → Prop) (x : Segment) :
    ∀ (l : List Segment), adjacentAll R (l ++ [x]) ↔
      (adjacentAll R l ∧ ∀ y ∈ l.getLast?, R y x) := by
  intro l
  induction l with
  | nil => simp [adjacentAll]
  | cons a rest ih =>
    cases rest with
    | nil => simp [adjacentAll]
    | cons b rest =>
      have ih' : adjacentAll R (b :: (rest ++ [x])) ↔
          (adjacentAll R (b :: rest) ∧ ∀ y ∈ (b :: rest).getLast?, R y x) := ih
      change (R a b ∧ adjacentAll R (b :: (rest ++ [x]))) ↔
        ((R a b ∧ adjacentAll R (b :: rest)) ∧ ∀ y ∈ (a :: b :: rest).getLast?, R y x)
      rw [ih', List.getLast?_cons_cons]
      tauto

theorem getLast?_segs_open (e : Emitter) (h : 0 ≤ e.runStart) :
    e.segs.getLast? = some ⟨e.runTag, e.runStart, e.runEnd⟩ := by
  simp only [Emitter.segs, Emitter.runSeg, if_pos h, List.getLast?_concat]

theorem segs_closed (e : Emitter) (h : e.runStart < 0) : e.segs = e.out := by
  simp only [Emitter.segs, Emitter.runSeg, if_neg (not_le.2 h), List.append_nil]

theorem emInv_runEnd_le {lo hi : Int} {e : Emitter} (h : EmInv lo e hi) (h0 : 0 ≤ e.runStart) :
    e.runEnd ≤ hi := by
  obtain ⟨hrun, hseg⟩ := h
  obtain ⟨_, h4⟩ := hrun h0
  simp only [Emitter.segs, Emitter.runSeg, if_pos h0] at hseg
  rw [segsOK_append_seg _ h4] at hseg
  exact hseg.2.2

theorem noAbut_emitBreak (e : Emitter) (pos : Int) (h : noAbut e.segs) :
    noAbut (emitBreak e pos).segs ∧ (emitBreak e pos).runStart < 0 ∧
    (emitBreak e pos).out.getLast? = some ⟨SEG_BREAK, pos, pos⟩ := by
  have hclosed : (emitBreak e pos).runStart < 0 := by simp [emitBreak, flushRun]
  refine ⟨?_, hclosed, ?_⟩
  · rw [emitBreak_segs]
    unfold noAbut at h ⊢
    rw [adjacentAll_concat]
    refine ⟨h, ?_⟩
    intro y _ hy
    exact absurd hy.2 hy.1
  · rw [← segs_closed _ hclosed, emitBreak_segs, List.getLast?_concat]

theorem noAbut_flushRun (e : Emitter) (h : noAbut e.segs) :
    noAbut (flushRun e).segs ∧ (flushRun e).runStart < 0 ∧ (flushRun e).out = e.segs := by
  refine ⟨by rw [flushRun_segs]; exact h, by simp [flushRun], flushRun_out e⟩

/-- Emitting an index at or above everything emitted so far keeps neighbours of the same
tag apart, and leaves a run with the emitted tag open. -/
theorem noAbut_emitIndex {lo hi : Int} {e : Emitter} {t i : Int} (hinv : EmInv lo e hi)
    (hle : hi ≤ i) (h0 : 0 ≤ i) (hch : noAbut e.segs) (hcl : ClosedOK e t i) :
    noAbut (emitIndex e t i).segs ∧ 0 ≤ (emitIndex e t i).runStart ∧
    (emitIndex e t i).runTag = t := by
  unfold noAbut at hch ⊢
  rcases emitIndex_cases e t i with ⟨h1, h2, h3, he⟩ | ⟨h1, h2, he⟩ | ⟨h1, he⟩ <;> rw [he]
  · refine ⟨?_, h1, h2⟩
    simp only [Emitter.segs, Emitter.runSeg, if_pos h1] at hch ⊢
    rw [adjacentAll_concat] at hch ⊢
    exact ⟨hch.1, fun y hy => hch.2 y hy⟩
  · refine ⟨?_, h0, rfl⟩
    have hend := emInv_runEnd_le hinv h1
    have hsegs : (Emitter.mk (e.out ++ [⟨e.runTag, e.runStart, e.runEnd⟩]) t i (i + 1)).segs =
        e.segs ++ [⟨t, i, i + 1⟩] := by
      simp only [Emitter.segs, Emitter.runSeg, if_pos h1, if_pos h0]
    rw [hsegs, adjacentAll_concat]
    refine ⟨hch, ?_⟩
    intro y hy hst
    rw [getLast?_segs_open e h1] at hy
    simp only [Option.mem_def, Option.some.injEq] at hy
    subst hy
    simp only [SameTag] at hst
    rcases h2 with h2 | h2
    · exact absurd hst.2 h2
    · simp only
      omega
  · refine ⟨?_, h0, rfl⟩
    have hsegs : (Emitter.mk e.out t i (i + 1)).segs = e.segs ++ [⟨t, i, i + 1⟩] := by
      simp only [Emitter.segs, Emitter.runSeg, if_neg (not_le.2 h1), if_pos h0, List.append_nil]
    rw [hsegs, adjacentAll_concat]
    refine ⟨hch, ?_⟩
    intro y hy hst
    rw [segs_closed e h1] at hy
    simp only [SameTag] at hst
    rcases hcl h1 y hy with h | h | h
    · exact absurd h hst.1
    · exact absurd hst.2 h
    · exact h

theorem closedOK_mono {e : Emitter} {t i j : Int} (h : ClosedOK e t i) (hij : i ≤ j) :
    ClosedOK e t j := by
  intro h1 x hx
  rcases h h1 x hx with h | h | h
  · exact Or.inl h
  · exact Or.inr (Or.inl h)
  · exact Or.inr (Or.inr (by omega))

theorem noAbut_emitIf {lo hi : Int} {e : Emitter} {t i : Int} (b : Bool) (hinv : EmInv lo e hi)
    (hle : hi ≤ i) (h0 : 0 ≤ i) (hch : noAbut e.segs) (hcl : ClosedOK e t i) :
    noAbut (if b = true then emitIndex e t i else e).segs ∧
    ((if b = true then emitIndex e t i else e) = e ∨
      (0 ≤ (if b = true then emitIndex e t i else e).runStart ∧
        (if b = true then emitIndex e t i else e).runTag = t)) := by
  cases b
  · exact ⟨hch, Or.inl rfl⟩
  · have := noAbut_emitIndex hinv hle h0 hch hcl
    exact ⟨this.1, Or.inr this.2⟩

/-- Emitting, in ascending order, any of the indices `start, ..., start + n - 1` under one
tag keeps neighbours of the same tag apart; either nothing was emitted or a run with that
tag is open afterwards. -/
theorem noAbut_foldl_range {lo hi start t : Int} (ht : t ≠ SEG_BREAK) (p : Nat → Prop)
    [DecidablePred p] (n : Nat) {e : Emitter} (hinv : EmInv lo e hi) (hle : hi ≤ start)
    (h0 : 0 ≤ start) (hch : noAbut e.segs) (hcl : ClosedOK e t start) :
    noAbut ((List.range n).foldl
      (fun e (bi : Nat) => if p bi then emitIndex e t (start + (bi : Int)) else e) e).segs ∧
    ((List.range n).foldl
      (fun e (bi : Nat) => if p bi then emitIndex e t (start + (bi : Int)) else e) e = e ∨
      (0 ≤ ((List.range n).foldl
        (fun e (bi : Nat) => if p bi then emitIndex e t (start + (bi : Int)) else e) e).runStart ∧
      ((List.range n).foldl
        (fun e (bi : Nat) => if p bi then emitIndex e t (start + (bi : Int)) else e) e).runTag
        = t)) := by
  induction n with
  | zero => exact ⟨hch, Or.inl rfl⟩
  | succ n ih =>
    rw [List.range_succ, List.foldl_append]
    simp only [List.foldl_cons, List.foldl_nil]
    have hinv' := emInv_foldl_range ht p n hinv hle
    generalize (List.range n).foldl
      (fun e (bi : Nat) => if p bi then emitIndex e t (start + (bi : Int)) else e) e = e'
      at ih hinv'
    obtain ⟨ih1, ih2⟩ := ih
    split
    · have hcl' : ClosedOK e' t (start + n) := by
        rcases ih2 with ih2 | ih2
        · rw [ih2]; exact closedOK_mono hcl (by omega)
        · intro h1; omega
      have := noAbut_emitIndex hinv' (le_refl _) (by omega) ih1 hcl'
      exact ⟨this.1, Or.inr this.2⟩
    · exact ⟨ih1, ih2⟩

/-! ## Neighbouring segments of the same tag: the session -/

theorem gapInv_closedOK {s : MarkdownSession} {e : Emitter} {L t i : Int} (hg : GapInv s e L)
    (h : L ≤ i ∨ t ≠ MD_PLAIN_TEXT) : ClosedOK e t i := by
  intro h1 x hx
  rcases hg.closed h1 x hx with hb | ⟨h18, _, hend⟩
  · exact Or.inl hb
  · rcases h with h | h
    · exact Or.inr (Or.inr (by omega))
    · exact Or.inr (Or.inl (by rw [h18]; exact fun hh => h hh.symm))

/-- A step that leaves the active tag as it is and emits at most under that tag. -/
theorem gapInv_step {s s' : MarkdownSession} {e e' : Emitter} {L L' : Int}
    (hg : GapInv s e L) (hch : noAbut e'.segs)
    (hor : e' = e ∨ (0 ≤ e'.runStart ∧ e'.runTag = s.activeTag_))
    (htag : s'.activeTag_ = s.activeTag_)
    (hact : s.activePlugin_ ≠ none → s'.activePlugin_ ≠ none) (hL : L ≤ L') :
    GapInv s' e' L' := by
  refine ⟨hch, ?_, ?_⟩
  · intro h0
    rw [htag]
    rcases hor with hor | hor
    · rw [hor] at h0 ⊢; exact hg.runTag h0
    · exact hor.2
  · intro h0 x hx
    rcases hor with hor | hor
    · rw [hor] at h0 hx
      rcases hg.closed h0 x hx with hb | ⟨h18, ha, hend⟩
      · exact Or.inl hb
      · exact Or.inr ⟨h18, hact ha, by omega⟩
    · omega

/-- A step that ends in `emitBreak`. -/
theorem gapInv_break (s' : MarkdownSession) {e : Emitter} (pos L' : Int)
    (hch : noAbut e.segs) : GapInv s' (emitBreak e pos) L' := by
  obtain ⟨h1, h2, h3⟩ := noAbut_emitBreak e pos hch
  refine ⟨h1, fun h0 => by omega, ?_⟩
  intro _ x hx
  rw [h3] at hx
  simp only [Option.mem_def, Option.some.injEq] at hx
  subst hx
  exact Or.inl rfl

theorem emitIf_or {s : MarkdownSession} {e e1 : Emitter} {t i : Int} (b : Bool)
    (h1 : e1 = e ∨ (0 ≤ e1.runStart ∧ e1.runTag = s.activeTag_)) (ht : t = s.activeTag_)
    (h2 : (if b = true then emitIndex e1 t i else e1) = e1 ∨
      (0 ≤ (if b = true then emitIndex e1 t i else e1).runStart ∧
        (if b = true then emitIndex e1 t i else e1).runTag = t)) :
    (if b = true then emitIndex e1 t i else e1) = e ∨
      (0 ≤ (if b = true then emitIndex e1 t i else e1).runStart ∧
        (if b = true then emitIndex e1 t i else e1).runTag = s.activeTag_) := by
  rcases h2 with h2 | h2
  · rw [h2]; exact h1
  · exact Or.inr ⟨h2.1, by rw [h2.2, ht]⟩

theorem processWaitfor_gap (s : MarkdownSession) (e : Emitter) (c : Nat) (G lo : Int)
    (hc : Core s G) (hp : s.pendingChars_ = []) (ho : s.globalOffset_ = G + 1)
    (hw : s.waitforActive_ = true)
    (he : EmInv lo e (G - s.waitforPending_.length - s.evaluationBuffer_.length))
    (ht : TagInv s)
    (hg : GapInv s e (G - s.waitforPending_.length - s.evaluationBuffer_.length)) :
    GapInv (processWaitfor s e c G).1 (processWaitfor s e c G).2
      (lowMark (processWaitfor s e c G).1) ∧
    TagInv (processWaitfor s e c G).1 := by
  obtain ⟨ps, hs1, htag⟩ := activeProcessChar_eq s c s.waitforAtStartOfLine_
  obtain ⟨⟨b, hwp⟩, hbuf⟩ := hc.waitfor_on hw
  have hlow := hc.low
  rw [hwp, hbuf] at hlow he hg
  simp only [List.length_singleton, List.length_nil, Nat.cast_one, Nat.cast_zero,
    sub_zero] at hlow he hg
  have hcl : ∀ t, ClosedOK e t (G - 1) := fun t => gapInv_closedOK hg (Or.inl (le_refl _))
  have e1 : EmInv lo (if b = true then emitIndex e s.activeTag_ (G - 1) else e) G := by
    have := emInv_emitIf b he hc.activeTag (le_refl _)
    simpa using this
  have n1 := noAbut_emitIf b he (le_refl _) hlow hg.chain (hcl s.activeTag_)
  have n2 := noAbut_emitIf b he (le_refl _) hlow hg.chain (hcl MD_PLAIN_TEXT)
  unfold processWaitfor
  simp only [hs1, hwp, emitPending_single]
  split
  · refine ⟨?_, ⟨by simp only [htag]; exact ht.roster, ht.idle, ht.active⟩⟩
    simp only [lowMark, nextIndex, hp, ho, hbuf, List.length_nil, Nat.cast_zero, sub_zero]
    have hcl2 : ClosedOK (if b = true then emitIndex e s.activeTag_ (G - 1) else e)
        s.activeTag_ G := by
      rcases n1.2 with h | h
      · rw [h]; exact closedOK_mono (hcl _) (by omega)
      · intro h1; omega
    have n3 := noAbut_emitIf (s.activeProcessChar c s.waitforAtStartOfLine_).2 e1 (le_refl _)
      (by omega) n1.1 hcl2
    exact gapInv_step hg n3.1 (emitIf_or _ n1.2 rfl n3.2) rfl (fun h => h) (by omega)
  · refine ⟨?_, ⟨by simp only [resetAll_tags, htag]; exact ht.roster, fun _ => rfl,
      fun h => absurd rfl h⟩⟩
    exact gapInv_break _ _ _ n2.1

theorem processActive_gap (s : MarkdownSession) (e : Emitter) (c : Nat) (sol : Bool)
    (G lo : Int) (hc : Core s G) (hp : s.pendingChars_ = []) (ho : s.globalOffset_ = G + 1)
    (hw : s.waitforActive_ = false) (ha : s.activePlugin_.isSome = true)
    (he : EmInv lo e (G - s.waitforPending_.length - s.evaluationBuffer_.length))
    (ht : TagInv s)
    (hg : GapInv s e (G - s.waitforPending_.length - s.evaluationBuffer_.length)) :
    GapInv (processActive s e c sol G).1 (processActive s e c sol G).2
      (lowMark (processActive s e c sol G).1) ∧
    TagInv (processActive s e c sol G).1 := by
  obtain ⟨ps, hs1, htag⟩ := activeProcessChar_eq s c sol
  have hwp := hc.waitfor_off hw
  have hbuf : s.evaluationBuffer_ = [] := by
    by_contra hne
    have := (hc.buffer_on hne).2.2
    rw [this] at ha
    simp at ha
  have hlow := hc.low
  rw [hwp, hbuf] at hlow he hg
  simp only [List.length_nil, Nat.cast_zero, sub_zero] at hlow he hg
  have n1 := noAbut_emitIf (s.activeProcessChar c sol).2 he (le_refl _) hlow hg.chain
    (gapInv_closedOK hg (Or.inl (le_refl _)) : ClosedOK e s.activeTag_ G)
  unfold processActive
  simp only [hs1]
  split
  · refine ⟨?_, ⟨by simp only [htag]; exact ht.roster, ht.idle, ht.active⟩⟩
    simp only [lowMark, nextIndex, hp, ho, hbuf, hwp, List.nil_append, List.length_singleton,
      List.length_nil, Nat.cast_zero, Nat.cast_one]
    exact gapInv_step hg hg.chain (Or.inl rfl) rfl (fun h => h) (by omega)
  · split
    · refine ⟨?_, ⟨by simp only [htag]; exact ht.roster, fun _ => rfl, fun h => absurd rfl h⟩⟩
      exact gapInv_break _ _ _ n1.1
    · refine ⟨?_, ⟨by simp only [htag]; exact ht.roster, ht.idle, ht.active⟩⟩
      simp only [lowMark, nextIndex, hp, ho, hbuf, hwp, List.length_nil, Nat.cast_zero, sub_zero]
      exact gapInv_step hg n1.1 n1.2 rfl (fun h => h) (by omega)

theorem findSuccessful_lt : ∀ (ps : List PluginEntry) (pi k : Nat),
    findSuccessful ps pi = some k → pi ≤ k ∧ k - pi < ps.length := by
  intro ps
  induction ps with
  | nil => intro pi k h; simp [findSuccessful] at h
  | cons p ps ih =>
    intro pi k h
    unfold findSuccessful at h
    split at h
    · simp only [Option.some.injEq] at h
      subst h
      simp
    · have := ih (pi + 1) k h
      simp only [List.length_cons]
      omega

theorem winner_tag_ne (ps : List PluginEntry) (k : Nat) (hk : findSuccessful ps 0 = some k)
    (h : ∀ t ∈ ps.map (fun x => x.tag), t ≠ MD_PLAIN_TEXT) :
    (ps[k]?.map (fun x => x.tag)).getD MD_PLAIN_TEXT ≠ MD_PLAIN_TEXT := by
  have hlt := (findSuccessful_lt ps 0 k hk).2
  simp only [Nat.sub_zero] at hlt
  rw [List.getElem?_eq_getElem hlt]
  simp only [Option.map_some', Option.getD_some]
  exact h _ (List.mem_map.2 ⟨ps[k], List.getElem_mem _, rfl⟩)

theorem noAbut_emitBuffered {lo hi start tag : Int} {e : Emitter} (ht : tag ≠ SEG_BREAK)
    (masks : List Nat) (k n : Nat) (hinv : EmInv lo e hi) (hle : hi ≤ start) (h0 : 0 ≤ start)
    (hch : noAbut e.segs) (hcl : ClosedOK e tag start) :
    noAbut (emitBuffered e tag start masks k n).segs ∧
    (emitBuffered e tag start masks k n = e ∨
      (0 ≤ (emitBuffered e tag start masks k n).runStart ∧
        (emitBuffered e tag start masks k n).runTag = tag)) :=
  noAbut_foldl_range ht (fun bi => (masks.getD bi 0) &&& ((1 <<< k) % 4294967296) ≠ 0) n hinv
    hle h0 hch hcl

theorem noAbut_emitPlain {lo hi start : Int} {e : Emitter} (n : Nat) (hinv : EmInv lo e hi)
    (hle : hi ≤ start) (h0 : 0 ≤ start) (hch : noAbut e.segs)
    (hcl : ClosedOK e MD_PLAIN_TEXT start) :
    noAbut (emitPlain e start n).segs ∧
    (emitPlain e start n = e ∨
      (0 ≤ (emitPlain e start n).runStart ∧ (emitPlain e start n).runTag = MD_PLAIN_TEXT)) := by
  have := noAbut_foldl_range (t := MD_PLAIN_TEXT) (by decide) (fun _ => True) n hinv hle h0
    hch hcl
  simpa [emitPlain] using this

theorem processEvaluation_gap (s : MarkdownSession) (e : Emitter) (c : Nat) (sol : Bool)
    (G lo : Int) (hc : Core s G) (hp : s.pendingChars_ = []) (ho : s.globalOffset_ = G + 1)
    (hw : s.waitforActive_ = false) (ha : s.activePlugin_ = none)
    (he : EmInv lo e (G - s.waitforPending_.length - s.evaluationBuffer_.length))
    (ht : TagInv s)
    (hg : GapInv s e (G - s.waitforPending_.length - s.evaluationBuffer_.length)) :
    GapInv (processEvaluation s e c sol G).1 (processEvaluation s e c sol G).2
      (lowMark (processEvaluation s e c sol G).1) ∧
    TagInv (processEvaluation s e c sol G).1 := by
  have hwp := hc.waitfor_off hw
  have hlow := hc.low
  rw [hwp] at hlow he hg
  simp only [List.length_nil, Nat.cast_zero, sub_zero] at hlow he hg
  have hstart : (if s.evalStartGlobal_ < 0 then G else s.evalStartGlobal_) =
      G - s.evaluationBuffer_.length := by
    by_cases hb : s.evaluationBuffer_ = []
    · rw [if_pos (hc.buffer_off hb), hb]; simp
    · have := (hc.buffer_on hb).1
      rw [if_neg (by omega), this]
  have htags : ∀ t ∈ (evalAll c sol s.plugins_ 0 0).1.map (fun x => x.tag),
      t ≠ MD_PLAIN_TEXT := by
    rw [evalAll_tags]; exact ht.roster
  have htags' : ∀ t ∈ (evalAll c sol s.plugins_ 0 0).1.map (fun x => x.tag),
      t ≠ SEG_BREAK := by
    rw [evalAll_tags]; exact hc.tags
  have h18 := ht.idle ha
  have hbreak : e.runStart < 0 → ∀ x ∈ e.out.getLast?, x.type = SEG_BREAK := by
    intro h0 x hx
    rcases hg.closed h0 x hx with hb | ⟨_, hne, _⟩
    · exact hb
    · exact absurd ha hne
  unfold processEvaluation
  simp only [hstart]
  cases hfs : findSuccessful (evalAll c sol s.plugins_ 0 0).1 0 with
  | some k =>
    simp only []
    have hne18 := winner_tag_ne _ k hfs htags
    refine ⟨?_, ⟨by simp only [resetOthers_tags]; exact htags, fun h => by simp at h,
      fun _ => hne18⟩⟩
    simp only [lowMark, nextIndex, hp, ho, hwp, List.length_nil, Nat.cast_zero, sub_zero]
    obtain ⟨f1, f2, f3⟩ := noAbut_flushRun e hg.chain
    have hcl : ClosedOK (flushRun e)
        ((((evalAll c sol s.plugins_ 0 0).1)[k]?.map (fun x => x.tag)).getD MD_PLAIN_TEXT)
        (G - s.evaluationBuffer_.length) := by
      intro _ x hx
      rw [f3] at hx
      by_cases h0 : 0 ≤ e.runStart
      · rw [getLast?_segs_open e h0] at hx
        simp only [Option.mem_def, Option.some.injEq] at hx
        subst hx
        refine Or.inr (Or.inl ?_)
        simp only
        rw [hg.runTag h0, h18]
        exact fun hh => hne18 hh.symm
      · rw [segs_closed e (by omega)] at hx
        exact Or.inl (hbreak (by omega) x hx)
    have n1 := noAbut_emitBuffered (getElem?_tag_ne _ k htags')
      (s.evaluationEmitMask_ ++ [(evalAll c sol s.plugins_ 0 0).2]) k
      (s.evaluationBuffer_ ++ [c]).length (emInv_flushRun he) (le_refl _) hlow f1 hcl
    refine ⟨n1.1, ?_, ?_⟩
    · intro h0
      rcases n1.2 with h | h
      · rw [h] at h0
        omega
      · exact h.2
    · intro h0 x hx
      rcases n1.2 with h | h
      · rw [h, f3] at hx
        by_cases h1 : 0 ≤ e.runStart
        · rw [getLast?_segs_open e h1] at hx
          simp only [Option.mem_def, Option.some.injEq] at hx
          subst hx
          have := emInv_runEnd_le he h1
          refine Or.inr ⟨?_, by simp, ?_⟩
          · simp only; rw [hg.runTag h1, h18]
          · simp only; omega
        · rw [segs_closed e (by omega)] at hx
          exact Or.inl (hbreak (by omega) x hx)
      · omega
  | none =>
    simp only []
    split
    · refine ⟨?_, ⟨by simp only [resetAll_tags]; exact htags, ht.idle, ht.active⟩⟩
      simp only [lowMark, nextIndex, hp, ho, hwp, List.length_nil, Nat.cast_zero, sub_zero]
      have hcl : ClosedOK e MD_PLAIN_TEXT (G - s.evaluationBuffer_.length) :=
        fun h0 x hx => Or.inl (hbreak h0 x hx)
      have n1 := noAbut_emitPlain (s.evaluationBuffer_ ++ [c]).length he (le_refl _) hlow
        hg.chain hcl
      have hor : emitPlain e (G - s.evaluationBuffer_.length) (s.evaluationBuffer_ ++ [c]).length
          = e ∨ (0 ≤ (emitPlain e (G - s.evaluationBuffer_.length)
            (s.evaluationBuffer_ ++ [c]).length).runStart ∧
          (emitPlain e (G - s.evaluationBuffer_.length)
            (s.evaluationBuffer_ ++ [c]).length).runTag = s.activeTag_) := by
        rw [h18]; exact n1.2
      exact gapInv_step hg n1.1 hor rfl (fun h => h) (by omega)
    · refine ⟨?_, ⟨htags, ht.idle, ht.active⟩⟩
      simp only [lowMark, nextIndex, hp, ho, hwp, List.length_nil, Nat.cast_zero,
        List.length_append, List.length_singleton]
      exact gapInv_step hg hg.chain (Or.inl rfl) rfl (fun h => h) (by push_cast; omega)

theorem tagInv_congr {s s' : MarkdownSession} (ht : TagInv s) (h1 : s'.plugins_ = s.plugins_)
    (h2 : s'.activePlugin_ = s.activePlugin_) (h3 : s'.activeTag_ = s.activeTag_) :
    TagInv s' :=
  ⟨by rw [h1]; exact ht.roster, by rw [h2, h3]; exact ht.idle, by rw [h2, h3]; exact ht.active⟩

theorem gapInv_congr {s s' : MarkdownSession} {e : Emitter} {L : Int} (hg : GapInv s e L)
    (h2 : s'.activePlugin_ = s.activePlugin_) (h3 : s'.activeTag_ = s.activeTag_) :
    GapInv s' e L :=
  ⟨hg.chain, by rw [h3]; exact hg.runTag, by rw [h2]; exact hg.closed⟩

theorem processOne_gap_read (s : MarkdownSession) (e : Emitter) (c : Nat) (sol : Bool)
    (lo : Int) (hs : SessInv s) (hp : s.pendingChars_ = []) (he : EmInv lo e (lowMark s))
    (ht : TagInv s) (hg : GapInv s e (lowMark s)) :
    GapInv (processOne s e c sol (-1)).1 (processOne s e c sol (-1)).2
      (lowMark (processOne s e c sol (-1)).1) ∧
    TagInv (processOne s e c sol (-1)).1 := by
  have hn : nextIndex s = s.globalOffset_ := by simp only [nextIndex, hp]
  have hc := hs.core
  rw [hn] at hc
  have hc1 := core_withOffset hc (s.globalOffset_ + 1)
  simp only [lowMark, hn] at he hg
  have ht1 : TagInv { s with globalOffset_ := s.globalOffset_ + 1 } := tagInv_congr ht rfl rfl rfl
  have hg1 : GapInv { s with globalOffset_ := s.globalOffset_ + 1 } e
      (s.globalOffset_ - s.waitforPending_.length - s.evaluationBuffer_.length) :=
    gapInv_congr hg rfl rfl
  unfold processOne
  simp only [show ¬ (0 : Int) ≤ -1 by decide, show (-1 : Int) < 0 by decide, if_true, if_false]
  by_cases hw : s.waitforActive_ = true
  · rw [if_pos hw]
    exact processWaitfor_gap _ e c _ lo hc1 hp rfl hw he ht1 hg1
  · rw [if_neg hw]
    have hw' : s.waitforActive_ = false := by simpa using hw
    by_cases ha : s.activePlugin_.isSome = true
    · rw [if_pos ha]
      exact processActive_gap _ e c sol _ lo hc1 hp rfl hw' ha he ht1 hg1
    · rw [if_neg ha]
      have ha' : s.activePlugin_ = none := by simpa using ha
      exact processEvaluation_gap _ e c sol _ lo hc1 hp rfl hw' ha' he ht1 hg1

theorem processOne_gap_pop (s : MarkdownSession) (e : Emitter) (pc : PendingChar)
    (rest : List PendingChar) (sol : Bool) (lo : Int) (hs : SessInv s)
    (hp : s.pendingChars_ = pc :: rest) (he : EmInv lo e (lowMark s)) (ht : TagInv s)
    (hg : GapInv s e (lowMark s)) :
    GapInv (processOne { s with pendingChars_ := rest } e pc.c sol pc.globalIndex).1
      (processOne { s with pendingChars_ := rest } e pc.c sol pc.globalIndex).2
      (lowMark (processOne { s with pendingChars_ := rest } e pc.c sol pc.globalIndex).1) ∧
    TagInv (processOne { s with pendingChars_ := rest } e pc.c sol pc.globalIndex).1 := by
  rcases hs.next with hnil | ⟨c, hcons, hw, ha, hbuf⟩
  · rw [hnil] at hp; cases hp
  · rw [hcons] at hp
    simp only [List.cons.injEq] at hp
    obtain ⟨hpc, hrest⟩ := hp
    subst hpc hrest
    have hn : nextIndex s = s.globalOffset_ - 1 := by simp only [nextIndex, hcons]
    have hc := hs.core
    rw [hn] at hc
    have hwp := hc.waitfor_off hw
    have hlow := hc.low
    rw [hwp, hbuf] at hlow
    simp only [List.length_nil, Nat.cast_zero, sub_zero] at hlow
    have hc1 := core_withOffset (core_withPending hc []) s.globalOffset_
    simp only [lowMark, hn] at he hg
    have hwn : ¬ s.waitforActive_ = true := by rw [hw]; simp
    have han : ¬ s.activePlugin_.isSome = true := by rw [ha]; simp
    have ht1 : TagInv { s with pendingChars_ := [], globalOffset_ := s.globalOffset_ } :=
      tagInv_congr ht rfl rfl rfl
    have hg1 : GapInv { s with pendingChars_ := [], globalOffset_ := s.globalOffset_ } e
        (s.globalOffset_ - 1 - s.waitforPending_.length - s.evaluationBuffer_.length) :=
      gapInv_congr hg rfl rfl
    unfold processOne
    simp only [if_pos hlow, if_neg (not_lt.2 hlow), if_neg hwn, if_neg han]
    have := processEvaluation_gap _ e c sol _ lo hc1 rfl (by simp) hw ha he ht1 hg1
    simpa using this

theorem pushLoop_gap : ∀ (fuel : Nat) (s : MarkdownSession) (e : Emitter) (sol : Bool)
    (chars : List Nat) (lo : Int), loopMeasure s chars < fuel → SessInv s →
    EmInv lo e (lowMark s) → TagInv s → GapInv s e (lowMark s) →
    GapInv (pushLoop fuel s e sol chars).1 (pushLoop fuel s e sol chars).2.1
      (lowMark (pushLoop fuel s e sol chars).1) ∧
    TagInv (pushLoop fuel s e sol chars).1 := by
  intro fuel
  induction fuel with
  | zero => intro s e sol chars lo h; omega
  | succ fuel ih =>
    intro s e sol chars lo h hs he ht hg
    rcases pending_cases s with hp | ⟨pc, rest, hp⟩
    · cases chars with
      | nil =>
        rw [pushLoop_done fuel s e sol hp]
        exact ⟨hg, ht⟩
      | cons c cs =>
        rw [pushLoop_read fuel s e sol c cs hp]
        obtain ⟨h1, h2, _⟩ := processOne_inv_read s e c sol lo hs hp he
        obtain ⟨g1, g2⟩ := processOne_gap_read s e c sol lo hs hp he ht hg
        have hm := measure_read s e c sol cs
        exact ih _ _ (decide (c = ch_nl)) cs lo (by omega) h1 h2 g2 g1
    · rw [pushLoop_pop fuel s e sol chars pc rest hp]
      obtain ⟨h1, h2, _⟩ := processOne_inv_pop s e pc rest sol lo hs hp he
      obtain ⟨g1, g2⟩ := processOne_gap_pop s e pc rest sol lo hs hp he ht hg
      have hm := measure_pop s e pc rest sol chars hp
      exact ih _ _ (decide (pc.c = ch_nl)) chars lo (by omega) h1 h2 g2 g1

theorem gapInv_new (s : MarkdownSession) (L : Int) : GapInv s Emitter.new L := by
  refine ⟨?_, ?_, ?_⟩
  · rw [segs_new]; trivial
  · intro h; simp [Emitter.new] at h
  · intro _ x hx; simp [Emitter.new] at hx

/-- In the segments a push returns, neighbouring non-break segments of the same tag do
not abut. -/
theorem push_gap (s : MarkdownSession) (chars : List Nat) (hs : SessInv s) (ht : TagInv s) :
    noAbut (s.push chars).2 ∧ TagInv (s.push chars).1 := by
  have hF := pushFuel_gt s chars
  obtain ⟨g1, g2⟩ := pushLoop_gap (pushFuel s chars) s Emitter.new s.atStartOfLine_ chars
    (lowMark s) hF hs (emInv_new (le_refl _)) ht (gapInv_new s _)
  rw [push_eq s chars _ hF]
  refine ⟨?_, tagInv_congr g2 rfl rfl rfl⟩
  rw [flushRun_out]
  exact g1.chain

theorem pushAll_reach (chunks : List (List Nat)) :
    ∀ (s : MarkdownSession), SessInv s → TagInv s → s.pendingChars_ = [] →
      SessInv (pushAll s chunks).1 ∧ TagInv (pushAll s chunks).1 ∧
      (pushAll s chunks).1.pendingChars_ = [] := by
  induction chunks with
  | nil => intro s hs ht hp; exact ⟨hs, ht, hp⟩
  | cons c cs ih =>
    intro s hs ht _
    obtain ⟨h1, h2, _, _⟩ := push_inv s c (lowMark s) hs (le_refl _)
    exact ih _ h1 (push_gap s c hs ht).2 h2

theorem tagInv_new (plugins : List PluginEntry)
    (h : ∀ t ∈ plugins.map (fun x => x.tag), t ≠ MD_PLAIN_TEXT) :
    TagInv (MarkdownSession.new plugins) := by
  refine ⟨?_, fun _ => rfl, fun hne => absurd rfl hne⟩
  simpa [MarkdownSession.new, Function.comp_def] using h

/-! ## Claims -/

theorem taggedIndices_eq_of_events {a b : List Segment} (h : segEvents a = segEvents b) :
    taggedIndices a = taggedIndices b := by
  unfold taggedIndices
  rw [h]

theorem segsOrdered_nonempty {lo hi : Int} :
    ∀ {l : List Segment}, segsOrdered lo hi l →
      ∀ seg ∈ l, seg.type ≠ SEG_BREAK → seg.start < seg.end_ := by
  intro l
  induction l generalizing lo with
  | nil => intro _ seg hseg; cases hseg
  | cons s rest ih =>
    intro hl seg hseg hne
    unfold segsOrdered at hl
    rcases List.mem_cons.1 hseg with rfl | hmem
    · rw [if_neg hne] at hl
      exact hl.1.2.1
    · split at hl
      · exact ih hl.2 seg hmem hne
      · exact ih hl.2 seg hmem hne

theorem pushesOrdered_nonempty (chunks : List (List Nat)) :
    ∀ (s : MarkdownSession) (lo pushed : Int), pushesOrdered s lo pushed chunks →
      ∀ seg ∈ (pushAll s chunks).2, seg.type ≠ SEG_BREAK → seg.start < seg.end_ := by
  induction chunks with
  | nil => intro s lo pushed _ seg hseg; cases hseg
  | cons c cs ih =>
    intro s lo pushed h seg hseg hne
    simp only [pushAll, List.mem_append] at hseg
    rcases hseg with hseg | hseg
    · exact segsOrdered_nonempty h.1 seg hseg hne
    · exact ih _ _ _ h.2 seg hseg hne

theorem mem_events_of_nonempty (seg : Segment) (hne : seg.type ≠ SEG_BREAK)
    (h : seg.start < seg.end_) : Ev.idx seg.type seg.start ∈ seg.events := by
  simp only [Segment.events, if_neg hne, List.mem_map, List.mem_range]
  exact ⟨0, by omega, by simp⟩

theorem mem_segEvents {l : List Segment} {seg : Segment} (hmem : seg ∈ l) {ev : Ev}
    (hev : ev ∈ seg.events) : ev ∈ segEvents l := by
  induction l with
  | nil => cases hmem
  | cons s rest ih =>
    simp only [segEvents, List.mem_append]
    rcases List.mem_cons.1 hmem with rfl | h
    · exact Or.inl hev
    · exact Or.inr (ih h)

theorem mem_tagged_of_mem {l : List Segment} {seg : Segment} (hmem : seg ∈ l)
    (hne : seg.type ≠ SEG_BREAK) (h : seg.start < seg.end_) :
    (seg.type, seg.start) ∈ taggedIndices l := by
  unfold taggedIndices
  rw [List.mem_filterMap]
  exact ⟨Ev.idx seg.type seg.start, mem_segEvents hmem (mem_events_of_nonempty seg hne h), rfl⟩

theorem lowMark_block : lowMark createMarkdownBlockSession = 0 := by decide

theorem lowMark_inline : lowMark createMarkdownInlineSession = 0 := by decide

theorem sessInv_block : SessInv createMarkdownBlockSession := sessInv_new _ (by decide)

theorem sessInv_inline : SessInv createMarkdownInlineSession := sessInv_new _ (by decide)

/-- Claim C1, as stated, fails: in a block session `# H\nX` pushed as `# ` then `H\nX`
returns the non-break segments HEADER[0,2), HEADER[2,4), PLAIN_TEXT[4,5), while pushed
whole it returns HEADER[0,4), PLAIN_TEXT[4,5): the run open at the chunk boundary is
flushed at the end of the first push. -/
theorem push_chunks_nonbreak_counterexample :
    nonBreak (pushAll createMarkdownBlockSession [u16 "# ", u16 "H\nX"]).2 ≠
      nonBreak (createMarkdownBlockSession.push (u16 "# H\nX")).2 := by decide

/-- Claim C1, amended: for every sequence of chunks and both rosters, pushing the chunks
in order into a fresh session and pushing their concatenation in one push into a fresh
session give non-break segments that assign the same tags to the same code-unit indices
in the same order (the segments themselves may differ: a run open at a chunk boundary is
returned in pieces). -/
theorem push_chunks_same_tagging (chunks : List (List Nat)) :
    taggedIndices (pushAll createMarkdownBlockSession chunks).2 =
      taggedIndices (createMarkdownBlockSession.push chunks.flatten).2 ∧
    taggedIndices (pushAll createMarkdownInlineSession chunks).2 =
      taggedIndices (createMarkdownInlineSession.push chunks.flatten).2 :=
  ⟨taggedIndices_eq_of_events (pushAll_join chunks _ callOK_block rfl).2,
    taggedIndices_eq_of_events (pushAll_join chunks _ callOK_inline rfl).2⟩

/-- Claim C2: after `setPattern(p)` with a non-empty pattern `p`, for every stream `text`
fed one code unit at a time to `process`, the call on the code unit at position `k`
(the `k + 1`-th call) returns true if and only if `p` is a suffix of the first `k + 1`
code units fed. -/
theorem kmp_process_iff_suffix (m : KmpMatcher) (p : List Nat) (hp : p ≠ []) (text : List Nat)
    (k : Nat) (hk : k < text.length) :
    (((m.setPattern p).feed text).getD k false = true ↔ p <:+ text.take (k + 1)) := by
  have := (feed_spec (m.setPattern p) [] (setPattern_inv m p hp) text).2 k hk
  simpa [KmpMatcher.setPattern] using this

/-- Witness of claim C2: the pattern `aa` on the stream `aaa`, third call (an overlapping
occurrence). -/
theorem kmp_process_iff_suffix_witness :
    [97, 97] ≠ ([] : List Nat) ∧ 2 < [97, 97, 97].length ∧
    (((KmpMatcher.new.setPattern [97, 97]).feed [97, 97, 97]).getD 2 false = true ↔
      [97, 97] <:+ [97, 97, 97].take (2 + 1)) :=
  ⟨by decide, by decide,
    kmp_process_iff_suffix KmpMatcher.new [97, 97] (by decide) [97, 97, 97] 2 (by decide)⟩

/-- Claim C3, as stated, fails: `a**b**c` pushed into a fresh inline session does not
return PLAIN_TEXT[0,1), SEG_BREAK at 2, BOLD[3,4), SEG_BREAK at 5, PLAIN_TEXT[6,7). -/
theorem bold_basic_counterexample :
    (createMarkdownInlineSession.push (u16 "a**b**c")).2 ≠
      [⟨MD_PLAIN_TEXT, 0, 1⟩, ⟨SEG_BREAK, 2, 2⟩, ⟨MD_BOLD, 3, 4⟩, ⟨SEG_BREAK, 5, 5⟩,
        ⟨MD_PLAIN_TEXT, 6, 7⟩] := by decide

/-- Claim C3, amended: `a**b**c` pushed in one push into a fresh inline session returns
exactly PLAIN_TEXT[0,1), BOLD[3,4), SEG_BREAK at 6, PLAIN_TEXT[6,7): no break is emitted
where the bold group opens, and the break that closes it is at the index after the
closing asterisks. -/
theorem bold_basic :
    (createMarkdownInlineSession.push (u16 "a**b**c")).2 =
      [⟨MD_PLAIN_TEXT, 0, 1⟩, ⟨MD_BOLD, 3, 4⟩, ⟨SEG_BREAK, 6, 6⟩, ⟨MD_PLAIN_TEXT, 6, 7⟩] := by
  decide

/-- Claim C4, as stated, fails: in a block session `# H\nX` pushed whole does not tag
exactly the indices 0, 1, 2 as HEADER and 4 as PLAIN_TEXT. -/
theorem header_chunks_counterexample :
    taggedIndices (createMarkdownBlockSession.push (u16 "# H\nX")).2 ≠
      [(MD_HEADER, 0), (MD_HEADER, 1), (MD_HEADER, 2), (MD_PLAIN_TEXT, 4)] := by decide

/-- Claim C4, amended: in a fresh block session `# H\nX` pushed whole returns the
non-break segments HEADER[0,4), PLAIN_TEXT[4,5) and pushed as `# ` then `H\nX` returns
HEADER[0,2), HEADER[2,4), PLAIN_TEXT[4,5); either way the indices 0, 1, 2, 3 are tagged
HEADER (the newline at index 3 that ends the header is kept in the HEADER span) and
index 4 is tagged PLAIN_TEXT. -/
theorem header_chunks :
    nonBreak (createMarkdownBlockSession.push (u16 "# H\nX")).2 =
      [⟨MD_HEADER, 0, 4⟩, ⟨MD_PLAIN_TEXT, 4, 5⟩] ∧
    nonBreak (pushAll createMarkdownBlockSession [u16 "# ", u16 "H\nX"]).2 =
      [⟨MD_HEADER, 0, 2⟩, ⟨MD_HEADER, 2, 4⟩, ⟨MD_PLAIN_TEXT, 4, 5⟩] ∧
    taggedIndices (createMarkdownBlockSession.push (u16 "# H\nX")).2 =
      [(MD_HEADER, 0), (MD_HEADER, 1), (MD_HEADER, 2), (MD_HEADER, 3), (MD_PLAIN_TEXT, 4)] ∧
    taggedIndices (pushAll createMarkdownBlockSession [u16 "# ", u16 "H\nX"]).2 =
      [(MD_HEADER, 0), (MD_HEADER, 1), (MD_HEADER, 2), (MD_HEADER, 3), (MD_PLAIN_TEXT, 4)] := by
  decide

/-- Claim C5, as stated, fails: `> a\n> b\nc` pushed into a fresh block session does not
return the non-break segments BLOCK_QUOTE[0,8), PLAIN_TEXT[8,9). -/
theorem block_quote_counterexample :
    nonBreak (createMarkdownBlockSession.push (u16 "> a\n> b\nc")).2 ≠
      [⟨MD_BLOCK_QUOTE, 0, 8⟩, ⟨MD_PLAIN_TEXT, 8, 9⟩] := by decide

/-- Claim C5, amended: `> a\n> b\nc` pushed into a fresh block session returns exactly
BLOCK_QUOTE[2,7), PLAIN_TEXT[7,8), SEG_BREAK at 8, PLAIN_TEXT[8,9): one BLOCK_QUOTE
segment, which leaves out the opening marker `> ` (the block roster drops it) and the
last newline (held by WAITFOR and returned as PLAIN_TEXT when the next line does not
continue the quote) and keeps the first newline and the re-opening `> `. -/
theorem block_quote :
    (createMarkdownBlockSession.push (u16 "> a\n> b\nc")).2 =
      [⟨MD_BLOCK_QUOTE, 2, 7⟩, ⟨MD_PLAIN_TEXT, 7, 8⟩, ⟨SEG_BREAK, 8, 8⟩,
        ⟨MD_PLAIN_TEXT, 8, 9⟩] := by decide

/-- Claim C6, as stated, fails: `---\n- a` pushed into a fresh block session does not
return the non-break segments HORIZONTAL_RULE[0,3), UNORDERED_LIST[4,7). -/
theorem rule_vs_list_counterexample :
    nonBreak (createMarkdownBlockSession.push (u16 "---\n- a")).2 ≠
      [⟨MD_HORIZONTAL_RULE, 0, 3⟩, ⟨MD_UNORDERED_LIST, 4, 7⟩] := by decide

/-- Claim C6, amended: `---\n- a` pushed into a fresh block session returns exactly
HORIZONTAL_RULE[0,4), SEG_BREAK at 4, UNORDERED_LIST[6,7): the rule keeps the newline
that ends it, and the list segment leaves out the marker `- ` (the block roster drops
it). -/
theorem rule_vs_list :
    (createMarkdownBlockSession.push (u16 "---\n- a")).2 =
      [⟨MD_HORIZONTAL_RULE, 0, 4⟩, ⟨SEG_BREAK, 4, 4⟩, ⟨MD_UNORDERED_LIST, 6, 7⟩] := by decide

/-- Claim C7, as stated, fails: `splitByXml` on `see <br/> and <plan>x</plan>` does not
return a default segment [0,14) and an XML segment [14,28). -/
theorem xml_gating_counterexample :
    splitByXml (u16 "see <br/> and <plan>x</plan>") ≠ [⟨0, 0, 14⟩, ⟨1, 14, 28⟩] := by decide

/-- Claim C7, amended: `splitByXml` on the 28 code units of `see <br/> and <plan>x</plan>`
returns exactly one segment, the default segment [0,28): neither `<br/>` nor
`<plan>x</plan>` gets an XML segment, since each `<` is neither at the start of a line
nor preceded by a punctuation trigger or a closed XML region. -/
theorem xml_gating :
    (u16 "see <br/> and <plan>x</plan>").length = 28 ∧
    splitByXml (u16 "see <br/> and <plan>x</plan>") = [⟨0, 0, 28⟩] := by decide

/-- Claim C8: for the 19 code units of the fenced-code input pushed into a fresh block
session in any chunks, every returned non-break segment has tag CODE_BLOCK and the
non-break segments tag exactly the indices 0, ..., 18, each once and in order; pushed as
one chunk, the only non-break segment is CODE_BLOCK[0,19). -/
theorem fenced_code_any_chunks (chunks : List (List Nat)) (h : chunks.flatten = fencedInput) :
    fencedInput.length = 19 ∧
    (∀ seg ∈ nonBreak (pushAll createMarkdownBlockSession chunks).2, seg.type = MD_CODE_BLOCK) ∧
    taggedIndices (pushAll createMarkdownBlockSession chunks).2 =
      (List.range 19).map (fun (i : Nat) => (MD_CODE_BLOCK, (i : Int))) ∧
    nonBreak (createMarkdownBlockSession.push fencedInput).2 = [⟨MD_CODE_BLOCK, 0, 19⟩] := by
  have htag : taggedIndices (pushAll createMarkdownBlockSession chunks).2 =
      (List.range 19).map (fun (i : Nat) => (MD_CODE_BLOCK, (i : Int))) := by
    rw [taggedIndices_eq_of_events (pushAll_join chunks _ callOK_block rfl).2, h]
    decide
  refine ⟨by decide, ?_, htag, by decide⟩
  intro seg hseg
  simp only [nonBreak, List.mem_filter, decide_eq_true_eq] at hseg
  have hord := pushes_ordered chunks createMarkdownBlockSession 0 0 sessInv_block rfl
    (by rw [lowMark_block]) rfl
  have hne := pushesOrdered_nonempty chunks _ _ _ hord seg hseg.1 hseg.2
  have hmem := mem_tagged_of_mem hseg.1 hseg.2 hne
  rw [htag, List.mem_map] at hmem
  obtain ⟨i, _, hi⟩ := hmem
  exact (congrArg Prod.fst hi).symm

/-- Witness of claim C8: the input split after the opening line. -/
theorem fenced_code_any_chunks_witness :
    [u16 "```py\n", u16 "print(1)\n```\n"].flatten = fencedInput ∧
    (fencedInput.length = 19 ∧
      (∀ seg ∈ nonBreak (pushAll createMarkdownBlockSession
          [u16 "```py\n", u16 "print(1)\n```\n"]).2, seg.type = MD_CODE_BLOCK) ∧
      taggedIndices (pushAll createMarkdownBlockSession
          [u16 "```py\n", u16 "print(1)\n```\n"]).2 =
        (List.range 19).map (fun (i : Nat) => (MD_CODE_BLOCK, (i : Int))) ∧
      nonBreak (createMarkdownBlockSession.push fencedInput).2 = [⟨MD_CODE_BLOCK, 0, 19⟩]) :=
  ⟨by decide, fenced_code_any_chunks [u16 "```py\n", u16 "print(1)\n```\n"] (by decide)⟩

/-- Claim C9: for both rosters and every sequence of pushes into a fresh session, every
returned non-break segment has `0 ≤ start < end ≤` the number of code units pushed so
far, each non-break segment starts at or after the end of the previous non-break segment
(within a push and across pushes), and every `SEG_BREAK` has `start = end`. -/
theorem segments_wellformed_ordered (chunks : List (List Nat)) :
    pushesOrdered createMarkdownBlockSession 0 0 chunks ∧
    pushesOrdered createMarkdownInlineSession 0 0 chunks :=
  ⟨pushes_ordered chunks _ 0 0 sessInv_block rfl (by rw [lowMark_block]) rfl,
    pushes_ordered chunks _ 0 0 sessInv_inline rfl (by rw [lowMark_inline]) rfl⟩

theorem tagInv_block : TagInv createMarkdownBlockSession := tagInv_new _ (by decide)

theorem tagInv_inline : TagInv createMarkdownInlineSession := tagInv_new _ (by decide)

/-- Claim C10, as stated, fails: `**a*b**` pushed into a fresh inline session returns
BOLD[2,3), BOLD[4,5), SEG_BREAK at 7, two neighbouring BOLD segments with no `SEG_BREAK`
between them. -/
theorem group_boundaries_counterexample :
    ¬ boundariesExplicit (createMarkdownInlineSession.push (u16 "**a*b**")).2 := by decide

/-- Claim C10, amended: for both rosters, in the segments returned by any one push (after
any sequence of earlier pushes into a fresh session), two neighbouring non-break segments
of the same tag never abut: the first ends before the second starts, so a code unit that
belongs to neither (one the plugin dropped) lies between them. -/
theorem group_boundaries_gap (history : List (List Nat)) (chunk : List Nat) :
    noAbut ((pushAll createMarkdownBlockSession history).1.push chunk).2 ∧
    noAbut ((pushAll createMarkdownInlineSession history).1.push chunk).2 := by
  obtain ⟨b1, b2, _⟩ := pushAll_reach history _ sessInv_block tagInv_block rfl
  obtain ⟨i1, i2, _⟩ := pushAll_reach history _ sessInv_inline tagInv_inline rfl
  exact ⟨(push_gap _ chunk b1 b2).1, (push_gap _ chunk i1 i2).1⟩

/-! ## Winner selection -/

theorem reset_state (q : Plugin) : q.reset.state = .IDLE := by
  cases q <;> rfl

theorem findSuccessful_first : ∀ (ps : List PluginEntry) (pi i : Nat),
    stateAt ps i = some .PROCESSING → (∀ j, j < i → stateAt ps j ≠ some .PROCESSING) →
    findSuccessful ps pi = some (pi + i) := by
  intro ps
  induction ps with
  | nil => intro pi i h _; simp [stateAt] at h
  | cons p ps ih =>
    intro pi i h hmin
    cases i with
    | zero =>
      have hp : p.plugin.state = .PROCESSING := by simpa [stateAt] using h
      simp [findSuccessful, hp]
    | succ i =>
      have h0 : p.plugin.state ≠ .PROCESSING := by
        have := hmin 0 (Nat.succ_pos i)
        simpa [stateAt] using this
      have h1 : stateAt ps i = some .PROCESSING := by simpa [stateAt] using h
      have h2 : ∀ j, j < i → stateAt ps j ≠ some .PROCESSING := by
        intro j hj
        have := hmin (j + 1) (Nat.succ_lt_succ hj)
        simpa [stateAt] using this
      rw [findSuccessful, if_neg h0, ih (pi + 1) i h1 h2]
      congr 1; omega

theorem findSuccessful_none : ∀ (ps : List PluginEntry) (pi : Nat),
    findSuccessful ps pi = none → ∀ j, stateAt ps j ≠ some .PROCESSING := by
  intro ps
  induction ps with
  | nil => intro pi _ j; simp [stateAt]
  | cons p ps ih =>
    intro pi h j
    rw [findSuccessful] at h
    by_cases hp : p.plugin.state = .PROCESSING
    · rw [if_pos hp] at h; cases h
    · rw [if_neg hp] at h
      cases j with
      | zero => simpa [stateAt] using hp
      | succ j => simpa [stateAt] using ih (pi + 1) h j

theorem findSuccessful_some : ∀ (ps : List PluginEntry) (pi k : Nat),
    findSuccessful ps pi = some k →
    pi ≤ k ∧ stateAt ps (k - pi) = some .PROCESSING ∧
      ∀ j, j < k - pi → stateAt ps j ≠ some .PROCESSING := by
  intro ps
  induction ps with
  | nil => intro pi k h; simp [findSuccessful] at h
  | cons p ps ih =>
    intro pi k h
    rw [findSuccessful] at h
    by_cases hp : p.plugin.state = .PROCESSING
    · rw [if_pos hp] at h
      cases h
      refine ⟨le_refl _, ?_, ?_⟩
      · simpa [stateAt] using hp
      · intro j hj; omega
    · rw [if_neg hp] at h
      obtain ⟨h1, h2, h3⟩ := ih (pi + 1) k h
      have hk : k - pi = (k - (pi + 1)) + 1 := by omega
      refine ⟨by omega, ?_, ?_⟩
      · rw [hk]; simpa [stateAt] using h2
      · intro j hj
        cases j with
        | zero => simpa [stateAt] using hp
        | succ j =>
          have := h3 j (by omega)
          simpa [stateAt] using this

theorem resetOthers_getElem? : ∀ (ps : List PluginEntry) (pi k j : Nat),
    (resetOthers ps pi k)[j]? =
      ps[j]?.map (fun x => if pi + j ≠ k then { x with plugin := x.plugin.reset } else x) := by
  intro ps
  induction ps with
  | nil => intro pi k j; simp [resetOthers]
  | cons p ps ih =>
    intro pi k j
    cases j with
    | zero => simp [resetOthers]
    | succ j =>
      simp only [resetOthers, List.getElem?_cons_succ]
      rw [ih (pi + 1) k j]
      have : pi + 1 + j = pi + (j + 1) := by omega
      rw [this]

theorem resetOthers_winner (ps : List PluginEntry) (k : Nat) :
    stateAt (resetOthers ps 0 k) k = stateAt ps k := by
  simp [stateAt, resetOthers_getElem?]

theorem resetOthers_other (ps : List PluginEntry) (k j : Nat) (h : j ≠ k) (q : PluginState)
    (hq : stateAt (resetOthers ps 0 k) j = some q) : q = .IDLE := by
  simp only [stateAt, resetOthers_getElem?] at hq
  cases hj : ps[j]? with
  | none => simp [hj] at hq
  | some x =>
    simp [hj, h, reset_state] at hq
    exact hq.symm

theorem resetAll_state (ps : List PluginEntry) (j : Nat) (q : PluginState)
    (hq : stateAt (resetAll ps) j = some q) : q = .IDLE := by
  simp only [stateAt, resetAll, List.getElem?_map] at hq
  cases hj : ps[j]? with
  | none => simp [hj] at hq
  | some x =>
    simp [hj, reset_state] at hq
    exact hq.symm

theorem emitIndex_sameTag (base : List Segment) (t : Int) (e : Emitter) (i : Int)
    (h : ∃ added : List Segment, e.out = base ++ added ∧ (∀ sg ∈ added, sg.type = t) ∧
      (0 ≤ e.runStart → e.runTag = t)) :
    ∃ added : List Segment, (emitIndex e t i).out = base ++ added ∧
      (∀ sg ∈ added, sg.type = t) ∧
      (0 ≤ (emitIndex e t i).runStart → (emitIndex e t i).runTag = t) := by
  obtain ⟨added, h1, h2, h3⟩ := h
  rcases emitIndex_cases e t i with ⟨h0, ht, _, heq⟩ | ⟨h0, _, heq⟩ | ⟨_, heq⟩
  · rw [heq]; exact ⟨added, h1, h2, fun _ => ht⟩
  · rw [heq]
    refine ⟨added ++ [⟨e.runTag, e.runStart, e.runEnd⟩], ?_, ?_, fun _ => rfl⟩
    · simp [h1]
    · intro sg hsg
      rcases List.mem_append.1 hsg with hm | hm
      · exact h2 sg hm
      · rw [List.mem_singleton.1 hm]; exact h3 h0
  · rw [heq]; exact ⟨added, h1, h2, fun _ => rfl⟩

theorem emitBuffered_sameTag (base : List Segment) (t start : Int) (masks : List Nat)
    (k size : Nat) (e : Emitter)
    (h : ∃ added : List Segment, e.out = base ++ added ∧ (∀ sg ∈ added, sg.type = t) ∧
      (0 ≤ e.runStart → e.runTag = t)) :
    ∃ added : List Segment, (emitBuffered e t start masks k size).out = base ++ added ∧
      (∀ sg ∈ added, sg.type = t) ∧
      (0 ≤ (emitBuffered e t start masks k size).runStart →
        (emitBuffered e t start masks k size).runTag = t) := by
  unfold emitBuffered
  induction size with
  | zero => simpa using h
  | succ n ih =>
    rw [List.range_succ, List.foldl_append]
    simp only [List.foldl_cons, List.foldl_nil]
    split
    · exact emitIndex_sameTag base t _ _ ih
    · exact ih

theorem emitBuffered_emitsOnly (t start : Int) (masks : List Nat) (k size : Nat) (e : Emitter) :
    EmitsOnly t e (emitBuffered (flushRun e) t start masks k size) := by
  have h0 : ∃ added : List Segment, (flushRun e).out = e.segs ++ added ∧
      (∀ sg ∈ added, sg.type = t) ∧ (0 ≤ (flushRun e).runStart → (flushRun e).runTag = t) := by
    refine ⟨[], by simp [flushRun_out], by simp, ?_⟩
    intro h
    have : (flushRun e).runStart = -1 := rfl
    omega
  obtain ⟨added, h1, h2, h3⟩ := emitBuffered_sameTag e.segs t start masks k size _ h0
  refine ⟨added ++ (emitBuffered (flushRun e) t start masks k size).runSeg, ?_, ?_⟩
  · simp [Emitter.segs, h1]
  · intro sg hsg
    rcases List.mem_append.1 hsg with hm | hm
    · exact h2 sg hm
    · unfold Emitter.runSeg at hm
      split at hm
      · rename_i hr
        rw [List.mem_singleton.1 hm]
        exact h3 hr
      · cases hm

/-! ## One step of a plugin: the state `WAITFOR` and the include flag -/

theorem step_fencedCodeBlock (p : StreamMarkdownFencedCodeBlockPlugin) (c : Nat) (sol : Bool) :
    (p.state_ ≠ .WAITFOR → (p.processChar c sol).1.state_ ≠ .WAITFOR) ∧
    (p.includeFences_ = true → (p.processChar c sol).2 = true) ∧
    (p.processChar c sol).1.includeFences_ = p.includeFences_ := by
  simp only [StreamMarkdownFencedCodeBlockPlugin.processChar, StreamMarkdownFencedCodeBlockPlugin.reset]
  split_ifs <;>
    exact ⟨fun h => by first | exact h | (intro hh; cases hh; done) | simp_all,
      fun hi => by first | rfl | exact hi | simp_all, by first | rfl | simp_all⟩

theorem step_inlineCode (p : StreamMarkdownInlineCodePlugin) (c : Nat) (sol : Bool) :
    (p.state_ ≠ .WAITFOR → (p.processChar c sol).1.state_ ≠ .WAITFOR) ∧
    (p.includeTicks_ = true → (p.processChar c sol).2 = true) ∧
    (p.processChar c sol).1.includeTicks_ = p.includeTicks_ := by
  simp only [StreamMarkdownInlineCodePlugin.processChar, StreamMarkdownInlineCodePlugin.reset]
  split_ifs <;>
    exact ⟨fun h => by first | exact h | (intro hh; cases hh; done) | simp_all,
      fun hi => by first | rfl | exact hi | simp_all, by first | rfl | simp_all⟩

theorem step_bold (p : StreamMarkdownBoldPlugin) (c : Nat) (sol : Bool) :
    (p.state_ ≠ .WAITFOR → (p.processChar c sol).1.state_ ≠ .WAITFOR) ∧
    (p.includeAsterisks_ = true → (p.processChar c sol).2 = true) ∧
    (p.processChar c sol).1.includeAsterisks_ = p.includeAsterisks_ := by
  simp only [StreamMarkdownBoldPlugin.processChar, StreamMarkdownBoldPlugin.reset]
  split_ifs <;>
    exact ⟨fun h => by first | exact h | (intro hh; cases hh; done) | simp_all,
      fun hi => by first | rfl | exact hi | simp_all, by first | rfl | simp_all⟩

theorem step_italic (p : StreamMarkdownItalicPlugin) (c : Nat) (sol : Bool) :
    (p.state_ ≠ .WAITFOR → (p.processChar c sol).1.state_ ≠ .WAITFOR) ∧
    (p.includeAsterisks_ = true → (p.processChar c sol).2 = true) ∧
    (p.processChar c sol).1.includeAsterisks_ = p.includeAsterisks_ := by
  simp only [StreamMarkdownItalicPlugin.processChar, StreamMarkdownItalicPlugin.reset]
  split_ifs <;>
    exact ⟨fun h => by first | exact h | (intro hh; cases hh; done) | simp_all,
      fun hi => by first | rfl | exact hi | simp_all, by first | rfl | simp_all⟩

theorem step_header (p : StreamMarkdownHeaderPlugin) (c : Nat) (sol : Bool) :
    (p.state_ ≠ .WAITFOR → (p.processChar c sol).1.state_ ≠ .WAITFOR) ∧
    (p.includeMarker_ = true → (p.processChar c sol).2 = true) ∧
    (p.processChar c sol).1.includeMarker_ = p.includeMarker_ := by
  simp only [StreamMarkdownHeaderPlugin.processChar, StreamMarkdownHeaderPlugin.reset]
  split_ifs <;>
    exact ⟨fun h => by first | exact h | (intro hh; cases hh; done) | simp_all,
      fun hi => by first | rfl | exact hi | simp_all, by first | rfl | simp_all⟩

theorem step_horizontalRule (p : StreamMarkdownHorizontalRulePlugin) (c : Nat) (sol : Bool) :
    (p.state_ ≠ .WAITFOR → (p.processChar c sol).1.state_ ≠ .WAITFOR) ∧
    (p.includeMarker_ = true → (p.processChar c sol).2 = true) ∧
    (p.processChar c sol).1.includeMarker_ = p.includeMarker_ := by
  simp only [StreamMarkdownHorizontalRulePlugin.processChar, StreamMarkdownHorizontalRulePlugin.reset]
  split_ifs <;>
    exact ⟨fun h => by first | exact h | (intro hh; cases hh; done) | simp_all,
      fun hi => by first | rfl | exact hi | simp_all, by first | rfl | simp_all⟩

theorem step_orderedList (p : StreamMarkdownOrderedListPlugin) (c : Nat) (sol : Bool) :
    (p.state_ ≠ .WAITFOR → (p.processChar c sol).1.state_ ≠ .WAITFOR) ∧
    (p.includeMarker_ = true → (p.processChar c sol).2 = true) ∧
    (p.processChar c sol).1.includeMarker_ = p.includeMarker_ := by
  simp only [StreamMarkdownOrderedListPlugin.processChar, StreamMarkdownOrderedListPlugin.reset]
  split_ifs <;>
    exact ⟨fun h => by first | exact h | (intro hh; cases hh; done) | simp_all,
      fun hi => by first | rfl | exact hi | simp_all, by first | rfl | simp_all⟩

theorem step_unorderedList (p : StreamMarkdownUnorderedListPlugin) (c : Nat) (sol : Bool) :
    (p.state_ ≠ .WAITFOR → (p.processChar c sol).1.state_ ≠ .WAITFOR) ∧
    (p.includeMarker_ = true → (p.processChar c sol).2 = true) ∧
    (p.processChar c sol).1.includeMarker_ = p.includeMarker_ := by
  simp only [StreamMarkdownUnorderedListPlugin.processChar, StreamMarkdownUnorderedListPlugin.reset]
  split_ifs <;>
    exact ⟨fun h => by first | exact h | (intro hh; cases hh; done) | simp_all,
      fun hi => by first | rfl | exact hi | simp_all, by first | rfl | simp_all⟩

theorem step_strikethrough (p : StreamMarkdownStrikethroughPlugin) (c : Nat) (sol : Bool) :
    (p.state_ ≠ .WAITFOR → (p.processChar c sol).1.state_ ≠ .WAITFOR) ∧
    (p.includeDelimiters_ = true → (p.processChar c sol).2 = true) ∧
    (p.processChar c sol).1.includeDelimiters_ = p.includeDelimiters_ := by
  simp only [StreamMarkdownStrikethroughPlugin.processChar, StreamMarkdownStrikethroughPlugin.reset]
  split_ifs <;>
    exact ⟨fun h => by first | exact h | (intro hh; cases hh; done) | simp_all,
      fun hi => by first | rfl | exact hi | simp_all, by first | rfl | simp_all⟩

theorem step_underline (p : StreamMarkdownUnderlinePlugin) (c : Nat) (sol : Bool) :
    (p.state_ ≠ .WAITFOR → (p.processChar c sol).1.state_ ≠ .WAITFOR) ∧
    (p.includeDelimiters_ = true → (p.processChar c sol).2 = true) ∧
    (p.processChar c sol).1.includeDelimiters_ = p.includeDelimiters_ := by
  simp only [StreamMarkdownUnderlinePlugin.processChar, StreamMarkdownUnderlinePlugin.reset]
  split_ifs <;>
    exact ⟨fun h => by first | exact h | (intro hh; cases hh; done) | simp_all,
      fun hi => by first | rfl | exact hi | simp_all, by first | rfl | simp_all⟩

theorem step_inlineLaTeX (p : StreamMarkdownInlineLaTeXPlugin) (c : Nat) (sol : Bool) :
    (p.state_ ≠ .WAITFOR → (p.processChar c sol).1.state_ ≠ .WAITFOR) ∧
    (p.includeDelimiters_ = true → (p.processChar c sol).2 = true) ∧
    (p.processChar c sol).1.includeDelimiters_ = p.includeDelimiters_ := by
  simp only [StreamMarkdownInlineLaTeXPlugin.processChar, StreamMarkdownInlineLaTeXPlugin.reset]
  split_ifs <;>
    exact ⟨fun h => by first | exact h | (intro hh; cases hh; done) | simp_all,
      fun hi => by first | rfl | exact hi | simp_all, by first | rfl | simp_all⟩

theorem step_inlineParenLaTeX (p : StreamMarkdownInlineParenLaTeXPlugin) (c : Nat) (sol : Bool) :
    (p.state_ ≠ .WAITFOR → (p.processChar c sol).1.state_ ≠ .WAITFOR) ∧
    (p.includeDelimiters_ = true → (p.processChar c sol).2 = true) ∧
    (p.processChar c sol).1.includeDelimiters_ = p.includeDelimiters_ := by
  simp only [StreamMarkdownInlineParenLaTeXPlugin.processChar, StreamMarkdownInlineParenLaTeXPlugin.reset]
  split_ifs <;>
    exact ⟨fun h => by first | exact h | (intro hh; cases hh; done) | simp_all,
      fun hi => by first | rfl | exact hi | simp_all, by first | rfl | simp_all⟩

theorem step_blockLaTeX (p : StreamMarkdownBlockLaTeXPlugin) (c : Nat) (sol : Bool) :
    (p.state_ ≠ .WAITFOR → (p.processChar c sol).1.state_ ≠ .WAITFOR) ∧
    (p.includeDelimiters_ = true → (p.processChar c sol).2 = true) ∧
    (p.processChar c sol).1.includeDelimiters_ = p.includeDelimiters_ := by
  simp only [StreamMarkdownBlockLaTeXPlugin.processChar, StreamMarkdownBlockLaTeXPlugin.reset]
  split_ifs <;>
    exact ⟨fun h => by first | exact h | (intro hh; cases hh; done) | simp_all,
      fun hi => by first | rfl | exact hi | simp_all, by first | rfl | simp_all⟩

theorem step_blockBracketLaTeX (p : StreamMarkdownBlockBracketLaTeXPlugin) (c : Nat) (sol : Bool) :
    (p.state_ ≠ .WAITFOR → (p.processChar c sol).1.state_ ≠ .WAITFOR) ∧
    (p.includeDelimiters_ = true → (p.processChar c sol).2 = true) ∧
    (p.processChar c sol).1.includeDelimiters_ = p.includeDelimiters_ := by
  simp only [StreamMarkdownBlockBracketLaTeXPlugin.processChar, StreamMarkdownBlockBracketLaTeXPlugin.reset]
  split_ifs <;>
    exact ⟨fun h => by first | exact h | (intro hh; cases hh; done) | simp_all,
      fun hi => by first | rfl | exact hi | simp_all, by first | rfl | simp_all⟩

theorem step_image (p : StreamMarkdownImagePlugin) (c : Nat) (sol : Bool) :
    (p.state_ ≠ .WAITFOR → (p.processChar c sol).1.state_ ≠ .WAITFOR) ∧
    (p.includeDelimiters_ = true → (p.processChar c sol).2 = true) ∧
    (p.processChar c sol).1.includeDelimiters_ = p.includeDelimiters_ := by
  simp only [StreamMarkdownImagePlugin.processChar, StreamMarkdownImagePlugin.reset]
  split_ifs <;>
    exact ⟨fun h => by first | exact h | (intro hh; cases hh; done) | simp_all,
      fun hi => by first | rfl | exact hi | simp_all, by first | rfl | simp_all⟩

theorem step_link (p : StreamMarkdownLinkPlugin) (c : Nat) (sol : Bool) :
    (p.state_ ≠ .WAITFOR → (p.processChar c sol).1.state_ ≠ .WAITFOR) ∧
    (p.processChar c sol).2 = true := by
  simp only [StreamMarkdownLinkPlugin.processChar, StreamMarkdownLinkPlugin.reset]
  split_ifs <;>
    exact ⟨fun h => by first | exact h | (intro hh; cases hh; done) | simp_all, by first | rfl | simp_all⟩

theorem step_blockQuote (p : StreamMarkdownBlockQuotePlugin) (c : Nat) (sol : Bool) :
    (p.state_ ≠ .PROCESSING → p.state_ ≠ .WAITFOR →
      (p.processChar c sol).1.state_ ≠ .WAITFOR) ∧
    (p.includeMarker_ = true → (p.processChar c sol).2 = true) ∧
    (p.processChar c sol).1.includeMarker_ = p.includeMarker_ := by
  simp only [StreamMarkdownBlockQuotePlugin.processChar,
    StreamMarkdownBlockQuotePlugin.processCharTail, StreamMarkdownBlockQuotePlugin.reset]
  split_ifs <;>
    exact ⟨fun h1 h => by first | exact h | (intro hh; cases hh; done) | simp_all,
      fun hi => by first | rfl | exact hi | simp_all, by first | rfl | simp_all⟩

theorem step_table (p : StreamMarkdownTablePlugin) (c : Nat) (sol : Bool) :
    (p.state_ ≠ .PROCESSING → p.state_ ≠ .WAITFOR →
      (p.processChar c sol).1.state_ ≠ .WAITFOR) ∧
    (p.includeDelimiters_ = true → (p.processChar c sol).2 = true) ∧
    (p.processChar c sol).1.includeDelimiters_ = p.includeDelimiters_ := by
  simp only [StreamMarkdownTablePlugin.processChar, StreamMarkdownTablePlugin.reset]
  split_ifs <;>
    exact ⟨fun h1 h => by first | exact h | (intro hh; cases hh; done) | simp_all,
      fun hi => by first | rfl | exact hi | simp_all, by first | rfl | simp_all⟩

theorem step_plan (p : StreamPlanExecutionPlugin) (c : Nat) (sol : Bool) :
    (p.state_ ≠ .WAITFOR → (p.processChar c sol).1.state_ ≠ .WAITFOR) ∧
    (p.includeTagsInOutput_ = true → (p.processChar c sol).2 = true) ∧
    (p.processChar c sol).1.includeTagsInOutput_ = p.includeTagsInOutput_ := by
  simp only [StreamPlanExecutionPlugin.processChar, StreamPlanExecutionPlugin.processStart,
    StreamPlanExecutionPlugin.reset, StreamPlanExecutionPlugin.resetInternal]
  split_ifs <;>
    exact ⟨fun h => by first | exact h | (intro hh; cases hh; done) | simp_all,
      fun hi => by first | rfl | exact hi | simp_all, by first | rfl | simp_all⟩

theorem xml_startMatcher_cases (p : StreamXmlPlugin) (c : Nat) :
    ((p.processStartMatcher c).1.state_ = p.state_ ∨
      (p.processStartMatcher c).1.state_ = .TRYING ∨
      (p.processStartMatcher c).1.state_ = .IDLE) ∧
    (p.processStartMatcher c).1.includeTagsInOutput_ = p.includeTagsInOutput_ ∧
    (p.processStartMatcher c).1.allowStartAfterEndTag_ = p.allowStartAfterEndTag_ ∧
    (p.processStartMatcher c).1.lastChar_ = p.lastChar_ := by
  unfold StreamXmlPlugin.processStartMatcher
  cases p.startState_ <;> simp only <;> split_ifs <;> simp

theorem xml_allowance_state (p : StreamXmlPlugin) (c : Nat) :
    (p.updatePunctuationAllowance c).state_ = p.state_ := by
  unfold StreamXmlPlugin.updatePunctuationAllowance
  split_ifs <;> rfl

theorem step_xml (p : StreamXmlPlugin) (c : Nat) (sol : Bool) :
    (p.state_ ≠ .WAITFOR → (p.processChar c sol).1.state_ ≠ .WAITFOR) ∧
    (p.includeTagsInOutput_ = true → (p.processChar c sol).2 = true) ∧
    (p.processChar c sol).1.includeTagsInOutput_ = p.includeTagsInOutput_ := by
  obtain ⟨hst, hinc, _, _⟩ := xml_startMatcher_cases p c
  unfold StreamXmlPlugin.processChar
  simp only [StreamXmlPlugin.finish, StreamXmlPlugin.handleDefaultCharacter,
    StreamXmlPlugin.buildEndPattern, StreamXmlPlugin.reset]
  split_ifs <;> refine ⟨fun h => ?_, fun hi => ?_, ?_⟩ <;>
    first
    | rfl
    | exact hinc
    | (simp only [StreamXmlPlugin.updatePunctuationAllowance]; split_ifs <;> first | rfl | exact hinc)
    | exact hi
    | exact h
    | (intro hh; cases hh; done)
    | (simp only [xml_allowance_state]; first | exact h | (intro hh; cases hh; done))
    | (simp only [xml_allowance_state]; rcases hst with h1 | h1 | h1 <;> simp_all; done)
    | (simp only [hinc]; exact hi)
    | simp_all

/-! ## The unique active plugin -/

theorem processChar_noWaitfor (q : Plugin) (c : Nat) (sol : Bool)
    (h1 : q.state ≠ .PROCESSING) (h : q.state ≠ .WAITFOR) :
    (q.processChar c sol).1.state ≠ .WAITFOR := by
  cases q with
  | plan p => exact (step_plan p c sol).1 h
  | header p => exact (step_header p c sol).1 h
  | fencedCode p => exact (step_fencedCodeBlock p c sol).1 h
  | blockQuote p => exact (step_blockQuote p c sol).1 h1 h
  | orderedList p => exact (step_orderedList p c sol).1 h
  | unorderedList p => exact (step_unorderedList p c sol).1 h
  | horizontalRule p => exact (step_horizontalRule p c sol).1 h
  | blockLaTeX p => exact (step_blockLaTeX p c sol).1 h
  | blockBracketLaTeX p => exact (step_blockBracketLaTeX p c sol).1 h
  | table p => exact (step_table p c sol).1 h1 h
  | image p => exact (step_image p c sol).1 h
  | xml p => exact (step_xml p c sol).1 h
  | bold p => exact (step_bold p c sol).1 h
  | italic p => exact (step_italic p c sol).1 h
  | inlineCode p => exact (step_inlineCode p c sol).1 h
  | link p => exact (step_link p c sol).1 h
  | strikethrough p => exact (step_strikethrough p c sol).1 h
  | underline p => exact (step_underline p c sol).1 h
  | inlineLaTeX p => exact (step_inlineLaTeX p c sol).1 h
  | inlineParenLaTeX p => exact (step_inlineParenLaTeX p c sol).1 h

theorem processChar_keep (q : Plugin) (c : Nat) (sol : Bool) (h : q.includeFlag = true) :
    (q.processChar c sol).2 = true := by
  cases q with
  | plan p => exact (step_plan p c sol).2.1 h
  | header p => exact (step_header p c sol).2.1 h
  | fencedCode p => exact (step_fencedCodeBlock p c sol).2.1 h
  | blockQuote p => exact (step_blockQuote p c sol).2.1 h
  | orderedList p => exact (step_orderedList p c sol).2.1 h
  | unorderedList p => exact (step_unorderedList p c sol).2.1 h
  | horizontalRule p => exact (step_horizontalRule p c sol).2.1 h
  | blockLaTeX p => exact (step_blockLaTeX p c sol).2.1 h
  | blockBracketLaTeX p => exact (step_blockBracketLaTeX p c sol).2.1 h
  | table p => exact (step_table p c sol).2.1 h
  | image p => exact (step_image p c sol).2.1 h
  | xml p => exact (step_xml p c sol).2.1 h
  | bold p => exact (step_bold p c sol).2.1 h
  | italic p => exact (step_italic p c sol).2.1 h
  | inlineCode p => exact (step_inlineCode p c sol).2.1 h
  | link p => exact (step_link p c sol).2
  | strikethrough p => exact (step_strikethrough p c sol).2.1 h
  | underline p => exact (step_underline p c sol).2.1 h
  | inlineLaTeX p => exact (step_inlineLaTeX p c sol).2.1 h
  | inlineParenLaTeX p => exact (step_inlineParenLaTeX p c sol).2.1 h

theorem processChar_includeFlag (q : Plugin) (c : Nat) (sol : Bool) :
    (q.processChar c sol).1.includeFlag = q.includeFlag := by
  cases q with
  | plan p => exact (step_plan p c sol).2.2
  | header p => exact (step_header p c sol).2.2
  | fencedCode p => exact (step_fencedCodeBlock p c sol).2.2
  | blockQuote p => exact (step_blockQuote p c sol).2.2
  | orderedList p => exact (step_orderedList p c sol).2.2
  | unorderedList p => exact (step_unorderedList p c sol).2.2
  | horizontalRule p => exact (step_horizontalRule p c sol).2.2
  | blockLaTeX p => exact (step_blockLaTeX p c sol).2.2
  | blockBracketLaTeX p => exact (step_blockBracketLaTeX p c sol).2.2
  | table p => exact (step_table p c sol).2.2
  | image p => exact (step_image p c sol).2.2
  | xml p => exact (step_xml p c sol).2.2
  | bold p => exact (step_bold p c sol).2.2
  | italic p => exact (step_italic p c sol).2.2
  | inlineCode p => exact (step_inlineCode p c sol).2.2
  | link p => rfl
  | strikethrough p => exact (step_strikethrough p c sol).2.2
  | underline p => exact (step_underline p c sol).2.2
  | inlineLaTeX p => exact (step_inlineLaTeX p c sol).2.2
  | inlineParenLaTeX p => exact (step_inlineParenLaTeX p c sol).2.2

theorem reset_includeFlag (q : Plugin) : q.reset.includeFlag = q.includeFlag := by
  cases q <;> rfl

theorem evalAll_getElem? (c : Nat) (sol : Bool) : ∀ (ps : List PluginEntry) (pi m j : Nat),
    (evalAll c sol ps pi m).1[j]? =
      ps[j]?.map (fun x => { x with plugin := (x.plugin.processChar c sol).1 }) := by
  intro ps
  induction ps with
  | nil => intro pi m j; simp [evalAll]
  | cons p ps ih =>
    intro pi m j
    cases j with
    | zero => simp [evalAll]
    | succ j => simp only [evalAll, List.getElem?_cons_succ]; exact ih _ _ j

theorem evalAll_noWaitfor (c : Nat) (sol : Bool) (ps : List PluginEntry) (pi m : Nat)
    (h : ∀ j, stateAt ps j ≠ some .PROCESSING ∧ stateAt ps j ≠ some .WAITFOR) (j : Nat) :
    stateAt (evalAll c sol ps pi m).1 j ≠ some .WAITFOR := by
  simp only [stateAt, evalAll_getElem?]
  have hj := h j
  simp only [stateAt] at hj
  cases hx : ps[j]? with
  | none => simp
  | some x =>
    simp only [hx, Option.map_some', ne_eq, Option.some.injEq] at hj ⊢
    exact processChar_noWaitfor x.plugin c sol hj.1 hj.2

theorem activeProcessChar_states (s : MarkdownSession) (c : Nat) (b : Bool) :
    (s.activeProcessChar c b).1.activePlugin_ = s.activePlugin_ ∧
    (∀ i j, s.activePlugin_ = some i → j ≠ i →
      stateAt (s.activeProcessChar c b).1.plugins_ j = stateAt s.plugins_ j) ∧
    (s.activePlugin_ = none → (s.activeProcessChar c b).1.plugins_ = s.plugins_) := by
  unfold MarkdownSession.activeProcessChar
  split
  · next h => exact ⟨rfl, fun i j hi => by simp [h] at hi, fun _ => rfl⟩
  · next i h =>
    split
    · exact ⟨rfl, fun _ _ _ _ => rfl, fun _ => rfl⟩
    · next en h2 =>
      refine ⟨rfl, ?_, fun h0 => by simp [h] at h0⟩
      intro i2 j hi hj
      rw [h] at hi
      cases hi
      simp only [stateAt]
      rw [List.getElem?_set_ne (Ne.symm hj)]

theorem activeState_eq (s : MarkdownSession) (i : Nat) (h : s.activePlugin_ = some i) :
    s.activeState = (stateAt s.plugins_ i).getD .IDLE := by
  unfold MarkdownSession.activeState stateAt
  rw [h]
  simp only []
  cases s.plugins_[i]? <;> rfl

theorem activeState_none (s : MarkdownSession) (h : s.activePlugin_ = none) :
    s.activeState = .IDLE := by
  unfold MarkdownSession.activeState
  rw [h]

theorem uniqueActiveOf_reset (ps : List PluginEntry) : UniqueActiveOf (resetAll ps) none := by
  refine ⟨fun i h => (by cases h), fun _ j => ⟨?_, ?_⟩⟩
  · intro h; have := resetAll_state ps j _ h; cases this
  · intro h; have := resetAll_state ps j _ h; cases this

theorem uniqueActiveOf_continue (ps ps2 : List PluginEntry) (a : Option Nat)
    (h : UniqueActiveOf ps a)
    (hsame : ∀ i j, a = some i → j ≠ i → stateAt ps2 j = stateAt ps j)
    (hnone : a = none → ps2 = ps)
    (hst : ∀ i, a = some i →
      stateAt ps2 i = some .PROCESSING ∨ stateAt ps2 i = some .WAITFOR) :
    UniqueActiveOf ps2 a := by
  refine ⟨fun i hi => ⟨hst i hi, fun j q hj hq => ?_⟩, fun hn => ?_⟩
  · rw [hsame i j hi hj] at hq
    exact (h.set i hi).2 j q hj hq
  · rw [hnone hn]; exact h.unset hn

theorem uniqueActiveOf_close (ps ps2 : List PluginEntry) (i : Nat)
    (h : UniqueActiveOf ps (some i))
    (hsame : ∀ j, j ≠ i → stateAt ps2 j = stateAt ps j)
    (h1 : stateAt ps2 i ≠ some .PROCESSING) (h2 : stateAt ps2 i ≠ some .WAITFOR) :
    UniqueActiveOf ps2 none := by
  refine ⟨fun k hk => (by cases hk), fun _ j => ?_⟩
  by_cases hj : j = i
  · rw [hj]; exact ⟨h1, h2⟩
  · rw [hsame j hj]
    constructor
    · intro hq; have := (h.set i rfl).2 j _ hj hq; cases this
    · intro hq; have := (h.set i rfl).2 j _ hj hq; cases this

theorem processWaitfor_unique (s : MarkdownSession) (e : Emitter) (c : Nat) (g : Int)
    (h : UniqueActive s) : UniqueActive (processWaitfor s e c g).1 := by
  obtain ⟨ha, hsame, hnone⟩ := activeProcessChar_states s c s.waitforAtStartOfLine_
  unfold processWaitfor
  simp only []
  split
  · next hp =>
    show UniqueActiveOf (s.activeProcessChar c s.waitforAtStartOfLine_).1.plugins_
      (s.activeProcessChar c s.waitforAtStartOfLine_).1.activePlugin_
    rw [ha]
    refine uniqueActiveOf_continue s.plugins_ _ _ h hsame hnone ?_
    intro i hi
    rw [activeState_eq _ i (ha.trans hi)] at hp
    left
    cases hx : stateAt (s.activeProcessChar c s.waitforAtStartOfLine_).1.plugins_ i with
    | none => rw [hx] at hp; cases hp
    | some q => rw [hx] at hp; exact congrArg some hp
  · exact uniqueActiveOf_reset _

theorem processActive_unique (s : MarkdownSession) (e : Emitter) (c : Nat) (sol : Bool)
    (g : Int) (h : UniqueActive s) (hs : s.activePlugin_.isSome = true) :
    UniqueActive (processActive s e c sol g).1 := by
  obtain ⟨ha, hsame, hnone⟩ := activeProcessChar_states s c sol
  obtain ⟨i, hi⟩ := Option.isSome_iff_exists.1 hs
  have hst := activeState_eq _ i (ha.trans hi)
  have hget : ∀ q, (s.activeProcessChar c sol).1.activeState = q → q ≠ .IDLE →
      stateAt (s.activeProcessChar c sol).1.plugins_ i = some q := by
    intro q hq hne
    rw [hst] at hq
    cases hx : stateAt (s.activeProcessChar c sol).1.plugins_ i with
    | none => rw [hx] at hq; exact absurd hq.symm hne
    | some q2 => rw [hx] at hq; exact congrArg some hq
  have hnot : ∀ q, (s.activeProcessChar c sol).1.activeState ≠ q →
      stateAt (s.activeProcessChar c sol).1.plugins_ i ≠ some q := by
    intro q hq hx
    rw [hst, hx] at hq
    exact hq rfl
  unfold processActive
  simp only []
  split
  · next hw =>
    show UniqueActiveOf (s.activeProcessChar c sol).1.plugins_
      (s.activeProcessChar c sol).1.activePlugin_
    rw [ha]
    refine uniqueActiveOf_continue s.plugins_ _ _ h hsame hnone ?_
    intro i2 hi2
    rw [hi] at hi2; cases hi2
    exact Or.inr (hget _ hw (by decide))
  · next hw =>
    split
    · next hp =>
      show UniqueActiveOf (s.activeProcessChar c sol).1.plugins_ none
      have h0 : UniqueActiveOf s.plugins_ (some i) := by
        have := h; unfold UniqueActive at this; rwa [hi] at this
      exact uniqueActiveOf_close s.plugins_ _ i h0 (fun j hj => hsame i j hi hj)
        (hnot _ hp) (hnot _ hw)
    · next hp =>
      show UniqueActiveOf (s.activeProcessChar c sol).1.plugins_
        (s.activeProcessChar c sol).1.activePlugin_
      rw [ha]
      refine uniqueActiveOf_continue s.plugins_ _ _ h hsame hnone ?_
      intro i2 hi2
      rw [hi] at hi2; cases hi2
      exact Or.inl (hget _ (not_not.1 hp) (by decide))

theorem processEvaluation_unique (s : MarkdownSession) (e : Emitter) (c : Nat) (sol : Bool)
    (g : Int) (h : UniqueActive s) (hs : s.activePlugin_ = none) :
    UniqueActive (processEvaluation s e c sol g).1 := by
  have hidle := h.unset hs
  have hnw := evalAll_noWaitfor c sol s.plugins_ 0 0 hidle
  unfold processEvaluation
  simp only []
  cases hf : findSuccessful (evalAll c sol s.plugins_ 0 0).1 0 with
  | some k =>
    simp only []
    obtain ⟨_, h2, _⟩ := findSuccessful_some _ _ _ hf
    show UniqueActiveOf (resetOthers _ 0 k) (some k)
    refine ⟨?_, fun hn => by cases hn⟩
    intro i hi
    cases hi
    refine ⟨Or.inl ?_, fun j q hj hq => resetOthers_other _ _ j hj q hq⟩
    rw [resetOthers_winner]
    simpa using h2
  | none =>
    simp only []
    split
    · show UniqueActiveOf (resetAll _) s.activePlugin_
      rw [hs]
      exact uniqueActiveOf_reset _
    · show UniqueActiveOf (evalAll c sol s.plugins_ 0 0).1 s.activePlugin_
      rw [hs]
      exact ⟨fun i hi => (by cases hi), fun _ j => ⟨findSuccessful_none _ _ hf j, hnw j⟩⟩

theorem processOne_unique (s : MarkdownSession) (e : Emitter) (c : Nat) (sol : Bool) (f : Int)
    (h : UniqueActive s) : UniqueActive (processOne s e c sol f).1 := by
  unfold processOne
  simp only []
  split
  · exact processWaitfor_unique _ e c _ h
  · split
    · next hs => exact processActive_unique _ e c sol _ h hs
    · next hs =>
      refine processEvaluation_unique _ e c sol _ h ?_
      simpa using hs

theorem pushLoop_unique : ∀ (fuel : Nat) (s : MarkdownSession) (e : Emitter) (sol : Bool)
    (chars : List Nat), UniqueActive s → UniqueActive (pushLoop fuel s e sol chars).1 := by
  intro fuel
  induction fuel with
  | zero => intro s e sol chars h; exact h
  | succ n ih =>
    intro s e sol chars h
    rcases pending_cases s with hp | ⟨pc, rest, hp⟩
    · cases chars with
      | nil => rw [pushLoop_done n s e sol hp]; exact h
      | cons c cs =>
        rw [pushLoop_read n s e sol c cs hp]
        exact ih _ _ _ _ (processOne_unique s e c sol (-1) h)
    · rw [pushLoop_pop n s e sol chars pc rest hp]
      exact ih _ _ _ _ (processOne_unique _ e pc.c sol pc.globalIndex h)

theorem push_unique (s : MarkdownSession) (chars : List Nat) (h : UniqueActive s) :
    UniqueActive (s.push chars).1 :=
  pushLoop_unique _ s _ _ chars h

theorem pushAll_unique (chunks : List (List Nat)) :
    ∀ (s : MarkdownSession), UniqueActive s → UniqueActive (pushAll s chunks).1 := by
  induction chunks with
  | nil => intro s h; exact h
  | cons a rest ih =>
    intro s h
    simp only [pushAll]
    exact ih _ (push_unique s a h)

theorem uniqueActive_new (roster : List PluginEntry) :
    UniqueActive (MarkdownSession.new roster) := by
  refine ⟨fun i hi => (by cases hi), fun _ j => ?_⟩
  have : ∀ q, stateAt (MarkdownSession.new roster).plugins_ j = some q → q = .IDLE := by
    intro q hq
    simp only [MarkdownSession.new, stateAt, List.getElem?_map] at hq
    cases hx : roster[j]? with
    | none => simp [hx] at hq
    | some x =>
      simp [hx, Plugin.initPlugin, reset_state] at hq
      exact hq.symm
  constructor
  · intro hq; have := this _ hq; cases this
  · intro hq; have := this _ hq; cases this

/-! ## The WAITFOR pending list -/

theorem processWaitfor_clears (s : MarkdownSession) (e : Emitter) (c : Nat) (g : Int) :
    (processWaitfor s e c g).1.waitforPending_ = [] ∧
    (processWaitfor s e c g).1.waitforActive_ = false := by
  unfold processWaitfor
  simp only []
  split <;> exact ⟨rfl, rfl⟩

theorem processOne_clears (s : MarkdownSession) (e : Emitter) (c : Nat) (sol : Bool) (f : Int)
    (h : s.waitforActive_ = true) :
    (processOne s e c sol f).1.waitforPending_ = [] ∧
    (processOne s e c sol f).1.waitforActive_ = false := by
  unfold processOne
  simp only []
  rw [if_pos h]
  exact processWaitfor_clears _ e c _

theorem waitforOK_off {s : MarkdownSession} (h : WaitforOK s) (hw : s.waitforActive_ = false) :
    s.waitforPending_ = [] := by
  have h1 : s.waitforPending_.length ≠ 1 := by
    intro h1
    have := h.2.1 h1
    rw [hw] at this
    cases this
  have h2 := h.1
  exact List.length_eq_zero.1 (by omega)

theorem processActive_waitforOK (s : MarkdownSession) (e : Emitter) (c : Nat) (sol : Bool)
    (g : Int) (h : WaitforOK s) (hw : s.waitforActive_ = false) :
    WaitforOK (processActive s e c sol g).1 := by
  obtain ⟨ps, hps, _⟩ := activeProcessChar_eq s c sol
  have hp := waitforOK_off h hw
  unfold processActive
  simp only []
  rw [hps]
  split
  · unfold WaitforOK
    simp [hp]
  · split <;> exact h

theorem processEvaluation_waitforOK (s : MarkdownSession) (e : Emitter) (c : Nat) (sol : Bool)
    (g : Int) (h : WaitforOK s) : WaitforOK (processEvaluation s e c sol g).1 := by
  unfold processEvaluation
  simp only []
  cases findSuccessful (evalAll c sol s.plugins_ 0 0).1 0 with
  | some k => exact h
  | none =>
    simp only []
    split <;> exact h

theorem processOne_waitforOK (s : MarkdownSession) (e : Emitter) (c : Nat) (sol : Bool)
    (f : Int) (h : WaitforOK s) : WaitforOK (processOne s e c sol f).1 := by
  by_cases hw : s.waitforActive_ = true
  · obtain ⟨h1, h2⟩ := processOne_clears s e c sol f hw
    unfold WaitforOK
    rw [h1, h2]
    simp
  · have hw2 : s.waitforActive_ = false := by simpa using hw
    unfold processOne
    simp only []
    rw [if_neg hw]
    split
    · exact processActive_waitforOK _ e c sol _ h hw2
    · exact processEvaluation_waitforOK _ e c sol _ h

theorem pushLoop_waitforOK : ∀ (fuel : Nat) (s : MarkdownSession) (e : Emitter) (sol : Bool)
    (chars : List Nat), WaitforOK s → WaitforOK (pushLoop fuel s e sol chars).1 := by
  intro fuel
  induction fuel with
  | zero => intro s e sol chars h; exact h
  | succ n ih =>
    intro s e sol chars h
    rcases pending_cases s with hp | ⟨pc, rest, hp⟩
    · cases chars with
      | nil => rw [pushLoop_done n s e sol hp]; exact h
      | cons c cs =>
        rw [pushLoop_read n s e sol c cs hp]
        exact ih _ _ _ _ (processOne_waitforOK s e c sol (-1) h)
    · rw [pushLoop_pop n s e sol chars pc rest hp]
      exact ih _ _ _ _ (processOne_waitforOK _ e pc.c sol pc.globalIndex h)

theorem pushAll_waitforOK (chunks : List (List Nat)) :
    ∀ (s : MarkdownSession), WaitforOK s → WaitforOK (pushAll s chunks).1 := by
  induction chunks with
  | nil => intro s h; exact h
  | cons a rest ih =>
    intro s h
    simp only [pushAll]
    exact ih _ (pushLoop_waitforOK _ s _ _ a h)

theorem run_includeFlag (ops : List (Option (Nat × Bool))) :
    ∀ (q : Plugin), (q.run ops).includeFlag = q.includeFlag := by
  induction ops with
  | nil => intro q; rfl
  | cons op ops ih =>
    intro q
    cases op with
    | none => rw [Plugin.run, ih, reset_includeFlag]
    | some x =>
      obtain ⟨c, sol⟩ := x
      rw [Plugin.run, ih, processChar_includeFlag]

/-! ## The XML plugin -/

theorem xml_lastChar (p : StreamXmlPlugin) (c : Nat) (sol : Bool) :
    (p.processChar c sol).1.lastChar_ = c := by
  unfold StreamXmlPlugin.processChar
  simp only [StreamXmlPlugin.finish]
  split_ifs <;> rfl

theorem xml_gt_selfClosing (q : StreamXmlPlugin) (sol : Bool) (hT : q.state_ = .TRYING)
    (hS : q.startState_ = .IN_TAG_NAME ∨ q.startState_ = .IN_ATTRS)
    (hl : q.lastChar_ = ch_slash) :
    (q.processChar ch_gt sol).2 = true ∧ (q.processChar ch_gt sol).1.state_ = .IDLE := by
  unfold StreamXmlPlugin.processChar
  rcases hS with hS | hS <;>
    simp [StreamXmlPlugin.processStartMatcher, StreamXmlPlugin.finish, StreamXmlPlugin.reset,
      hT, hS, hl, ch_gt, ch_space]

theorem xml_gt_opens (q : StreamXmlPlugin) (sol : Bool) (hT : q.state_ = .TRYING)
    (hS : q.startState_ = .IN_TAG_NAME ∨ q.startState_ = .IN_ATTRS)
    (hl : q.lastChar_ ≠ ch_slash) :
    (q.processChar ch_gt sol).2 = q.includeTagsInOutput_ ∧
    (q.processChar ch_gt sol).1.state_ = .PROCESSING ∧
    (q.processChar ch_gt sol).1.haveEndPattern_ = true ∧
    (q.processChar ch_gt sol).1.endPattern_ = [ch_lt, ch_slash] ++ q.tagName_ ++ [ch_gt] ∧
    (q.processChar ch_gt sol).1.endMatcher_ =
      q.endMatcher_.setPattern ([ch_lt, ch_slash] ++ q.tagName_ ++ [ch_gt]) ∧
    (q.processChar ch_gt sol).1.includeTagsInOutput_ = q.includeTagsInOutput_ := by
  unfold StreamXmlPlugin.processChar
  rcases hS with hS | hS <;>
    simp [StreamXmlPlugin.processStartMatcher, StreamXmlPlugin.finish,
      StreamXmlPlugin.buildEndPattern, hT, hS, hl, ch_gt, ch_space]

theorem xmlOpen_step (p : StreamXmlPlugin) (t T : List Nat) (c : Nat) (sol : Bool)
    (h : XmlOpen p t T) :
    (xmlCloser t <:+ T ++ [c] → (p.processChar c sol).1.state_ = .IDLE) ∧
    (¬ xmlCloser t <:+ T ++ [c] → XmlOpen (p.processChar c sol).1 t (T ++ [c])) := by
  obtain ⟨hs, hh, hp, hk⟩ := h
  obtain ⟨h1, h2, h3⟩ := process_spec p.endMatcher_ T c hk
  rw [hp] at h3
  unfold StreamXmlPlugin.processChar
  simp only [hs, hh, if_true, StreamXmlPlugin.finish]
  constructor
  · intro hm
    rw [if_pos (h3.2 hm)]
    rfl
  · intro hm
    have : ¬ (p.endMatcher_.process c).2 = true := fun hq => hm (h3.1 hq)
    rw [if_neg this]
    exact ⟨rfl, rfl, h2.trans hp, h1⟩

theorem xmlOpen_feed (t : List Nat) : ∀ (body : List (Nat × Bool)) (p : StreamXmlPlugin)
    (T : List Nat), XmlOpen p t T →
    (∀ k, k < body.length → ¬ xmlCloser t <:+ T ++ (body.map Prod.fst).take (k + 1)) →
    XmlOpen (p.feed body) t (T ++ body.map Prod.fst) := by
  intro body
  induction body with
  | nil => intro p T h _; simpa [StreamXmlPlugin.feed] using h
  | cons x rest ih =>
    intro p T h hno
    obtain ⟨c, sol⟩ := x
    have h0 : ¬ xmlCloser t <:+ T ++ [c] := by
      have := hno 0 (by simp)
      simpa using this
    have h1 := (xmlOpen_step p t T c sol h).2 h0
    have h2 := ih (p.processChar c sol).1 (T ++ [c]) h1 (by
      intro k hk
      have := hno (k + 1) (by simpa using hk)
      simpa [List.append_assoc] using this)
    simpa [StreamXmlPlugin.feed, List.append_assoc] using h2

theorem feed_take_succ : ∀ (body : List (Nat × Bool)) (p : StreamXmlPlugin) (n : Nat)
    (hn : n < body.length),
    p.feed (body.take (n + 1)) =
      ((p.feed (body.take n)).processChar (body.get ⟨n, hn⟩).1 (body.get ⟨n, hn⟩).2).1 := by
  intro body
  induction body with
  | nil => intro p n hn; simp at hn
  | cons x rest ih =>
    intro p n hn
    obtain ⟨c, sol⟩ := x
    cases n with
    | zero => simp [StreamXmlPlugin.feed]
    | succ n =>
      have hn2 : n < rest.length := by simpa using hn
      simp only [List.take_succ_cons, StreamXmlPlugin.feed]
      rw [ih _ n hn2]
      rfl

theorem xml_opened (q : StreamXmlPlugin) (sol : Bool) (hT : q.state_ = .TRYING)
    (hS : q.startState_ = .IN_TAG_NAME ∨ q.startState_ = .IN_ATTRS)
    (hl : q.lastChar_ ≠ ch_slash) : XmlOpen (q.processChar ch_gt sol).1 q.tagName_ [] := by
  obtain ⟨_, h2, h3, _, h5, _⟩ := xml_gt_opens q sol hT hS hl
  refine ⟨h2, h3, ?_, ?_⟩
  · rw [h5]; rfl
  · rw [h5]; exact setPattern_inv _ _ (by simp)

theorem xml_tagName_step (q : StreamXmlPlugin) (c : Nat) (sol : Bool) (hT : q.state_ = .TRYING)
    (hS : q.startState_ = .IN_TAG_NAME) (h1 : c ≠ ch_space) (h2 : c ≠ ch_gt) :
    (q.processChar c sol).1.state_ = .TRYING ∧
    (q.processChar c sol).1.startState_ = .IN_TAG_NAME ∧
    (q.processChar c sol).1.tagName_ = q.tagName_ ++ [c] := by
  unfold StreamXmlPlugin.processChar
  simp [StreamXmlPlugin.processStartMatcher, StreamXmlPlugin.finish, hT, hS, h1, h2]

theorem xml_tagName_feed : ∀ (name : List Nat) (q : StreamXmlPlugin), q.state_ = .TRYING →
    q.startState_ = .IN_TAG_NAME → (∀ c ∈ name, c ≠ ch_space ∧ c ≠ ch_gt) →
    (q.feed (name.map (fun c => (c, false)))).state_ = .TRYING ∧
    (q.feed (name.map (fun c => (c, false)))).startState_ = .IN_TAG_NAME ∧
    (q.feed (name.map (fun c => (c, false)))).tagName_ = q.tagName_ ++ name := by
  intro name
  induction name with
  | nil => intro q hT hS _; simp [StreamXmlPlugin.feed, hT, hS]
  | cons c rest ih =>
    intro q hT hS hn
    obtain ⟨a1, a2, a3⟩ := xml_tagName_step q c false hT hS (hn c (by simp)).1 (hn c (by simp)).2
    obtain ⟨b1, b2, b3⟩ := ih _ a1 a2 (fun x hx => hn x (by simp [hx]))
    simp only [List.map_cons, StreamXmlPlugin.feed]
    exact ⟨b1, b2, by rw [b3, a3]; simp⟩

theorem xml_lt_at_start (p : StreamXmlPlugin) (hI : p.state_ = .IDLE)
    (hW : p.startState_ = .WAIT_LT) :
    (p.processChar ch_lt true).1.state_ = .TRYING ∧
    (p.processChar ch_lt true).1.startState_ = .WAIT_FIRST_LETTER ∧
    (p.processChar ch_lt true).1.tagName_ = [] := by
  unfold StreamXmlPlugin.processChar
  simp [StreamXmlPlugin.processStartMatcher, StreamXmlPlugin.finish, hI, hW]

theorem xml_first_letter (q : StreamXmlPlugin) (l : Nat) (sol : Bool) (hT : q.state_ = .TRYING)
    (hS : q.startState_ = .WAIT_FIRST_LETTER) (hl : StreamXmlPlugin.isAsciiLetter l = true) :
    (q.processChar l sol).1.state_ = .TRYING ∧
    (q.processChar l sol).1.startState_ = .IN_TAG_NAME ∧
    (q.processChar l sol).1.tagName_ = q.tagName_ ++ [l] := by
  unfold StreamXmlPlugin.processChar
  simp [StreamXmlPlugin.processStartMatcher, StreamXmlPlugin.finish, hT, hS, hl]

theorem xml_tag_start (p : StreamXmlPlugin) (l : Nat) (hI : p.state_ = .IDLE)
    (hW : p.startState_ = .WAIT_LT) (hl : StreamXmlPlugin.isAsciiLetter l = true) :
    ((p.processChar ch_lt true).1.processChar l false).1.state_ = .TRYING ∧
    ((p.processChar ch_lt true).1.processChar l false).1.startState_ = .IN_TAG_NAME ∧
    ((p.processChar ch_lt true).1.processChar l false).1.tagName_ = [l] := by
  obtain ⟨a1, a2, a3⟩ := xml_lt_at_start p hI hW
  obtain ⟨b1, b2, b3⟩ := xml_first_letter _ l false a1 a2 hl
  exact ⟨b1, b2, by rw [b3, a3]; rfl⟩

theorem xml_idle_waitLt (p : StreamXmlPlugin) (c : Nat) (sol : Bool)
    (h : p.state_ = .IDLE → p.startState_ = .WAIT_LT) :
    (p.processChar c sol).1.state_ = .IDLE → (p.processChar c sol).1.startState_ = .WAIT_LT := by
  unfold StreamXmlPlugin.processChar
  simp only [StreamXmlPlugin.finish, StreamXmlPlugin.handleDefaultCharacter,
    StreamXmlPlugin.buildEndPattern, StreamXmlPlugin.reset]
  have hupd : ∀ (x : StreamXmlPlugin) (d : Nat),
      (x.updatePunctuationAllowance d).state_ = x.state_ ∧
      (x.updatePunctuationAllowance d).startState_ = x.startState_ := by
    intro x d
    unfold StreamXmlPlugin.updatePunctuationAllowance
    split_ifs <;> exact ⟨rfl, rfl⟩
  have hsm : (p.processStartMatcher c).1.state_ = .IDLE →
      (p.processStartMatcher c).1.startState_ = .WAIT_LT := by
    unfold StreamXmlPlugin.processStartMatcher
    cases hs : p.startState_ <;> simp only [] <;> split_ifs <;> simp_all
  split_ifs <;> simp only [(hupd _ _).1, (hupd _ _).2] <;> first
    | (intro _; rfl)
    | (intro hh; cases hh; done)
    | exact hsm
    | (intro hh; simp_all; done)
    | simp_all

theorem xml_run_waitLt (ops : List (Option (Nat × Bool))) : ∀ (p : StreamXmlPlugin),
    (p.state_ = .IDLE → p.startState_ = .WAIT_LT) →
    ((p.run ops).state_ = .IDLE → (p.run ops).startState_ = .WAIT_LT) := by
  induction ops with
  | nil => intro p h; exact h
  | cons op ops ih =>
    intro p h
    cases op with
    | none => exact ih p.reset (fun _ => rfl)
    | some x =>
      obtain ⟨c, sol⟩ := x
      exact ih _ (xml_idle_waitLt p c sol h)

theorem xml_gate (p : StreamXmlPlugin) (hI : p.state_ = .IDLE) (hW : p.startState_ = .WAIT_LT) :
    ((p.processChar ch_lt false).1.state_ = .TRYING ↔
      (p.allowStartAfterEndTag_ || p.allowStartAfterPunctuation_) = true) ∧
    ((p.allowStartAfterEndTag_ || p.allowStartAfterPunctuation_) = false →
      (p.processChar ch_lt false).1.state_ = .IDLE ∧ (p.processChar ch_lt false).2 = true) ∧
    (p.processChar ch_lt true).1.state_ = .TRYING := by
  refine ⟨?_, ?_, ?_⟩
  · unfold StreamXmlPlugin.processChar
    cases ha : (p.allowStartAfterEndTag_ || p.allowStartAfterPunctuation_) <;>
      simp [StreamXmlPlugin.processStartMatcher, StreamXmlPlugin.finish,
        StreamXmlPlugin.handleDefaultCharacter, StreamXmlPlugin.updatePunctuationAllowance,
        StreamXmlPlugin.isPunctuationTrigger, hI, hW, ha, ch_lt, ch_space, ch_tab]
  · intro ha
    unfold StreamXmlPlugin.processChar
    simp [StreamXmlPlugin.finish,
      StreamXmlPlugin.handleDefaultCharacter, StreamXmlPlugin.updatePunctuationAllowance,
      StreamXmlPlugin.isPunctuationTrigger, hI, ha, ch_lt, ch_space, ch_tab]
  · unfold StreamXmlPlugin.processChar
    simp [StreamXmlPlugin.processStartMatcher, StreamXmlPlugin.finish, hI, hW]

theorem trigger_not_special (c : Nat) (h : StreamXmlPlugin.isPunctuationTrigger c = true) :
    c ≠ ch_lt ∧ c ≠ ch_space ∧ c ≠ ch_tab := by
  refine ⟨?_, ?_, ?_⟩ <;> intro hc <;> rw [hc] at h <;> revert h <;> decide

theorem xml_trigger (p : StreamXmlPlugin) (c : Nat) (sol : Bool) (hI : p.state_ = .IDLE)
    (hW : p.startState_ = .WAIT_LT) (hc : StreamXmlPlugin.isPunctuationTrigger c = true) :
    (p.processChar c sol).1.state_ = .IDLE ∧ (p.processChar c sol).1.startState_ = .WAIT_LT ∧
    (p.processChar c sol).1.allowStartAfterPunctuation_ = true := by
  obtain ⟨h1, h2, h3⟩ := trigger_not_special c hc
  unfold StreamXmlPlugin.processChar
  simp only [StreamXmlPlugin.processStartMatcher, StreamXmlPlugin.finish,
    StreamXmlPlugin.handleDefaultCharacter, StreamXmlPlugin.updatePunctuationAllowance, hI, hW,
    hc, h1, if_true, if_false]
  split_ifs <;> simp_all

theorem xml_blank (p : StreamXmlPlugin) (c : Nat) (hI : p.state_ = .IDLE) (hc : isBlank c) :
    (p.processChar c false).1 = { p with lastChar_ := c } := by
  have hn : StreamXmlPlugin.isPunctuationTrigger c = false := by
    rcases hc with hc | hc <;> rw [hc] <;> decide
  have hc2 : c = ch_space ∨ c = ch_tab := hc
  unfold StreamXmlPlugin.processChar
  simp [StreamXmlPlugin.finish, StreamXmlPlugin.handleDefaultCharacter,
    StreamXmlPlugin.updatePunctuationAllowance, hI, hn, hc2]

theorem xml_blanks : ∀ (blanks : List Nat) (p : StreamXmlPlugin), p.state_ = .IDLE →
    (∀ c ∈ blanks, isBlank c) →
    (p.feed (blanks.map (fun c => (c, false)))).state_ = .IDLE ∧
    (p.feed (blanks.map (fun c => (c, false)))).startState_ = p.startState_ ∧
    (p.feed (blanks.map (fun c => (c, false)))).allowStartAfterEndTag_ =
      p.allowStartAfterEndTag_ ∧
    (p.feed (blanks.map (fun c => (c, false)))).allowStartAfterPunctuation_ =
      p.allowStartAfterPunctuation_ := by
  intro blanks
  induction blanks with
  | nil => intro p hI _; exact ⟨hI, rfl, rfl, rfl⟩
  | cons c rest ih =>
    intro p hI hb
    simp only [List.map_cons, StreamXmlPlugin.feed]
    rw [xml_blank p c hI (hb c (by simp))]
    exact ih _ hI (fun x hx => hb x (by simp [hx]))

theorem xml_close (p : StreamXmlPlugin) (c : Nat) (sol : Bool) (hP : p.state_ = .PROCESSING)
    (hI : (p.processChar c sol).1.state_ ≠ .PROCESSING) :
    (p.processChar c sol).1.state_ = .IDLE ∧ (p.processChar c sol).1.startState_ = .WAIT_LT ∧
    (p.processChar c sol).1.allowStartAfterEndTag_ = true ∧
    (p.processChar c sol).1.allowStartAfterPunctuation_ = false := by
  revert hI
  unfold StreamXmlPlugin.processChar
  simp only [hP, if_true, StreamXmlPlugin.finish, StreamXmlPlugin.reset]
  split_ifs <;> simp_all

/-! ## An open bold group -/

theorem boldActive_active (s : MarkdownSession) (e : Emitter) (c : Nat) (sol : Bool) (g : Int)
    (h : BoldActive s) (hc : c ≠ ch_star) :
    processActive s e c sol g = (s, emitIndex e MD_BOLD g) := by
  obtain ⟨ha, hp, ht, hw, hq⟩ := h
  obtain ⟨rest, hl⟩ : ∃ rest, s.plugins_ =
      ⟨.bold ⟨false, .PROCESSING, 0, 0⟩, MD_BOLD⟩ :: rest := by
    cases hps : s.plugins_ with
    | nil => rw [hps] at hp; cases hp
    | cons x rest =>
      rw [hps] at hp
      simp only [List.head?_cons, Option.some.injEq] at hp
      exact ⟨rest, by rw [hp]⟩
  have hproc : (Plugin.bold ⟨false, .PROCESSING, 0, 0⟩).processChar c sol =
      (Plugin.bold ⟨false, .PROCESSING, 0, 0⟩, true) := by
    simp [Plugin.processChar, StreamMarkdownBoldPlugin.processChar, hc]
  have hact : s.activeProcessChar c sol = (s, true) := by
    unfold MarkdownSession.activeProcessChar
    rw [ha]
    simp only [hl, List.getElem?_cons_zero, hproc, List.set_cons_zero]
    rw [← hl, ← ha]
  have hst : s.activeState = .PROCESSING := by
    unfold MarkdownSession.activeState
    rw [ha]
    simp only [hl, List.getElem?_cons_zero]
    rfl
  unfold processActive
  simp only [hact, hst, ht]
  simp

theorem boldActive_step (s : MarkdownSession) (e : Emitter) (c : Nat) (sol : Bool)
    (h : BoldActive s) (hc : c ≠ ch_star) :
    BoldActive (processOne s e c sol (-1)).1 ∧
    (processOne s e c sol (-1)).1.globalOffset_ = s.globalOffset_ + 1 ∧
    (processOne s e c sol (-1)).1.pendingChars_ = [] ∧
    (processOne s e c sol (-1)).2 = emitIndex e MD_BOLD s.globalOffset_ := by
  have h1 : BoldActive { s with globalOffset_ := s.globalOffset_ + 1 } := h
  have hw : ¬ s.waitforActive_ = true := by rw [h.2.2.2.1]; decide
  have ha : s.activePlugin_.isSome = true := by rw [h.1]; rfl
  have key : processOne s e c sol (-1) =
      ({ s with globalOffset_ := s.globalOffset_ + 1 }, emitIndex e MD_BOLD s.globalOffset_) := by
    unfold processOne
    simp only [show ¬ (0 : Int) ≤ -1 by decide, show (-1 : Int) < 0 by decide, if_true, if_false]
    rw [if_neg hw, if_pos ha]
    exact boldActive_active _ e c sol _ h1 hc
  rw [key]
  exact ⟨h1, rfl, h.2.2.2.2, rfl⟩

theorem boldActive_loop : ∀ (body : List Nat) (fuel : Nat) (s : MarkdownSession)
    (out : List Segment) (rs : Int) (sol : Bool), BoldActive s → (∀ c ∈ body, c ≠ ch_star) →
    body.length < fuel → 0 ≤ rs →
    (pushLoop fuel s ⟨out, MD_BOLD, rs, s.globalOffset_⟩ sol body).2.1 =
      ⟨out, MD_BOLD, rs, s.globalOffset_ + body.length⟩ := by
  intro body
  induction body with
  | nil =>
    intro fuel s out rs sol h _ hf _
    obtain ⟨n, rfl⟩ : ∃ n, fuel = n + 1 := ⟨fuel - 1, by simp at hf; omega⟩
    rw [pushLoop_done n s _ sol h.2.2.2.2]
    simp
  | cons c rest ih =>
    intro fuel s out rs sol h hb hf hrs
    obtain ⟨n, rfl⟩ : ∃ n, fuel = n + 1 := ⟨fuel - 1, by simp at hf; omega⟩
    rw [pushLoop_read n s _ sol c rest h.2.2.2.2]
    obtain ⟨s1, s2, _, s4⟩ := boldActive_step s ⟨out, MD_BOLD, rs, s.globalOffset_⟩ c sol h
      (hb c (by simp))
    have he : emitIndex ⟨out, MD_BOLD, rs, s.globalOffset_⟩ MD_BOLD s.globalOffset_ =
        ⟨out, MD_BOLD, rs, s.globalOffset_ + 1⟩ := by
      unfold emitIndex
      simp [hrs]
    rw [s4, he, ← s2]
    rw [ih n _ out rs _ s1 (fun x hx => hb x (by simp [hx])) (by simp at hf; omega) hrs, s2]
    simp only [List.length_cons, Nat.cast_add, Nat.cast_one]
    congr 1
    omega

/-! ## Termination of `push`: how often a code unit is handed to `processOne` -/

theorem traced_pop (n : Nat) (s : MarkdownSession) (e : Emitter) (sol : Bool)
    (chars : List Nat) (pc : PendingChar) (rest : List PendingChar)
    (h : s.pendingChars_ = pc :: rest) :
    pushLoopTraced (n + 1) s e sol chars =
      traceCons (handedIndex s pc.globalIndex)
        (pushLoopTraced n
          (processOne { s with pendingChars_ := rest } e pc.c sol pc.globalIndex).1
          (processOne { s with pendingChars_ := rest } e pc.c sol pc.globalIndex).2
          (decide (pc.c = ch_nl)) chars) := by
  cases s
  simp only at h
  subst h
  rfl

theorem traced_read (n : Nat) (s : MarkdownSession) (e : Emitter) (sol : Bool) (c : Nat)
    (cs : List Nat) (h : s.pendingChars_ = []) :
    pushLoopTraced (n + 1) s e sol (c :: cs) =
      traceCons (handedIndex s (-1))
        (pushLoopTraced n (processOne s e c sol (-1)).1 (processOne s e c sol (-1)).2
          (decide (c = ch_nl)) cs) := by
  cases s
  simp only at h
  subst h
  rfl

theorem traced_done (n : Nat) (s : MarkdownSession) (e : Emitter) (sol : Bool)
    (h : s.pendingChars_ = []) : pushLoopTraced (n + 1) s e sol [] = ((s, e, sol), []) := by
  cases s
  simp only at h
  subst h
  rfl

theorem pushLoopTraced_fst : ∀ (fuel : Nat) (s : MarkdownSession) (e : Emitter) (sol : Bool)
    (chars : List Nat), (pushLoopTraced fuel s e sol chars).1 = pushLoop fuel s e sol chars := by
  intro fuel
  induction fuel with
  | zero => intro s e sol chars; rfl
  | succ n ih =>
    intro s e sol chars
    rcases pending_cases s with hp | ⟨pc, rest, hp⟩
    · cases chars with
      | nil => rw [traced_done n s e sol hp, pushLoop_done n s e sol hp]
      | cons c cs =>
        rw [traced_read n s e sol c cs hp, pushLoop_read n s e sol c cs hp]
        exact ih _ _ _ _
    · rw [traced_pop n s e sol chars pc rest hp, pushLoop_pop n s e sol chars pc rest hp]
      exact ih _ _ _ _

theorem pushLoopTraced_fuel : ∀ (fuel fuel' : Nat) (s : MarkdownSession) (e : Emitter)
    (sol : Bool) (chars : List Nat), loopMeasure s chars < fuel → loopMeasure s chars < fuel' →
    pushLoopTraced fuel s e sol chars = pushLoopTraced fuel' s e sol chars := by
  intro fuel
  induction fuel with
  | zero => intro fuel' s e sol chars h; omega
  | succ fuel ih =>
    intro fuel' s e sol chars h h'
    cases fuel' with
    | zero => omega
    | succ fuel' =>
      rcases pending_cases s with hp | ⟨pc, rest, hp⟩
      · cases chars with
        | nil => rw [traced_done _ s e sol hp, traced_done _ s e sol hp]
        | cons c cs =>
          have := measure_read s e c sol cs
          rw [traced_read _ s e sol c cs hp, traced_read _ s e sol c cs hp,
            ih fuel' _ _ _ _ (by omega) (by omega)]
      · have := measure_pop s e pc rest sol chars hp
        rw [traced_pop _ s e sol chars pc rest hp, traced_pop _ s e sol chars pc rest hp,
          ih fuel' _ _ _ _ (by omega) (by omega)]

theorem processActive_pending (s : MarkdownSession) (e : Emitter) (c : Nat) (sol : Bool)
    (g : Int) : (processActive s e c sol g).1.pendingChars_ = s.pendingChars_ := by
  obtain ⟨ps, hps, _⟩ := activeProcessChar_eq s c sol
  unfold processActive
  simp only []
  rw [hps]
  split
  · rfl
  · split <;> rfl

theorem processEvaluation_pending (s : MarkdownSession) (e : Emitter) (c : Nat) (sol : Bool)
    (g : Int) : (processEvaluation s e c sol g).1.pendingChars_ = s.pendingChars_ := by
  unfold processEvaluation
  simp only []
  cases findSuccessful (evalAll c sol s.plugins_ 0 0).1 0 with
  | some k => rfl
  | none =>
    simp only []
    split <;> rfl

theorem processOne_pending_keep (s : MarkdownSession) (e : Emitter) (c : Nat) (sol : Bool)
    (f : Int) (hw : s.waitforActive_ = false) :
    (processOne s e c sol f).1.pendingChars_ = s.pendingChars_ := by
  have hwn : ¬ s.waitforActive_ = true := by rw [hw]; decide
  unfold processOne
  simp only []
  rw [if_neg hwn]
  split
  · exact processActive_pending _ e c sol _
  · exact processEvaluation_pending _ e c sol _

theorem sessInv_pending_le (s : MarkdownSession) (h : SessInv s) : s.pendingChars_.length ≤ 1 := by
  rcases h.next with hp | ⟨c, hp, _⟩ <;> rw [hp] <;> simp

theorem traced_count : ∀ (fuel : Nat) (s : MarkdownSession) (e : Emitter) (sol : Bool)
    (chars : List Nat) (lo : Int), loopMeasure s chars < fuel → SessInv s →
    EmInv lo e (lowMark s) →
    (pushLoopTraced fuel s e sol chars).2.length ≤ 2 * chars.length + s.pendingChars_.length ∧
    ∀ i : Int,
      (s.globalOffset_ - s.pendingChars_.length ≤ i → i < s.globalOffset_ →
        (pushLoopTraced fuel s e sol chars).2.count i = 1) ∧
      (s.globalOffset_ ≤ i → i < s.globalOffset_ + chars.length →
        1 ≤ (pushLoopTraced fuel s e sol chars).2.count i ∧
        (pushLoopTraced fuel s e sol chars).2.count i ≤ 2) ∧
      (i < s.globalOffset_ - s.pendingChars_.length ∨ s.globalOffset_ + chars.length ≤ i →
        (pushLoopTraced fuel s e sol chars).2.count i = 0) := by
  intro fuel
  induction fuel with
  | zero => intro s e sol chars lo h; omega
  | succ n ih =>
    intro s e sol chars lo hm hs he
    rcases pending_cases s with hp | ⟨pc, rest, hp⟩
    · cases chars with
      | nil =>
        rw [traced_done n s e sol hp, hp]
        refine ⟨by simp, fun i => ⟨?_, ?_, ?_⟩⟩
        · intro h1 h2; simp at h1; omega
        · intro h1 h2; simp at h2; omega
        · intro _; rfl
      | cons c cs =>
        obtain ⟨hs1, he1, hg1⟩ := processOne_inv_read s e c sol lo hs hp he
        have hm1 := measure_read s e c sol cs
        obtain ⟨hlen, hcnt⟩ := ih (processOne s e c sol (-1)).1 (processOne s e c sol (-1)).2
          (decide (c = ch_nl)) cs lo (by omega) hs1 he1
        have hP := sessInv_pending_le _ hs1
        have hidx : handedIndex s (-1) = s.globalOffset_ := by simp [handedIndex]
        rw [traced_read n s e sol c cs hp, hp, hidx]
        simp only [traceCons, List.length_cons, List.length_nil, Nat.cast_zero, sub_zero,
          Nat.cast_add, Nat.cast_one]
        rw [hg1] at hcnt
        refine ⟨by omega, fun i => ?_⟩
        obtain ⟨c1, c2, c3⟩ := hcnt i
        rw [List.count_cons]
        by_cases hi : i = s.globalOffset_
        · subst hi
          simp only [beq_self_eq_true, if_true]
          refine ⟨fun _ h2 => by omega, fun _ _ => ?_, fun h => by omega⟩
          by_cases hq : (processOne s e c sol (-1)).1.pendingChars_.length = 1
          · have := c1 (by rw [hq]; simp) (by omega)
            omega
          · have hq0 : (processOne s e c sol (-1)).1.pendingChars_.length = 0 := by omega
            have := c3 (Or.inl (by rw [hq0]; simp))
            omega
        · have hne : (s.globalOffset_ == i) = false := by
            rw [beq_eq_false_iff_ne]; exact fun h => hi h.symm
          simp only [hne, Bool.false_eq_true, if_false, add_zero]
          refine ⟨fun h1 h2 => by omega, fun h1 h2 => c2 (by omega) (by omega), fun h => ?_⟩
          apply c3
          rcases h with h | h
          · left; omega
          · right; omega
    · rcases hs.next with hp0 | ⟨c, hp1, hw, ha, hb⟩
      · rw [hp0] at hp; cases hp
      · rw [hp1] at hp
        simp only [List.cons.injEq] at hp
        obtain ⟨hpc, hrest⟩ := hp
        have hp2 : s.pendingChars_ = pc :: rest := by rw [hp1, hpc, hrest]
        obtain ⟨hs1, he1, hg1⟩ := processOne_inv_pop s e pc rest sol lo hs hp2 he
        have hm1 := measure_pop s e pc rest sol chars hp2
        have hkeep := processOne_pending_keep { s with pendingChars_ := rest } e pc.c sol
          pc.globalIndex hw
        have hpend : (processOne { s with pendingChars_ := rest } e pc.c sol
            pc.globalIndex).1.pendingChars_ = [] := by rw [hkeep, ← hrest]
        obtain ⟨hlen, hcnt⟩ := ih _ (processOne { s with pendingChars_ := rest } e pc.c sol
          pc.globalIndex).2 (decide (pc.c = ch_nl)) chars lo (by omega) hs1 he1
        have hlow := hs.core.low
        have hwp := hs.core.waitfor_off hw
        have hn : nextIndex s = s.globalOffset_ - 1 := by simp only [nextIndex, hp1]
        rw [hn, hwp, hb] at hlow
        simp only [List.length_nil, Nat.cast_zero, sub_zero] at hlow
        have hgi : pc.globalIndex = s.globalOffset_ - 1 := by rw [← hpc]
        have hidx : handedIndex s pc.globalIndex = s.globalOffset_ - 1 := by
          simp [handedIndex, hgi, hlow]
        rw [traced_pop n s e sol chars pc rest hp2, hidx, hp1]
        simp only [traceCons, List.length_cons, List.length_nil, Nat.cast_zero, zero_add,
          Nat.cast_one]
        rw [hg1, hpend] at hcnt
        rw [hpend] at hlen
        simp only [List.length_nil, Nat.cast_zero, sub_zero, add_zero] at hcnt hlen
        refine ⟨by omega, fun i => ?_⟩
        obtain ⟨_, c2, c3⟩ := hcnt i
        rw [List.count_cons]
        by_cases hi : i = s.globalOffset_ - 1
        · subst hi
          simp only [beq_self_eq_true, if_true]
          have := c3 (Or.inl (by omega))
          refine ⟨fun _ _ => by omega, fun h1 _ => by omega, fun h => by omega⟩
        · have hne : (s.globalOffset_ - 1 == i) = false := by
            rw [beq_eq_false_iff_ne]; exact fun h => hi h.symm
          simp only [hne, Bool.false_eq_true, if_false, add_zero]
          refine ⟨fun h1 h2 => by omega, fun h1 h2 => c2 h1 h2, fun h => ?_⟩
          apply c3
          rcases h with h | h
          · left; omega
          · right; omega

/-! ## `splitByXml`: the number of segments -/

theorem flushDefault_length (x : XmlSplit) (n : Int) :
    (x.flushDefaultIfNeeded n).segments.length ≤ x.segments.length + 1 := by
  unfold XmlSplit.flushDefaultIfNeeded
  simp only []
  split <;> simp

theorem closeActive_length (x : XmlSplit) (n : Int) :
    (x.closeActive n).segments.length ≤ x.segments.length + 1 := by
  unfold XmlSplit.closeActive
  simp only []
  split <;> simp

theorem step_length (x : XmlSplit) (i : Int) (c : Nat) :
    (x.step i c).segments.length ≤ x.segments.length + 1 := by
  unfold XmlSplit.step
  simp only []
  split_ifs <;>
    first
    | exact closeActive_length _ _
    | exact flushDefault_length _ _
    | exact Nat.le_succ _

theorem loop_length : ∀ (chars : List Nat) (x : XmlSplit) (i : Int),
    (XmlSplit.loop x i chars).segments.length ≤ x.segments.length + chars.length := by
  intro chars
  induction chars with
  | nil => intro x i; simp [XmlSplit.loop]
  | cons c cs ih =>
    intro x i
    have h1 := ih (x.step i c) (i + 1)
    have h2 := step_length x i c
    simp only [XmlSplit.loop, List.length_cons]
    omega

theorem splitByXml_length (chars : List Nat) : (splitByXml chars).length ≤ chars.length + 2 := by
  unfold splitByXml
  simp only []
  have h1 := loop_length chars
    (XmlSplit.mk [] (StreamXmlPlugin.new true).reset false (-1) 0 (-1) true) 0
  simp only [List.length_nil, zero_add] at h1
  generalize XmlSplit.loop (XmlSplit.mk [] (StreamXmlPlugin.new true).reset false (-1) 0 (-1)
    true) 0 chars = x1 at h1 ⊢
  split
  · refine le_trans (flushDefault_length _ _) ?_
    have h3 := closeActive_length x1 (chars.length : Int)
    show (x1.closeActive _).segments.length + 1 ≤ _
    omega
  · have h2 := flushDefault_length x1 (chars.length : Int)
    omega

/-! ## Termination of the loops of the KMP matcher -/

theorem fallbackDone_of_valid (P pi : List Nat) (c j : Nat) (hpi : PiValid P pi j) :
    fallbackDone P c (kmpFallback P pi c j j) := by
  obtain ⟨_, h2, _⟩ := kmpFallback_spec P pi c j hpi j j le_rfl ⟨le_rfl, List.suffix_refl _⟩
    (fun l h1 h2 _ => by omega)
  intro h
  rcases h2 with h2 | h2
  · omega
  · exact h.2 h2

theorem processEnds_of_inv (m : KmpMatcher) (T : List Nat) (c : Nat) (h : KmpInv m T) :
    m.processEnds c := by
  obtain ⟨_, _, hv, hj, _⟩ := h
  exact Or.inr (fallbackDone_of_valid _ _ c _ (piValid_mono hv (by omega)))

theorem kmpInv_reset (m : KmpMatcher) (T : List Nat) (h : KmpInv m T) : KmpInv m.reset [] := by
  obtain ⟨h1, h2, h3, h4, _, _⟩ := h
  refine ⟨h1, h2, h3, ?_, ?_, ?_⟩
  · show 0 < m.pattern_.length
    omega
  · show m.pattern_.take 0 <:+ []
    simp
  · intro l _ hs
    have := hs.length_le
    simp only [KmpMatcher.reset, List.length_take, List.length_nil] at this
    show l ≤ 0
    omega

theorem setPatternLoop_ends (P : List Nat) :
    ∀ n i pi, pi.length = P.length → 1 ≤ i → i + n = P.length → PiValid P pi i →
      setPatternLoopEnds P n i pi := by
  intro n
  induction n with
  | zero => intro i pi _ _ _ _; trivial
  | succ n ih =>
    intro i pi hlen hi hin hv
    unfold setPatternLoopEnds
    refine ⟨fallbackDone_of_valid P pi _ _ (piValid_mono hv (by
      have := (hv i hi le_rfl).1; omega)), ?_⟩
    obtain ⟨hk0, hb0, hm0⟩ := hv i hi le_rfl
    obtain ⟨h1, h2, h3⟩ := kmp_extend P pi (P.take i) (P.getD i 0) (pi.getD (i - 1) 0)
      (by omega) hb0.2 (piValid_mono hv (by omega))
    generalize (if P.getD i 0 = P.getD (kmpFallback P pi (P.getD i 0) (pi.getD (i - 1) 0)
      (pi.getD (i - 1) 0)) 0 then kmpFallback P pi (P.getD i 0) (pi.getD (i - 1) 0)
      (pi.getD (i - 1) 0) + 1 else kmpFallback P pi (P.getD i 0) (pi.getD (i - 1) 0)
      (pi.getD (i - 1) 0)) = knew at h1 h2 h3
    apply ih (i + 1) (pi.set i knew) (by simpa using hlen) (by omega) (by omega)
    intro q hq1 hq2
    rcases Nat.eq_or_lt_of_le hq2 with hq | hq
    · subst hq
      have hget : (pi.set i knew).getD (i + 1 - 1) 0 = knew := by
        simp [List.getD, List.getElem?_set, show i < pi.length by omega]
      rw [hget]
      rw [← take_succ_getD P (by omega)] at h2
      refine ⟨by omega, ⟨by omega, h2⟩, ?_⟩
      intro l hl hbl
      cases l with
      | zero => omega
      | succ l0 =>
        have hsplit := (take_succ_suffix_concat P (P.take i) (P.getD i 0)
          (show l0 < P.length by omega)).1 (by rw [← take_succ_getD P (by omega)]; exact hbl.2)
        have hl0 : l0 ≤ pi.getD (i - 1) 0 := hm0 l0 (by omega) ⟨by omega, hsplit.1⟩
        exact h3 l0 hl0 hsplit.1 hsplit.2
    · have hget : (pi.set i knew).getD (q - 1) 0 = pi.getD (q - 1) 0 := by
        simp [List.getD, List.getElem?_set, show ¬ i = q - 1 by omega]
      rw [hget]
      exact hv q hq1 (by omega)

theorem setPattern_ends (p : List Nat) : setPatternEnds p := by
  unfold setPatternEnds
  cases hp : p with
  | nil => trivial
  | cons a rest =>
    rw [← hp]
    have hlen : 1 ≤ p.length := by rw [hp]; simp
    have hinit : PiValid p (List.replicate p.length 0) 1 := by
      intro q hq1 hq2
      have : q = 1 := by omega
      subst this
      simp only [Nat.sub_self]
      have h0 : (List.replicate p.length 0).getD 0 0 = 0 := by
        simp [List.getD]
      rw [h0]
      exact ⟨by omega, ⟨by omega, by simp⟩, fun l hl _ => by omega⟩
    exact setPatternLoop_ends p (p.length - 1) 1 (List.replicate p.length 0) (by simp) le_rfl
      (by omega) hinit

theorem plan_matcher_cases (p : StreamPlanExecutionPlugin) (c : Nat) (sol : Bool) :
    (p.processChar c sol).1.endInited_ = p.endInited_ ∧
    ((p.processChar c sol).1.endMatcher_ = p.endMatcher_ ∨
      (p.processChar c sol).1.endMatcher_ = p.endMatcher_.reset ∨
      (p.endInited_ = true ∧
        ((p.processChar c sol).1.endMatcher_ = (p.endMatcher_.process c).1 ∨
          (p.processChar c sol).1.endMatcher_ = (p.endMatcher_.process c).1.reset))) := by
  simp only [StreamPlanExecutionPlugin.processChar, StreamPlanExecutionPlugin.processStart,
    StreamPlanExecutionPlugin.reset, StreamPlanExecutionPlugin.resetInternal]
  split_ifs <;> simp_all

theorem matcherOK_plan (p : StreamPlanExecutionPlugin) (c : Nat) (sol : Bool)
    (h : (Plugin.plan p).MatcherOK) : (Plugin.plan (p.processChar c sol).1).MatcherOK := by
  obtain ⟨h1, h2⟩ := plan_matcher_cases p c sol
  intro hi
  rw [h1] at hi
  obtain ⟨T, hT⟩ := h hi
  rcases h2 with h2 | h2 | ⟨_, h2 | h2⟩ <;> rw [h2]
  · exact ⟨T, hT⟩
  · exact ⟨[], kmpInv_reset _ T hT⟩
  · exact ⟨T ++ [c], (process_spec _ T c hT).1⟩
  · exact ⟨[], kmpInv_reset _ _ (process_spec _ T c hT).1⟩

theorem xml_startMatcher_keeps (p : StreamXmlPlugin) (c : Nat) :
    (p.processStartMatcher c).1.endMatcher_ = p.endMatcher_ ∧
    (p.processStartMatcher c).1.haveEndPattern_ = p.haveEndPattern_ := by
  unfold StreamXmlPlugin.processStartMatcher
  cases p.startState_ <;> simp only <;> split_ifs <;> exact ⟨rfl, rfl⟩

theorem xml_allowance_keeps (p : StreamXmlPlugin) (c : Nat) :
    (p.updatePunctuationAllowance c).endMatcher_ = p.endMatcher_ ∧
    (p.updatePunctuationAllowance c).haveEndPattern_ = p.haveEndPattern_ := by
  unfold StreamXmlPlugin.updatePunctuationAllowance
  split_ifs <;> exact ⟨rfl, rfl⟩

theorem xml_matcher_cases (p : StreamXmlPlugin) (c : Nat) (sol : Bool) :
    (p.processChar c sol).1.haveEndPattern_ = false ∨
    ((p.processChar c sol).1.haveEndPattern_ = p.haveEndPattern_ ∧
      (p.processChar c sol).1.endMatcher_ = p.endMatcher_) ∨
    (p.haveEndPattern_ = true ∧
      (p.processChar c sol).1.endMatcher_ = (p.endMatcher_.process c).1) ∨
    (∃ t, (p.processChar c sol).1.endMatcher_ = p.endMatcher_.setPattern (xmlCloser t)) := by
  obtain ⟨k1, k2⟩ := xml_startMatcher_keeps p c
  unfold StreamXmlPlugin.processChar
  simp only [StreamXmlPlugin.finish, StreamXmlPlugin.handleDefaultCharacter,
    StreamXmlPlugin.buildEndPattern, StreamXmlPlugin.reset]
  split_ifs <;>
    first
    | (left; rfl)
    | (left; exact (xml_allowance_keeps _ _).2)
    | (right; left; exact ⟨rfl, rfl⟩)
    | (right; left; exact ⟨(xml_allowance_keeps _ _).2, (xml_allowance_keeps _ _).1⟩)
    | (right; left; exact ⟨k2, k1⟩)
    | (right; left; exact ⟨(xml_allowance_keeps _ _).2.trans k2, (xml_allowance_keeps _ _).1.trans k1⟩)
    | (right; right; left; exact ⟨by assumption, rfl⟩)
    | (right; right; right; exact ⟨_, by rw [← k1]; rfl⟩)
    | (right; right; right; exact ⟨_, rfl⟩)

theorem matcherOK_xml (p : StreamXmlPlugin) (c : Nat) (sol : Bool)
    (h : (Plugin.xml p).MatcherOK) : (Plugin.xml (p.processChar c sol).1).MatcherOK := by
  intro hi
  rcases xml_matcher_cases p c sol with h1 | ⟨h1, h2⟩ | ⟨h1, h2⟩ | ⟨t, h2⟩
  · rw [h1] at hi; cases hi
  · rw [h1] at hi
    obtain ⟨T, hT⟩ := h hi
    exact ⟨T, by rw [h2]; exact hT⟩
  · obtain ⟨T, hT⟩ := h h1
    exact ⟨T ++ [c], by rw [h2]; exact (process_spec _ T c hT).1⟩
  · exact ⟨[], by rw [h2]; exact setPattern_inv _ _ (by simp [xmlCloser])⟩

theorem matcherOK_processChar (q : Plugin) (c : Nat) (sol : Bool) (h : q.MatcherOK) :
    (q.processChar c sol).1.MatcherOK := by
  cases q with
  | plan p => exact matcherOK_plan p c sol h
  | xml p => exact matcherOK_xml p c sol h
  | _ => trivial

theorem matcherOK_reset (q : Plugin) (h : q.MatcherOK) : q.reset.MatcherOK := by
  cases q with
  | plan p =>
    intro hi
    obtain ⟨T, hT⟩ := h hi
    exact ⟨[], kmpInv_reset _ T hT⟩
  | xml p => intro hi; cases hi
  | _ => trivial

theorem loopEnds_of_matcherOK (q : Plugin) (c : Nat) (h : q.MatcherOK) : q.LoopEnds c := by
  cases q with
  | plan p =>
    intro hi
    obtain ⟨T, hT⟩ := h hi
    exact processEnds_of_inv _ T c hT
  | xml p =>
    intro hi
    obtain ⟨T, hT⟩ := h hi
    exact processEnds_of_inv _ T c hT
  | _ => trivial

theorem matchersOK_evalAll (c : Nat) (sol : Bool) (ps : List PluginEntry) (pi m : Nat)
    (h : MatchersOK ps) : MatchersOK (evalAll c sol ps pi m).1 := by
  intro j x hx
  rw [evalAll_getElem?] at hx
  cases hj : ps[j]? with
  | none => rw [hj] at hx; cases hx
  | some y =>
    rw [hj] at hx
    simp only [Option.map_some', Option.some.injEq] at hx
    rw [← hx]
    exact matcherOK_processChar _ c sol (h j y hj)

theorem matchersOK_resetAll (ps : List PluginEntry) (h : MatchersOK ps) :
    MatchersOK (resetAll ps) := by
  intro j x hx
  simp only [resetAll, List.getElem?_map] at hx
  cases hj : ps[j]? with
  | none => rw [hj] at hx; cases hx
  | some y =>
    rw [hj] at hx
    simp only [Option.map_some', Option.some.injEq] at hx
    rw [← hx]
    exact matcherOK_reset _ (h j y hj)

theorem matchersOK_resetOthers (ps : List PluginEntry) (k : Nat) (h : MatchersOK ps) :
    MatchersOK (resetOthers ps 0 k) := by
  intro j x hx
  rw [resetOthers_getElem?] at hx
  cases hj : ps[j]? with
  | none => rw [hj] at hx; cases hx
  | some y =>
    rw [hj] at hx
    simp only [Option.map_some', Option.some.injEq] at hx
    rw [← hx]
    split
    · exact matcherOK_reset _ (h j y hj)
    · exact h j y hj

theorem matchersOK_active (s : MarkdownSession) (c : Nat) (b : Bool)
    (h : MatchersOK s.plugins_) : MatchersOK (s.activeProcessChar c b).1.plugins_ := by
  unfold MarkdownSession.activeProcessChar
  split
  · exact h
  · next i hi =>
    split
    · exact h
    · next en h2 =>
      intro j x hx
      simp only [] at hx
      by_cases hj : i = j
      · subst hj
        have hlt : i < s.plugins_.length := by
          by_contra hge
          rw [List.getElem?_eq_none (by omega)] at h2
          cases h2
        simp only [List.getElem?_set, hlt, if_true, Option.some.injEq] at hx
        rw [← hx]
        exact matcherOK_processChar _ c b (h i en h2)
      · rw [List.getElem?_set_ne hj] at hx
        exact h j x hx

theorem processWaitfor_matchers (s : MarkdownSession) (e : Emitter) (c : Nat) (g : Int)
    (h : MatchersOK s.plugins_) : MatchersOK (processWaitfor s e c g).1.plugins_ := by
  have h1 := matchersOK_active s c s.waitforAtStartOfLine_ h
  unfold processWaitfor
  simp only []
  split
  · exact h1
  · exact matchersOK_resetAll _ h1

theorem processActive_matchers (s : MarkdownSession) (e : Emitter) (c : Nat) (sol : Bool)
    (g : Int) (h : MatchersOK s.plugins_) : MatchersOK (processActive s e c sol g).1.plugins_ := by
  have h1 := matchersOK_active s c sol h
  unfold processActive
  simp only []
  split
  · exact h1
  · split <;> exact h1

theorem processEvaluation_matchers (s : MarkdownSession) (e : Emitter) (c : Nat) (sol : Bool)
    (g : Int) (h : MatchersOK s.plugins_) :
    MatchersOK (processEvaluation s e c sol g).1.plugins_ := by
  have h1 := matchersOK_evalAll c sol s.plugins_ 0 0 h
  unfold processEvaluation
  simp only []
  cases findSuccessful (evalAll c sol s.plugins_ 0 0).1 0 with
  | some k => exact matchersOK_resetOthers _ k h1
  | none =>
    simp only []
    split
    · exact matchersOK_resetAll _ h1
    · exact h1

theorem processOne_matchers (s : MarkdownSession) (e : Emitter) (c : Nat) (sol : Bool) (f : Int)
    (h : MatchersOK s.plugins_) : MatchersOK (processOne s e c sol f).1.plugins_ := by
  unfold processOne
  simp only []
  split
  · exact processWaitfor_matchers _ e c _ h
  · split
    · exact processActive_matchers _ e c sol _ h
    · exact processEvaluation_matchers _ e c sol _ h

theorem pushLoop_matchers : ∀ (fuel : Nat) (s : MarkdownSession) (e : Emitter) (sol : Bool)
    (chars : List Nat), MatchersOK s.plugins_ →
    MatchersOK (pushLoop fuel s e sol chars).1.plugins_ := by
  intro fuel
  induction fuel with
  | zero => intro s e sol chars h; exact h
  | succ n ih =>
    intro s e sol chars h
    rcases pending_cases s with hp | ⟨pc, rest, hp⟩
    · cases chars with
      | nil => rw [pushLoop_done n s e sol hp]; exact h
      | cons c cs =>
        rw [pushLoop_read n s e sol c cs hp]
        exact ih _ _ _ _ (processOne_matchers s e c sol (-1) h)
    · rw [pushLoop_pop n s e sol chars pc rest hp]
      exact ih _ _ _ _ (processOne_matchers _ e pc.c sol pc.globalIndex h)

theorem pushAll_matchers (chunks : List (List Nat)) :
    ∀ (s : MarkdownSession), MatchersOK s.plugins_ → MatchersOK (pushAll s chunks).1.plugins_ := by
  induction chunks with
  | nil => intro s h; exact h
  | cons a rest ih =>
    intro s h
    simp only [pushAll]
    exact ih _ (pushLoop_matchers _ s _ _ a h)

theorem matchersOK_new (roster : List PluginEntry) (h : ∀ x ∈ roster, x.plugin.MatcherOK) :
    MatchersOK (MarkdownSession.new roster).plugins_ := by
  intro j x hx
  simp only [MarkdownSession.new, List.getElem?_map] at hx
  cases hj : roster[j]? with
  | none => rw [hj] at hx; cases hx
  | some y =>
    rw [hj] at hx
    simp only [Option.map_some', Option.some.injEq] at hx
    rw [← hx]
    exact matcherOK_reset _ (h y (List.getElem?_mem hj))

theorem matcherOK_planNew (b : Bool) : (Plugin.plan (StreamPlanExecutionPlugin.new b)).MatcherOK := by
  intro _
  exact ⟨[], kmpInv_reset _ [] (setPattern_inv KmpMatcher.new _ (by decide))⟩

theorem matchersOK_block : MatchersOK createMarkdownBlockSession.plugins_ := by
  apply matchersOK_new
  intro x hx
  simp only [List.mem_cons, List.mem_singleton, List.not_mem_nil, or_false] at hx
  rcases hx with rfl | rfl | rfl | rfl | rfl | rfl | rfl | rfl | rfl | rfl | rfl | rfl
  · exact matcherOK_planNew true
  all_goals first | trivial | (intro hi; cases hi)

theorem matchersOK_inline : MatchersOK createMarkdownInlineSession.plugins_ := by
  apply matchersOK_new
  intro x hx
  simp only [List.mem_cons, List.mem_singleton, List.not_mem_nil, or_false] at hx
  rcases hx with rfl | rfl | rfl | rfl | rfl | rfl | rfl | rfl
  all_goals trivial

theorem closeActive_xmlPlugin (x : XmlSplit) (n : Int) :
    (x.closeActive n).xmlPlugin = x.xmlPlugin := by
  unfold XmlSplit.closeActive
  simp only []
  split <;> rfl

theorem flushDefault_xmlPlugin (x : XmlSplit) (n : Int) :
    (x.flushDefaultIfNeeded n).xmlPlugin = x.xmlPlugin := by
  unfold XmlSplit.flushDefaultIfNeeded
  simp only []
  split <;> rfl

theorem step_xmlPlugin (x : XmlSplit) (i : Int) (c : Nat) :
    (x.step i c).xmlPlugin = (x.xmlPlugin.processChar c x.atStartOfLine).1 := by
  unfold XmlSplit.step
  simp only []
  split_ifs <;>
    simp only [closeActive_xmlPlugin, flushDefault_xmlPlugin, XmlSplit.openActive]

theorem splitLoop_matcher : ∀ (chars : List Nat) (x : XmlSplit) (i : Int),
    (Plugin.xml x.xmlPlugin).MatcherOK →
    (Plugin.xml (XmlSplit.loop x i chars).xmlPlugin).MatcherOK := by
  intro chars
  induction chars with
  | nil => intro x i h; exact h
  | cons c cs ih =>
    intro x i h
    simp only [XmlSplit.loop]
    apply ih
    rw [step_xmlPlugin]
    exact matcherOK_xml x.xmlPlugin c x.atStartOfLine h

/-! ## Claims on the session engine and the plugins -/

/-- Claim C11 (winner selection by roster order). In evaluation mode, when after the code
unit was fed to every plugin the plugin at roster position `i` is `PROCESSING` and none
before it is, the plugin at `i` becomes the active plugin with its roster tag, it stays
`PROCESSING`, every other plugin of the roster is `IDLE` afterwards, the evaluation buffer
is empty, and every segment the step adds to the emitter carries the winner's tag. In a
block session `<plan>x</plan>` at the start of the input is returned as
PLAN_EXECUTION[0,14) and a `SEG_BREAK`, with no XML_BLOCK segment, although on the `>` at
index 5 both the plan plugin (roster position 0) and the XML plugin (roster position 11)
are `PROCESSING`. -/
theorem winner_lowest_roster_index (s : MarkdownSession) (e : Emitter) (c : Nat) (sol : Bool)
    (g : Int) (i : Nat)
    (hP : stateAt (evalAll c sol s.plugins_ 0 0).1 i = some .PROCESSING)
    (hmin : ∀ j, j < i → stateAt (evalAll c sol s.plugins_ 0 0).1 j ≠ some .PROCESSING) :
    ((processEvaluation s e c sol g).1.activePlugin_ = some i ∧
      (processEvaluation s e c sol g).1.activeIndex_ = i ∧
      some (processEvaluation s e c sol g).1.activeTag_ = tagAt s.plugins_ i ∧
      stateAt (processEvaluation s e c sol g).1.plugins_ i = some .PROCESSING ∧
      (∀ j q, j ≠ i → stateAt (processEvaluation s e c sol g).1.plugins_ j = some q →
        q = .IDLE) ∧
      (processEvaluation s e c sol g).1.evaluationBuffer_ = [] ∧
      EmitsOnly (processEvaluation s e c sol g).1.activeTag_ e (processEvaluation s e c sol g).2) ∧
    ((createMarkdownBlockSession.push (u16 "<plan>x</plan>")).2 =
        [⟨MD_PLAN_EXECUTION, 0, 14⟩, ⟨SEG_BREAK, 14, 14⟩] ∧
      stateAt (evalAll ch_gt false
        (createMarkdownBlockSession.push (u16 "<plan")).1.plugins_ 0 0).1 0 = some .PROCESSING ∧
      tagAt createMarkdownBlockSession.plugins_ 0 = some MD_PLAN_EXECUTION ∧
      stateAt (evalAll ch_gt false
        (createMarkdownBlockSession.push (u16 "<plan")).1.plugins_ 0 0).1 11 = some .PROCESSING ∧
      tagAt createMarkdownBlockSession.plugins_ 11 = some MD_XML_BLOCK) := by
  refine ⟨?_, by decide, by decide, by decide, by decide, by decide⟩
  have hf : findSuccessful (evalAll c sol s.plugins_ 0 0).1 0 = some i := by
    have := findSuccessful_first _ 0 i hP hmin
    simpa using this
  have htag : tagAt (evalAll c sol s.plugins_ 0 0).1 i = tagAt s.plugins_ i := by
    have := congrArg (fun l => l[i]?) (evalAll_tags c sol s.plugins_ 0 0)
    simpa [tagAt, List.getElem?_map] using this
  have hsome : ∃ x, (evalAll c sol s.plugins_ 0 0).1[i]? = some x := by
    cases hx : (evalAll c sol s.plugins_ 0 0).1[i]? with
    | none => simp [stateAt, hx] at hP
    | some x => exact ⟨x, rfl⟩
  obtain ⟨x, hx⟩ := hsome
  unfold processEvaluation
  simp only [hf]
  refine ⟨trivial, trivial, ?_, ?_, ?_, trivial, ?_⟩
  · rw [← htag]; simp [tagAt, hx]
  · show stateAt (resetOthers _ 0 i) i = _
    rw [resetOthers_winner]; exact hP
  · intro j q hj hq
    exact resetOthers_other _ i j hj q hq
  · exact emitBuffered_emitsOnly _ _ _ _ _ _

/-- The plan plugin wins the `>` of `<plan>` in a block session. -/
theorem winner_lowest_roster_index_witness :
    stateAt (evalAll ch_gt false
      (createMarkdownBlockSession.push (u16 "<plan")).1.plugins_ 0 0).1 0 = some .PROCESSING ∧
    (processEvaluation (createMarkdownBlockSession.push (u16 "<plan")).1 Emitter.new ch_gt false
      5).1.activePlugin_ = some 0 :=
  ⟨by decide,
   (winner_lowest_roster_index (createMarkdownBlockSession.push (u16 "<plan")).1 Emitter.new
     ch_gt false 5 0 (by decide) (by intro j hj; omega)).1.1⟩

/-- Claim C12 (unique active plugin). For every roster, every sequence of pushes into a
fresh session and every number `k` of iterations of the loop of a further push (`k = 0`
is the push boundary), the session state has the unique-active-plugin property: if an
active plugin is set, its state is `PROCESSING` or `WAITFOR` and every other plugin of the
roster is `IDLE`; if none is set, no plugin of the roster is `PROCESSING` or `WAITFOR`, so
evaluation mode, which `processOne` enters only without an active plugin, feeds all
plugins only then: whenever some plugin is `PROCESSING` or `WAITFOR` an active plugin is
set. Hence at most one plugin is `PROCESSING`. -/
theorem unique_active_plugin (roster : List PluginEntry) (chunks : List (List Nat))
    (chars : List Nat) (k : Nat) :
    UniqueActive (stateAfter (pushAll (MarkdownSession.new roster) chunks).1 chars k) ∧
    (∀ j,
      stateAt (stateAfter (pushAll (MarkdownSession.new roster) chunks).1 chars k).plugins_ j =
          some .PROCESSING ∨
        stateAt (stateAfter (pushAll (MarkdownSession.new roster) chunks).1 chars k).plugins_ j =
          some .WAITFOR →
      (stateAfter (pushAll (MarkdownSession.new roster) chunks).1 chars k).activePlugin_.isSome
        = true) ∧
    ∀ i j,
      stateAt (stateAfter (pushAll (MarkdownSession.new roster) chunks).1 chars k).plugins_ i =
        some .PROCESSING →
      stateAt (stateAfter (pushAll (MarkdownSession.new roster) chunks).1 chars k).plugins_ j =
        some .PROCESSING → i = j := by
  have h : UniqueActive (stateAfter (pushAll (MarkdownSession.new roster) chunks).1 chars k) :=
    pushLoop_unique k _ _ _ chars (pushAll_unique chunks _ (uniqueActive_new roster))
  refine ⟨h, ?_, ?_⟩
  · intro j hj
    cases ha : (stateAfter (pushAll (MarkdownSession.new roster) chunks).1 chars
        k).activePlugin_ with
    | none =>
      have := h.unset ha j
      rcases hj with hj | hj
      · exact absurd hj this.1
      · exact absurd hj this.2
    | some a => rfl
  intro i j hi hj
  cases ha : (stateAfter (pushAll (MarkdownSession.new roster) chunks).1 chars k).activePlugin_ with
  | none => exact absurd hi (h.unset ha i).1
  | some a =>
    have h2 := (h.set a ha).2
    have e1 : i = a := by
      by_contra hne
      have := h2 i _ hne hi
      cases this
    have e2 : j = a := by
      by_contra hne
      have := h2 j _ hne hj
      cases this
    rw [e1, e2]

/-- Claim C13 (WAITFOR bound). For every roster, every sequence of pushes into a fresh
session and every number `k` of iterations of the loop of a further push, the WAITFOR
pending list of the session state holds at most one entry, it holds exactly one entry if
and only if `waitforActive_` is set, and when `waitforActive_` is set the next call of
`processOne` (whatever the code unit, and whether it was read from the chunk or popped from
the pending-char queue) leaves the list empty and `waitforActive_` cleared, both when the
active plugin confirms and when it rejects. -/
theorem waitfor_bound (roster : List PluginEntry) (chunks : List (List Nat))
    (chars : List Nat) (k : Nat) :
    (stateAfter (pushAll (MarkdownSession.new roster) chunks).1 chars k).waitforPending_.length
      ≤ 1 ∧
    ((stateAfter (pushAll (MarkdownSession.new roster) chunks).1 chars k).waitforPending_.length
        = 1 ↔
      (stateAfter (pushAll (MarkdownSession.new roster) chunks).1 chars k).waitforActive_
        = true) ∧
    ∀ (rest : List PendingChar) (e : Emitter) (c : Nat) (sol : Bool) (f : Int),
      (stateAfter (pushAll (MarkdownSession.new roster) chunks).1 chars k).waitforActive_
        = true →
      (processOne { stateAfter (pushAll (MarkdownSession.new roster) chunks).1 chars k with
          pendingChars_ := rest } e c sol f).1.waitforPending_ = [] ∧
      (processOne { stateAfter (pushAll (MarkdownSession.new roster) chunks).1 chars k with
          pendingChars_ := rest } e c sol f).1.waitforActive_ = false := by
  have h0 : WaitforOK (MarkdownSession.new roster) := by
    unfold WaitforOK MarkdownSession.new; simp
  have h : WaitforOK (stateAfter (pushAll (MarkdownSession.new roster) chunks).1 chars k) :=
    pushLoop_waitforOK k _ _ _ chars (pushAll_waitforOK chunks _ h0)
  exact ⟨h.1, h.2, fun rest e c sol f hw => processOne_clears _ e c sol f hw⟩

/-- A block quote waiting after its newline: the `>` of the next line empties the list. -/
theorem waitfor_bound_witness :
    (stateAfter (pushAll (MarkdownSession.new
      [⟨.blockQuote (StreamMarkdownBlockQuotePlugin.new false), MD_BLOCK_QUOTE⟩])
      [u16 "> a\n"]).1 [] 0).waitforActive_ = true ∧
    (processOne { stateAfter (pushAll (MarkdownSession.new
      [⟨.blockQuote (StreamMarkdownBlockQuotePlugin.new false), MD_BLOCK_QUOTE⟩])
      [u16 "> a\n"]).1 [] 0 with pendingChars_ := [] } Emitter.new ch_gt true (-1)).1.waitforPending_
      = [] :=
  ⟨by decide,
   ((waitfor_bound [⟨.blockQuote (StreamMarkdownBlockQuotePlugin.new false), MD_BLOCK_QUOTE⟩]
      [u16 "> a\n"] [] 0).2.2 [] Emitter.new ch_gt true (-1) (by decide)).1⟩

/-- Claim C14 (an invalid push is a no-op). Whenever the session handle is null, the chunk
pointer is null, or `len ≤ 0`, `markdownSessionPush` returns the empty segment sequence
and leaves the session object as it was (every field: global offset, start-of-line flag,
active plugin, buffers, plugin states), so any later call behaves as if the invalid one
had not been made. -/
theorem invalid_push_noop (session : Option MarkdownSession) (chars : Option (List Nat))
    (len : Int) (h : session = none ∨ chars = none ∨ len ≤ 0) :
    (markdownSessionPush session chars len).2 = [] ∧
    (markdownSessionPush session chars len).1 = session ∧
    ∀ (chars2 : Option (List Nat)) (len2 : Int),
      markdownSessionPush (markdownSessionPush session chars len).1 chars2 len2 =
        markdownSessionPush session chars2 len2 := by
  have key : markdownSessionPush session chars len = (session, []) := by
    unfold markdownSessionPush
    cases session with
    | none => rfl
    | some s =>
      cases chars with
      | none => rfl
      | some cs =>
        have hl : len ≤ 0 := by
          rcases h with h | h | h
          · cases h
          · cases h
          · exact h
        simp only [if_pos hl]
  rw [key]
  exact ⟨rfl, rfl, fun _ _ => rfl⟩

/-- A null chunk pointer on a fresh inline session. -/
theorem invalid_push_noop_witness :
    (markdownSessionPush (some createMarkdownInlineSession) none 3).2 = [] ∧
    (markdownSessionPush (some createMarkdownInlineSession) none 3).1 =
      some createMarkdownInlineSession :=
  ⟨(invalid_push_noop (some createMarkdownInlineSession) none 3 (Or.inr (Or.inl rfl))).1,
   (invalid_push_noop (some createMarkdownInlineSession) none 3 (Or.inr (Or.inl rfl))).2.1⟩

/-- Claim C15 (totality). Let a session be created by either factory and be in the state
reached after any sequence of pushes, and push a further chunk `chars`. The loop of `push`
ends by its own condition: it makes at most `2 * |chars|` iterations, fewer than the bound
`pushFuel` the model grants it, and any larger bound gives the same result. Every code
unit of the chunk is handed to `processOne` at least once and at most twice, no other
index is handed to it, and the pending-char queue is empty when `push` returns. The loops
inside the calls also end: in every state the session passes through, the `while` loop of
`KmpMatcher::process` ends within its bound for every plugin that can call it, as do the
loops of `setPattern` for every pattern. `splitByXml` is a loop over the code units; it
returns at most `|chars| + 2` segments, and its matcher loops end as well. -/
theorem push_total (s0 : MarkdownSession)
    (hs0 : s0 = createMarkdownBlockSession ∨ s0 = createMarkdownInlineSession)
    (chunks : List (List Nat)) (chars : List Nat) :
    (∀ fuel e sol, (pushLoopTraced fuel (pushAll s0 chunks).1 e sol chars).1 =
      pushLoop fuel (pushAll s0 chunks).1 e sol chars) ∧
    (pushTrace (pushAll s0 chunks).1 chars).length ≤ 2 * chars.length ∧
    (pushTrace (pushAll s0 chunks).1 chars).length < pushFuel (pushAll s0 chunks).1 chars ∧
    (∀ fuel, pushFuel (pushAll s0 chunks).1 chars ≤ fuel →
      pushLoopTraced fuel (pushAll s0 chunks).1 Emitter.new
          (pushAll s0 chunks).1.atStartOfLine_ chars =
        pushLoopTraced (pushFuel (pushAll s0 chunks).1 chars) (pushAll s0 chunks).1 Emitter.new
          (pushAll s0 chunks).1.atStartOfLine_ chars) ∧
    (∀ i : Int,
      (pushTrace (pushAll s0 chunks).1 chars).count i ≤ 2 ∧
      ((pushAll s0 chunks).1.globalOffset_ ≤ i →
        i < (pushAll s0 chunks).1.globalOffset_ + chars.length →
        1 ≤ (pushTrace (pushAll s0 chunks).1 chars).count i) ∧
      (i < (pushAll s0 chunks).1.globalOffset_ ∨
        (pushAll s0 chunks).1.globalOffset_ + chars.length ≤ i →
        (pushTrace (pushAll s0 chunks).1 chars).count i = 0)) ∧
    ((pushAll s0 chunks).1.push chars).1.pendingChars_ = [] ∧
    (∀ (k j : Nat) (x : PluginEntry) (c : Nat),
      (stateAfter (pushAll s0 chunks).1 chars k).plugins_[j]? = some x → x.plugin.LoopEnds c) ∧
    (∀ p : List Nat, setPatternEnds p) ∧
    (splitByXml chars).length ≤ chars.length + 2 ∧
    (∀ c : Nat, (Plugin.xml (XmlSplit.loop
      (XmlSplit.mk [] (StreamXmlPlugin.new true).reset false (-1) 0 (-1) true) 0
      chars).xmlPlugin).LoopEnds c) := by
  have h0 : SessInv s0 ∧ TagInv s0 ∧ s0.pendingChars_ = [] ∧ MatchersOK s0.plugins_ := by
    rcases hs0 with h | h <;> rw [h]
    · exact ⟨sessInv_block, tagInv_block, rfl, matchersOK_block⟩
    · exact ⟨sessInv_inline, tagInv_inline, rfl, matchersOK_inline⟩
  obtain ⟨hs, _, hp⟩ := pushAll_reach chunks s0 h0.1 h0.2.1 h0.2.2.1
  have hmo := pushAll_matchers chunks s0 h0.2.2.2
  have hF := pushFuel_gt (pushAll s0 chunks).1 chars
  obtain ⟨hlen, hcnt⟩ := traced_count (pushFuel (pushAll s0 chunks).1 chars) (pushAll s0 chunks).1
    Emitter.new (pushAll s0 chunks).1.atStartOfLine_ chars (lowMark (pushAll s0 chunks).1) hF hs
    (emInv_new (le_refl _))
  rw [hp] at hlen hcnt
  simp only [List.length_nil, Nat.cast_zero, sub_zero, add_zero] at hlen hcnt
  refine ⟨fun fuel e sol => pushLoopTraced_fst fuel _ e sol chars, hlen, ?_, ?_, ?_,
    (push_inv _ chars _ hs (le_refl _)).2.1, ?_, setPattern_ends, splitByXml_length chars, ?_⟩
  · have : pushFuel (pushAll s0 chunks).1 chars = 3 * chars.length + 2 := by
      unfold pushFuel; rw [hp]; rfl
    show (pushLoopTraced _ _ _ _ _).2.length < _
    omega
  · intro fuel hfuel
    exact pushLoopTraced_fuel _ _ _ _ _ _ (by omega) hF
  · intro i
    obtain ⟨_, c2, c3⟩ := hcnt i
    refine ⟨?_, fun h1 h2 => (c2 h1 h2).1, c3⟩
    by_cases hin : (pushAll s0 chunks).1.globalOffset_ ≤ i ∧
        i < (pushAll s0 chunks).1.globalOffset_ + chars.length
    · exact (c2 hin.1 hin.2).2
    · have := c3 (by omega)
      show (pushLoopTraced _ _ _ _ _).2.count i ≤ 2
      omega
  · intro k j x c hx
    exact loopEnds_of_matcherOK _ c (pushLoop_matchers k _ _ _ chars hmo j x hx)
  · intro c
    refine loopEnds_of_matcherOK _ c (splitLoop_matcher chars _ 0 ?_)
    intro hi
    cases hi

/-- A block quote line followed by a plain line: the `b` after the newline is handed to
`processOne` twice (the WAITFOR is rejected), six calls for five code units. -/
theorem push_total_witness :
    (createMarkdownBlockSession = createMarkdownBlockSession ∨
      createMarkdownBlockSession = createMarkdownInlineSession) ∧
    pushTrace (pushAll createMarkdownBlockSession []).1 (u16 "> a\nb") = [0, 1, 2, 3, 4, 4] ∧
    (pushTrace (pushAll createMarkdownBlockSession []).1 (u16 "> a\nb")).length ≤
      2 * (u16 "> a\nb").length :=
  ⟨Or.inl rfl, by decide,
   (push_total createMarkdownBlockSession (Or.inl rfl) [] (u16 "> a\nb")).2.1⟩

/-! ## The start gate of the XML plugin: when the allowance is granted and lost -/

theorem xml_upd (x : StreamXmlPlugin) (d : Nat) :
    (x.updatePunctuationAllowance d).state_ = x.state_ ∧
    (x.updatePunctuationAllowance d).startState_ = x.startState_ ∧
    (x.updatePunctuationAllowance d).allowStartAfterEndTag_ = x.allowStartAfterEndTag_ ∧
    (x.updatePunctuationAllowance d).allowStartAfterPunctuation_ =
      (if StreamXmlPlugin.isPunctuationTrigger d = true then true
        else if isBlank d then x.allowStartAfterPunctuation_ else false) := by
  unfold StreamXmlPlugin.updatePunctuationAllowance isBlank
  split_ifs <;> exact ⟨rfl, rfl, rfl, rfl⟩

/-- An idle plugin whose start gate holds the code unit back processes it as ordinary text. -/
theorem xml_idle_gated (q : StreamXmlPlugin) (c : Nat) (hI : q.state_ = .IDLE)
    (hg : (q.allowStartAfterEndTag_ || q.allowStartAfterPunctuation_) = false ∨ isBlank c) :
    (q.processChar c false).1 = { q.updatePunctuationAllowance c with lastChar_ := c } := by
  have hg2 : (q.allowStartAfterEndTag_ || q.allowStartAfterPunctuation_) = false ∨
      c = ch_space ∨ c = ch_tab := hg
  unfold StreamXmlPlugin.processChar
  simp only [hI, reduceCtorEq, if_false, true_and, hg2, if_true, StreamXmlPlugin.finish,
    StreamXmlPlugin.handleDefaultCharacter]

/-- An idle plugin that lets a `<` through starts a tag attempt. -/
theorem xml_idle_lt (q : StreamXmlPlugin) (sol : Bool) (hI : q.state_ = .IDLE)
    (hW : q.startState_ = .WAIT_LT)
    (hg : sol = true ∨ (q.allowStartAfterEndTag_ || q.allowStartAfterPunctuation_) = true) :
    (q.processChar ch_lt sol).1.state_ = .TRYING ∧
    (q.processChar ch_lt sol).1.startState_ = .WAIT_FIRST_LETTER ∧
    (q.processChar ch_lt sol).1.allowStartAfterPunctuation_ = false ∧
    (q.processChar ch_lt sol).1.allowStartAfterEndTag_ = q.allowStartAfterEndTag_ := by
  have hn : ¬ (q.state_ = .IDLE ∧ sol = false ∧
      ((q.allowStartAfterEndTag_ || q.allowStartAfterPunctuation_) = false ∨
        ch_lt = ch_space ∨ ch_lt = ch_tab)) := by
    rintro ⟨_, h2, h3⟩
    rcases hg with hg | hg
    · rw [hg] at h2; cases h2
    · rcases h3 with h3 | h3 | h3
      · rw [hg] at h3; cases h3
      · exact absurd h3 (by decide)
      · exact absurd h3 (by decide)
  unfold StreamXmlPlugin.processChar
  simp only [hI, reduceCtorEq, if_false, true_and]
  rw [if_neg (by simpa [hI] using hn)]
  simp [StreamXmlPlugin.processStartMatcher, hW, StreamXmlPlugin.finish]

/-- An idle plugin that lets a code unit other than `<` through loses both allowances and
processes it as ordinary text. -/
theorem xml_idle_other (q : StreamXmlPlugin) (c : Nat) (sol : Bool) (hI : q.state_ = .IDLE)
    (hW : q.startState_ = .WAIT_LT) (hc : c ≠ ch_lt)
    (hg : sol = true ∨
      ((q.allowStartAfterEndTag_ || q.allowStartAfterPunctuation_) = true ∧ ¬ isBlank c)) :
    (q.processChar c sol).1 =
      { StreamXmlPlugin.updatePunctuationAllowance
          { q with allowStartAfterEndTag_ := false, allowStartAfterPunctuation_ := false } c
        with lastChar_ := c } := by
  have hn : ¬ (sol = false ∧
      ((q.allowStartAfterEndTag_ || q.allowStartAfterPunctuation_) = false ∨
        c = ch_space ∨ c = ch_tab)) := by
    rintro ⟨h2, h3⟩
    rcases hg with hg | ⟨hg, hb⟩
    · rw [hg] at h2; cases h2
    · rcases h3 with h3 | h3
      · rw [hg] at h3; cases h3
      · exact hb h3
  unfold StreamXmlPlugin.processChar
  simp only [hI, reduceCtorEq, if_false, true_and]
  rw [if_neg hn]
  simp [StreamXmlPlugin.processStartMatcher, hW, hc, hI, StreamXmlPlugin.finish,
    StreamXmlPlugin.handleDefaultCharacter]

/-- The outcomes of a call on a plugin inside a tag attempt: the attempt goes on; the
tag opens a region; the attempt fails at the code unit after `<`, which is then processed
as ordinary text with both allowances cleared; or the tag is self-closing and the plugin is
reset with both flags as they were. -/
theorem xml_trying_step (q : StreamXmlPlugin) (c : Nat) (sol : Bool) (hT : q.state_ = .TRYING)
    (hs : q.startState_ ≠ .WAIT_LT) :
    ((q.processChar c sol).1.state_ = .TRYING ∧ (q.processChar c sol).1.startState_ ≠ .WAIT_LT ∧
      (q.processChar c sol).1.allowStartAfterPunctuation_ = false ∧
      (q.processChar c sol).1.allowStartAfterEndTag_ = q.allowStartAfterEndTag_) ∨
    ((q.processChar c sol).1.state_ = .PROCESSING ∧
      (q.processChar c sol).1.startState_ = .WAIT_LT ∧
      (q.processChar c sol).1.allowStartAfterPunctuation_ = false ∧
      (q.processChar c sol).1.allowStartAfterEndTag_ = false) ∨
    ((q.processChar c sol).1.state_ = .IDLE ∧ (q.processChar c sol).1.startState_ = .WAIT_LT ∧
      q.startState_ = .WAIT_FIRST_LETTER ∧
      (q.processChar c sol).1.allowStartAfterEndTag_ = false ∧
      (q.processChar c sol).1.allowStartAfterPunctuation_ =
        StreamXmlPlugin.isPunctuationTrigger c) ∨
    ((q.processChar c sol).1.state_ = .IDLE ∧ (q.processChar c sol).1.startState_ = .WAIT_LT ∧
      q.completesSelfClosing c ∧
      (q.processChar c sol).1.allowStartAfterEndTag_ = q.allowStartAfterEndTag_ ∧
      (q.processChar c sol).1.allowStartAfterPunctuation_ = q.allowStartAfterPunctuation_) := by
  have hnb : ∀ d, isBlank d → StreamXmlPlugin.isPunctuationTrigger d = false := by
    intro d hd
    rcases hd with hd | hd <;> rw [hd] <;> decide
  unfold StreamXmlPlugin.processChar
  simp only [hT, reduceCtorEq, if_false, false_and]
  cases hss : q.startState_ with
  | WAIT_LT => exact absurd hss hs
  | WAIT_FIRST_LETTER =>
    by_cases hl : StreamXmlPlugin.isAsciiLetter c = true
    · left
      simp [StreamXmlPlugin.processStartMatcher, hss, hl, StreamXmlPlugin.finish]
    · right; right; left
      have hl2 : StreamXmlPlugin.isAsciiLetter c = false := by simpa using hl
      simp only [StreamXmlPlugin.processStartMatcher, hss, hl2, Bool.false_eq_true, if_false,
        reduceCtorEq, StreamXmlPlugin.finish, StreamXmlPlugin.handleDefaultCharacter, if_true,
        StreamXmlPlugin.reset, (xml_upd _ c).1, (xml_upd _ c).2.1, (xml_upd _ c).2.2.1,
        (xml_upd _ c).2.2.2, true_and]
      by_cases ht : StreamXmlPlugin.isPunctuationTrigger c = true
      · simp [ht]
      · have ht2 : StreamXmlPlugin.isPunctuationTrigger c = false := by simpa using ht
        simp [ht2]
  | IN_TAG_NAME =>
    by_cases h1 : c = ch_space
    · left
      subst h1
      simp [StreamXmlPlugin.processStartMatcher, hss, StreamXmlPlugin.finish]
    · by_cases h2 : c = ch_gt
      · subst h2
        by_cases h3 : q.lastChar_ = ch_slash
        · right; right; right
          simp [StreamXmlPlugin.processStartMatcher, hss, StreamXmlPlugin.finish, h3,
            StreamXmlPlugin.reset, StreamXmlPlugin.completesSelfClosing, hT, ch_gt, ch_space]
        · right; left
          simp [StreamXmlPlugin.processStartMatcher, hss, StreamXmlPlugin.finish, h3,
            StreamXmlPlugin.buildEndPattern, ch_gt, ch_space]
      · left
        simp [StreamXmlPlugin.processStartMatcher, hss, StreamXmlPlugin.finish, h1, h2]
  | IN_ATTRS =>
    by_cases h2 : c = ch_gt
    · subst h2
      by_cases h3 : q.lastChar_ = ch_slash
      · right; right; right
        simp [StreamXmlPlugin.processStartMatcher, hss, StreamXmlPlugin.finish, h3,
          StreamXmlPlugin.reset, StreamXmlPlugin.completesSelfClosing, hT]
      · right; left
        simp [StreamXmlPlugin.processStartMatcher, hss, StreamXmlPlugin.finish, h3,
          StreamXmlPlugin.buildEndPattern]
    · left
      simp [StreamXmlPlugin.processStartMatcher, hss, StreamXmlPlugin.finish, h2]

theorem xml_wf_reset (q : StreamXmlPlugin) : q.reset.Wf :=
  ⟨fun _ => rfl, fun h => (by cases h), fun h => (by cases h)⟩

theorem xml_wf_new (b : Bool) : (StreamXmlPlugin.new b).Wf := xml_wf_reset _

theorem xml_wf_of_idle (p : StreamXmlPlugin) (hI : p.state_ = .IDLE)
    (hW : p.startState_ = .WAIT_LT) : p.Wf :=
  ⟨fun _ => hW, fun h => (by rw [hI] at h; cases h), fun h => (by rw [hI] at h; cases h)⟩

theorem xml_wf_step (q : StreamXmlPlugin) (c : Nat) (sol : Bool) (h : q.Wf) :
    (q.processChar c sol).1.Wf := by
  obtain ⟨h1, h2, h3⟩ := h
  cases hst : q.state_ with
  | IDLE =>
    have hW := h1 hst
    by_cases hg : sol = false ∧
        ((q.allowStartAfterEndTag_ || q.allowStartAfterPunctuation_) = false ∨ isBlank c)
    · obtain ⟨hs, hg⟩ := hg
      subst hs
      rw [xml_idle_gated q c hst hg]
      exact xml_wf_of_idle _ ((xml_upd q c).1.trans hst) ((xml_upd q c).2.1.trans hW)
    · have hg2 : sol = true ∨
          ((q.allowStartAfterEndTag_ || q.allowStartAfterPunctuation_) = true ∧ ¬ isBlank c) := by
        cases sol
        · right
          have := fun hx => hg ⟨rfl, hx⟩
          constructor
          · cases hx : (q.allowStartAfterEndTag_ || q.allowStartAfterPunctuation_)
            · exact absurd (Or.inl hx) this
            · rfl
          · exact fun hb => this (Or.inr hb)
        · exact Or.inl rfl
      by_cases hc : c = ch_lt
      · subst hc
        obtain ⟨t1, t2, t3, _⟩ := xml_idle_lt q sol hst hW (hg2.imp id (fun x => x.1))
        refine ⟨fun hx => ?_, fun _ => ⟨?_, t3⟩, fun hx => ?_⟩
        · rw [t1] at hx; cases hx
        · rw [t2]; decide
        · rw [t1] at hx; cases hx
      · rw [xml_idle_other q c sol hst hW hc hg2]
        exact xml_wf_of_idle _ ((xml_upd _ c).1.trans hst) ((xml_upd _ c).2.1.trans hW)
  | TRYING =>
    obtain ⟨hs, _⟩ := h2 hst
    rcases xml_trying_step q c sol hst hs with ⟨t1, t2, t3, _⟩ | ⟨t1, _⟩ | ⟨t1, t2, _⟩ |
      ⟨t1, t2, _⟩
    · refine ⟨fun hx => ?_, fun _ => ⟨t2, t3⟩, fun hx => ?_⟩
      · rw [t1] at hx; cases hx
      · rw [t1] at hx; cases hx
    · refine ⟨fun hx => ?_, fun hx => ?_, fun hx => ?_⟩ <;> rw [t1] at hx <;> cases hx
    · exact xml_wf_of_idle _ t1 t2
    · exact xml_wf_of_idle _ t1 t2
  | PROCESSING =>
    by_cases hp : (q.processChar c sol).1.state_ = .PROCESSING
    · refine ⟨fun hx => ?_, fun hx => ?_, fun hx => ?_⟩ <;> rw [hp] at hx <;> cases hx
    · obtain ⟨t1, t2, _⟩ := xml_close q c sol hst hp
      exact xml_wf_of_idle _ t1 t2
  | WAITFOR => exact absurd hst h3

theorem xml_wf_run (ops : List (Option (Nat × Bool))) : ∀ (q : StreamXmlPlugin), q.Wf →
    (q.run ops).Wf := by
  induction ops with
  | nil => intro q h; exact h
  | cons op ops ih =>
    intro q h
    cases op with
    | none => exact ih _ (xml_wf_reset q)
    | some x =>
      obtain ⟨c, sol⟩ := x
      exact ih _ (xml_wf_step q c sol h)

/-- The allowance after the last call that counts: when a call leaves the plugin idle and
is not a space or tab passed over by the start gate, the plugin afterwards has an allowance
exactly when the code unit is a punctuation trigger or the call closed a region, unless
the call completed a self-closing tag, which leaves the flags as they were. -/
theorem xml_last_call (q : StreamXmlPlugin) (c : Nat) (sol : Bool) (h : q.Wf)
    (hI : (q.processChar c sol).1.state_ = .IDLE)
    (hsig : ¬ (q.state_ = .IDLE ∧ isBlank c ∧ sol = false)) :
    (q.processChar c sol).1.startState_ = .WAIT_LT ∧
    (¬ q.completesSelfClosing c →
      (((q.processChar c sol).1.allowStartAfterEndTag_ ||
          (q.processChar c sol).1.allowStartAfterPunctuation_) = true ↔
        (StreamXmlPlugin.isPunctuationTrigger c = true ∨ q.state_ = .PROCESSING))) ∧
    (q.completesSelfClosing c →
      (q.processChar c sol).1.allowStartAfterEndTag_ = q.allowStartAfterEndTag_ ∧
      (q.processChar c sol).1.allowStartAfterPunctuation_ = false) := by
  have hnb : isBlank c → StreamXmlPlugin.isPunctuationTrigger c = false := by
    intro hd
    rcases hd with hd | hd <;> rw [hd] <;> decide
  have htext : ∀ (x : StreamXmlPlugin), x.allowStartAfterEndTag_ = false →
      (isBlank c → x.allowStartAfterPunctuation_ = false) →
      (((x.updatePunctuationAllowance c).allowStartAfterEndTag_ ||
        (x.updatePunctuationAllowance c).allowStartAfterPunctuation_) = true ↔
        StreamXmlPlugin.isPunctuationTrigger c = true) := by
    intro x hE hP
    rw [(xml_upd x c).2.2.1, (xml_upd x c).2.2.2, hE]
    by_cases ht : StreamXmlPlugin.isPunctuationTrigger c = true
    · simp [ht]
    · by_cases hb : isBlank c
      · simp [ht, hb, hP hb]
      · simp [ht, hb]
  obtain ⟨h1, h2, h3⟩ := h
  cases hst : q.state_ with
  | IDLE =>
    have hW := h1 hst
    have hns : ¬ q.completesSelfClosing c := fun hx => (by rw [hx.1] at hst; cases hst)
    have hstP : ¬ (PluginState.IDLE = PluginState.PROCESSING) := by decide
    by_cases hg : sol = false ∧
        ((q.allowStartAfterEndTag_ || q.allowStartAfterPunctuation_) = false ∨ isBlank c)
    · obtain ⟨hs, hg⟩ := hg
      subst hs
      have hb : ¬ isBlank c := fun hb => hsig ⟨hst, hb, rfl⟩
      have hno : (q.allowStartAfterEndTag_ || q.allowStartAfterPunctuation_) = false :=
        hg.resolve_right hb
      rw [Bool.or_eq_false_iff] at hno
      rw [xml_idle_gated q c hst hg]
      refine ⟨(xml_upd q c).2.1.trans hW, fun _ => ?_, fun hx => absurd hx hns⟩
      rw [or_iff_left hstP]
      exact htext q hno.1 (fun hb2 => absurd hb2 hb)
    · have hg2 : sol = true ∨
          ((q.allowStartAfterEndTag_ || q.allowStartAfterPunctuation_) = true ∧ ¬ isBlank c) := by
        cases sol
        · right
          have := fun hx => hg ⟨rfl, hx⟩
          constructor
          · cases hx : (q.allowStartAfterEndTag_ || q.allowStartAfterPunctuation_)
            · exact absurd (Or.inl hx) this
            · rfl
          · exact fun hb => this (Or.inr hb)
        · exact Or.inl rfl
      by_cases hc : c = ch_lt
      · subst hc
        obtain ⟨t1, _⟩ := xml_idle_lt q sol hst hW (hg2.imp id (fun x => x.1))
        rw [t1] at hI; cases hI
      · rw [xml_idle_other q c sol hst hW hc hg2]
        refine ⟨(xml_upd _ c).2.1.trans hW, fun _ => ?_, fun hx => absurd hx hns⟩
        rw [or_iff_left hstP]
        exact htext _ rfl (fun _ => rfl)
  | TRYING =>
    obtain ⟨hs, hP⟩ := h2 hst
    have hstP : ¬ (PluginState.TRYING = PluginState.PROCESSING) := by decide
    rcases xml_trying_step q c sol hst hs with ⟨t1, _⟩ | ⟨t1, _⟩ | ⟨_, t2, t3, t4, t5⟩ |
      ⟨_, t2, t3, t4, t5⟩
    · rw [t1] at hI; cases hI
    · rw [t1] at hI; cases hI
    · refine ⟨t2, fun _ => ?_, fun hx => ?_⟩
      · rw [t4, t5, or_iff_left hstP]
        simp
      · rcases hx.2.1 with hx | hx <;> rw [t3] at hx <;> cases hx
    · refine ⟨t2, fun hx => absurd t3 hx, fun _ => ⟨t4, t5.trans hP⟩⟩
  | PROCESSING =>
    have hp : (q.processChar c sol).1.state_ ≠ .PROCESSING := by rw [hI]; decide
    obtain ⟨_, t2, t3, _⟩ := xml_close q c sol hst hp
    refine ⟨t2, fun _ => ?_, fun hx => ?_⟩
    · rw [t3]
      simp
    · rw [hx.1] at hst; cases hst
  | WAITFOR => exact absurd hst h3

/-- Resets and spaces and tabs passed over by the start gate leave an idle plugin idle and its
two allowance flags as they are. -/
theorem xml_idle_tail : ∀ (tail : List (Option (Nat × Bool))) (p : StreamXmlPlugin),
    p.state_ = .IDLE → p.startState_ = .WAIT_LT → (∀ x ∈ tail, idleFiller x) →
    (p.run tail).state_ = .IDLE ∧ (p.run tail).startState_ = .WAIT_LT ∧
    (p.run tail).allowStartAfterEndTag_ = p.allowStartAfterEndTag_ ∧
    (p.run tail).allowStartAfterPunctuation_ = p.allowStartAfterPunctuation_ := by
  intro tail
  induction tail with
  | nil => intro p hI hW _; exact ⟨hI, hW, rfl, rfl⟩
  | cons x rest ih =>
    intro p hI hW ht
    have hx := ht x (List.mem_cons_self _ _)
    have hrest : ∀ y ∈ rest, idleFiller y := fun y hy => ht y (List.mem_cons_of_mem _ hy)
    cases x with
    | none =>
      exact ih p.reset rfl rfl hrest
    | some cs =>
      obtain ⟨c, sol⟩ := cs
      obtain ⟨hb, hs⟩ := hx
      subst hs
      have hrun : p.run (some (c, false) :: rest) =
          StreamXmlPlugin.run { p with lastChar_ := c } rest := by
        show StreamXmlPlugin.run (p.processChar c false).1 rest = _
        rw [xml_blank p c hI hb]
      rw [hrun]
      exact ih { p with lastChar_ := c } hI hW hrest

/-- Claim C16 (XML start gating): what the code does, and where it leaves the claim.
*The divergence.* After the self-closing tag `<br/>` at the start of a line the plugin is
`IDLE` and the last code unit it processed, `>`, is a punctuation trigger, so allowance
(a) of the claim holds; yet on `<` with `atStartOfLine = false` it stays `IDLE` and
returns keep = true, so that `<br/><a>x</a>` is one default span for `splitByXml` and
plain text for a block session. The same tag after a trigger (`.<br/>`) does the same.
*The sibling paths.* A tag attempt that fails (`<>`) ends on a `>` that grants the
allowance, as the `>` of ordinary text does (`x>`), and after a closed region the
self-closing tag leaves the end-tag allowance in place (`<a>x</a><br/>`), so the next
`<` is accepted in all three.
*The trigger set* is the closed set of the claim.
*Everywhere else the claim holds.* Take any state `q` reached from the constructor by
`processChar` and `reset` calls, a call `processChar(c, sol)` that leaves the plugin
`IDLE` and is not a space or tab passed over by the start gate (processed by an idle plugin with
`atStartOfLine = false`), and after it any resets and such spaces and tabs, giving `p`.
Then `p` is `IDLE`; on `<` with `atStartOfLine = true` it moves to `TRYING`; on `<` with
`atStartOfLine = false` it moves to `TRYING` or else stays `IDLE` and returns keep = true;
and unless the call completed a self-closing tag, it moves to `TRYING` if and only if `c`
is a punctuation trigger (allowance (a)) or the call closed an XML region (allowance
(b)). After a call that completed a self-closing tag it moves to `TRYING` if and only if
the end-tag allowance was set before the tag. A plugin that has processed nothing but
such spaces and tabs stays `IDLE` on a mid-line `<`. -/
theorem xml_start_gating_divergence :
    (afterPunctuation (asLine (u16 "<br/>")) = true ∧
      ((StreamXmlPlugin.new true).feed (asLine (u16 "<br/"))).completesSelfClosing ch_gt ∧
      ((StreamXmlPlugin.new true).feed (asLine (u16 "<br/>"))).state_ = .IDLE ∧
      (((StreamXmlPlugin.new true).feed (asLine (u16 "<br/>"))).processChar
        ch_lt false).1.state_ = .IDLE ∧
      (((StreamXmlPlugin.new true).feed (asLine (u16 "<br/>"))).processChar ch_lt false).2
        = true ∧
      (((StreamXmlPlugin.new true).feed (asLine (u16 ".<br/>"))).processChar
        ch_lt false).1.state_ = .IDLE ∧
      splitByXml (u16 "<br/><a>x</a>") = [⟨0, 0, 13⟩] ∧
      (createMarkdownBlockSession.push (u16 "<br/><a>x</a>")).2 = [⟨MD_PLAIN_TEXT, 0, 13⟩]) ∧
    ((((StreamXmlPlugin.new true).feed (asLine (u16 "<>"))).processChar
        ch_lt false).1.state_ = .TRYING ∧
      (((StreamXmlPlugin.new true).feed (asLine (u16 "x>"))).processChar
        ch_lt false).1.state_ = .TRYING ∧
      (((StreamXmlPlugin.new true).feed (asLine (u16 "<a>x</a><br/>"))).processChar
        ch_lt false).1.state_ = .TRYING ∧
      splitByXml (u16 "<><a>y</a>") = [⟨0, 0, 2⟩, ⟨1, 2, 10⟩] ∧
      splitByXml (u16 "x><a>y</a>") = [⟨0, 0, 2⟩, ⟨1, 2, 10⟩] ∧
      splitByXml (u16 "<a>x</a><br/><b>y</b>") = [⟨1, 0, 8⟩, ⟨0, 8, 13⟩, ⟨1, 13, 21⟩]) ∧
    (∀ c, StreamXmlPlugin.isPunctuationTrigger c = true ↔
      c ∈ [0xFF0C, 0x3002, 0xFF1F, 0xFF01, 0xFF1A, 0xFF08, 0xFF09, 0x3010, 0x3011, 0x300A,
        0x300B, 0xFF5E, 44, 46, 63, 33, 58, 126, 62, 0xFF1E]) ∧
    (∀ (q p : StreamXmlPlugin) (c : Nat) (sol : Bool) (tail : List (Option (Nat × Bool))),
      (∃ b ops, q = (StreamXmlPlugin.new b).run ops) →
      (q.processChar c sol).1.state_ = .IDLE →
      ¬ (q.state_ = .IDLE ∧ isBlank c ∧ sol = false) →
      (∀ x ∈ tail, idleFiller x) →
      p = (q.processChar c sol).1.run tail →
      p.state_ = .IDLE ∧
      (p.processChar ch_lt true).1.state_ = .TRYING ∧
      ((p.processChar ch_lt false).1.state_ ≠ .TRYING →
        (p.processChar ch_lt false).1.state_ = .IDLE ∧ (p.processChar ch_lt false).2 = true) ∧
      (¬ q.completesSelfClosing c →
        ((p.processChar ch_lt false).1.state_ = .TRYING ↔
          (StreamXmlPlugin.isPunctuationTrigger c = true ∨ q.state_ = .PROCESSING))) ∧
      (q.completesSelfClosing c →
        ((p.processChar ch_lt false).1.state_ = .TRYING ↔ q.allowStartAfterEndTag_ = true))) ∧
    (∀ (b : Bool) (tail : List (Option (Nat × Bool))), (∀ x ∈ tail, idleFiller x) →
      (((StreamXmlPlugin.new b).run tail).processChar ch_lt false).1.state_ = .IDLE ∧
      (((StreamXmlPlugin.new b).run tail).processChar ch_lt false).2 = true ∧
      (((StreamXmlPlugin.new b).run tail).processChar ch_lt true).1.state_ = .TRYING) := by
  refine ⟨by decide, by decide, ?_, ?_, ?_⟩
  · intro c
    simp [StreamXmlPlugin.isPunctuationTrigger, ch_colon, ch_comma, ch_dot, ch_question, ch_bang,
      ch_tilde, ch_gt]
    omega
  · intro q p c sol tail hq hI hsig ht hp
    obtain ⟨b, ops, hq⟩ := hq
    have hwf : q.Wf := by rw [hq]; exact xml_wf_run ops _ (xml_wf_new b)
    obtain ⟨l1, l2, l3⟩ := xml_last_call q c sol hwf hI hsig
    obtain ⟨t1, t2, t3, t4⟩ := xml_idle_tail tail _ hI l1 ht
    rw [← hp] at t1 t2 t3 t4
    obtain ⟨g1, g2, g3⟩ := xml_gate p t1 t2
    refine ⟨t1, g3, ?_, ?_, ?_⟩
    · intro hn
      apply g2
      cases hx : (p.allowStartAfterEndTag_ || p.allowStartAfterPunctuation_)
      · rfl
      · exact absurd (g1.2 hx) hn
    · intro hns
      rw [g1, t3, t4]
      exact l2 hns
    · intro hsc
      obtain ⟨e1, e2⟩ := l3 hsc
      rw [g1, t3, t4, e1, e2]
      simp
  · intro b tail ht
    obtain ⟨t1, t2, t3, t4⟩ := xml_idle_tail tail (StreamXmlPlugin.new b) rfl rfl ht
    obtain ⟨_, g2, g3⟩ := xml_gate _ t1 t2
    have hf : (((StreamXmlPlugin.new b).run tail).allowStartAfterEndTag_ ||
        ((StreamXmlPlugin.new b).run tail).allowStartAfterPunctuation_) = false := by
      rw [t3, t4]; rfl
    exact ⟨(g2 hf).1, (g2 hf).2, g3⟩

/-- Claim C17 (XML self-closing tags). Let the XML plugin be `TRYING` inside an opening
tag (start matcher in the tag name or in the attributes) right after it processed the code
unit `x`. On the `>` that completes the tag: if `x` is `/` the plugin returns keep = true
and ends in `IDLE`, without entering `PROCESSING`; for every other `x` it ends in
`PROCESSING`. -/
theorem xml_self_closing (p : StreamXmlPlugin) (x : Nat) (sol sol2 : Bool)
    (hT : (p.processChar x sol).1.state_ = .TRYING)
    (hS : (p.processChar x sol).1.startState_ = .IN_TAG_NAME ∨
      (p.processChar x sol).1.startState_ = .IN_ATTRS) :
    (x = ch_slash →
      ((p.processChar x sol).1.processChar ch_gt sol2).2 = true ∧
      ((p.processChar x sol).1.processChar ch_gt sol2).1.state_ = .IDLE) ∧
    (x ≠ ch_slash →
      ((p.processChar x sol).1.processChar ch_gt sol2).1.state_ = .PROCESSING) := by
  have hl := xml_lastChar p x sol
  constructor
  · intro hx
    exact xml_gt_selfClosing _ sol2 hT hS (hl.trans hx)
  · intro hx
    exact (xml_gt_opens _ sol2 hT hS (by rw [hl]; exact hx)).2.1

/-- The tag `<br/>` at the start of a line: after the `/` the plugin is `TRYING` in the tag
name, and the `>` sends it back to `IDLE` with keep = true. -/
theorem xml_self_closing_witness :
    ((((((StreamXmlPlugin.new true).processChar ch_lt true).1.processChar 98 false).1.processChar
      114 false).1.processChar ch_slash false).1.state_ = .TRYING) ∧
    ((((((StreamXmlPlugin.new true).processChar ch_lt true).1.processChar 98 false).1.processChar
      114 false).1.processChar ch_slash false).1.processChar ch_gt false).2 = true ∧
    ((((((StreamXmlPlugin.new true).processChar ch_lt true).1.processChar 98 false).1.processChar
      114 false).1.processChar ch_slash false).1.processChar ch_gt false).1.state_ = .IDLE :=
  ⟨by decide,
   (xml_self_closing
     ((((StreamXmlPlugin.new true).processChar ch_lt true).1.processChar 98 false).1.processChar
      114 false).1 ch_slash false false (by decide) (by decide)).1 rfl⟩

/-- Claim C18 (XML dynamic closer). Let the XML plugin be `TRYING` inside an opening tag
whose accumulated name is `t = tagName_`, the previous code unit not being `/`. The `>`
puts it in `PROCESSING` with the end pattern `</` + `t` + `>` installed in the matcher.
For every body fed afterwards (whatever the `atStartOfLine` flags): if no prefix of the
body ends with the pattern, the plugin is `PROCESSING` after the body; and if the first
prefix that ends with the pattern has length `n + 1`, the plugin is `PROCESSING` after each
of the first `0, ..., n` code units and `IDLE` after code unit `n` (no nesting is
tracked). The name is accumulated from the text: on a plugin that is `IDLE`, `<` at the
start of a line, an ASCII letter `l` and code units `name` without space and `>` leave it
`TRYING` in the tag name with `tagName_ = l :: name`. -/
theorem xml_dynamic_closer (q : StreamXmlPlugin) (sol : Bool) (body : List (Nat × Bool))
    (hT : q.state_ = .TRYING)
    (hS : q.startState_ = .IN_TAG_NAME ∨ q.startState_ = .IN_ATTRS)
    (hl : q.lastChar_ ≠ ch_slash) :
    (q.processChar ch_gt sol).1.state_ = .PROCESSING ∧
    (q.processChar ch_gt sol).1.endPattern_ = xmlCloser q.tagName_ ∧
    (q.processChar ch_gt sol).1.endMatcher_ = q.endMatcher_.setPattern (xmlCloser q.tagName_) ∧
    ((∀ k, k < body.length → ¬ xmlCloser q.tagName_ <:+ (body.map Prod.fst).take (k + 1)) →
      ((q.processChar ch_gt sol).1.feed body).state_ = .PROCESSING) ∧
    (∀ n, n < body.length →
      (∀ k, k < n → ¬ xmlCloser q.tagName_ <:+ (body.map Prod.fst).take (k + 1)) →
      xmlCloser q.tagName_ <:+ (body.map Prod.fst).take (n + 1) →
      (∀ j, j ≤ n → ((q.processChar ch_gt sol).1.feed (body.take j)).state_ = .PROCESSING) ∧
      ((q.processChar ch_gt sol).1.feed (body.take (n + 1))).state_ = .IDLE) ∧
    (∀ (p : StreamXmlPlugin) (l : Nat) (name : List Nat), p.state_ = .IDLE →
      p.startState_ = .WAIT_LT → StreamXmlPlugin.isAsciiLetter l = true →
      (∀ c ∈ name, c ≠ ch_space ∧ c ≠ ch_gt) →
      (((p.processChar ch_lt true).1.processChar l false).1.feed
        (name.map (fun c => (c, false)))).state_ = .TRYING ∧
      (((p.processChar ch_lt true).1.processChar l false).1.feed
        (name.map (fun c => (c, false)))).startState_ = .IN_TAG_NAME ∧
      (((p.processChar ch_lt true).1.processChar l false).1.feed
        (name.map (fun c => (c, false)))).tagName_ = l :: name) := by
  have hopen := xml_opened q sol hT hS hl
  obtain ⟨_, h2, _, h4, h5, _⟩ := xml_gt_opens q sol hT hS hl
  have hpre : ∀ j, j ≤ body.length →
      (∀ k, k < j → ¬ xmlCloser q.tagName_ <:+ (body.map Prod.fst).take (k + 1)) →
      XmlOpen ((q.processChar ch_gt sol).1.feed (body.take j)) q.tagName_
        ((body.map Prod.fst).take j) := by
    intro j hj hno
    have := xmlOpen_feed q.tagName_ (body.take j) _ [] hopen (by
      intro k hk
      have hk2 : k < j := by
        have := List.length_take_le j body
        omega
      have := hno k hk2
      rw [List.nil_append, ← List.map_take, List.take_take, Nat.min_eq_left (by omega),
        List.map_take]
      exact this)
    simpa [List.map_take] using this
  refine ⟨h2, h4, h5, ?_, ?_, ?_⟩
  · intro hno
    have := hpre body.length (le_refl _) (fun k hk => hno k hk)
    rw [List.take_length] at this
    exact this.1
  · intro n hn hno hfirst
    constructor
    · intro j hj
      exact (hpre j (by omega) (fun k hk => hno k (by omega))).1
    · have hn' := hpre n (by omega) hno
      rw [feed_take_succ body _ n hn]
      refine (xmlOpen_step _ q.tagName_ _ _ _ hn').1 ?_
      have e : (body.map Prod.fst).take (n + 1) =
          (body.map Prod.fst).take n ++ [(body.get ⟨n, hn⟩).1] := by
        rw [List.take_succ]
        congr 1
        simp [List.getElem?_map, List.getElem?_eq_getElem hn]
      rw [← e]
      exact hfirst
  · intro p l name hI hW hlet hname
    obtain ⟨a1, a2, a3⟩ := xml_tag_start p l hI hW hlet
    obtain ⟨b1, b2, b3⟩ := xml_tagName_feed name _ a1 a2 hname
    exact ⟨b1, b2, by rw [b3, a3]; rfl⟩

/-- The tag `<a>` with the body `x</a>`: the plugin is `PROCESSING` after the opening `>`
and after each of `x`, `<`, `/`, `a`, and `IDLE` after the closing `>`. -/
theorem xml_dynamic_closer_witness :
    (((StreamXmlPlugin.new true).processChar ch_lt true).1.processChar 97 false).1.state_
      = .TRYING ∧
    (((StreamXmlPlugin.new true).processChar ch_lt true).1.processChar 97 false).1.tagName_
      = [97] ∧
    (((((StreamXmlPlugin.new true).processChar ch_lt true).1.processChar 97 false).1.processChar
      ch_gt false).1.feed (([120, ch_lt, ch_slash, 97, ch_gt].map (fun c => (c, false))).take
        (4 + 1))).state_ = .IDLE :=
  ⟨by decide, by decide,
   ((xml_dynamic_closer
      (((StreamXmlPlugin.new true).processChar ch_lt true).1.processChar 97 false).1 false
      ([120, ch_lt, ch_slash, 97, ch_gt].map (fun c => (c, false)))
      (by decide) (by decide) (by decide)).2.2.2.2.1 4 (by decide) (by decide) (by decide)).2⟩

/-- Claim C19, as stated, fails: `a**b` has an opening `**` and no closing `**`, and
pushed into a fresh inline session it returns the segment BOLD[3,4). -/
theorem unclosed_bold_counterexample :
    (⟨MD_BOLD, 3, 4⟩ : Segment) ∈ (createMarkdownInlineSession.push (u16 "a**b")).2 := by
  decide

/-- Claim C19, amended. An opening `**` that is never closed does not degrade to
PLAIN_TEXT once a code unit other than `*` and newline follows it: for every `body`
without `*` (newlines included), `a**b` followed by `body`, pushed into a fresh inline
session, returns exactly PLAIN_TEXT[0,1) and BOLD[3, 4 + |body|), the asterisks being
dropped. Only an opener that ends the input or is followed by a newline degrades: `a**`
returns PLAIN_TEXT[0,1) alone (the asterisks are held back in the evaluation buffer), and
`a**` with a newline returns PLAIN_TEXT[0,4). -/
theorem unclosed_bold (body : List Nat) (h : ∀ c ∈ body, c ≠ ch_star) :
    (createMarkdownInlineSession.push (u16 "a**b" ++ body)).2 =
      [⟨MD_PLAIN_TEXT, 0, 1⟩, ⟨MD_BOLD, 3, 4 + body.length⟩] ∧
    (createMarkdownInlineSession.push (u16 "a**")).2 = [⟨MD_PLAIN_TEXT, 0, 1⟩] ∧
    (createMarkdownInlineSession.push (u16 "a**\n")).2 = [⟨MD_PLAIN_TEXT, 0, 4⟩] := by
  refine ⟨?_, by decide, by decide⟩
  have hm : loopMeasure createMarkdownInlineSession (u16 "a**b") = 12 := by decide
  have hF : loopMeasure createMarkdownInlineSession (u16 "a**b" ++ body) <
      pushFuel createMarkdownInlineSession (u16 "a**b" ++ body) := pushFuel_gt _ _
  have hlen : (u16 "a**b" ++ body).length = 4 + body.length := by
    rw [List.length_append]; rfl
  have hFv : pushFuel createMarkdownInlineSession (u16 "a**b" ++ body) =
      3 * (4 + body.length) + 2 := by
    unfold pushFuel
    rw [hlen]
    rfl
  have hpre : pushLoop (pushFuel createMarkdownInlineSession (u16 "a**b" ++ body))
      createMarkdownInlineSession Emitter.new true (u16 "a**b") =
      pushLoop 20 createMarkdownInlineSession Emitter.new true (u16 "a**b") :=
    pushLoop_fuel _ 20 _ _ _ _ (by rw [hm, hFv]; omega) (by rw [hm]; omega)
  have hB : BoldActive
      (pushLoop 20 createMarkdownInlineSession Emitter.new true (u16 "a**b")).1 := by decide
  have hG : (pushLoop 20 createMarkdownInlineSession Emitter.new true
      (u16 "a**b")).1.globalOffset_ = 4 := by decide
  have hE : (pushLoop 20 createMarkdownInlineSession Emitter.new true (u16 "a**b")).2.1 =
      ⟨[⟨MD_PLAIN_TEXT, 0, 1⟩], MD_BOLD, 3,
        (pushLoop 20 createMarkdownInlineSession Emitter.new true
          (u16 "a**b")).1.globalOffset_⟩ := by decide
  have hloop := boldActive_loop body
    (pushFuel createMarkdownInlineSession (u16 "a**b" ++ body)) _ [⟨MD_PLAIN_TEXT, 0, 1⟩] 3
    (pushLoop 20 createMarkdownInlineSession Emitter.new true (u16 "a**b")).2.2 hB h
    (by rw [hFv]; omega) (by decide)
  unfold MarkdownSession.push
  simp only []
  rw [show createMarkdownInlineSession.atStartOfLine_ = true from rfl,
    pushLoop_append _ _ _ _ _ _ hF, hpre, hE, hloop, hG]
  simp [flushRun]

/-- The body `c`, newline, `d` after `a**b`: one BOLD segment over the indices 3 to 6. -/
theorem unclosed_bold_witness :
    (∀ c ∈ [99, ch_nl, 100], c ≠ ch_star) ∧
    (createMarkdownInlineSession.push (u16 "a**b" ++ [99, ch_nl, 100])).2 =
      [⟨MD_PLAIN_TEXT, 0, 1⟩, ⟨MD_BOLD, 3, 4 + ([99, ch_nl, 100] : List Nat).length⟩] :=
  ⟨by decide, (unclosed_bold [99, ch_nl, 100] (by decide)).1⟩

/-- Claim C20 (delimiters kept means nothing is dropped). For every plugin whose include
flag is true (the link plugin, which has no flag, counts as such), after every history of
`processChar` and `reset` calls, `processChar` returns true for every code unit and every
`atStartOfLine` value. The flag of a plugin is the constructor argument: each of the
nineteen constructors that take one stores it unchanged. -/
theorem include_flag_keeps_all (q : Plugin) (ops : List (Option (Nat × Bool))) (c : Nat)
    (sol : Bool) (h : q.includeFlag = true) :
    ((q.run ops).processChar c sol).2 = true ∧
    (Plugin.link StreamMarkdownLinkPlugin.new).includeFlag = true ∧
    ∀ b : Bool,
      (Plugin.fencedCode (StreamMarkdownFencedCodeBlockPlugin.new b)).includeFlag = b ∧
      (Plugin.inlineCode (StreamMarkdownInlineCodePlugin.new b)).includeFlag = b ∧
      (Plugin.bold (StreamMarkdownBoldPlugin.new b)).includeFlag = b ∧
      (Plugin.italic (StreamMarkdownItalicPlugin.new b)).includeFlag = b ∧
      (Plugin.header (StreamMarkdownHeaderPlugin.new b)).includeFlag = b ∧
      (Plugin.blockQuote (StreamMarkdownBlockQuotePlugin.new b)).includeFlag = b ∧
      (Plugin.horizontalRule (StreamMarkdownHorizontalRulePlugin.new b)).includeFlag = b ∧
      (Plugin.orderedList (StreamMarkdownOrderedListPlugin.new b)).includeFlag = b ∧
      (Plugin.unorderedList (StreamMarkdownUnorderedListPlugin.new b)).includeFlag = b ∧
      (Plugin.strikethrough (StreamMarkdownStrikethroughPlugin.new b)).includeFlag = b ∧
      (Plugin.underline (StreamMarkdownUnderlinePlugin.new b)).includeFlag = b ∧
      (Plugin.inlineLaTeX (StreamMarkdownInlineLaTeXPlugin.new b)).includeFlag = b ∧
      (Plugin.inlineParenLaTeX (StreamMarkdownInlineParenLaTeXPlugin.new b)).includeFlag = b ∧
      (Plugin.blockLaTeX (StreamMarkdownBlockLaTeXPlugin.new b)).includeFlag = b ∧
      (Plugin.blockBracketLaTeX (StreamMarkdownBlockBracketLaTeXPlugin.new b)).includeFlag = b ∧
      (Plugin.image (StreamMarkdownImagePlugin.new b)).includeFlag = b ∧
      (Plugin.table (StreamMarkdownTablePlugin.new b)).includeFlag = b ∧
      (Plugin.xml (StreamXmlPlugin.new b)).includeFlag = b ∧
      (Plugin.plan (StreamPlanExecutionPlugin.new b)).includeFlag = b := by
  refine ⟨processChar_keep _ c sol ((run_includeFlag ops q).trans h), rfl, fun b => ?_⟩
  refine ⟨rfl, rfl, rfl, rfl, rfl, rfl, rfl, rfl, rfl, rfl, rfl, rfl, rfl, rfl, rfl, rfl, rfl,
    rfl, rfl⟩

/-- A bold plugin that keeps its asterisks, on the asterisk that closes `**a*`. -/
theorem include_flag_keeps_all_witness :
    (Plugin.bold (StreamMarkdownBoldPlugin.new true)).includeFlag = true ∧
    (((Plugin.bold (StreamMarkdownBoldPlugin.new true)).run
      [some (ch_star, true), some (ch_star, false), some (97, false),
        some (ch_star, false)]).processChar ch_star false).2 = true :=
  ⟨rfl, (include_flag_keeps_all (Plugin.bold (StreamMarkdownBoldPlugin.new true))
    [some (ch_star, true), some (ch_star, false), some (97, false), some (ch_star, false)]
    ch_star false rfl).1⟩

/-! ## Claims on the rosters, the plugins line by line, and the index bookkeeping -/

/-- Claim C21 (session rosters). `createMarkdownBlockSession` builds exactly the twelve
plugins plan-execution, header, fenced-code, block-quote, ordered-list, unordered-list,
horizontal-rule, block-latex-dollar, block-latex-bracket, table, image, xml, in this
order, with the tags 9, 0, 2, 1, 3, 4, 5, 6, 6, 7, 14, 8; `createMarkdownInlineSession`
builds exactly the eight plugins bold, italic, inline-code, link, strikethrough,
underline, inline-latex-dollar, inline-latex-paren with the tags 10, 11, 12, 13, 15, 16,
17, 17. -/
theorem session_rosters :
    createMarkdownBlockSession.plugins_.map (fun x => (x.plugin.kind, x.tag)) =
      [(.planExecution, 9), (.header, 0), (.fencedCode, 2), (.blockQuote, 1),
        (.orderedList, 3), (.unorderedList, 4), (.horizontalRule, 5), (.blockLatexDollar, 6),
        (.blockLatexBracket, 6), (.table, 7), (.image, 14), (.xml, 8)] ∧
    createMarkdownBlockSession.plugins_.length = 12 ∧
    createMarkdownInlineSession.plugins_.map (fun x => (x.plugin.kind, x.tag)) =
      [(.bold, 10), (.italic, 11), (.inlineCode, 12), (.link, 13), (.strikethrough, 15),
        (.underline, 16), (.inlineLatexDollar, 17), (.inlineLatexParen, 17)] ∧
    createMarkdownInlineSession.plugins_.length = 8 := by
  decide

/-! ## The header plugin on one line -/

/-- A header plugin that is IDLE outside a match ignores every code unit that is not at the
start of a line. -/
theorem header_dead (l : List Nat) (p : StreamMarkdownHeaderPlugin)
    (hs : p.state_ = .IDLE) (hm : p.inMatch_ = false) :
    (p.feed (l.map (fun x => (x, false)))).state_ = .IDLE := by
  induction l generalizing p with
  | nil => exact hs
  | cons c cs ih =>
    have h : (p.processChar c false).1 = p := by
      simp [StreamMarkdownHeaderPlugin.processChar, hs, hm]
    show (StreamMarkdownHeaderPlugin.feed (p.processChar c false).1 _).state_ = _
    rw [h]
    exact ih p hs hm

/-- A header plugin that is PROCESSING stays so exactly as long as no newline arrives. -/
theorem header_processing (l : List Nat) (p : StreamMarkdownHeaderPlugin)
    (hs : p.state_ = .PROCESSING) :
    (p.feed (l.map (fun x => (x, false)))).state_ = .PROCESSING ↔ ch_nl ∉ l := by
  induction l generalizing p with
  | nil => simp [StreamMarkdownHeaderPlugin.feed, hs]
  | cons c cs ih =>
    show (StreamMarkdownHeaderPlugin.feed (p.processChar c false).1 _).state_ = _ ↔ _
    by_cases hc : c = ch_nl
    · have h : (p.processChar c false).1 = p.reset := by
        simp [StreamMarkdownHeaderPlugin.processChar, hs, hc]
      rw [h, header_dead cs p.reset rfl rfl]
      simp [hc]
    · have h : (p.processChar c false).1 = p := by
        simp [StreamMarkdownHeaderPlugin.processChar, hs, hc]
      rw [h, ih p hs]
      simp [Ne.symm hc]

/-- The header plugin inside a start-of-line match with `k` hashes read: it reaches
PROCESSING exactly on more hashes (at most 6 in all, at least 1) followed by a space, and
keeps it while no newline arrives. -/
theorem header_armed (l : List Nat) (p : StreamMarkdownHeaderPlugin) (k : Nat)
    (hs : p.state_ = .TRYING ∨ (p.state_ = .IDLE ∧ p.inMatch_ = true))
    (hk : p.hashCount_ = k) :
    (p.feed (l.map (fun x => (x, false)))).state_ = .PROCESSING ↔
      ch_nl ∉ l ∧ ∃ j rest, 1 ≤ k + j ∧ k + j ≤ 6 ∧
        l = List.replicate j ch_hash ++ ch_space :: rest := by
  induction l generalizing p k with
  | nil =>
    have : p.state_ ≠ .PROCESSING := by
      rcases hs with h | h
      · rw [h]; decide
      · rw [h.1]; decide
    simp [StreamMarkdownHeaderPlugin.feed, this]
  | cons c cs ih =>
    show (StreamMarkdownHeaderPlugin.feed (p.processChar c false).1 _).state_ = _ ↔ _
    have hnp : p.state_ ≠ .PROCESSING := by
      rcases hs with h | h
      · rw [h]; decide
      · rw [h.1]; decide
    have hgo : ¬ (p.inMatch_ = false ∧ p.state_ ≠ .TRYING) := by
      rcases hs with h | h
      · simp [h]
      · simp [h.2]
    by_cases hh : c = ch_hash
    · have h : (p.processChar c false).1 =
          { p with hashCount_ := p.hashCount_ + 1, state_ := .TRYING } := by
        simp [StreamMarkdownHeaderPlugin.processChar, hnp, hgo, hh]
      rw [h, ih _ (k + 1) (Or.inl rfl) (by simp [hk])]
      subst hh
      constructor
      · rintro ⟨hnl, j, rest, h1, h2, h3⟩
        refine ⟨by simp [hnl], j + 1, rest, by omega, by omega, ?_⟩
        rw [h3]; rfl
      · rintro ⟨hnl, j, rest, h1, h2, h3⟩
        cases j with
        | zero => simp at h3
        | succ j =>
          simp only [List.replicate_succ, List.cons_append, List.cons.injEq, true_and] at h3
          refine ⟨fun hm => hnl (List.mem_cons_of_mem _ hm), j, rest, by omega, by omega, h3⟩
    · by_cases hsp : c = ch_space ∧ 1 ≤ p.hashCount_ ∧ p.hashCount_ ≤ 6
      · have h : (p.processChar c false).1 =
            { p with state_ := .PROCESSING, inMatch_ := false } := by
          simp [StreamMarkdownHeaderPlugin.processChar, hnp, hgo, hh, hsp]
        rw [h, header_processing cs _ rfl]
        obtain ⟨hc, h1, h2⟩ := hsp
        subst hc
        constructor
        · intro hnl
          refine ⟨by simp [hnl], 0, cs, by omega, by omega, rfl⟩
        · rintro ⟨hnl, -⟩
          exact fun hm => hnl (List.mem_cons_of_mem _ hm)
      · have h : (p.processChar c false).1 = p.reset := by
          simp only [StreamMarkdownHeaderPlugin.processChar, if_neg hnp, Bool.false_eq_true,
            if_false, if_neg hgo, if_neg hh, if_neg hsp]
        rw [h, header_dead cs p.reset rfl rfl]
        constructor
        · intro hx; cases hx
        · rintro ⟨-, j, rest, h1, h2, h3⟩
          exfalso
          cases j with
          | zero =>
            simp only [List.replicate_zero, List.nil_append, List.cons.injEq] at h3
            exact hsp ⟨h3.1, by omega, by omega⟩
          | succ j =>
            simp only [List.replicate_succ, List.cons_append, List.cons.injEq] at h3
            exact hh h3.1

/-- The first code unit of a line, read by a reset header plugin, is treated as a code unit
inside a start-of-line match with no hash read yet. -/
theorem header_first (p : StreamMarkdownHeaderPlugin) (c : Nat) :
    (p.reset.processChar c true).1 =
      (({ p.reset with inMatch_ := true } : StreamMarkdownHeaderPlugin).processChar c false).1 := by
  simp [StreamMarkdownHeaderPlugin.processChar, StreamMarkdownHeaderPlugin.reset]

/-- Claim C22 (header recognition). Starting from a reset header plugin and feeding a line
whose first code unit is given `atStartOfLine = true`, the plugin is PROCESSING after a
prefix if and only if the prefix begins with `k` hashes, `1 ≤ k ≤ 6`, immediately followed
by one space, and contains no newline. With 7 or more hashes before the space it is not
PROCESSING after any prefix of the line, and a plugin that gets no code unit at the start
of a line never reaches PROCESSING. Once PROCESSING, it stays so on every code unit but a
newline, which returns it to IDLE. -/
theorem header_recognition (p : StreamMarkdownHeaderPlugin) :
    (∀ l : List Nat, (p.reset.feed (asLine l)).state_ = .PROCESSING ↔
      ch_nl ∉ l ∧ ∃ k rest, 1 ≤ k ∧ k ≤ 6 ∧ l = List.replicate k ch_hash ++ ch_space :: rest) ∧
    (∀ (k : Nat) (rest : List Nat) (n : Nat),
      (p.reset.feed (asLine ((List.replicate (k + 7) ch_hash ++ ch_space :: rest).take n))).state_
        ≠ .PROCESSING) ∧
    (∀ l : List Nat, (p.reset.feed (l.map (fun x => (x, false)))).state_ ≠ .PROCESSING) ∧
    (∀ (q : StreamMarkdownHeaderPlugin) (c : Nat) (sol : Bool), q.state_ = .PROCESSING →
      (q.processChar c sol).1.state_ = if c = ch_nl then .IDLE else .PROCESSING) := by
  have main : ∀ l : List Nat, (p.reset.feed (asLine l)).state_ = .PROCESSING ↔
      ch_nl ∉ l ∧ ∃ k rest, 1 ≤ k ∧ k ≤ 6 ∧
        l = List.replicate k ch_hash ++ ch_space :: rest := by
    intro l
    cases l with
    | nil =>
      constructor
      · intro h; cases h
      · rintro ⟨-, k, rest, -, -, h⟩
        simp at h
    | cons c cs =>
      show (StreamMarkdownHeaderPlugin.feed (p.reset.processChar c true).1 _).state_ = _ ↔ _
      rw [header_first]
      have h := header_armed (c :: cs) ({ p.reset with inMatch_ := true }) 0
        (Or.inr ⟨rfl, rfl⟩) rfl
      simp only [Nat.zero_add] at h
      exact h
  refine ⟨main, ?_, ?_, ?_⟩
  · intro k rest n h
    obtain ⟨-, j, r, h1, h2, h3⟩ := (main _).1 h
    have h4 := congrArg (fun x => x[j]?) h3
    simp only [List.getElem?_take] at h4
    by_cases hj : j < n
    · rw [if_pos hj, List.getElem?_append_left (by simp; omega),
        List.getElem?_append_right (by simp)] at h4
      rw [List.getElem?_replicate, if_pos (by omega)] at h4
      simp at h4
    · rw [if_neg hj, List.getElem?_append_right (by simp)] at h4
      simp at h4
  · intro l h
    rw [header_dead l p.reset rfl rfl] at h
    cases h
  · intro q c sol hq
    by_cases hc : c = ch_nl
    · simp [StreamMarkdownHeaderPlugin.processChar, StreamMarkdownHeaderPlugin.reset, hq, hc]
    · simp [StreamMarkdownHeaderPlugin.processChar, hq, hc]

/-! ## The fenced-code plugin on one line of an open block -/

/-- One step of `feed`. -/
theorem fence_feed_cons (p : StreamMarkdownFencedCodeBlockPlugin) (c : Nat) (sol : Bool)
    (xs : List (Nat × Bool)) :
    p.feed ((c, sol) :: xs) = StreamMarkdownFencedCodeBlockPlugin.feed (p.processChar c sol).1 xs :=
  rfl

/-- Off an end-fence attempt, a PROCESSING fenced-code plugin ignores the rest of the line,
its newline included. -/
theorem fence_broken (l : List Nat) (inc hs : Bool) :
    (StreamMarkdownFencedCodeBlockPlugin.mk inc .PROCESSING 0 false hs).feed
        (l.map (fun x => (x, false))) =
      StreamMarkdownFencedCodeBlockPlugin.mk inc .PROCESSING 0 false hs := by
  induction l with
  | nil => rfl
  | cons c cs ih =>
    show StreamMarkdownFencedCodeBlockPlugin.feed
      ((StreamMarkdownFencedCodeBlockPlugin.mk inc .PROCESSING 0 false hs).processChar c false).1 _
        = _
    have h : ((StreamMarkdownFencedCodeBlockPlugin.mk inc .PROCESSING 0 false hs).processChar
        c false).1 = StreamMarkdownFencedCodeBlockPlugin.mk inc .PROCESSING 0 false hs := by
      simp [StreamMarkdownFencedCodeBlockPlugin.processChar]
    rw [h]
    exact ih

/-- Inside the backticks of an end-fence attempt with `k` backticks read: the newline closes
exactly when the rest of the line is backticks only and there are at least 3 in all. -/
theorem fence_ticks (l : List Nat) (inc : Bool) (k : Nat) (hnl : ch_nl ∉ l) :
    (((StreamMarkdownFencedCodeBlockPlugin.mk inc .PROCESSING k true true).feed
        ((l ++ [ch_nl]).map (fun x => (x, false)))).state_ = .IDLE ↔
      3 ≤ k + l.length ∧ l = List.replicate l.length ch_backtick) ∧
    (((StreamMarkdownFencedCodeBlockPlugin.mk inc .PROCESSING k true true).feed
        ((l ++ [ch_nl]).map (fun x => (x, false)))).state_ = .IDLE ∨
      (((StreamMarkdownFencedCodeBlockPlugin.mk inc .PROCESSING k true true).feed
          ((l ++ [ch_nl]).map (fun x => (x, false)))).state_ = .PROCESSING ∧
        ((StreamMarkdownFencedCodeBlockPlugin.mk inc .PROCESSING k true true).feed
          ((l ++ [ch_nl]).map (fun x => (x, false)))).fenceLen_ = 0)) := by
  induction l generalizing k with
  | nil =>
    by_cases h3 : 3 ≤ k
    · simp [StreamMarkdownFencedCodeBlockPlugin.feed,
        StreamMarkdownFencedCodeBlockPlugin.processChar,
        StreamMarkdownFencedCodeBlockPlugin.reset, h3, ch_nl, ch_backtick, ch_space]
    · simp [StreamMarkdownFencedCodeBlockPlugin.feed,
        StreamMarkdownFencedCodeBlockPlugin.processChar,
        StreamMarkdownFencedCodeBlockPlugin.reset, h3, ch_nl, ch_backtick, ch_space]
  | cons c cs ih =>
    have hc : c ≠ ch_nl := fun h => hnl (h ▸ List.mem_cons_self _ _)
    have hcs : ch_nl ∉ cs := fun h => hnl (List.mem_cons_of_mem _ h)
    simp only [List.cons_append, List.map_cons, fence_feed_cons]
    by_cases hb : c = ch_backtick
    · have h : ((StreamMarkdownFencedCodeBlockPlugin.mk inc .PROCESSING k true true).processChar
          c false).1 = StreamMarkdownFencedCodeBlockPlugin.mk inc .PROCESSING (k + 1) true true := by
        simp [StreamMarkdownFencedCodeBlockPlugin.processChar, hb]
      rw [h]
      have := ih (k + 1) hcs
      refine ⟨this.1.trans ?_, this.2⟩
      subst hb
      simp only [List.length_cons, List.replicate_succ, List.cons.injEq, true_and]
      constructor
      · rintro ⟨h1, h2⟩; exact ⟨by omega, h2⟩
      · rintro ⟨h1, h2⟩; exact ⟨by omega, h2⟩
    · have h : ((StreamMarkdownFencedCodeBlockPlugin.mk inc .PROCESSING k true true).processChar
          c false).1 = StreamMarkdownFencedCodeBlockPlugin.mk inc .PROCESSING 0 false true := by
        simp [StreamMarkdownFencedCodeBlockPlugin.processChar, hb, hc]
      rw [h]
      have hx := fence_broken (cs ++ [ch_nl]) inc true
      rw [hx]
      refine ⟨⟨fun h => (by cases h), ?_⟩, Or.inr ⟨rfl, rfl⟩⟩
      rintro ⟨-, h2⟩
      simp only [List.length_cons, List.replicate_succ, List.cons.injEq] at h2
      exact absurd h2.1 hb

/-- At the start of an end-fence attempt (leading spaces only so far): the newline closes
exactly when the rest of the line is spaces, then at least 3 backticks, and nothing else. -/
theorem fence_spaces (l : List Nat) (inc : Bool) (hnl : ch_nl ∉ l) :
    (((StreamMarkdownFencedCodeBlockPlugin.mk inc .PROCESSING 0 true false).feed
        ((l ++ [ch_nl]).map (fun x => (x, false)))).state_ = .IDLE ↔
      ∃ s k, 3 ≤ k ∧ l = List.replicate s ch_space ++ List.replicate k ch_backtick) ∧
    (((StreamMarkdownFencedCodeBlockPlugin.mk inc .PROCESSING 0 true false).feed
        ((l ++ [ch_nl]).map (fun x => (x, false)))).state_ = .IDLE ∨
      (((StreamMarkdownFencedCodeBlockPlugin.mk inc .PROCESSING 0 true false).feed
          ((l ++ [ch_nl]).map (fun x => (x, false)))).state_ = .PROCESSING ∧
        ((StreamMarkdownFencedCodeBlockPlugin.mk inc .PROCESSING 0 true false).feed
          ((l ++ [ch_nl]).map (fun x => (x, false)))).fenceLen_ = 0)) := by
  induction l with
  | nil =>
    refine ⟨⟨?_, ?_⟩, ?_⟩
    · simp [StreamMarkdownFencedCodeBlockPlugin.feed,
        StreamMarkdownFencedCodeBlockPlugin.processChar,
        StreamMarkdownFencedCodeBlockPlugin.reset, ch_nl, ch_backtick, ch_space]
    · rintro ⟨s, k, h1, h2⟩
      have := congrArg List.length h2
      simp at this
      omega
    · simp [StreamMarkdownFencedCodeBlockPlugin.feed,
        StreamMarkdownFencedCodeBlockPlugin.processChar,
        StreamMarkdownFencedCodeBlockPlugin.reset, ch_nl, ch_backtick, ch_space]
  | cons c cs ih =>
    have hc : c ≠ ch_nl := fun h => hnl (h ▸ List.mem_cons_self _ _)
    have hcs : ch_nl ∉ cs := fun h => hnl (List.mem_cons_of_mem _ h)
    simp only [List.cons_append, List.map_cons, fence_feed_cons]
    by_cases hs : c = ch_space
    · have h : ((StreamMarkdownFencedCodeBlockPlugin.mk inc .PROCESSING 0 true false).processChar
          c false).1 = StreamMarkdownFencedCodeBlockPlugin.mk inc .PROCESSING 0 true false := by
        simp [StreamMarkdownFencedCodeBlockPlugin.processChar, hs]
      rw [h]
      have := ih hcs
      refine ⟨this.1.trans ?_, this.2⟩
      subst hs
      constructor
      · rintro ⟨s, k, h1, h2⟩
        exact ⟨s + 1, k, h1, by rw [h2]; rfl⟩
      · rintro ⟨s, k, h1, h2⟩
        cases s with
        | zero =>
          obtain ⟨k, rfl⟩ : ∃ k', k = k' + 1 := ⟨k - 1, by omega⟩
          simp [List.replicate_succ, ch_space, ch_backtick] at h2
        | succ s =>
          simp only [List.replicate_succ, List.cons_append, List.cons.injEq, true_and] at h2
          exact ⟨s, k, h1, h2⟩
    · by_cases hb : c = ch_backtick
      · have h : ((StreamMarkdownFencedCodeBlockPlugin.mk inc .PROCESSING 0 true false).processChar
            c false).1 = StreamMarkdownFencedCodeBlockPlugin.mk inc .PROCESSING 1 true true := by
          simp [StreamMarkdownFencedCodeBlockPlugin.processChar, hs, hb]
        rw [h]
        have := fence_ticks cs inc 1 hcs
        refine ⟨this.1.trans ?_, this.2⟩
        subst hb
        constructor
        · rintro ⟨h1, h2⟩
          refine ⟨0, cs.length + 1, by omega, ?_⟩
          rw [List.replicate_zero, List.nil_append, List.replicate_succ, ← h2]
        · rintro ⟨s, k, h1, h2⟩
          cases s with
          | zero =>
            obtain ⟨k, rfl⟩ : ∃ k', k = k' + 1 := ⟨k - 1, by omega⟩
            simp only [List.replicate_zero, List.nil_append, List.replicate_succ,
              List.cons.injEq, true_and] at h2
            have hl : cs.length = k := by rw [h2]; simp
            exact ⟨by omega, by rw [hl]; exact h2⟩
          | succ s =>
            simp [List.replicate_succ, ch_space, ch_backtick] at h2
      · have h : ((StreamMarkdownFencedCodeBlockPlugin.mk inc .PROCESSING 0 true false).processChar
            c false).1 = StreamMarkdownFencedCodeBlockPlugin.mk inc .PROCESSING 0 false true := by
          simp [StreamMarkdownFencedCodeBlockPlugin.processChar, hs, hb, hc]
        rw [h]
        have hx := fence_broken (cs ++ [ch_nl]) inc true
        rw [hx]
        refine ⟨⟨fun h => (by cases h), ?_⟩, Or.inr ⟨rfl, rfl⟩⟩
        rintro ⟨s, k, h1, h2⟩
        cases s with
        | zero =>
          obtain ⟨k, rfl⟩ : ∃ k', k = k' + 1 := ⟨k - 1, by omega⟩
          simp only [List.replicate_zero, List.nil_append, List.replicate_succ,
            List.cons.injEq] at h2
          exact absurd h2.1 hb
        | succ s =>
          simp only [List.replicate_succ, List.cons_append, List.cons.injEq] at h2
          exact absurd h2.1 hs

/-- The first code unit of a line, read by a PROCESSING fenced-code plugin, starts an
end-fence attempt and is then read as inside that attempt. -/
theorem fence_first (inc im hs : Bool) (k c : Nat) :
    ((StreamMarkdownFencedCodeBlockPlugin.mk inc .PROCESSING k im hs).processChar c true).1 =
      ((StreamMarkdownFencedCodeBlockPlugin.mk inc .PROCESSING k true false).processChar
        c false).1 := by
  simp [StreamMarkdownFencedCodeBlockPlugin.processChar]

/-- Claim C23 (fenced code close line), refuted as stated: a fenced-code plugin opened by a
line of three backticks does not close at the end of the line made of three backticks, a
space and `js`, nor at the end of the line made of three backticks and a trailing space;
in a block session the text after such a line is still inside the CODE_BLOCK segment,
which ends only after the next line of backticks alone. -/
theorem fenced_close_line_counterexample :
    ((StreamMarkdownFencedCodeBlockPlugin.new true).feed (asLine (u16 "```\n"))).state_
      = .PROCESSING ∧
    (((StreamMarkdownFencedCodeBlockPlugin.new true).feed (asLine (u16 "```\n"))).feed
      (asLine (u16 "``` js\n"))).state_ = .PROCESSING ∧
    (((StreamMarkdownFencedCodeBlockPlugin.new true).feed (asLine (u16 "```\n"))).feed
      (asLine (u16 "``` \n"))).state_ = .PROCESSING ∧
    (createMarkdownBlockSession.push (u16 "```\na\n``` js\nb\n```\nc")).2 =
      [⟨MD_CODE_BLOCK, 0, 19⟩, ⟨SEG_BREAK, 19, 19⟩, ⟨MD_PLAIN_TEXT, 19, 20⟩] := by
  decide

/-- Claim C23 (fenced code close line), amended. A fenced-code plugin that is PROCESSING at
the start of a line (its fence counter at 0, as it is whenever a line of an open block
starts) returns to IDLE at the newline ending the line if and only if the line consists
of optional leading spaces followed by at least 3 backticks and nothing else; on every
other line it stays PROCESSING with the fence counter back at 0. -/
theorem fenced_close_line (p : StreamMarkdownFencedCodeBlockPlugin) (l : List Nat)
    (hp : p.state_ = .PROCESSING) (h0 : p.fenceLen_ = 0) (hnl : ch_nl ∉ l) :
    ((p.feed (asLine (l ++ [ch_nl]))).state_ = .IDLE ↔
      ∃ s k, 3 ≤ k ∧ l = List.replicate s ch_space ++ List.replicate k ch_backtick) ∧
    ((p.feed (asLine (l ++ [ch_nl]))).state_ = .IDLE ∨
      ((p.feed (asLine (l ++ [ch_nl]))).state_ = .PROCESSING ∧
        (p.feed (asLine (l ++ [ch_nl]))).fenceLen_ = 0)) := by
  obtain ⟨inc, st, fl, im, hs⟩ := p
  simp only at hp h0
  subst hp h0
  have h := fence_spaces l inc hnl
  cases l with
  | nil =>
    simp only [List.nil_append, List.map_cons, List.map_nil, fence_feed_cons] at h
    simp only [List.nil_append, asLine, List.map_nil, fence_feed_cons, fence_first]
    exact h
  | cons c cs =>
    simp only [List.cons_append, List.map_cons, fence_feed_cons] at h
    simp only [List.cons_append, asLine, fence_feed_cons, fence_first]
    exact h

/-- The amended claim C23 at an open block and the line of two spaces and four backticks. -/
theorem fenced_close_line_witness :
    ((StreamMarkdownFencedCodeBlockPlugin.new true).feed (asLine (u16 "```\n"))).state_
      = .PROCESSING ∧
    ((StreamMarkdownFencedCodeBlockPlugin.new true).feed (asLine (u16 "```\n"))).fenceLen_ = 0 ∧
    (((StreamMarkdownFencedCodeBlockPlugin.new true).feed (asLine (u16 "```\n"))).feed
      (asLine (u16 "  ````" ++ [ch_nl]))).state_ = .IDLE :=
  ⟨by decide, by decide,
    (fenced_close_line _ (u16 "  ````") (by decide) (by decide) (by decide)).1.2
      ⟨2, 4, by decide, by decide⟩⟩

/-! ## The inline-code plugin -/

/-- One step of `feed`. -/
theorem inlineCode_feed_cons (p : StreamMarkdownInlineCodePlugin) (c : Nat) (sol : Bool)
    (xs : List (Nat × Bool)) :
    p.feed ((c, sol) :: xs) = StreamMarkdownInlineCodePlugin.feed (p.processChar c sol).1 xs :=
  rfl

/-- Feeding two lists in a row. -/
theorem inlineCode_feed_append (xs ys : List (Nat × Bool)) (p : StreamMarkdownInlineCodePlugin) :
    p.feed (xs ++ ys) = (p.feed xs).feed ys := by
  induction xs generalizing p with
  | nil => rfl
  | cons x xs ih => exact ih _

/-- An open inline-code plugin is left unchanged by code units that are neither a backtick
nor a newline. -/
theorem inlineCode_body (body : List (Nat × Bool)) (inc : Bool)
    (hb : ∀ x ∈ body, x.1 ≠ ch_backtick ∧ x.1 ≠ ch_nl) :
    (StreamMarkdownInlineCodePlugin.mk inc .PROCESSING 1 0).feed body =
      StreamMarkdownInlineCodePlugin.mk inc .PROCESSING 1 0 := by
  induction body with
  | nil => rfl
  | cons c cs ih =>
    have hc := hb c (List.mem_cons_self _ _)
    obtain ⟨c, sol⟩ := c
    simp only [inlineCode_feed_cons]
    have h : ((StreamMarkdownInlineCodePlugin.mk inc .PROCESSING 1 0).processChar c sol).1 =
        StreamMarkdownInlineCodePlugin.mk inc .PROCESSING 1 0 := by
      simp only at hc
      simp [StreamMarkdownInlineCodePlugin.processChar, hc.1, hc.2]
    rw [h]
    exact ih (fun x hx => hb x (List.mem_cons_of_mem _ hx))

/-- An idle inline-code plugin is left unchanged by code units other than a backtick. -/
theorem inlineCode_idle (body : List (Nat × Bool)) (inc : Bool)
    (hb : ∀ x ∈ body, x.1 ≠ ch_backtick ∧ x.1 ≠ ch_nl) :
    (StreamMarkdownInlineCodePlugin.mk inc .IDLE 0 0).feed body =
      StreamMarkdownInlineCodePlugin.mk inc .IDLE 0 0 := by
  induction body with
  | nil => rfl
  | cons c cs ih =>
    have hc := hb c (List.mem_cons_self _ _)
    obtain ⟨c, sol⟩ := c
    simp only [inlineCode_feed_cons]
    have h : ((StreamMarkdownInlineCodePlugin.mk inc .IDLE 0 0).processChar c sol).1 =
        StreamMarkdownInlineCodePlugin.mk inc .IDLE 0 0 := by
      simp only at hc
      simp [StreamMarkdownInlineCodePlugin.processChar, hc.1, hc.2]
    rw [h]
    exact ih (fun x hx => hb x (List.mem_cons_of_mem _ hx))

/-- Claim C24 (inline code with N backticks), refuted as stated for `N = 2`: after two
backticks and `a` the inline-code plugin is IDLE, not open, and in an inline session two
backticks, `a`, two backticks yields one PLAIN_TEXT segment over all five code units and
no INLINE_CODE segment. -/
theorem inline_code_backticks_counterexample :
    (∀ b : Bool, ((StreamMarkdownInlineCodePlugin.new b).feed
      ((u16 "``a").map (fun x => (x, false)))).state_ = .IDLE) ∧
    (createMarkdownInlineSession.push (u16 "``a``")).2 = [⟨MD_PLAIN_TEXT, 0, 5⟩] := by
  decide

/-- Claim C24 (inline code), amended to the single backtick the code supports. The
inline-code plugin, from its reset state, opens on one backtick followed by a code unit
that is neither a backtick nor a newline, stays open over code units that are neither, and
then closes on the next single backtick (a newline resets it as well); a second backtick
right after the first aborts the attempt, and the plugin is then idle over the body. In an
inline session `a` between single backticks yields an INLINE_CODE segment covering the `a`
at [1,2). -/
theorem inline_code_single_backtick (p : StreamMarkdownInlineCodePlugin)
    (body : List (Nat × Bool)) (s1 s2 : Bool)
    (hne : body ≠ []) (hb : ∀ x ∈ body, x.1 ≠ ch_backtick ∧ x.1 ≠ ch_nl) :
    (p.reset.feed ((ch_backtick, s1) :: body)).state_ = .PROCESSING ∧
    p.reset.feed ((ch_backtick, s1) :: body ++ [(ch_backtick, s2)]) = p.reset ∧
    p.reset.feed ((ch_backtick, s1) :: body ++ [(ch_nl, s2)]) = p.reset ∧
    p.reset.feed [(ch_backtick, s1), (ch_backtick, s2)] = p.reset ∧
    p.reset.feed ((ch_backtick, s1) :: (ch_backtick, s2) :: body) = p.reset ∧
    (createMarkdownInlineSession.push (u16 "`a`")).2 =
      [⟨MD_INLINE_CODE, 1, 2⟩, ⟨SEG_BREAK, 3, 3⟩] := by
  obtain ⟨inc, st, tl, em⟩ := p
  cases body with
  | nil => exact absurd rfl hne
  | cons x xs =>
    obtain ⟨c, sol⟩ := x
    have hc := hb (c, sol) (List.mem_cons_self _ _)
    simp only at hc
    have hxs : ∀ x ∈ xs, x.1 ≠ ch_backtick ∧ x.1 ≠ ch_nl :=
      fun x hx => hb x (List.mem_cons_of_mem _ hx)
    have h1 : ((StreamMarkdownInlineCodePlugin.mk inc st tl em).reset.processChar
        ch_backtick s1).1 = StreamMarkdownInlineCodePlugin.mk inc .TRYING 1 0 := by
      simp [StreamMarkdownInlineCodePlugin.processChar, StreamMarkdownInlineCodePlugin.reset]
    have h2 : ((StreamMarkdownInlineCodePlugin.mk inc .TRYING 1 0).processChar c sol).1 =
        StreamMarkdownInlineCodePlugin.mk inc .PROCESSING 1 0 := by
      simp [StreamMarkdownInlineCodePlugin.processChar, hc.1, hc.2]
    have h3 : ((StreamMarkdownInlineCodePlugin.mk inc .TRYING 1 0).processChar
        ch_backtick s2).1 = StreamMarkdownInlineCodePlugin.mk inc .IDLE 0 0 := by
      simp [StreamMarkdownInlineCodePlugin.processChar, StreamMarkdownInlineCodePlugin.reset]
    have h4 : ((StreamMarkdownInlineCodePlugin.mk inc .PROCESSING 1 0).processChar
        ch_backtick s2).1 = StreamMarkdownInlineCodePlugin.mk inc .IDLE 0 0 := by
      simp [StreamMarkdownInlineCodePlugin.processChar, StreamMarkdownInlineCodePlugin.reset]
    have h5 : ((StreamMarkdownInlineCodePlugin.mk inc .PROCESSING 1 0).processChar
        ch_nl s2).1 = StreamMarkdownInlineCodePlugin.mk inc .IDLE 0 0 := by
      simp [StreamMarkdownInlineCodePlugin.processChar, StreamMarkdownInlineCodePlugin.reset]
    have hr : (StreamMarkdownInlineCodePlugin.mk inc st tl em).reset =
        StreamMarkdownInlineCodePlugin.mk inc .IDLE 0 0 := rfl
    refine ⟨?_, ?_, ?_, ?_, ?_, by decide⟩
    · simp only [inlineCode_feed_cons, h1, h2, inlineCode_body xs inc hxs]
    · rw [List.cons_append, List.cons_append]
      simp only [inlineCode_feed_cons, h1, h2, inlineCode_feed_append,
        inlineCode_body xs inc hxs, h4]
      rfl
    · rw [List.cons_append, List.cons_append]
      simp only [inlineCode_feed_cons, h1, h2, inlineCode_feed_append,
        inlineCode_body xs inc hxs, h5]
      rfl
    · simp only [inlineCode_feed_cons, h1, h3]
      rfl
    · simp only [inlineCode_feed_cons, h1, h3]
      exact inlineCode_idle _ inc hb

/-- The amended claim C24 at the body `ab`. -/
theorem inline_code_single_backtick_witness :
    ((StreamMarkdownInlineCodePlugin.new false).reset.feed
      ((ch_backtick, false) :: [(97, false), (98, false)])).state_ = .PROCESSING ∧
    (StreamMarkdownInlineCodePlugin.new false).reset.feed
      ((ch_backtick, false) :: [(97, false), (98, false)] ++ [(ch_backtick, false)]) =
        (StreamMarkdownInlineCodePlugin.new false).reset :=
  ⟨(inline_code_single_backtick (StreamMarkdownInlineCodePlugin.new false)
      [(97, false), (98, false)] false false (by decide) (by decide)).1,
    (inline_code_single_backtick (StreamMarkdownInlineCodePlugin.new false)
      [(97, false), (98, false)] false false (by decide) (by decide)).2.1⟩

/-! ## Global index accounting -/

theorem log_pop (n : Nat) (s : MarkdownSession) (e : Emitter) (sol : Bool)
    (chars : List Nat) (pc : PendingChar) (rest : List PendingChar)
    (h : s.pendingChars_ = pc :: rest) :
    pushLoopLog (n + 1) s e sol chars =
      ⟨pc.c, handedIndex s pc.globalIndex, presentedFlag s sol⟩ ::
        pushLoopLog n
          (processOne { s with pendingChars_ := rest } e pc.c sol pc.globalIndex).1
          (processOne { s with pendingChars_ := rest } e pc.c sol pc.globalIndex).2
          (decide (pc.c = ch_nl)) chars := by
  cases s
  simp only at h
  subst h
  rfl

theorem log_read (n : Nat) (s : MarkdownSession) (e : Emitter) (sol : Bool) (c : Nat)
    (cs : List Nat) (h : s.pendingChars_ = []) :
    pushLoopLog (n + 1) s e sol (c :: cs) =
      ⟨c, handedIndex s (-1), presentedFlag s sol⟩ ::
        pushLoopLog n (processOne s e c sol (-1)).1 (processOne s e c sol (-1)).2
          (decide (c = ch_nl)) cs := by
  cases s
  simp only at h
  subst h
  rfl

theorem log_done (n : Nat) (s : MarkdownSession) (e : Emitter) (sol : Bool)
    (h : s.pendingChars_ = []) : pushLoopLog (n + 1) s e sol [] = [] := by
  cases s
  simp only at h
  subst h
  rfl

/-- The indices of the logged calls are the trace of the instrumented loop. -/
theorem log_indices : ∀ (fuel : Nat) (s : MarkdownSession) (e : Emitter) (sol : Bool)
    (chars : List Nat),
    (pushLoopLog fuel s e sol chars).map (fun x => x.globalIndex) =
      (pushLoopTraced fuel s e sol chars).2 := by
  intro fuel
  induction fuel with
  | zero => intro s e sol chars; rfl
  | succ n ih =>
    intro s e sol chars
    rcases pending_cases s with hp | ⟨pc, rest, hp⟩
    · cases chars with
      | nil => rw [traced_done n s e sol hp, log_done n s e sol hp]; rfl
      | cons c cs =>
        rw [traced_read n s e sol c cs hp, log_read n s e sol c cs hp]
        simp only [List.map_cons, traceCons, ih]
    · rw [traced_pop n s e sol chars pc rest hp, log_pop n s e sol chars pc rest hp]
      simp only [List.map_cons, traceCons, ih]

theorem processWaitfor_offset (s : MarkdownSession) (e : Emitter) (c : Nat) (g : Int) :
    (processWaitfor s e c g).1.globalOffset_ = s.globalOffset_ ∧
    ((processWaitfor s e c g).1.pendingChars_ = s.pendingChars_ ∨
      (processWaitfor s e c g).1.pendingChars_ = ⟨c, g⟩ :: s.pendingChars_) := by
  obtain ⟨ps, hps, _⟩ := activeProcessChar_eq s c s.waitforAtStartOfLine_
  unfold processWaitfor
  simp only []
  rw [hps]
  split
  · exact ⟨rfl, Or.inl rfl⟩
  · exact ⟨rfl, Or.inr rfl⟩

theorem processActive_offset (s : MarkdownSession) (e : Emitter) (c : Nat) (sol : Bool)
    (g : Int) : (processActive s e c sol g).1.globalOffset_ = s.globalOffset_ := by
  obtain ⟨ps, hps, _⟩ := activeProcessChar_eq s c sol
  unfold processActive
  simp only []
  rw [hps]
  split
  · rfl
  · split <;> rfl

theorem processEvaluation_offset (s : MarkdownSession) (e : Emitter) (c : Nat) (sol : Bool)
    (g : Int) : (processEvaluation s e c sol g).1.globalOffset_ = s.globalOffset_ := by
  unfold processEvaluation
  simp only []
  cases findSuccessful (evalAll c sol s.plugins_ 0 0).1 0 with
  | some k => rfl
  | none =>
    simp only []
    split <;> rfl

/-- What a call of `processOne` does to the global offset and to the pending-char queue:
the offset advances exactly when no index is forced, and the queue is unchanged or gets
the code unit of the call with the index of the call in front. -/
theorem processOne_offset (s : MarkdownSession) (e : Emitter) (c : Nat) (sol : Bool) (f : Int) :
    (processOne s e c sol f).1.globalOffset_ =
      (if f < 0 then s.globalOffset_ + 1 else s.globalOffset_) ∧
    ((processOne s e c sol f).1.pendingChars_ = s.pendingChars_ ∨
      (processOne s e c sol f).1.pendingChars_ = ⟨c, handedIndex s f⟩ :: s.pendingChars_) := by
  unfold processOne
  simp only []
  split
  · have h := processWaitfor_offset
      { s with globalOffset_ := if f < 0 then s.globalOffset_ + 1 else s.globalOffset_ } e c
      (if 0 ≤ f then f else s.globalOffset_)
    exact ⟨h.1, h.2⟩
  · split
    · exact ⟨processActive_offset _ e c sol _, Or.inl (processActive_pending _ e c sol _)⟩
    · exact ⟨processEvaluation_offset _ e c sol _, Or.inl (processEvaluation_pending _ e c sol _)⟩

theorem handedIndex_forced (s : MarkdownSession) (g : Int) (h : 0 ≤ g) : handedIndex s g = g := by
  simp [handedIndex, h]

theorem handedIndex_free (s : MarkdownSession) : handedIndex s (-1) = s.globalOffset_ := by
  simp [handedIndex]

/-- Every call of `processOne` the loop makes hands over a code unit of the input together
with its position in the input, when the global offset is the number of code units read so
far and the queued code units carry their positions. -/
theorem log_sound : ∀ (fuel : Nat) (s : MarkdownSession) (e : Emitter) (sol : Bool)
    (chars pre : List Nat), s.globalOffset_ = pre.length →
    (∀ pc ∈ s.pendingChars_, 0 ≤ pc.globalIndex ∧ pre[pc.globalIndex.toNat]? = some pc.c) →
    ∀ x ∈ pushLoopLog fuel s e sol chars,
      0 ≤ x.globalIndex ∧ (pre ++ chars)[x.globalIndex.toNat]? = some x.c := by
  intro fuel
  induction fuel with
  | zero => intro s e sol chars pre _ _ x hx; cases hx
  | succ n ih =>
    intro s e sol chars pre ho hq x hx
    rcases pending_cases s with hp | ⟨pc, rest, hp⟩
    · cases chars with
      | nil => rw [log_done n s e sol hp] at hx; cases hx
      | cons c cs =>
        rw [log_read n s e sol c cs hp, List.mem_cons] at hx
        have hoff := processOne_offset s e c sol (-1)
        rcases hx with hx | hx
        · subst hx
          simp only [handedIndex_free, ho]
          refine ⟨by omega, ?_⟩
          rw [Int.toNat_ofNat, List.getElem?_append_right (le_refl _)]
          simp
        · have h1 : (processOne s e c sol (-1)).1.globalOffset_ = ((pre ++ [c]).length : Int) := by
            rw [hoff.1, if_pos (by decide), ho]
            simp
          have h2 : ∀ pc ∈ (processOne s e c sol (-1)).1.pendingChars_,
              0 ≤ pc.globalIndex ∧ (pre ++ [c])[pc.globalIndex.toNat]? = some pc.c := by
            intro pc hpc
            rcases hoff.2 with h | h
            · rw [h, hp] at hpc; cases hpc
            · rw [h, hp, handedIndex_free, ho] at hpc
              simp only [List.mem_singleton] at hpc
              subst hpc
              refine ⟨by simp, ?_⟩
              simp
          have := ih _ _ _ cs (pre ++ [c]) h1 h2 x hx
          simpa using this
    · rw [log_pop n s e sol chars pc rest hp, List.mem_cons] at hx
      obtain ⟨hg, hc⟩ := hq pc (by rw [hp]; exact List.mem_cons_self _ _)
      have hlt : pc.globalIndex.toNat < pre.length := by
        by_contra hge
        rw [List.getElem?_eq_none (by omega)] at hc
        cases hc
      rcases hx with hx | hx
      · subst hx
        simp only [handedIndex_forced s _ hg]
        exact ⟨hg, by rw [List.getElem?_append_left hlt]; exact hc⟩
      · have hoff := processOne_offset { s with pendingChars_ := rest } e pc.c sol pc.globalIndex
        have h1 : (processOne { s with pendingChars_ := rest } e pc.c sol
            pc.globalIndex).1.globalOffset_ = (pre.length : Int) := by
          rw [hoff.1, if_neg (by omega)]
          exact ho
        have h2 : ∀ q ∈ (processOne { s with pendingChars_ := rest } e pc.c sol
            pc.globalIndex).1.pendingChars_,
              0 ≤ q.globalIndex ∧ pre[q.globalIndex.toNat]? = some q.c := by
          intro q hqm
          rcases hoff.2 with h | h
          · rw [h] at hqm
            exact hq q (by rw [hp]; exact List.mem_cons_of_mem _ hqm)
          · rw [h, handedIndex_forced _ _ hg, List.mem_cons] at hqm
            rcases hqm with hqm | hqm
            · subst hqm
              exact ⟨hg, hc⟩
            · exact hq q (by rw [hp]; exact List.mem_cons_of_mem _ hqm)
        exact ih _ _ _ chars pre h1 h2 x hx

/-- After a sequence of pushes the global offset has advanced by the number of code units
pushed. -/
theorem pushAll_offset (chunks : List (List Nat)) :
    ∀ (s : MarkdownSession), SessInv s → s.pendingChars_ = [] →
      (pushAll s chunks).1.globalOffset_ = s.globalOffset_ + chunks.flatten.length := by
  induction chunks with
  | nil => intro s _ _; simp [pushAll]
  | cons c cs ih =>
    intro s hs _
    obtain ⟨h1, h2, _, h4⟩ := push_inv s c (lowMark s) hs (le_refl _)
    show (pushAll (s.push c).1 cs).1.globalOffset_ = _
    rw [ih _ h1 h2, h4]
    simp only [List.flatten_cons, List.length_append, Nat.cast_add]
    omega

/-- Claim C25 (start-of-line after a WAITFOR rejection): the code at the input of the claim.
In a block session the push of `> a`, newline, `# H` hands the `#` (index 4) to the
block-quote plugin with the start-of-line flag set while its WAITFOR is resolved, and,
after the rejection, re-evaluates the re-queued `#` in idle mode with the flag unset; the
header plugin never sees it at the start of a line, and the push returns PLAIN_TEXT [4,7)
and no HEADER segment. After a plain line the same `# H` is a HEADER. -/
theorem requeued_start_of_line_divergence :
    pushLog createMarkdownBlockSession (u16 "> a\n# H") =
      [⟨62, 0, true⟩, ⟨32, 1, false⟩, ⟨97, 2, false⟩, ⟨10, 3, false⟩, ⟨35, 4, true⟩,
        ⟨35, 4, false⟩, ⟨32, 5, false⟩, ⟨72, 6, false⟩] ∧
    (createMarkdownBlockSession.push (u16 "> a\n# H")).2 =
      [⟨MD_BLOCK_QUOTE, 2, 3⟩, ⟨MD_PLAIN_TEXT, 3, 4⟩, ⟨SEG_BREAK, 4, 4⟩,
        ⟨MD_PLAIN_TEXT, 4, 7⟩] ∧
    (createMarkdownBlockSession.push (u16 "x\n# H\n")).2 =
      [⟨MD_PLAIN_TEXT, 0, 2⟩, ⟨MD_HEADER, 2, 6⟩, ⟨SEG_BREAK, 6, 6⟩] := by
  decide

/-- Claim C26 (global index accounting). Let a session be created by either factory and
be in the state reached after pushing the chunks `chunks`; its global offset is then the
total number of code units pushed, and it is so again after one more chunk `chars`. In the
push of `chars`, every call of `processOne`, a call on a re-queued code unit included,
processes a code unit with its 0-based position in the concatenated input as global
index, and every code unit of the chunk is processed. -/
theorem global_index_accounting (s0 : MarkdownSession)
    (hs0 : s0 = createMarkdownBlockSession ∨ s0 = createMarkdownInlineSession)
    (chunks : List (List Nat)) (chars : List Nat) :
    (pushAll s0 chunks).1.globalOffset_ = chunks.flatten.length ∧
    ((pushAll s0 chunks).1.push chars).1.globalOffset_ = chunks.flatten.length + chars.length ∧
    (∀ x ∈ pushLog (pushAll s0 chunks).1 chars,
      0 ≤ x.globalIndex ∧ (chunks.flatten ++ chars)[x.globalIndex.toNat]? = some x.c) ∧
    (∀ i : Nat, i < chars.length →
      ∃ x ∈ pushLog (pushAll s0 chunks).1 chars,
        x.globalIndex = chunks.flatten.length + i ∧ (chunks.flatten ++ chars)[chunks.flatten.length + i]? = some x.c) := by
  have h0 : SessInv s0 ∧ TagInv s0 ∧ s0.pendingChars_ = [] ∧ s0.globalOffset_ = 0 := by
    rcases hs0 with h | h <;> rw [h]
    · exact ⟨sessInv_block, tagInv_block, rfl, rfl⟩
    · exact ⟨sessInv_inline, tagInv_inline, rfl, rfl⟩
  obtain ⟨hs, ht, hp, hz⟩ := h0
  obtain ⟨h1, _, h3⟩ := pushAll_reach chunks s0 hs ht hp
  have hoff : (pushAll s0 chunks).1.globalOffset_ = chunks.flatten.length := by
    rw [pushAll_offset chunks s0 hs hp, hz]
    omega
  have hsound := log_sound (pushFuel (pushAll s0 chunks).1 chars) (pushAll s0 chunks).1
    Emitter.new (pushAll s0 chunks).1.atStartOfLine_ chars chunks.flatten hoff
    (by rw [h3]; intro pc hpc; cases hpc)
  refine ⟨hoff, ?_, hsound, ?_⟩
  · obtain ⟨_, _, _, h4⟩ := push_inv (pushAll s0 chunks).1 chars _ h1 (le_refl _)
    rw [h4, hoff]
  · intro i hi
    have hc := (traced_count (pushFuel (pushAll s0 chunks).1 chars) (pushAll s0 chunks).1
      Emitter.new (pushAll s0 chunks).1.atStartOfLine_ chars _ (pushFuel_gt _ _) h1
      (emInv_new (le_refl _))).2 ((chunks.flatten.length : Int) + i)
    have hcount := (hc.2.1 (by rw [hoff]; omega) (by rw [hoff]; omega)).1
    rw [← log_indices] at hcount
    have hmem : ((chunks.flatten.length : Int) + i) ∈
        (pushLoopLog (pushFuel (pushAll s0 chunks).1 chars) (pushAll s0 chunks).1
          Emitter.new (pushAll s0 chunks).1.atStartOfLine_ chars).map (fun x => x.globalIndex) :=
      List.count_pos_iff.mp hcount
    obtain ⟨x, hx, hxi⟩ := List.mem_map.mp hmem
    refine ⟨x, hx, hxi, ?_⟩
    have := (hsound x hx).2
    rw [hxi] at this
    rw [← this]
    congr 1

/-- Claim C26 at a block session that has been pushed `> a` and is pushed a newline and
`b`: the `b` is processed twice, both times with index 4. -/
theorem global_index_accounting_witness :
    (createMarkdownBlockSession = createMarkdownBlockSession ∨
      createMarkdownBlockSession = createMarkdownInlineSession) ∧
    pushLog (pushAll createMarkdownBlockSession [u16 "> a"]).1 (u16 "\nb") =
      [⟨10, 3, false⟩, ⟨98, 4, true⟩, ⟨98, 4, false⟩] ∧
    ((pushAll createMarkdownBlockSession [u16 "> a"]).1.push (u16 "\nb")).1.globalOffset_ =
      ([u16 "> a"].flatten.length : Int) + ((u16 "\nb").length : Int) :=
  ⟨Or.inl rfl, by decide,
    (global_index_accounting createMarkdownBlockSession (Or.inl rfl) [u16 "> a"]
      (u16 "\nb")).2.1⟩

/-! ## The WAITFOR resolution step -/

theorem activeProcessChar_offset (s : MarkdownSession) (o : Int) (c : Nat) (x : Bool) :
    MarkdownSession.activeProcessChar { s with globalOffset_ := o } c x =
      ({ (s.activeProcessChar c x).1 with globalOffset_ := o }, (s.activeProcessChar c x).2) := by
  unfold MarkdownSession.activeProcessChar
  simp only []
  cases h : s.activePlugin_ with
  | none => simp only [h]
  | some i =>
    simp only []
    cases h2 : s.plugins_[i]? with
    | none => simp only [h]
    | some en => simp only [h]

theorem activeState_offset (s : MarkdownSession) (o : Int) :
    MarkdownSession.activeState { s with globalOffset_ := o } = s.activeState := rfl

/-- Ordered segments cover every index at most once, and no index below the watermark. -/
theorem segsOK_covers (l : List Segment) : ∀ (lo hi : Int), SegsOK lo hi l → ∀ i : Int,
    l.countP (fun sg => sg.covers i) ≤ 1 ∧ (i < lo → l.countP (fun sg => sg.covers i) = 0) := by
  induction l with
  | nil => intro lo hi _ i; simp
  | cons sg rest ih =>
    intro lo hi h i
    unfold SegsOK at h
    by_cases hb : sg.type = SEG_BREAK
    · rw [if_pos hb] at h
      have hc : sg.covers i = false := by simp [Segment.covers, hb]
      rw [List.countP_cons]
      simp only [hc, Bool.false_eq_true, if_false, Nat.add_zero]
      exact ih lo hi h.2 i
    · rw [if_neg hb] at h
      obtain ⟨⟨h1, h2⟩, h3⟩ := h
      have hr := ih sg.end_ hi h3 i
      by_cases hc : sg.covers i = true
      · rw [List.countP_cons]
        simp only [hc, if_true]
        simp only [Segment.covers, Bool.and_eq_true, decide_eq_true_eq] at hc
        have h0 := hr.2 hc.2
        constructor
        · omega
        · intro hlt; omega
      · rw [List.countP_cons]
        simp only [hc, if_false, Nat.add_zero]
        refine ⟨hr.1, fun hlt => hr.2 (by omega)⟩

/-- The events of emitting one pending index when it is kept. -/
theorem emitKept_events (e : Emitter) (t i : Int) (b : Bool) (ht : t ≠ SEG_BREAK) (hi : 0 ≤ i)
    (he : e.RunOK) :
    (if b = true then emitIndex e t i else e).RunOK ∧
      segEvents (if b = true then emitIndex e t i else e).segs =
        segEvents e.segs ++ (if b = true then [Ev.idx t i] else []) := by
  cases b
  · simpa using he
  · simpa using emitIndex_events e t i ht hi he

theorem processWaitfor_offsetIn (s : MarkdownSession) (o : Int) (e : Emitter) (c : Nat)
    (g : Int) :
    processWaitfor { s with globalOffset_ := o } e c g =
      ({ (processWaitfor s e c g).1 with globalOffset_ := o }, (processWaitfor s e c g).2) := by
  unfold processWaitfor
  simp only [activeProcessChar_offset, activeState_offset]
  split <;> rfl

/-- While a WAITFOR is being resolved, `processOne` on a code unit read from the chunk is
`processWaitfor` at the global offset, which then advances by one. -/
theorem processOne_waitfor (s : MarkdownSession) (e : Emitter) (c : Nat) (sol : Bool)
    (hw : s.waitforActive_ = true) :
    processOne s e c sol (-1) =
      ({ (processWaitfor s e c s.globalOffset_).1 with globalOffset_ := s.globalOffset_ + 1 },
        (processWaitfor s e c s.globalOffset_).2) := by
  unfold processOne
  simp only [show ¬ (0 : Int) ≤ -1 by decide, show (-1 : Int) < 0 by decide, if_true, if_false]
  rw [if_pos hw]
  exact processWaitfor_offsetIn s _ e c _

theorem processWaitfor_confirm (s : MarkdownSession) (e : Emitter) (c : Nat) (g : Int)
    (h : (s.activeProcessChar c s.waitforAtStartOfLine_).1.activeState = .PROCESSING) :
    processWaitfor s e c g =
      ({ (s.activeProcessChar c s.waitforAtStartOfLine_).1 with
          waitforPending_ := [], waitforActive_ := false },
        if (s.activeProcessChar c s.waitforAtStartOfLine_).2 = true then
          emitIndex (emitPending e (s.activeProcessChar c s.waitforAtStartOfLine_).1.activeTag_
            (s.activeProcessChar c s.waitforAtStartOfLine_).1.waitforPending_)
            (s.activeProcessChar c s.waitforAtStartOfLine_).1.activeTag_ g
        else emitPending e (s.activeProcessChar c s.waitforAtStartOfLine_).1.activeTag_
            (s.activeProcessChar c s.waitforAtStartOfLine_).1.waitforPending_) := by
  unfold processWaitfor
  simp only []
  rw [if_pos h]

theorem processWaitfor_reject (s : MarkdownSession) (e : Emitter) (c : Nat) (g : Int)
    (h : (s.activeProcessChar c s.waitforAtStartOfLine_).1.activeState ≠ .PROCESSING) :
    processWaitfor s e c g =
      ({ (s.activeProcessChar c s.waitforAtStartOfLine_).1 with
          waitforPending_ := [], waitforActive_ := false, activePlugin_ := none,
          activeTag_ := MD_PLAIN_TEXT, activeIndex_ := -1,
          plugins_ := resetAll (s.activeProcessChar c s.waitforAtStartOfLine_).1.plugins_,
          pendingChars_ :=
            ⟨c, g⟩ :: (s.activeProcessChar c s.waitforAtStartOfLine_).1.pendingChars_ },
        emitBreak (emitPending e MD_PLAIN_TEXT
          (s.activeProcessChar c s.waitforAtStartOfLine_).1.waitforPending_) g) := by
  unfold processWaitfor
  simp only []
  rw [if_neg h]

/-- A re-queued code unit, popped while no WAITFOR is open and no plugin is active, is
evaluated in idle mode with its own index, and the global offset stays. -/
theorem processOne_requeued (s : MarkdownSession) (e : Emitter) (c : Nat) (sol : Bool) (g : Int)
    (hg : 0 ≤ g) (hw : s.waitforActive_ = false) (ha : s.activePlugin_ = none) :
    processOne s e c sol g = processEvaluation s e c sol g := by
  have hw2 : ¬ s.waitforActive_ = true := by rw [hw]; decide
  have ha2 : ¬ s.activePlugin_.isSome = true := by rw [ha]; decide
  unfold processOne
  simp only [hg, if_true, show ¬ g < 0 by omega, if_false]
  rw [if_neg hw2, if_neg ha2]

/-- Claim C27 (WAITFOR resolution step). Let a session be in a consistent state with
`waitforActive_` set; the pending-char queue is then empty and the WAITFOR list holds the
one index before the global offset `g`, so the next code unit `c` is read from the chunk
and arrives with global index `g`. The active plugin is fed `c` with the saved
start-of-line flag. (Confirm) If it is PROCESSING afterwards, the call emits the pending
index under the active tag if it was kept, then `g` under the active tag if `c` is kept,
and the plugin stays active. (Reject) Otherwise the call emits the pending index as
PLAIN_TEXT if it was kept, then a SEG_BREAK at `g`; the active plugin is cleared, every
plugin is IDLE, `c` is queued with index `g`, and the next iteration of the loop
evaluates `c` in idle mode with the same index `g`. In the segments a push beginning with
`c` returns, every index is covered by at most one segment. -/
theorem waitfor_resolution (s : MarkdownSession) (e : Emitter) (c : Nat) (sol : Bool)
    (hs : SessInv s) (hw : s.waitforActive_ = true) (he : e.RunOK) :
    s.pendingChars_ = [] ∧
    (∀ n cs, pushLoop (n + 1) s e sol (c :: cs) =
      pushLoop n (processOne s e c sol (-1)).1 (processOne s e c sol (-1)).2
        (decide (c = ch_nl)) cs) ∧
    (∃ b : Bool, s.waitforPending_ = [⟨s.globalOffset_ - 1, b⟩] ∧
      ((s.activeProcessChar c s.waitforAtStartOfLine_).1.activeState = .PROCESSING →
        segEvents (processOne s e c sol (-1)).2.segs =
          segEvents e.segs ++
            (if b = true then [Ev.idx s.activeTag_ (s.globalOffset_ - 1)] else []) ++
            (if (s.activeProcessChar c s.waitforAtStartOfLine_).2 = true
              then [Ev.idx s.activeTag_ s.globalOffset_] else []) ∧
        (processOne s e c sol (-1)).1.activePlugin_ = s.activePlugin_ ∧
        (processOne s e c sol (-1)).1.activeTag_ = s.activeTag_ ∧
        (processOne s e c sol (-1)).1.activeState = .PROCESSING ∧
        (processOne s e c sol (-1)).1.pendingChars_ = [] ∧
        (processOne s e c sol (-1)).1.waitforActive_ = false) ∧
      ((s.activeProcessChar c s.waitforAtStartOfLine_).1.activeState ≠ .PROCESSING →
        segEvents (processOne s e c sol (-1)).2.segs =
          segEvents e.segs ++
            (if b = true then [Ev.idx MD_PLAIN_TEXT (s.globalOffset_ - 1)] else []) ++
            [Ev.brk s.globalOffset_] ∧
        (processOne s e c sol (-1)).1.activePlugin_ = none ∧
        (∀ j q, stateAt (processOne s e c sol (-1)).1.plugins_ j = some q → q = .IDLE) ∧
        (processOne s e c sol (-1)).1.pendingChars_ = [⟨c, s.globalOffset_⟩] ∧
        (processOne s e c sol (-1)).1.globalOffset_ = s.globalOffset_ + 1 ∧
        (processOne s e c sol (-1)).1.waitforActive_ = false ∧
        (∀ n e2 sol2 chars,
          pushLoop (n + 1) (processOne s e c sol (-1)).1 e2 sol2 chars =
            pushLoop n
              (processEvaluation { (processOne s e c sol (-1)).1 with pendingChars_ := [] }
                e2 c sol2 s.globalOffset_).1
              (processEvaluation { (processOne s e c sol (-1)).1 with pendingChars_ := [] }
                e2 c sol2 s.globalOffset_).2
              (decide (c = ch_nl)) chars) ∧
        (∀ e2 sol2,
          (processEvaluation { (processOne s e c sol (-1)).1 with pendingChars_ := [] }
            e2 c sol2 s.globalOffset_).1.globalOffset_ = s.globalOffset_ + 1))) ∧
    (∀ (chars : List Nat) (i : Int),
      (s.push (c :: chars)).2.countP (fun sg => sg.covers i) ≤ 1) := by
  have hp : s.pendingChars_ = [] := by
    rcases hs.next with h | ⟨x, _, h, _⟩
    · exact h
    · rw [hw] at h; cases h
  have hn : nextIndex s = s.globalOffset_ := by simp only [nextIndex, hp]
  have hc := hs.core
  rw [hn] at hc
  obtain ⟨⟨b, hwp⟩, _⟩ := hc.waitfor_on hw
  have hlow := hc.low
  rw [hwp] at hlow
  simp only [List.length_singleton, Nat.cast_one] at hlow
  have hg1 : (0 : Int) ≤ s.globalOffset_ - 1 := by omega
  have hg : (0 : Int) ≤ s.globalOffset_ := by omega
  obtain ⟨ps, hps, _⟩ := activeProcessChar_eq s c s.waitforAtStartOfLine_
  have hone := processOne_waitfor s e c sol hw
  refine ⟨hp, fun n cs => pushLoop_read n s e sol c cs hp, ⟨b, hwp, ?_, ?_⟩, ?_⟩
  · intro hst
    rw [hone, processWaitfor_confirm s e c _ hst]
    have hev : segEvents (if (s.activeProcessChar c s.waitforAtStartOfLine_).2 = true then
        emitIndex (emitPending e (s.activeProcessChar c s.waitforAtStartOfLine_).1.activeTag_
          (s.activeProcessChar c s.waitforAtStartOfLine_).1.waitforPending_)
          (s.activeProcessChar c s.waitforAtStartOfLine_).1.activeTag_ s.globalOffset_
        else emitPending e (s.activeProcessChar c s.waitforAtStartOfLine_).1.activeTag_
          (s.activeProcessChar c s.waitforAtStartOfLine_).1.waitforPending_).segs =
        segEvents e.segs ++
          (if b = true then [Ev.idx s.activeTag_ (s.globalOffset_ - 1)] else []) ++
          (if (s.activeProcessChar c s.waitforAtStartOfLine_).2 = true
            then [Ev.idx s.activeTag_ s.globalOffset_] else []) := by
      rw [hps]
      simp only [hwp, emitPending_single]
      obtain ⟨h1, h2⟩ := emitKept_events e s.activeTag_ (s.globalOffset_ - 1) b hc.activeTag hg1 he
      obtain ⟨_, h4⟩ := emitKept_events _ s.activeTag_ s.globalOffset_
        (s.activeProcessChar c s.waitforAtStartOfLine_).2 hc.activeTag hg h1
      rw [h4, h2]
    refine ⟨hev, ?_, ?_, hst, ?_, rfl⟩
    · rw [hps]
    · rw [hps]
    · show (s.activeProcessChar c s.waitforAtStartOfLine_).1.pendingChars_ = []
      rw [hps]; exact hp
  · intro hst
    rw [hone, processWaitfor_reject s e c _ hst]
    have hev : segEvents (emitBreak (emitPending e MD_PLAIN_TEXT
        (s.activeProcessChar c s.waitforAtStartOfLine_).1.waitforPending_) s.globalOffset_).segs =
        segEvents e.segs ++
          (if b = true then [Ev.idx MD_PLAIN_TEXT (s.globalOffset_ - 1)] else []) ++
          [Ev.brk s.globalOffset_] := by
      rw [hps]
      simp only [hwp, emitPending_single]
      obtain ⟨_, h2⟩ := emitKept_events e MD_PLAIN_TEXT (s.globalOffset_ - 1) b (by decide)
        hg1 he
      rw [emitBreak_segs, segEvents_append, h2, segEvents_singleton]
      simp [Segment.events]
    have hq : ((s.activeProcessChar c s.waitforAtStartOfLine_).1.pendingChars_) = [] := by
      rw [hps]; exact hp
    refine ⟨hev, rfl, ?_, ?_, rfl, rfl, ?_, ?_⟩
    · intro j q hj
      exact resetAll_state _ j q hj
    · show ⟨c, s.globalOffset_⟩ ::
        (s.activeProcessChar c s.waitforAtStartOfLine_).1.pendingChars_ = _
      rw [hq]
    · intro n e2 sol2 chars
      rw [pushLoop_pop n _ e2 sol2 chars ⟨c, s.globalOffset_⟩ [] (by simp only [hq])]
      rw [processOne_requeued _ e2 c sol2 s.globalOffset_ hg rfl rfl]
    · intro e2 sol2
      rw [processEvaluation_offset]
  · intro chars i
    obtain ⟨_, _, h3, _⟩ := push_inv s (c :: chars) (lowMark s) hs (le_refl _)
    exact (segsOK_covers _ _ _ h3 i).1

/-- Claim C27 at the block session that has been pushed `> a` and a newline, which leaves
the block-quote plugin in WAITFOR, and the code unit `b`: the WAITFOR is rejected, the
newline is emitted as PLAIN_TEXT, a SEG_BREAK is set at 4 and `b` is queued with index 4. -/
theorem waitfor_resolution_witness :
    SessInv (createMarkdownBlockSession.push (u16 "> a\n")).1 ∧
    (createMarkdownBlockSession.push (u16 "> a\n")).1.waitforActive_ = true ∧
    Emitter.new.RunOK ∧
    ((createMarkdownBlockSession.push (u16 "> a\n")).1.activeProcessChar 98
      (createMarkdownBlockSession.push (u16 "> a\n")).1.waitforAtStartOfLine_).1.activeState
        ≠ .PROCESSING ∧
    (processOne (createMarkdownBlockSession.push (u16 "> a\n")).1 Emitter.new 98 true (-1)).2.segs =
      [⟨MD_PLAIN_TEXT, 3, 4⟩, ⟨SEG_BREAK, 4, 4⟩] ∧
    (processOne (createMarkdownBlockSession.push (u16 "> a\n")).1 Emitter.new 98 true
      (-1)).1.pendingChars_ = [⟨98, 4⟩] ∧
    (createMarkdownBlockSession.push (u16 "> a\n")).1.pendingChars_ = [] :=
  ⟨(push_inv createMarkdownBlockSession (u16 "> a\n") (lowMark createMarkdownBlockSession)
      sessInv_block (le_refl _)).1,
    by decide, runOK_new, by decide, by decide, by decide,
    (waitfor_resolution (createMarkdownBlockSession.push (u16 "> a\n")).1 Emitter.new 98 true
      (push_inv createMarkdownBlockSession (u16 "> a\n") (lowMark createMarkdownBlockSession)
        sessInv_block (le_refl _)).1
      (by decide) runOK_new).1⟩

/-- Claim C28 (bold keep/drop faithfulness), refuted as stated: on the seven code units of
two asterisks, `a`, one asterisk, `b`, two asterisks, the bold plugin configured with
include = false answers false for the lone asterisk at index 3 as well, and the inline
session tags exactly the indices 2 and 4 as BOLD; index 3 is covered by no segment. -/
theorem bold_keep_drop_counterexample :
    (StreamMarkdownBoldPlugin.new false).keeps ((u16 "**a*b**").map (fun x => (x, false))) =
      [false, false, true, false, true, false, false] ∧
    (createMarkdownInlineSession.push (u16 "**a*b**")).2 =
      [⟨MD_BOLD, 2, 3⟩, ⟨MD_BOLD, 4, 5⟩, ⟨SEG_BREAK, 7, 7⟩] ∧
    taggedIndices (createMarkdownInlineSession.push (u16 "**a*b**")).2 =
      [(MD_BOLD, 2), (MD_BOLD, 4)] := by
  decide

/-- Claim C28 (bold keep/drop faithfulness), amended. The bold plugin configured with
include = false, from its reset state, returns false for the two opening asterisks and
true for the first body code unit (neither an asterisk nor a newline), which makes it
PROCESSING; while PROCESSING it returns false for every asterisk, the two closing ones and
a lone one inside the body alike, and true for every other code unit; the second of two
asterisks in a row returns it to IDLE. So in an inline session the seven code units of two
asterisks, `a`, one asterisk, `b`, two asterisks yield BOLD coverage of exactly the
indices 2 and 4. -/
theorem bold_keep_drop (p q : StreamMarkdownBoldPlugin) (c x : Nat) (s1 s2 s3 s4 : Bool)
    (hp : p.includeAsterisks_ = false) (hc : c ≠ ch_star ∧ c ≠ ch_nl)
    (hq : q.includeAsterisks_ = false) (hs : q.state_ = .PROCESSING) :
    p.reset.keeps [(ch_star, s1), (ch_star, s2), (c, s3)] = [false, false, true] ∧
    (p.reset.feed [(ch_star, s1), (ch_star, s2), (c, s3)]).state_ = .PROCESSING ∧
    (p.reset.feed [(ch_star, s1), (ch_star, s2), (c, s3)]).endMatch_ = 0 ∧
    (q.processChar x s4).2 = (if x = ch_star then false else true) ∧
    (q.processChar x s4).1.includeAsterisks_ = false ∧
    ((q.processChar x s4).1.state_ =
      if x = ch_star ∧ q.endMatch_ + 1 = 2 then .IDLE else .PROCESSING) ∧
    ((q.processChar x s4).1.state_ = .PROCESSING →
      (q.processChar x s4).1.endMatch_ = if x = ch_star then q.endMatch_ + 1 else 0) ∧
    taggedIndices (createMarkdownInlineSession.push (u16 "**a*b**")).2 =
      [(MD_BOLD, 2), (MD_BOLD, 4)] := by
  obtain ⟨inc, st, sm, em⟩ := p
  obtain ⟨qinc, qst, qsm, qem⟩ := q
  simp only at hp hq hs
  subst hp hq hs
  refine ⟨?_, ?_, ?_, ?_, ?_, ?_, ?_, by decide⟩
  · simp [StreamMarkdownBoldPlugin.keeps, StreamMarkdownBoldPlugin.processChar,
      StreamMarkdownBoldPlugin.reset, hc.1, hc.2]
  · simp [StreamMarkdownBoldPlugin.feed, StreamMarkdownBoldPlugin.processChar,
      StreamMarkdownBoldPlugin.reset, hc.1, hc.2]
  · simp [StreamMarkdownBoldPlugin.feed, StreamMarkdownBoldPlugin.processChar,
      StreamMarkdownBoldPlugin.reset, hc.1, hc.2]
  · by_cases hx : x = ch_star
    · by_cases h2 : qem + 1 = 2 <;>
        simp [StreamMarkdownBoldPlugin.processChar, hx, h2]
    · simp [StreamMarkdownBoldPlugin.processChar, hx]
  · by_cases hx : x = ch_star
    · by_cases h2 : qem + 1 = 2 <;>
        simp [StreamMarkdownBoldPlugin.processChar, StreamMarkdownBoldPlugin.reset, hx, h2]
    · simp [StreamMarkdownBoldPlugin.processChar, hx]
  · by_cases hx : x = ch_star
    · by_cases h2 : qem + 1 = 2 <;>
        simp [StreamMarkdownBoldPlugin.processChar, StreamMarkdownBoldPlugin.reset, hx, h2]
    · simp [StreamMarkdownBoldPlugin.processChar, hx]
  · by_cases hx : x = ch_star
    · by_cases h2 : qem + 1 = 2 <;>
        simp [StreamMarkdownBoldPlugin.processChar, StreamMarkdownBoldPlugin.reset, hx, h2]
    · simp [StreamMarkdownBoldPlugin.processChar, hx]

/-- The amended claim C28 at the reset plugin of the inline session, the body unit `a`, and
the plugin as it stands after two asterisks and `a`, reading a lone asterisk. -/
theorem bold_keep_drop_witness :
    (StreamMarkdownBoldPlugin.new false).includeAsterisks_ = false ∧
    ((StreamMarkdownBoldPlugin.new false).feed
      ((u16 "**a").map (fun x => (x, false)))).state_ = .PROCESSING ∧
    (((StreamMarkdownBoldPlugin.new false).feed
      ((u16 "**a").map (fun x => (x, false)))).processChar ch_star false).2 = false :=
  ⟨by decide, by decide,
    (bold_keep_drop (StreamMarkdownBoldPlugin.new false)
      ((StreamMarkdownBoldPlugin.new false).feed ((u16 "**a").map (fun x => (x, false))))
      97 ch_star false false false false (by decide) (by decide) (by decide) (by decide)).2.2.2.1⟩

/-! ## The link plugin and the horizontal-rule plugin -/

/-- One step of `feed`. -/
theorem link_feed_cons (p : StreamMarkdownLinkPlugin) (c : Nat) (sol : Bool)
    (xs : List (Nat × Bool)) :
    p.feed ((c, sol) :: xs) = StreamMarkdownLinkPlugin.feed (p.processChar c sol).1 xs :=
  rfl

/-- Feeding two lists in a row. -/
theorem link_feed_append (xs ys : List (Nat × Bool)) (p : StreamMarkdownLinkPlugin) :
    p.feed (xs ++ ys) = (p.feed xs).feed ys := by
  induction xs generalizing p with
  | nil => rfl
  | cons x xs ih => exact ih _

/-- Inside the bracketed text the link plugin stays TRYING in phase 1 over code units that
are neither the closing bracket nor a newline. -/
theorem link_text (text : List (Nat × Bool))
    (ht : ∀ x ∈ text, x.1 ≠ ch_rbracket ∧ x.1 ≠ ch_nl) :
    (StreamMarkdownLinkPlugin.mk .TRYING 1).feed text = StreamMarkdownLinkPlugin.mk .TRYING 1 := by
  induction text with
  | nil => rfl
  | cons c cs ih =>
    have hc := ht c (List.mem_cons_self _ _)
    obtain ⟨c, sol⟩ := c
    simp only at hc
    have h : ((StreamMarkdownLinkPlugin.mk .TRYING 1).processChar c sol).1 =
        StreamMarkdownLinkPlugin.mk .TRYING 1 := by
      simp [StreamMarkdownLinkPlugin.processChar, hc.1, hc.2]
    rw [link_feed_cons, h]
    exact ih (fun x hx => ht x (List.mem_cons_of_mem _ hx))

/-- One step of `feed`. -/
theorem hr_feed_cons (p : StreamMarkdownHorizontalRulePlugin) (c : Nat) (sol : Bool)
    (xs : List (Nat × Bool)) :
    p.feed ((c, sol) :: xs) = StreamMarkdownHorizontalRulePlugin.feed (p.processChar c sol).1 xs :=
  rfl

/-- Over a run of markers, spaces and tabs the horizontal-rule plugin counts the markers and
is PROCESSING as soon as it has counted three. -/
theorem hr_run (run : List (Nat × Bool)) (inc : Bool) (m k : Nat)
    (hm : m = ch_minus ∨ m = ch_star ∨ m = ch_underscore) (hk : 1 ≤ k)
    (hr : ∀ x ∈ run, x.1 = m ∨ x.1 = ch_space ∨ x.1 = ch_tab) :
    (StreamMarkdownHorizontalRulePlugin.mk inc (if 3 ≤ k then .PROCESSING else .TRYING)
        m true k).feed run =
      StreamMarkdownHorizontalRulePlugin.mk inc
        (if 3 ≤ k + markerCount m run then .PROCESSING else .TRYING) m true
        (k + markerCount m run) := by
  induction run generalizing k with
  | nil => rfl
  | cons c cs ih =>
    have hc := hr c (List.mem_cons_self _ _)
    have hcs : ∀ x ∈ cs, x.1 = m ∨ x.1 = ch_space ∨ x.1 = ch_tab :=
      fun x hx => hr x (List.mem_cons_of_mem _ hx)
    obtain ⟨c, sol⟩ := c
    simp only at hc
    have hnl : c ≠ ch_nl := by
      rcases hm with h | h | h <;> rcases hc with h1 | h1 | h1 <;> subst h <;> subst h1 <;> decide
    have hidle : (if 3 ≤ k then PluginState.PROCESSING else PluginState.TRYING) ≠ .IDLE := by
      split <;> decide
    by_cases hcm : c = m
    · subst hcm
      have hcm : c = c := rfl
      have h : ((StreamMarkdownHorizontalRulePlugin.mk inc
          (if 3 ≤ k then .PROCESSING else .TRYING) c true k).processChar c sol).1 =
          StreamMarkdownHorizontalRulePlugin.mk inc
            (if 3 ≤ k + 1 then .PROCESSING else .TRYING) c true (k + 1) := by
        simp only [StreamMarkdownHorizontalRulePlugin.processChar, if_neg hnl, if_neg hidle,
          true_or, and_self, if_true]
        by_cases h3 : 3 ≤ k + 1
        · simp [h3]
        · have : ¬ 3 ≤ k := by omega
          simp [h3, this]
      rw [hr_feed_cons, h, ih (k + 1) (by omega) hcs]
      have : markerCount c ((c, sol) :: cs) = markerCount c cs + 1 := by
        simp [markerCount]
      rw [this, Nat.add_right_comm, Nat.add_assoc k]
    · have h : ((StreamMarkdownHorizontalRulePlugin.mk inc
          (if 3 ≤ k then .PROCESSING else .TRYING) m true k).processChar c sol).1 =
          StreamMarkdownHorizontalRulePlugin.mk inc
            (if 3 ≤ k then .PROCESSING else .TRYING) m true k := by
        have hc2 : c = ch_space ∨ c = ch_tab := by
          rcases hc with h1 | h1
          · exact absurd h1 hcm
          · exact h1
        simp only [StreamMarkdownHorizontalRulePlugin.processChar, if_neg hnl, if_neg hidle,
          if_neg hcm, hc2, or_true, and_self, if_true]
        by_cases h3 : 3 ≤ k <;> simp [h3]
      rw [hr_feed_cons, h, ih k hk hcs]
      have : markerCount m ((c, sol) :: cs) = markerCount m cs := by
        simp [markerCount, hcm]
      rw [this]

/-- Feeding two lists in a row. -/
theorem hr_feed_append (xs ys : List (Nat × Bool)) (p : StreamMarkdownHorizontalRulePlugin) :
    p.feed (xs ++ ys) = (p.feed xs).feed ys := by
  induction xs generalizing p with
  | nil => rfl
  | cons x xs ih => exact ih _

/-- A marker at the start of a line, read by a reset horizontal-rule plugin, starts the
count at one. -/
theorem hr_first (inc : Bool) (st : PluginState) (cm : Nat) (hm : Bool) (mc m : Nat)
    (h : m = ch_minus ∨ m = ch_star ∨ m = ch_underscore) :
    ((StreamMarkdownHorizontalRulePlugin.mk inc st cm hm mc).reset.processChar m true).1 =
      StreamMarkdownHorizontalRulePlugin.mk inc (if 3 ≤ 1 then .PROCESSING else .TRYING)
        m true 1 := by
  have hnl : m ≠ ch_nl := by
    rcases h with h | h | h <;> subst h <;> decide
  simp [StreamMarkdownHorizontalRulePlugin.processChar, StreamMarkdownHorizontalRulePlugin.reset,
    hnl, h]

/-- Claim C29 (link requires an opening parenthesis), refuted as stated: in an inline
session `[x]y` yields a LINK segment over all four code units, and so does `[x]` followed
by a newline; neither is emitted as PLAIN_TEXT. -/
theorem link_requires_paren_counterexample :
    (createMarkdownInlineSession.push (u16 "[x]y")).2 =
      [⟨MD_LINK, 0, 4⟩, ⟨SEG_BREAK, 4, 4⟩] ∧
    (createMarkdownInlineSession.push (u16 "[x]\n")).2 =
      [⟨MD_LINK, 0, 4⟩, ⟨SEG_BREAK, 4, 4⟩] := by
  decide

/-- Claim C29 (link), amended. The link plugin is TRYING inside the bracketed text and
PROCESSING as soon as the closing bracket has been read, whatever follows; a newline
before the closing bracket returns it to IDLE unrecognised. The code unit after the
closing bracket continues the link when it is an opening parenthesis and otherwise only
ends it. So in an inline session `[x](u)` yields LINK [0,6), while `[x]y` and `[x]`
followed by a newline yield LINK [0,4) with the ending code unit included, and `[x`,
newline, `y` yields PLAIN_TEXT [0,4) and no LINK segment. -/
theorem link_commit (text : List (Nat × Bool)) (c : Nat) (s1 s2 s3 : Bool)
    (ht : ∀ x ∈ text, x.1 ≠ ch_rbracket ∧ x.1 ≠ ch_nl) :
    (StreamMarkdownLinkPlugin.new.feed ((ch_lbracket, s1) :: text)).state_ = .TRYING ∧
    StreamMarkdownLinkPlugin.new.feed ((ch_lbracket, s1) :: text ++ [(ch_rbracket, s2)]) =
      StreamMarkdownLinkPlugin.mk .PROCESSING 2 ∧
    StreamMarkdownLinkPlugin.new.feed
        ((ch_lbracket, s1) :: text ++ [(ch_rbracket, s2), (c, s3)]) =
      (if c = ch_lparen then StreamMarkdownLinkPlugin.mk .PROCESSING 3
        else StreamMarkdownLinkPlugin.new) ∧
    StreamMarkdownLinkPlugin.new.feed ((ch_lbracket, s1) :: text ++ [(ch_nl, s2)]) =
      StreamMarkdownLinkPlugin.new ∧
    (createMarkdownInlineSession.push (u16 "[x](u)")).2 =
      [⟨MD_LINK, 0, 6⟩, ⟨SEG_BREAK, 6, 6⟩] ∧
    (createMarkdownInlineSession.push (u16 "[x]y")).2 =
      [⟨MD_LINK, 0, 4⟩, ⟨SEG_BREAK, 4, 4⟩] ∧
    (createMarkdownInlineSession.push (u16 "[x]\n")).2 =
      [⟨MD_LINK, 0, 4⟩, ⟨SEG_BREAK, 4, 4⟩] ∧
    (createMarkdownInlineSession.push (u16 "[x\ny")).2 = [⟨MD_PLAIN_TEXT, 0, 4⟩] := by
  have h1 : (StreamMarkdownLinkPlugin.new.processChar ch_lbracket s1).1 =
      StreamMarkdownLinkPlugin.mk .TRYING 1 := by
    simp [StreamMarkdownLinkPlugin.processChar, StreamMarkdownLinkPlugin.new,
      StreamMarkdownLinkPlugin.reset]
  have h2 : ((StreamMarkdownLinkPlugin.mk .TRYING 1).processChar ch_rbracket s2).1 =
      StreamMarkdownLinkPlugin.mk .PROCESSING 2 := by
    simp [StreamMarkdownLinkPlugin.processChar]
  have h3 : ((StreamMarkdownLinkPlugin.mk .TRYING 1).processChar ch_nl s2).1 =
      StreamMarkdownLinkPlugin.new := by
    simp [StreamMarkdownLinkPlugin.processChar, StreamMarkdownLinkPlugin.new,
      StreamMarkdownLinkPlugin.reset]
  have h4 : ((StreamMarkdownLinkPlugin.mk .PROCESSING 2).processChar c s3).1 =
      (if c = ch_lparen then StreamMarkdownLinkPlugin.mk .PROCESSING 3
        else StreamMarkdownLinkPlugin.new) := by
    by_cases hn : c = ch_nl
    · subst hn
      simp [StreamMarkdownLinkPlugin.processChar, StreamMarkdownLinkPlugin.new,
        StreamMarkdownLinkPlugin.reset]
    · by_cases hl : c = ch_lparen
      · simp [StreamMarkdownLinkPlugin.processChar, hn, hl]
      · simp [StreamMarkdownLinkPlugin.processChar, StreamMarkdownLinkPlugin.new,
          StreamMarkdownLinkPlugin.reset, hn, hl]
  refine ⟨?_, ?_, ?_, ?_, by decide, by decide, by decide, by decide⟩
  · rw [link_feed_cons, h1, link_text text ht]
  · rw [List.cons_append, link_feed_cons, h1, link_feed_append, link_text text ht,
      link_feed_cons, h2]
    rfl
  · rw [List.cons_append, link_feed_cons, h1, link_feed_append, link_text text ht,
      link_feed_cons, h2, link_feed_cons, h4]
    rfl
  · rw [List.cons_append, link_feed_cons, h1, link_feed_append, link_text text ht,
      link_feed_cons, h3]
    rfl

/-- The amended claim C29 at the text `x` followed by `y`. -/
theorem link_commit_witness :
    StreamMarkdownLinkPlugin.new.feed
        ((ch_lbracket, false) :: [(120, false)] ++ [(ch_rbracket, false)]) =
      StreamMarkdownLinkPlugin.mk .PROCESSING 2 ∧
    StreamMarkdownLinkPlugin.new.feed
        ((ch_lbracket, false) :: [(120, false)] ++ [(ch_rbracket, false), (121, false)]) =
      StreamMarkdownLinkPlugin.new :=
  ⟨(link_commit [(120, false)] 121 false false false (by decide)).2.1,
    (link_commit [(120, false)] 121 false false false (by decide)).2.2.1⟩

/-- Claim C30 (horizontal rule only on a closed line), refuted as stated: in a block
session three dashes followed by `x` and a newline yield a HORIZONTAL_RULE segment over
the three dashes and the `x`. -/
theorem hr_closed_line_counterexample :
    (createMarkdownBlockSession.push (u16 "---x\n")).2 =
      [⟨MD_HORIZONTAL_RULE, 0, 4⟩, ⟨SEG_BREAK, 4, 4⟩, ⟨MD_PLAIN_TEXT, 4, 5⟩] := by
  decide

/-- Claim C30 (horizontal rule), amended. After a marker from dash, asterisk, underscore
at the start of a line and a run of copies of it, spaces and tabs, the horizontal-rule
plugin is PROCESSING exactly when it has read at least 3 markers, without waiting for the
newline; any other code unit then only returns it to IDLE, kept. So in a block session
three dashes yield a HORIZONTAL_RULE segment whether a newline follows ([0,4) with the
newline) or another code unit does (three dashes, `x`, newline: [0,4) with the `x`,
then a SEG_BREAK and the newline as PLAIN_TEXT), and two dashes followed by `x` and a
newline yield PLAIN_TEXT only. -/
theorem hr_commit (p : StreamMarkdownHorizontalRulePlugin) (m : Nat) (run : List (Nat × Bool))
    (c : Nat) (s : Bool)
    (hm : m = ch_minus ∨ m = ch_star ∨ m = ch_underscore)
    (hr : ∀ x ∈ run, x.1 = m ∨ x.1 = ch_space ∨ x.1 = ch_tab)
    (hc : c ≠ m ∧ c ≠ ch_space ∧ c ≠ ch_tab ∧ c ≠ ch_nl) :
    ((p.reset.feed ((m, true) :: run)).state_ =
      if 3 ≤ 1 + markerCount m run then .PROCESSING else .TRYING) ∧
    p.reset.feed ((m, true) :: run ++ [(c, s)]) = p.reset ∧
    ((p.reset.feed ((m, true) :: run)).processChar c s).2 = true ∧
    (createMarkdownBlockSession.push (u16 "---\n")).2 =
      [⟨MD_HORIZONTAL_RULE, 0, 4⟩, ⟨SEG_BREAK, 4, 4⟩] ∧
    (createMarkdownBlockSession.push (u16 "---x\n")).2 =
      [⟨MD_HORIZONTAL_RULE, 0, 4⟩, ⟨SEG_BREAK, 4, 4⟩, ⟨MD_PLAIN_TEXT, 4, 5⟩] ∧
    (createMarkdownBlockSession.push (u16 "--x\n")).2 = [⟨MD_PLAIN_TEXT, 0, 4⟩] := by
  obtain ⟨inc, st, cm, hmk, mc⟩ := p
  have hf := hr_run run inc m 1 hm (le_refl 1) hr
  have hidle : (if 3 ≤ 1 + markerCount m run then PluginState.PROCESSING
      else PluginState.TRYING) ≠ .IDLE := by
    split <;> decide
  have hstep : ((StreamMarkdownHorizontalRulePlugin.mk inc
      (if 3 ≤ 1 + markerCount m run then .PROCESSING else .TRYING) m true
        (1 + markerCount m run)).processChar c s) =
      ((StreamMarkdownHorizontalRulePlugin.mk inc st cm hmk mc).reset, true) := by
    simp only [StreamMarkdownHorizontalRulePlugin.processChar, if_neg hc.2.2.2, if_neg hidle,
      hc.1, hc.2.1, hc.2.2.1, or_self, and_false, if_false]
    rfl
  refine ⟨?_, ?_, ?_, by decide, by decide, by decide⟩
  · rw [hr_feed_cons, hr_first _ _ _ _ _ _ hm, hf]
  · rw [List.cons_append, hr_feed_cons, hr_first _ _ _ _ _ _ hm, hr_feed_append, hf,
      hr_feed_cons, hstep]
    rfl
  · rw [hr_feed_cons, hr_first _ _ _ _ _ _ hm, hf, hstep]

/-- The amended claim C30 at three dashes followed by `x`. -/
theorem hr_commit_witness :
    ((StreamMarkdownHorizontalRulePlugin.new true).reset.feed
      ((ch_minus, true) :: [(ch_minus, false), (ch_minus, false)])).state_ = .PROCESSING ∧
    (StreamMarkdownHorizontalRulePlugin.new true).reset.feed
      ((ch_minus, true) :: [(ch_minus, false), (ch_minus, false)] ++ [(120, false)]) =
        (StreamMarkdownHorizontalRulePlugin.new true).reset :=
  ⟨(hr_commit (StreamMarkdownHorizontalRulePlugin.new true) ch_minus
      [(ch_minus, false), (ch_minus, false)] 120 false (by decide) (by decide) (by decide)).1,
    (hr_commit (StreamMarkdownHorizontalRulePlugin.new true) ch_minus
      [(ch_minus, false), (ch_minus, false)] 120 false (by decide) (by decide) (by decide)).2.1⟩

/-! ## Claims on the scratch state of the plugins, the emitter, chunking and the helpers -/

/-- Claim C31 (XML tag names contain no whitespace): the code at the inputs of the claim.
After `<a`, a tab and `b=1>` the XML plugin has captured the tag name `a`, tab, `b=1` and
installed the closer `</a`, tab, `b=1>`, and it is still PROCESSING after `x</a>`; the
same holds with a newline in place of the tab. With a space in place of the tab the
closer is `</a>` and the plugin closes on it. In a block session the region opened by
the tag with the tab swallows the rest of the input. -/
theorem xml_tag_name_whitespace_divergence :
    ((StreamXmlPlugin.new true).feed (asLine (u16 "<a\tb=1>"))).endPattern_ = u16 "</a\tb=1>" ∧
    ((StreamXmlPlugin.new true).feed (asLine (u16 "<a\tb=1>x</a>"))).state_ = .PROCESSING ∧
    ((StreamXmlPlugin.new true).feed (asLine (u16 "<a\nb=1>"))).endPattern_ = u16 "</a\nb=1>" ∧
    ((StreamXmlPlugin.new true).feed (asLine (u16 "<a\nb=1>x</a>"))).state_ = .PROCESSING ∧
    ((StreamXmlPlugin.new true).feed (asLine (u16 "<a b=1>"))).endPattern_ = u16 "</a>" ∧
    ((StreamXmlPlugin.new true).feed (asLine (u16 "<a b=1>x</a>"))).state_ = .IDLE ∧
    (createMarkdownBlockSession.push (u16 "<a\tb=1>x</a>y")).2 = [⟨MD_XML_BLOCK, 0, 13⟩] ∧
    (createMarkdownBlockSession.push (u16 "<a b=1>x</a>y")).2 =
      [⟨MD_XML_BLOCK, 0, 12⟩, ⟨SEG_BREAK, 12, 12⟩, ⟨MD_PLAIN_TEXT, 12, 13⟩] := by
  decide

/-- Claim C32 (block-quote marker disposition). The block-quote plugin configured with
include_marker = false, from its reset state, returns false for the `>` at the start of a
line, which makes it TRYING, and false for the space after it, which makes it PROCESSING;
in WAITFOR it returns true for the `>` fed with `atStartOfLine = true`, and is PROCESSING
again. -/
theorem block_quote_marker_disposition (p q : StreamMarkdownBlockQuotePlugin) (sol : Bool)
    (hp : p.includeMarker_ = false) (hq : q.includeMarker_ = false)
    (hw : q.state_ = .WAITFOR) :
    (p.reset.processChar ch_gt true).2 = false ∧
    (p.reset.processChar ch_gt true).1.state_ = .TRYING ∧
    ((p.reset.processChar ch_gt true).1.processChar ch_space sol).2 = false ∧
    ((p.reset.processChar ch_gt true).1.processChar ch_space sol).1.state_ = .PROCESSING ∧
    (q.processChar ch_gt true).2 = true ∧
    (q.processChar ch_gt true).1.state_ = .PROCESSING := by
  obtain ⟨inc, st, mi⟩ := p
  obtain ⟨qinc, qst, qmi⟩ := q
  simp only at hp hq hw
  subst hp hq hw
  cases sol <;>
    simp [StreamMarkdownBlockQuotePlugin.processChar, StreamMarkdownBlockQuotePlugin.reset,
      StreamMarkdownBlockQuotePlugin.processCharTail]

/-- Claim C32 at the plugin of the block session: fresh for the opening, and as it stands
after `> a` and a newline (WAITFOR) for the re-opening `>`. -/
theorem block_quote_marker_disposition_witness :
    (StreamMarkdownBlockQuotePlugin.new false).includeMarker_ = false ∧
    ((StreamMarkdownBlockQuotePlugin.new false).feed (asLine (u16 "> a\n"))).state_ = .WAITFOR ∧
    (((StreamMarkdownBlockQuotePlugin.new false).feed (asLine (u16 "> a\n"))).processChar
      ch_gt true).2 = true ∧
    (((StreamMarkdownBlockQuotePlugin.new false).feed (asLine (u16 "> a\n"))).processChar
      ch_gt true).1.state_ = .PROCESSING :=
  ⟨by decide, by decide,
    (block_quote_marker_disposition (StreamMarkdownBlockQuotePlugin.new false)
      ((StreamMarkdownBlockQuotePlugin.new false).feed (asLine (u16 "> a\n"))) false
      (by decide) (by decide) (by decide)).2.2.2.2.1,
    (block_quote_marker_disposition (StreamMarkdownBlockQuotePlugin.new false)
      ((StreamMarkdownBlockQuotePlugin.new false).feed (asLine (u16 "> a\n"))) false
      (by decide) (by decide) (by decide)).2.2.2.2.2⟩

/-- Claim C39 (buffered text before the winning construct takes the winner's tag).
Pushing `[a **b**` into a fresh inline session returns BOLD [0,3), BOLD [5,6) and a
SEG_BREAK at 8: the code units `[a ` at the indices 0, 1, 2 are tagged BOLD. After `[a `
nothing has been returned, the three code units are in the evaluation buffer, the link
plugin (roster position 3) is TRYING, and the idle bold plugin has voted keep for each
of them. -/
theorem buffered_text_takes_winner_tag :
    (createMarkdownInlineSession.push (u16 "[a **b**")).2 =
      [⟨MD_BOLD, 0, 3⟩, ⟨MD_BOLD, 5, 6⟩, ⟨SEG_BREAK, 8, 8⟩] ∧
    taggedIndices (createMarkdownInlineSession.push (u16 "[a **b**")).2 =
      [(MD_BOLD, 0), (MD_BOLD, 1), (MD_BOLD, 2), (MD_BOLD, 5)] ∧
    (createMarkdownInlineSession.push (u16 "[a ")).2 = [] ∧
    (createMarkdownInlineSession.push (u16 "[a ")).1.evaluationBuffer_ = u16 "[a " ∧
    stateAt (createMarkdownInlineSession.push (u16 "[a ")).1.plugins_ 3 = some .TRYING ∧
    tagAt (createMarkdownInlineSession.push (u16 "[a ")).1.plugins_ 3 = some MD_LINK ∧
    (StreamMarkdownBoldPlugin.new false).keeps ((u16 "[a ").map (fun x => (x, false))) =
      [true, true, true] := by
  decide

/-! ## Index safety of the KMP matcher -/

theorem getElem?_some_getD (l : List Nat) (i : Nat) (h : i < l.length) :
    l[i]? = some (l.getD i 0) := by
  simp [List.getD, List.getElem?_eq_getElem h]

/-- On a table that is right up to `j`, the checked fallback loop started at `k ≤ j` makes
no read out of bounds and computes what `kmpFallback` computes. -/
theorem fallbackChecked_eq (P pi : List Nat) (c j : Nat) (hpi : PiValid P pi j)
    (hlen : pi.length = P.length) (hj : j < P.length) :
    ∀ fuel k, k ≤ j →
      kmpFallbackChecked P pi c fuel k = some (kmpFallback P pi c fuel k) := by
  intro fuel
  induction fuel with
  | zero => intro k _; rfl
  | succ fuel ih =>
    intro k hk
    unfold kmpFallbackChecked kmpFallback
    by_cases h0 : 0 < k
    · rw [if_pos h0, getElem?_some_getD P k (by omega)]
      simp only []
      by_cases hc : c ≠ P.getD k 0
      · rw [if_pos hc, if_pos ⟨h0, hc⟩, getElem?_some_getD pi (k - 1) (by omega)]
        simp only []
        have := (hpi k h0 hk).1
        exact ih _ (by omega)
      · rw [if_neg hc, if_neg (fun h => hc h.2)]
    · rw [if_neg h0, if_neg (fun h => h0 h.1)]

/-- The fallback loop never goes above where it started. -/
theorem kmpFallback_le (P pi : List Nat) (c j : Nat) (hpi : PiValid P pi j) :
    ∀ fuel k, k ≤ j → kmpFallback P pi c fuel k ≤ k := by
  intro fuel
  induction fuel with
  | zero => intro k _; exact le_refl _
  | succ fuel ih =>
    intro k hk
    unfold kmpFallback
    split
    · next h =>
      have := (hpi k h.1 hk).1
      have := ih (pi.getD (k - 1) 0) (by omega)
      omega
    · exact le_refl _

/-- One iteration of the loop of `setPattern` keeps the table right, one entry further. -/
theorem setPatternStep_valid (P pi : List Nat) (i : Nat) (hlen : pi.length = P.length)
    (hi : 1 ≤ i) (hiP : i < P.length) (hv : PiValid P pi i) :
    PiValid P (pi.set i (if P.getD i 0 = P.getD (kmpFallback P pi (P.getD i 0)
      (pi.getD (i - 1) 0) (pi.getD (i - 1) 0)) 0 then kmpFallback P pi (P.getD i 0)
      (pi.getD (i - 1) 0) (pi.getD (i - 1) 0) + 1 else kmpFallback P pi (P.getD i 0)
      (pi.getD (i - 1) 0) (pi.getD (i - 1) 0))) (i + 1) := by
  obtain ⟨hk0, hb0, hm0⟩ := hv i hi le_rfl
  obtain ⟨h1, h2, h3⟩ := kmp_extend P pi (P.take i) (P.getD i 0) (pi.getD (i - 1) 0)
    (by omega) hb0.2 (piValid_mono hv (by omega))
  generalize (if P.getD i 0 = P.getD (kmpFallback P pi (P.getD i 0) (pi.getD (i - 1) 0)
    (pi.getD (i - 1) 0)) 0 then kmpFallback P pi (P.getD i 0) (pi.getD (i - 1) 0)
    (pi.getD (i - 1) 0) + 1 else kmpFallback P pi (P.getD i 0) (pi.getD (i - 1) 0)
    (pi.getD (i - 1) 0)) = knew at h1 h2 h3 ⊢
  intro q hq1 hq2
  rcases Nat.eq_or_lt_of_le hq2 with hq | hq
  · subst hq
    have hget : (pi.set i knew).getD (i + 1 - 1) 0 = knew := by
      simp [List.getD, List.getElem?_set, show i < pi.length by omega]
    rw [hget]
    rw [← take_succ_getD P (by omega)] at h2
    refine ⟨by omega, ⟨by omega, h2⟩, ?_⟩
    intro l hl hbl
    cases l with
    | zero => omega
    | succ l0 =>
      have hsplit := (take_succ_suffix_concat P (P.take i) (P.getD i 0)
        (show l0 < P.length by omega)).1 (by rw [← take_succ_getD P (by omega)]; exact hbl.2)
      have hl0 : l0 ≤ pi.getD (i - 1) 0 := hm0 l0 (by omega) ⟨by omega, hsplit.1⟩
      exact h3 l0 hl0 hsplit.1 hsplit.2
  · have hget : (pi.set i knew).getD (q - 1) 0 = pi.getD (q - 1) 0 := by
      simp [List.getD, List.getElem?_set, show ¬ i = q - 1 by omega]
    rw [hget]
    exact hv q hq1 (by omega)

/-- The checked loop of `setPattern` makes no access out of bounds and computes what
`setPatternLoop` computes. -/
theorem setPatternLoopChecked_eq (P : List Nat) :
    ∀ n i pi, pi.length = P.length → 1 ≤ i → i + n = P.length → PiValid P pi i →
      setPatternLoopChecked P n i pi = some (setPatternLoop P n i pi) := by
  intro n
  induction n with
  | zero => intro i pi _ _ _ _; rfl
  | succ n ih =>
    intro i pi hlen hi hin hv
    have hk0 := (hv i hi le_rfl).1
    have hfb := fallbackChecked_eq P pi (P.getD i 0) i hv hlen (by omega)
      (pi.getD (i - 1) 0) (pi.getD (i - 1) 0) (by omega)
    have hle := kmpFallback_le P pi (P.getD i 0) i hv (pi.getD (i - 1) 0) (pi.getD (i - 1) 0)
      (by omega)
    unfold setPatternLoopChecked setPatternLoop
    rw [getElem?_some_getD pi (i - 1) (by omega), getElem?_some_getD P i (by omega)]
    simp only []
    rw [hfb]
    simp only []
    rw [getElem?_some_getD P _ (by omega)]
    simp only []
    rw [if_pos (by omega)]
    exact ih (i + 1) _ (by simpa using hlen) (by omega) (by omega)
      (setPatternStep_valid P pi i hlen hi (by omega) hv)

/-- The checked `setPattern` makes no access out of bounds, whatever the pattern. -/
theorem setPatternChecked_eq (m : KmpMatcher) (p : List Nat) :
    m.setPatternChecked p = some (m.setPattern p) := by
  unfold KmpMatcher.setPatternChecked KmpMatcher.setPattern
  cases p with
  | nil => rfl
  | cons a as =>
    have hinit : PiValid (a :: as) (List.replicate (a :: as).length 0) 1 := by
      intro q hq1 hq2
      have : q = 1 := by omega
      subst this
      have h0 : (List.replicate (a :: as).length 0).getD 0 0 = 0 := by
        simp [List.getD]
      simp only [Nat.sub_self]
      rw [h0]
      exact ⟨by omega, ⟨by omega, by simp⟩, fun l hl _ => by omega⟩
    rw [setPatternLoopChecked_eq (a :: as) ((a :: as).length - 1) 1 _ (by simp) le_rfl
      (by simp only [List.length_cons]; omega) hinit]

/-- The checked `process` makes no access out of bounds on a matcher in its invariant. -/
theorem processChecked_eq (m : KmpMatcher) (T : List Nat) (c : Nat) (h : KmpInv m T) :
    m.processChecked c = some (m.process c) := by
  obtain ⟨hne, hlen, hpi, hj, _, _⟩ := h
  have hv := piValid_mono hpi (show m.j_ ≤ m.pattern_.length by omega)
  have hfb := fallbackChecked_eq m.pattern_ m.pi_ c m.j_ hv hlen hj m.j_ m.j_ le_rfl
  have hle := kmpFallback_le m.pattern_ m.pi_ c m.j_ hv m.j_ m.j_ le_rfl
  unfold KmpMatcher.processChecked KmpMatcher.process
  rw [if_neg hne, if_neg hne, hfb]
  simp only []
  rw [getElem?_some_getD m.pattern_ _ (by omega)]
  simp only []
  generalize (if c = m.pattern_.getD (kmpFallback m.pattern_ m.pi_ c m.j_ m.j_) 0 then
    kmpFallback m.pattern_ m.pi_ c m.j_ m.j_ + 1
    else kmpFallback m.pattern_ m.pi_ c m.j_ m.j_) = jn
  by_cases hfull : jn = m.pattern_.length
  · rw [if_pos hfull, if_pos hfull, getElem?_some_getD m.pi_ _ (by omega)]
  · rw [if_neg hfull, if_neg hfull]

/-- Every matcher reached from `setPattern(p)` by `process` and `reset` calls, for a
non-empty `p`, is in the invariant for some fed text and still holds `p`. -/
theorem kmpInv_run (ops : List (Option Nat)) :
    ∀ (m : KmpMatcher) (T : List Nat), KmpInv m T →
      ∃ T2, KmpInv (m.run ops) T2 ∧ (m.run ops).pattern_ = m.pattern_ := by
  induction ops with
  | nil => intro m T h; exact ⟨T, h, rfl⟩
  | cons op ops ih =>
    intro m T h
    cases op with
    | none =>
      obtain ⟨T2, h2, h3⟩ := ih m.reset [] (kmpInv_reset m T h)
      exact ⟨T2, h2, h3⟩
    | some c =>
      obtain ⟨h1, hp, _⟩ := process_spec m T c h
      obtain ⟨T2, h2, h3⟩ := ih (m.process c).1 (T ++ [c]) h1
      exact ⟨T2, h2, h3.trans hp⟩

/-- With the empty pattern, `process` and `reset` leave the matcher of `setPattern` as it
is. -/
theorem run_empty (m : KmpMatcher) (ops : List (Option Nat)) :
    (m.setPattern []).run ops = m.setPattern [] := by
  induction ops with
  | nil => rfl
  | cons op ops ih =>
    cases op with
    | none => exact ih
    | some c => exact ih

/-- Claim C40 (KMP index safety). For every pattern `p`, `setPattern(p)` makes no vector
access out of bounds (the run with every access checked succeeds and gives the same
matcher), and after `setPattern(p)` and any number of `process` and `reset` calls
`process` makes none either. For non-empty `p` the matcher still holds `p`, its table has
the length of `p`, the match length satisfies `j < |p|`, and every table entry satisfies
`pi[i] ≤ i`. For the empty pattern `process` returns false on every code unit, before any
access, and leaves the matcher unchanged. -/
theorem kmp_index_safety (m0 : KmpMatcher) (p : List Nat) (ops : List (Option Nat)) (c : Nat) :
    m0.setPatternChecked p = some (m0.setPattern p) ∧
    ((m0.setPattern p).run ops).processChecked c =
      some (((m0.setPattern p).run ops).process c) ∧
    (p ≠ [] →
      ((m0.setPattern p).run ops).pattern_ = p ∧
      ((m0.setPattern p).run ops).pi_.length = p.length ∧
      ((m0.setPattern p).run ops).j_ < p.length ∧
      ∀ i, i < p.length → ((m0.setPattern p).run ops).pi_.getD i 0 ≤ i) ∧
    (p = [] →
      ((m0.setPattern p).run ops).pattern_ = [] ∧
      ((m0.setPattern p).run ops).processChecked c = some ((m0.setPattern p).run ops, false) ∧
      ((m0.setPattern p).run ops).process c = ((m0.setPattern p).run ops, false)) := by
  refine ⟨setPatternChecked_eq m0 p, ?_, ?_, ?_⟩
  · by_cases hp : p = []
    · subst hp
      rw [run_empty]
      rfl
    · obtain ⟨T, hT, _⟩ := kmpInv_run ops _ [] (setPattern_inv m0 p hp)
      exact processChecked_eq _ T c hT
  · intro hp
    obtain ⟨T, hT, hpat⟩ := kmpInv_run ops _ [] (setPattern_inv m0 p hp)
    have hpat2 : ((m0.setPattern p).run ops).pattern_ = p := hpat
    obtain ⟨_, hlen, hpi, hj, _, _⟩ := hT
    rw [hpat2] at hlen hpi hj
    refine ⟨hpat2, hlen, hj, ?_⟩
    intro i hi
    have := (hpi (i + 1) (by omega) (by omega)).1
    simp only [Nat.add_sub_cancel] at this
    omega
  · intro hp
    subst hp
    rw [run_empty]
    exact ⟨rfl, rfl, rfl⟩

/-! ## Run coalescing is lossless and maximal -/

theorem cutInv_new : CutInv Emitter.new := by
  refine ⟨by simp [segs_new, adjacentAll], ?_⟩
  intro _ x hx
  simp [Emitter.new] at hx

theorem cutInv_emitIndex (e : Emitter) (t i : Int) (ht : t ≠ SEG_BREAK) (hi : 0 ≤ i)
    (h : CutInv e) : CutInv (emitIndex e t i) := by
  obtain ⟨hch, hcl⟩ := h
  rcases emitIndex_cases e t i with ⟨h1, h2, h3, he⟩ | ⟨h1, h2, he⟩ | ⟨h1, he⟩ <;> rw [he]
  · refine ⟨?_, fun hneg => absurd h1 (not_le.2 hneg)⟩
    simp only [Emitter.segs, Emitter.runSeg, if_pos h1] at hch ⊢
    rw [adjacentAll_concat] at hch ⊢
    exact ⟨hch.1, fun y hy => hch.2 y hy⟩
  · refine ⟨?_, fun hneg => absurd hi (not_le.2 hneg)⟩
    have hsegs : (Emitter.mk (e.out ++ [⟨e.runTag, e.runStart, e.runEnd⟩]) t i (i + 1)).segs =
        e.segs ++ [⟨t, i, i + 1⟩] := by
      simp only [Emitter.segs, Emitter.runSeg, if_pos h1, if_pos hi]
    rw [hsegs, adjacentAll_concat]
    refine ⟨hch, ?_⟩
    intro y hy
    rw [getLast?_segs_open e h1] at hy
    simp only [Option.mem_def, Option.some.injEq] at hy
    subst hy
    intro hs heq
    rcases h2 with h2 | h2
    · exact h2 hs.2
    · exact h2 heq
  · refine ⟨?_, fun hneg => absurd hi (not_le.2 hneg)⟩
    have hsegs : (Emitter.mk e.out t i (i + 1)).segs = e.out ++ [⟨t, i, i + 1⟩] := by
      simp only [Emitter.segs, Emitter.runSeg, if_pos hi]
    rw [hsegs, adjacentAll_concat]
    rw [segs_closed e h1] at hch
    refine ⟨hch, ?_⟩
    intro y hy hs
    exact absurd (hcl h1 y hy) hs.1

theorem cutInv_emitBreak (e : Emitter) (pos : Int) (h : CutInv e) :
    CutInv (emitBreak e pos) := by
  have hclosed : (emitBreak e pos).runStart < 0 := by simp [emitBreak, flushRun]
  refine ⟨?_, ?_⟩
  · rw [emitBreak_segs, adjacentAll_concat]
    refine ⟨h.1, ?_⟩
    intro y _ hs
    exact absurd hs.2.symm (fun hh => hs.1 (by rw [hs.2]))
  · intro _ x hx
    rw [← segs_closed _ hclosed, emitBreak_segs, List.getLast?_concat] at hx
    simp only [Option.mem_def, Option.some.injEq] at hx
    rw [← hx]

/-- A sequence of calls appends its own events to those of the emitter, and keeps the
runs maximal. -/
theorem emitOps_spec (ops : List Ev) :
    ∀ (e : Emitter), e.RunOK → CutInv e →
      (∀ op ∈ ops, op.isCall) →
      (emitOps e ops).RunOK ∧ CutInv (emitOps e ops) ∧
      segEvents (emitOps e ops).segs = segEvents e.segs ++ ops := by
  induction ops with
  | nil => intro e he hc _; exact ⟨he, hc, by simp [emitOps]⟩
  | cons op ops ih =>
    intro e he hc hops
    have hrest : ∀ op ∈ ops, op.isCall :=
      fun op hm => hops op (List.mem_cons_of_mem _ hm)
    cases op with
    | idx t i =>
      obtain ⟨ht, hi⟩ : t ≠ SEG_BREAK ∧ 0 ≤ i := hops (Ev.idx t i) (List.mem_cons_self _ _)
      obtain ⟨h1, h2⟩ := emitIndex_events e t i ht hi he
      obtain ⟨h3, h4, h5⟩ := ih (emitIndex e t i) h1 (cutInv_emitIndex e t i ht hi hc) hrest
      refine ⟨h3, h4, ?_⟩
      show segEvents (emitOps (emitIndex e t i) ops).segs = _
      rw [h5, h2, List.append_assoc]
      rfl
    | brk pos =>
      obtain ⟨h3, h4, h5⟩ := ih (emitBreak e pos) (emitBreak_runOK e pos)
        (cutInv_emitBreak e pos hc) hrest
      refine ⟨h3, h4, ?_⟩
      show segEvents (emitOps (emitBreak e pos) ops).segs = _
      rw [h5, emitBreak_segs, segEvents_append, segEvents_singleton, List.append_assoc]
      simp [Segment.events]

theorem brk_mem_segEvents (l : List Segment) (sg : Segment) (h : sg ∈ l)
    (hb : sg.type = SEG_BREAK) : Ev.brk sg.start ∈ segEvents l := by
  induction l with
  | nil => cases h
  | cons a rest ih =>
    simp only [segEvents, List.mem_append]
    rcases List.mem_cons.1 h with h | h
    · left
      subst h
      simp [Segment.events, hb]
    · right
      exact ih h

theorem adjacentAll_imp_mem (R R2 : Segment → Segment → Prop) :
    ∀ (l : List Segment), (∀ a ∈ l, ∀ b ∈ l, R a b → R2 a b) → adjacentAll R l →
      adjacentAll R2 l := by
  intro l
  induction l with
  | nil => intro _ _; trivial
  | cons a rest ih =>
    cases rest with
    | nil => intro _ _; trivial
    | cons b rest =>
      intro himp h
      exact ⟨himp a (List.mem_cons_self _ _) b (List.mem_cons_of_mem _ (List.mem_cons_self _ _)) h.1,
        ih (fun x hx y hy => himp x (List.mem_cons_of_mem _ hx) y (List.mem_cons_of_mem _ hy)) h.2⟩

theorem tagged_map_idx (calls : List (Int × Int)) :
    (calls.map (fun c => Ev.idx c.1 c.2)).filterMap Ev.tagged = calls := by
  induction calls with
  | nil => rfl
  | cons c cs ih => simp [List.filterMap_cons, Ev.tagged, ih]

theorem emitted_spec (ops : List Ev) (hops : ∀ op ∈ ops, op.isCall) :
    segEvents (emitted ops) = ops ∧ adjacentAll Cut (emitted ops) := by
  obtain ⟨_, h2, h3⟩ := emitOps_spec ops Emitter.new runOK_new cutInv_new hops
  unfold emitted
  rw [flushRun_out]
  refine ⟨?_, h2.1⟩
  rw [h3, segs_new]
  rfl

/-- Claim C34 (run coalescing is lossless and maximal). Take any sequence of
`emitIndex(tag, index)` and `emitBreak(pos)` calls (tags other than `SEG_BREAK`, indices
non-negative, as every call of the program has them), made on an emitter with no open run
and followed by `flushRun`. Expanding the produced segments in order, each non-break
segment into its (tag, index) pairs and each `SEG_BREAK` into its position, gives back
exactly the sequence of calls; so for `emitIndex` calls alone the expansion is the
sequence of pairs. Every two consecutive produced non-break segments differ in tag or are
not contiguous. `emitBreak` flushes the open run before it appends the `SEG_BREAK` and
leaves no run open, so a pair emitted after a break starts a new segment even with the
same tag and the next index. -/
theorem run_coalescing (ops : List Ev) (calls : List (Int × Int)) (t i p : Int)
    (hops : ∀ op ∈ ops, op.isCall)
    (hcalls : ∀ c ∈ calls, c.1 ≠ SEG_BREAK ∧ 0 ≤ c.2)
    (hi : 0 ≤ i) :
    segEvents (emitted ops) = ops ∧
    adjacentAll Cut (emitted ops) ∧
    taggedIndices (emitted (calls.map (fun c => Ev.idx c.1 c.2))) = calls ∧
    (∀ sg ∈ emitted (calls.map (fun c => Ev.idx c.1 c.2)), sg.type ≠ SEG_BREAK) ∧
    adjacentAll (fun a b => a.type ≠ b.type ∨ a.end_ ≠ b.start)
      (emitted (calls.map (fun c => Ev.idx c.1 c.2))) ∧
    (∀ (e : Emitter) (pos : Int),
      (emitBreak e pos).out = (flushRun e).out ++ [⟨SEG_BREAK, pos, pos⟩] ∧
      (emitBreak e pos).runStart = -1) ∧
    emitted [Ev.idx t i, Ev.brk p, Ev.idx t (i + 1)] =
      [⟨t, i, i + 1⟩, ⟨SEG_BREAK, p, p⟩, ⟨t, i + 1, i + 2⟩] := by
  have hops2 : ∀ op ∈ calls.map (fun c => Ev.idx c.1 c.2), op.isCall := by
    intro op hm
    obtain ⟨c, hc, heq⟩ := List.mem_map.1 hm
    rw [← heq]
    exact hcalls c hc
  obtain ⟨h1, h2⟩ := emitted_spec ops hops
  obtain ⟨h3, h4⟩ := emitted_spec _ hops2
  have hnb : ∀ sg ∈ emitted (calls.map (fun c => Ev.idx c.1 c.2)), sg.type ≠ SEG_BREAK := by
    intro sg hsg hb
    have hm := brk_mem_segEvents _ sg hsg hb
    rw [h3] at hm
    obtain ⟨c, _, heq⟩ := List.mem_map.1 hm
    cases heq
  refine ⟨h1, h2, ?_, hnb, ?_, ?_, ?_⟩
  · unfold taggedIndices
    rw [h3]
    exact tagged_map_idx calls
  · refine adjacentAll_imp_mem Cut _ _ ?_ h4
    intro a ha b _ hcut
    by_cases hab : a.type = b.type
    · exact Or.inr (hcut ⟨hnb a ha, hab⟩)
    · exact Or.inl hab
  · intro e pos
    exact ⟨rfl, rfl⟩
  · have h0 : ¬ i + 1 < 0 := by omega
    have h01 : (0 : Int) ≤ i + 1 := by omega
    have h02 : i + 1 + 1 = i + 2 := by omega
    simp [emitted, emitOps, emitIndex, emitBreak, flushRun, Emitter.new, hi, h0, h01, h02]

/-- Claim C34 at a sequence of calls with a break between two pairs of the same tag and
consecutive indices. -/
theorem run_coalescing_witness :
    (∀ op ∈ [Ev.idx 18 0, Ev.idx 18 1, Ev.idx 10 2, Ev.brk 3, Ev.idx 10 3], op.isCall) ∧
    emitted [Ev.idx 18 0, Ev.idx 18 1, Ev.idx 10 2, Ev.brk 3, Ev.idx 10 3] =
      [⟨18, 0, 2⟩, ⟨10, 2, 3⟩, ⟨SEG_BREAK, 3, 3⟩, ⟨10, 3, 4⟩] ∧
    segEvents (emitted [Ev.idx 18 0, Ev.idx 18 1, Ev.idx 10 2, Ev.brk 3, Ev.idx 10 3]) =
      [Ev.idx 18 0, Ev.idx 18 1, Ev.idx 10 2, Ev.brk 3, Ev.idx 10 3] :=
  ⟨by decide, by decide,
    (run_coalescing [Ev.idx 18 0, Ev.idx 18 1, Ev.idx 10 2, Ev.brk 3, Ev.idx 10 3]
      [(18, 0), (18, 1), (10, 3)] 10 2 3 (by decide) (by decide) (by decide)).1⟩

/-- Claim C36 (reset clears all scratch), refuted as stated: the XML plugin and the plan
plugin, reset right after closing a region and then fed `<` with `atStartOfLine = false`,
go to TRYING, while the freshly initialised plugins of the same configuration stay IDLE. -/
theorem reset_clears_all_counterexample :
    ((((StreamXmlPlugin.new true).feed (asLine (u16 "<a>x</a>"))).reset.processChar
      ch_lt false).1.state_ = .TRYING ∧
    ((StreamXmlPlugin.new true).reset.processChar ch_lt false).1.state_ = .IDLE) ∧
    ((((StreamPlanExecutionPlugin.new true).feed (asLine (u16 "<plan>x</plan>"))).reset.processChar
      ch_lt false).1.state_ = .TRYING ∧
    ((StreamPlanExecutionPlugin.new true).reset.processChar ch_lt false).1.state_ = .IDLE) ∧
    ((((Plugin.xml (StreamXmlPlugin.new true)).run
        ((asLine (u16 "<a>x</a>")).map some)).reset.processChar ch_lt false).1.state = .TRYING ∧
      ((Plugin.xml ((StreamXmlPlugin.new true).feed (asLine (u16 "<a>x</a>")))).fresh.processChar
        ch_lt false).1.state = .IDLE) := by
  decide

/-- Claim C36 (reset), amended. After `reset()` every plugin is IDLE. Every plugin of
either roster other than the XML and the plan plugin is, after `reset()` in any state,
identical to a freshly initialised plugin of the same configuration, so its subsequent
states and keep decisions are those of the fresh plugin. The reset XML plugin differs
from the fresh one in the two allowance flags, which `reset()` keeps (and in the tables of
its end matcher, which are not used before a new closer is installed); the reset plan
plugin differs in its allowance flag (and keeps the tables of its end matcher, restarted
at match length 0). -/
theorem reset_against_fresh (q : Plugin) (x : StreamXmlPlugin) (pl : StreamPlanExecutionPlugin) :
    q.reset.state = .IDLE ∧
    (q.kind ≠ .xml → q.kind ≠ .planExecution → q.reset = q.fresh) ∧
    (∀ ops, q.kind ≠ .xml → q.kind ≠ .planExecution → q.reset.run ops = q.fresh.run ops) ∧
    x.reset = { StreamXmlPlugin.new x.includeTagsInOutput_ with
      allowStartAfterEndTag_ := x.allowStartAfterEndTag_,
      allowStartAfterPunctuation_ := x.allowStartAfterPunctuation_,
      endMatcher_ := x.endMatcher_.reset } ∧
    pl.reset = { StreamPlanExecutionPlugin.new pl.includeTagsInOutput_ with
      allowStartAfterEndTag_ := pl.allowStartAfterEndTag_,
      endMatcher_ := pl.endMatcher_.reset,
      endInited_ := pl.endInited_ } := by
  refine ⟨?_, ?_, ?_, rfl, rfl⟩
  · cases q <;> rfl
  · intro hx hp
    cases q <;> first | rfl | exact absurd rfl hx | exact absurd rfl hp
  · intro ops hx hp
    have : q.reset = q.fresh := by
      cases q <;> first | rfl | exact absurd rfl hx | exact absurd rfl hp
    rw [this]

/-! ## The plan plugin: the mid-line allowance -/

theorem plan_feed_cons (p : StreamPlanExecutionPlugin) (c : Nat) (sol : Bool)
    (xs : List (Nat × Bool)) :
    p.feed ((c, sol) :: xs) = StreamPlanExecutionPlugin.feed (p.processChar c sol).1 xs :=
  rfl

theorem plan_feed_append (xs ys : List (Nat × Bool)) (p : StreamPlanExecutionPlugin) :
    p.feed (xs ++ ys) = (p.feed xs).feed ys := by
  induction xs generalizing p with
  | nil => rfl
  | cons x xs ih => exact ih _

/-- After `<plan` the plan plugin stays TRYING over the attributes, any code units other
than `>`. -/
theorem plan_attrs (attrs : List (Nat × Bool)) (inc a : Bool) (m : KmpMatcher) (ei : Bool)
    (h : ∀ x ∈ attrs, x.1 ≠ ch_gt) :
    (StreamPlanExecutionPlugin.mk inc .TRYING a .MATCHING 5 m ei).feed attrs =
      StreamPlanExecutionPlugin.mk inc .TRYING a .MATCHING 5 m ei := by
  induction attrs with
  | nil => rfl
  | cons x xs ih =>
    obtain ⟨c, sol⟩ := x
    have hc : c ≠ ch_gt := h (c, sol) (List.mem_cons_self _ _)
    have hstep : ((StreamPlanExecutionPlugin.mk inc .TRYING a .MATCHING 5 m ei).processChar
        c sol).1 = StreamPlanExecutionPlugin.mk inc .TRYING a .MATCHING 5 m ei := by
      simp [StreamPlanExecutionPlugin.processChar, StreamPlanExecutionPlugin.processStart, hc]
    rw [plan_feed_cons, hstep]
    exact ih (fun y hy => h y (List.mem_cons_of_mem _ hy))

/-- The start tag `<plan`, fed to an idle plan plugin that accepts the `<`. -/
theorem plan_open_tag (inc a : Bool) (m : KmpMatcher) (ei : Bool) (s0 s1 s2 s3 s4 : Bool)
    (h : s0 = true ∨ a = true) :
    (StreamPlanExecutionPlugin.mk inc .IDLE a .IDLE 0 m ei).feed
        [(ch_lt, s0), (112, s1), (108, s2), (97, s3), (110, s4)] =
      StreamPlanExecutionPlugin.mk inc .TRYING a .MATCHING 5 m ei := by
  rcases h with h | h <;> subst h <;>
    simp [StreamPlanExecutionPlugin.feed, StreamPlanExecutionPlugin.processChar,
      StreamPlanExecutionPlugin.processStart, StreamPlanExecutionPlugin.kLit]

/-- Claim C33 (the plan mid-line allowance is one-shot). The allowance flag is unset in a
new plan plugin, kept by `reset`, and set only by the call that closes a plan block (the
end matcher fires while PROCESSING), which leaves the plugin IDLE. With the flag unset, an
idle plugin fed `<` with `atStartOfLine = false` stays as it is. Let `p` be idle with the
flag set, as after a close: any code unit other than `<` leaves it unchanged, and a `<`,
mid-line or not, makes it TRYING and starts an attempt, which stays TRYING while the code
units of `<plan` match. The attempt consumes the allowance however it ends. It fails at
the first code unit that differs from the next one of `<plan`, after `<`, `<p`, `<pl` or
`<pla` (`k` = 0, 1, 2, 3 letters matched): the plugin is then IDLE with the flag unset and
the start matcher at rest, and it ignores a later mid-line `<`. It succeeds after `<plan`,
any attributes and `>`: the plugin is PROCESSING with the flag unset. -/
theorem plan_allowance_one_shot (p q : StreamPlanExecutionPlugin) (d : Nat)
    (s0 s1 s2 s3 s4 s5 : Bool) (attrs : List (Nat × Bool))
    (hi : p.state_ = .IDLE) (hs : p.startState_ = .IDLE) (hm : p.startMatchIndex_ = 0)
    (ha : p.allowStartAfterEndTag_ = true)
    (hd : d ≠ ch_lt) (hattrs : ∀ x ∈ attrs, x.1 ≠ ch_gt) :
    (∀ b, (StreamPlanExecutionPlugin.new b).allowStartAfterEndTag_ = false) ∧
    q.reset.allowStartAfterEndTag_ = q.allowStartAfterEndTag_ ∧
    (∀ x sol, q.allowStartAfterEndTag_ = false →
      (q.processChar x sol).1.allowStartAfterEndTag_ = true →
      q.state_ = .PROCESSING ∧ (q.endMatcher_.process x).2 = true) ∧
    (∀ x sol, q.state_ = .PROCESSING → q.endInited_ = true →
      (q.endMatcher_.process x).2 = true →
      (q.processChar x sol).1.allowStartAfterEndTag_ = true ∧
      (q.processChar x sol).1.state_ = .IDLE ∧
      (q.processChar x sol).1.startState_ = .IDLE ∧
      (q.processChar x sol).1.startMatchIndex_ = 0) ∧
    (q.allowStartAfterEndTag_ = false → q.state_ = .IDLE → q.processChar ch_lt false = (q, true)) ∧
    (∀ sol, (p.processChar d sol).1 = p) ∧
    (p.processChar ch_lt s0).1.state_ = .TRYING ∧
    (∀ (k : Nat) (fl : Nat → Bool), k ≤ 4 →
      (p.feed ((ch_lt, s0) ::
        (List.range k).map (fun i => ([112, 108, 97, 110].getD i 0, fl i)))).state_ = .TRYING) ∧
    (∀ (k c : Nat) (fl : Nat → Bool), k < 4 → c ≠ [112, 108, 97, 110].getD k 0 →
      (p.feed ((ch_lt, s0) ::
        ((List.range k).map (fun i => ([112, 108, 97, 110].getD i 0, fl i)) ++
          [(c, fl k)]))).state_ = .IDLE ∧
      (p.feed ((ch_lt, s0) ::
        ((List.range k).map (fun i => ([112, 108, 97, 110].getD i 0, fl i)) ++
          [(c, fl k)]))).allowStartAfterEndTag_ = false ∧
      (p.feed ((ch_lt, s0) ::
        ((List.range k).map (fun i => ([112, 108, 97, 110].getD i 0, fl i)) ++
          [(c, fl k)]))).startState_ = .IDLE ∧
      (p.feed ((ch_lt, s0) ::
        ((List.range k).map (fun i => ([112, 108, 97, 110].getD i 0, fl i)) ++
          [(c, fl k)]))).startMatchIndex_ = 0 ∧
      (p.feed ((ch_lt, s0) ::
        ((List.range k).map (fun i => ([112, 108, 97, 110].getD i 0, fl i)) ++
          [(c, fl k)]))).processChar ch_lt false =
        (p.feed ((ch_lt, s0) ::
          ((List.range k).map (fun i => ([112, 108, 97, 110].getD i 0, fl i)) ++
            [(c, fl k)])), true)) ∧
    (p.feed ([(ch_lt, s0), (112, s1), (108, s2), (97, s3), (110, s4)] ++ attrs ++
      [(ch_gt, s5)])).state_ = .PROCESSING ∧
    (p.feed ([(ch_lt, s0), (112, s1), (108, s2), (97, s3), (110, s4)] ++ attrs ++
      [(ch_gt, s5)])).allowStartAfterEndTag_ = false := by
  obtain ⟨inc, st, al, ss, mi, em, ei⟩ := p
  simp only at hi hs hm ha
  subst hi hs hm ha
  have hopen := plan_open_tag inc true em ei s0 s1 s2 s3 s4 (Or.inr rfl)
  have hattr := plan_attrs attrs inc true em ei hattrs
  have hfeed : (StreamPlanExecutionPlugin.mk inc .IDLE true .IDLE 0 em ei).feed
      ([(ch_lt, s0), (112, s1), (108, s2), (97, s3), (110, s4)] ++ attrs ++ [(ch_gt, s5)]) =
      StreamPlanExecutionPlugin.mk inc .PROCESSING false .IDLE 0 em.reset ei := by
    rw [plan_feed_append, plan_feed_append, hopen, hattr]
    simp [StreamPlanExecutionPlugin.feed, StreamPlanExecutionPlugin.processChar,
      StreamPlanExecutionPlugin.processStart]
  have hfail : ∀ (k c : Nat) (fl : Nat → Bool), k < 4 → c ≠ [112, 108, 97, 110].getD k 0 →
      (StreamPlanExecutionPlugin.mk inc .IDLE true .IDLE 0 em ei).feed ((ch_lt, s0) ::
        ((List.range k).map (fun i => ([112, 108, 97, 110].getD i 0, fl i)) ++ [(c, fl k)])) =
      StreamPlanExecutionPlugin.mk inc .IDLE false .IDLE 0 em.reset ei := by
    intro k c fl hk hc
    interval_cases k <;>
      simp [List.range_succ, StreamPlanExecutionPlugin.feed,
        StreamPlanExecutionPlugin.processChar, StreamPlanExecutionPlugin.processStart,
        StreamPlanExecutionPlugin.resetInternal, StreamPlanExecutionPlugin.kLit] at hc ⊢ <;>
      simp [hc]
  refine ⟨fun b => rfl, rfl, ?_, ?_, ?_, ?_, ?_, ?_, ?_, ?_, ?_⟩
  · intro x sol hq hr
    by_cases hp : q.state_ = .PROCESSING
    · refine ⟨hp, ?_⟩
      by_contra hn
      by_cases he : q.endInited_ = true
      · simp [StreamPlanExecutionPlugin.processChar, hp, he, hn, hq] at hr
      · simp [StreamPlanExecutionPlugin.processChar, hp, he, hq] at hr
    · exfalso
      simp only [StreamPlanExecutionPlugin.processChar, if_neg hp] at hr
      split at hr
      · rw [hq] at hr; cases hr
      · simp only [StreamPlanExecutionPlugin.processStart,
          StreamPlanExecutionPlugin.resetInternal] at hr
        split_ifs at hr <;> simp_all
  · intro x sol hp he hf
    simp [StreamPlanExecutionPlugin.processChar, StreamPlanExecutionPlugin.resetInternal,
      hp, he, hf]
  · intro hq hq2
    simp [StreamPlanExecutionPlugin.processChar, hq, hq2]
  · intro sol
    cases sol <;>
      simp [StreamPlanExecutionPlugin.processChar, StreamPlanExecutionPlugin.processStart, hd]
  · cases s0 <;>
      simp [StreamPlanExecutionPlugin.processChar, StreamPlanExecutionPlugin.processStart]
  · intro k fl hk
    interval_cases k <;> cases s0 <;>
      simp [List.range_succ, StreamPlanExecutionPlugin.feed,
        StreamPlanExecutionPlugin.processChar, StreamPlanExecutionPlugin.processStart,
        StreamPlanExecutionPlugin.kLit]
  · intro k c fl hk hc
    rw [hfail k c fl hk hc]
    refine ⟨rfl, rfl, rfl, rfl, ?_⟩
    simp [StreamPlanExecutionPlugin.processChar]
  · rw [hfeed]
  · rw [hfeed]

/-- Claim C33 at the plan plugin that has closed the block `<plan>x</plan>`: it is idle
with the allowance set; a mid-line `<x`, and likewise `<p>` and `<pla `, consume the
allowance, so that the next mid-line `<` is ignored; a mid-line `<plan a>` opens a new
block. -/
theorem plan_allowance_one_shot_witness :
    ((StreamPlanExecutionPlugin.new true).feed (asLine (u16 "<plan>x</plan>"))).state_ = .IDLE ∧
    ((StreamPlanExecutionPlugin.new true).feed
      (asLine (u16 "<plan>x</plan>"))).allowStartAfterEndTag_ = true ∧
    ((StreamPlanExecutionPlugin.new true).feed (asLine (u16 "<plan>x</plan><x"))).state_ = .IDLE ∧
    ((StreamPlanExecutionPlugin.new true).feed
      (asLine (u16 "<plan>x</plan><x<"))).state_ = .IDLE ∧
    ((StreamPlanExecutionPlugin.new true).feed
      (asLine (u16 "<plan>x</plan><p><"))).state_ = .IDLE ∧
    ((StreamPlanExecutionPlugin.new true).feed
      (asLine (u16 "<plan>x</plan><pla <"))).state_ = .IDLE ∧
    ((StreamPlanExecutionPlugin.new true).feed
      (asLine (u16 "<plan>x</plan><"))).state_ = .TRYING ∧
    (((StreamPlanExecutionPlugin.new true).feed (asLine (u16 "<plan>x</plan>"))).feed
      ((ch_lt, false) :: ((List.range 1).map
        (fun i => ([112, 108, 97, 110].getD i 0, false)) ++ [(ch_gt, false)]))).allowStartAfterEndTag_
      = false ∧
    (((StreamPlanExecutionPlugin.new true).feed (asLine (u16 "<plan>x</plan>"))).feed
      ([(ch_lt, false), (112, false), (108, false), (97, false), (110, false)] ++
        [(32, false), (97, false)] ++ [(ch_gt, false)])).state_ = .PROCESSING :=
  ⟨by decide, by decide, by decide, by decide, by decide, by decide, by decide,
    ((plan_allowance_one_shot
      ((StreamPlanExecutionPlugin.new true).feed (asLine (u16 "<plan>x</plan>")))
      (StreamPlanExecutionPlugin.new true) 97 false false false false false false
      [(32, false), (97, false)]
      (by decide) (by decide) (by decide) (by decide) (by decide)
      (by decide)).2.2.2.2.2.2.2.2.1 1 ch_gt (fun _ => false) (by decide) (by decide)).2.1,
    (plan_allowance_one_shot
      ((StreamPlanExecutionPlugin.new true).feed (asLine (u16 "<plan>x</plan>")))
      (StreamPlanExecutionPlugin.new true) 97 false false false false false false
      [(32, false), (97, false)]
      (by decide) (by decide) (by decide) (by decide) (by decide)
      (by decide)).2.2.2.2.2.2.2.2.2.1⟩

/-! ## Re-emitting the events of a push -/

theorem emitOps_append (a b : List Ev) : ∀ (e : Emitter), emitOps e (a ++ b) = emitOps (emitOps e a) b := by
  induction a with
  | nil => intro e; rfl
  | cons op a ih =>
    intro e
    cases op with
    | idx t i => exact ih _
    | brk p => exact ih _

/-- Emitting the pairs of a non-empty run `[s, s + n + 1)` of tag `t` on an emitter whose
open run, if any, the first pair does not extend, closes that run and leaves the run
`(t, s, s + n + 1)` open. -/
theorem emitOps_run (t s : Int) (hs : 0 ≤ s) (n : Nat) :
    ∀ (e : Emitter), (0 ≤ e.runStart → e.runTag ≠ t ∨ e.runEnd ≠ s) →
      emitOps e ((List.range (n + 1)).map (fun (k : Nat) => Ev.idx t (s + (k : Int)))) =
        { out := (flushRun e).out, runTag := t, runStart := s, runEnd := s + (n : Int) + 1 } := by
  induction n with
  | zero =>
    intro e he
    have hr : List.range (0 + 1) = [0] := rfl
    rw [hr]
    simp only [List.map_cons, List.map_nil, emitOps, Nat.cast_zero, Int.add_zero]
    rcases emitIndex_cases e t s with ⟨h1, h2, h3, _⟩ | ⟨h1, _, heq⟩ | ⟨h1, heq⟩
    · rcases he h1 with h | h
      · exact absurd h2 h
      · exact absurd h3 h
    · rw [heq]
      simp [flushRun, h1]
    · rw [heq]
      simp [flushRun, not_le.2 h1]
  | succ n ih =>
    intro e he
    rw [List.range_succ, List.map_append, emitOps_append, ih e he]
    simp only [List.map_cons, List.map_nil, emitOps]
    rcases emitIndex_cases (Emitter.mk (flushRun e).out t s (s + (n : Int) + 1)) t
      (s + ((n + 1 : Nat) : Int)) with ⟨_, _, _, heq⟩ | ⟨_, h2, _⟩ | ⟨h1, _⟩
    · rw [heq]
    · simp only at h2
      rcases h2 with h | h
      · exact absurd rfl h
      · exfalso; apply h; push_cast; omega
    · simp only at h1
      omega

/-- Re-emitting the events of a well-formed segment sequence whose neighbours of the same
tag are not contiguous gives the sequence back, after whatever the emitter already held. -/
theorem emitOps_segEvents (l : List Segment) :
    ∀ (e : Emitter) (lo hi : Int), 0 ≤ lo → SegsOK lo hi l → e.RunOK →
      adjacentAll Cut (e.runSeg ++ l) →
      (flushRun (emitOps e (segEvents l))).out = (flushRun e).out ++ l := by
  induction l with
  | nil => intro e lo hi _ _ _ _; simp [segEvents, emitOps]
  | cons sg rest ih =>
    intro e lo hi hlo hok he hadj
    unfold SegsOK at hok
    simp only [segEvents]
    rw [emitOps_append]
    by_cases hb : sg.type = SEG_BREAK
    · rw [if_pos hb] at hok
      have hev : sg.events = [Ev.brk sg.start] := by simp [Segment.events, hb]
      have hclosed : (emitBreak e sg.start).runStart < 0 := by simp [emitBreak, flushRun]
      have hrs : (emitBreak e sg.start).runSeg = [] := by
        simp [Emitter.runSeg, not_le.2 hclosed]
      have hadj2 : adjacentAll Cut ((emitBreak e sg.start).runSeg ++ rest) := by
        rw [hrs, List.nil_append]
        cases hrun : e.runSeg with
        | nil => rw [hrun, List.nil_append] at hadj
                 cases rest with
                 | nil => trivial
                 | cons b rest => exact hadj.2
        | cons r rs =>
          have hlen : e.runSeg.length ≤ 1 := by
            unfold Emitter.runSeg; split <;> simp
          rw [hrun] at hadj hlen
          cases rs with
          | nil =>
            cases rest with
            | nil => trivial
            | cons b rest => exact hadj.2.2
          | cons r2 rs => simp at hlen
      rw [hev]
      simp only [emitOps]
      rw [ih (emitBreak e sg.start) lo hi hlo hok.2 (emitBreak_runOK e sg.start) hadj2]
      have hsg : sg = ⟨SEG_BREAK, sg.start, sg.start⟩ := by
        cases sg
        simp only at hb hok
        simp only [Segment.mk.injEq, true_and]
        exact ⟨hb, hok.1.symm⟩
      have : (flushRun (emitBreak e sg.start)).out = (flushRun e).out ++ [sg] := by
        rw [hsg]
        simp [emitBreak, flushRun]
      rw [this, List.append_assoc]
      rfl
    · rw [if_neg hb] at hok
      obtain ⟨⟨h1, h2⟩, h3⟩ := hok
      have hn : ∃ n : Nat, (sg.end_ - sg.start).toNat = n + 1 ∧ sg.end_ = sg.start + (n : Int) + 1 :=
        ⟨(sg.end_ - sg.start).toNat - 1, by omega, by omega⟩
      obtain ⟨n, hn1, hn2⟩ := hn
      have hev : sg.events =
          (List.range (n + 1)).map (fun (k : Nat) => Ev.idx sg.type (sg.start + (k : Int))) := by
        simp only [Segment.events, if_neg hb, hn1]
      have hne : 0 ≤ e.runStart → e.runTag ≠ sg.type ∨ e.runEnd ≠ sg.start := by
        intro h0
        have hrs : e.runSeg = [⟨e.runTag, e.runStart, e.runEnd⟩] := by
          simp [Emitter.runSeg, h0]
        rw [hrs] at hadj
        have hcut : Cut ⟨e.runTag, e.runStart, e.runEnd⟩ sg := hadj.1
        by_cases ht : e.runTag = sg.type
        · exact Or.inr (hcut ⟨(he h0).2, ht⟩)
        · exact Or.inl ht
      rw [hev, emitOps_run sg.type sg.start (by omega) n e hne, ← hn2]
      have he2 : (Emitter.mk (flushRun e).out sg.type sg.start sg.end_).RunOK :=
        fun _ => ⟨h2, hb⟩
      have hrs2 : (Emitter.mk (flushRun e).out sg.type sg.start sg.end_).runSeg = [sg] := by
        simp [Emitter.runSeg, show (0 : Int) ≤ sg.start by omega]
      have hadj2 : adjacentAll Cut
          ((Emitter.mk (flushRun e).out sg.type sg.start sg.end_).runSeg ++ rest) := by
        rw [hrs2]
        cases hrun : e.runSeg with
        | nil => rw [hrun] at hadj; exact hadj
        | cons r rs =>
          have hlen : e.runSeg.length ≤ 1 := by
            unfold Emitter.runSeg; split <;> simp
          rw [hrun] at hadj hlen
          cases rs with
          | nil => exact hadj.2
          | cons r2 rs => simp at hlen
      rw [ih _ sg.end_ hi (by omega) h3 he2 hadj2]
      have : (flushRun (Emitter.mk (flushRun e).out sg.type sg.start sg.end_)).out =
          (flushRun e).out ++ [sg] := by
        simp [flushRun, show (0 : Int) ≤ sg.start by omega]
      rw [this, List.append_assoc]
      rfl

theorem cut_of_noAbut (l : List Segment) (h : noAbut l) : adjacentAll Cut l := by
  induction l with
  | nil => trivial
  | cons a rest ih =>
    cases rest with
    | nil => trivial
    | cons b rest =>
      refine ⟨fun hs => ?_, ih h.2⟩
      have := h.1 hs
      omega

theorem segsOK_break_wf (l : List Segment) : ∀ (lo hi : Int), SegsOK lo hi l →
    ∀ sg ∈ l, sg.type = SEG_BREAK → sg.start = sg.end_ := by
  induction l with
  | nil => intro _ _ _ sg h; cases h
  | cons a rest ih =>
    intro lo hi h sg hsg hb
    unfold SegsOK at h
    rcases List.mem_cons.1 hsg with heq | hmem
    · subst heq
      rw [if_pos hb] at h
      exact h.1
    · by_cases ha : a.type = SEG_BREAK
      · rw [if_pos ha] at h
        exact ih lo hi h.2 sg hmem hb
      · rw [if_neg ha] at h
        exact ih _ hi h.2 sg hmem hb

/-- The break segments of a sequence whose breaks have `start = end` can be read off the
events. -/
theorem breakSegs_of_events (l : List Segment)
    (h : ∀ sg ∈ l, sg.type = SEG_BREAK → sg.start = sg.end_) :
    breakSegs l = (segEvents l).filterMap Ev.breakSeg := by
  induction l with
  | nil => rfl
  | cons a rest ih =>
    have ih2 := ih (fun sg hsg => h sg (List.mem_cons_of_mem _ hsg))
    simp only [segEvents, List.filterMap_append]
    by_cases ha : a.type = SEG_BREAK
    · have hwf := h a (List.mem_cons_self _ _) ha
      have hev : a.events = [Ev.brk a.start] := by simp [Segment.events, ha]
      have hself : a = ⟨SEG_BREAK, a.start, a.start⟩ := by
        cases a
        simp only at ha hwf
        simp only [Segment.mk.injEq, true_and]
        exact ⟨ha, hwf.symm⟩
      rw [hev, ← ih2]
      simp only [breakSegs, List.filter_cons, ha, decide_True, if_true, List.filterMap_cons,
        Ev.breakSeg, List.filterMap_nil, List.singleton_append, List.cons.injEq, and_true]
      exact hself
    · have hev : a.events.filterMap Ev.breakSeg = [] := by
        simp only [Segment.events, if_neg ha]
        rw [List.filterMap_eq_nil_iff]
        intro x hx
        obtain ⟨k, _, hk⟩ := List.mem_map.1 hx
        rw [← hk]
        rfl
      rw [hev, ← ih2]
      simp [breakSegs, List.filter_cons, ha]

theorem pushAll_break_wf (chunks : List (List Nat)) :
    ∀ (s : MarkdownSession), SessInv s → s.pendingChars_ = [] →
      ∀ sg ∈ (pushAll s chunks).2, sg.type = SEG_BREAK → sg.start = sg.end_ := by
  induction chunks with
  | nil => intro s _ _ sg h; cases h
  | cons c cs ih =>
    intro s hs _ sg hsg hb
    obtain ⟨h1, h2, h3, _⟩ := push_inv s c (lowMark s) hs (le_refl _)
    have hsg2 : sg ∈ (s.push c).2 ++ (pushAll (s.push c).1 cs).2 := hsg
    rcases List.mem_append.1 hsg2 with hm | hm
    · exact segsOK_break_wf _ _ _ h3 sg hm hb
    · exact ih _ h1 h2 sg hm hb

/-- Claim C37 (per-index output is independent of chunking). For every sequence of chunks
(empty chunks allowed) and both rosters, the concatenated outputs of the chunked pushes
and the output of the single push of the concatenation have the same events: the same
(tag, index) pairs from the non-break segments, interleaved with the same breaks, in the
same order; so they have the same sequence of `SEG_BREAK` segments and assign the same
tag to each index. The outputs differ only in how runs are cut: coalescing the chunked
output again (emitting its events on a fresh emitter) gives the single-push output. -/
theorem chunking_same_events (s0 : MarkdownSession)
    (hs0 : s0 = createMarkdownBlockSession ∨ s0 = createMarkdownInlineSession)
    (chunks : List (List Nat)) :
    segEvents (pushAll s0 chunks).2 = segEvents (s0.push chunks.flatten).2 ∧
    breakSegs (pushAll s0 chunks).2 = breakSegs (s0.push chunks.flatten).2 ∧
    taggedIndices (pushAll s0 chunks).2 = taggedIndices (s0.push chunks.flatten).2 ∧
    emitted (segEvents (pushAll s0 chunks).2) = (s0.push chunks.flatten).2 := by
  have h0 : CallOK s0 ∧ SessInv s0 ∧ TagInv s0 ∧ s0.pendingChars_ = [] ∧ lowMark s0 = 0 := by
    rcases hs0 with h | h <;> rw [h]
    · exact ⟨callOK_block, sessInv_block, tagInv_block, rfl, lowMark_block⟩
    · exact ⟨callOK_inline, sessInv_inline, tagInv_inline, rfl, lowMark_inline⟩
  obtain ⟨hc, hs, ht, hp, hl⟩ := h0
  have hev := (pushAll_join chunks s0 hc hp).2
  obtain ⟨_, _, hok, _⟩ := push_inv s0 chunks.flatten (lowMark s0) hs (le_refl _)
  have hgap := (push_gap s0 chunks.flatten hs ht).1
  refine ⟨hev, ?_, ?_, ?_⟩
  · rw [breakSegs_of_events _ (pushAll_break_wf chunks s0 hs hp),
      breakSegs_of_events _ (segsOK_break_wf _ _ _ hok), hev]
  · unfold taggedIndices
    rw [hev]
  · rw [hev]
    have := emitOps_segEvents (s0.push chunks.flatten).2 Emitter.new (lowMark s0) _
      (by rw [hl]) hok runOK_new (by
        have hrs : Emitter.new.runSeg = [] := by simp [Emitter.runSeg, Emitter.new]
        rw [hrs, List.nil_append]
        exact cut_of_noAbut _ hgap)
    unfold emitted
    rw [this]
    simp [flushRun, Emitter.new]

/-- Claim C37 at the header line of the first scenario pushed in two chunks: the chunked
output cuts the HEADER run at the push boundary, and coalescing gives the single-push
output. -/
theorem chunking_same_events_witness :
    (createMarkdownBlockSession = createMarkdownBlockSession ∨
      createMarkdownBlockSession = createMarkdownInlineSession) ∧
    (pushAll createMarkdownBlockSession [u16 "# ", u16 "H\nX"]).2 =
      [⟨MD_HEADER, 0, 2⟩, ⟨MD_HEADER, 2, 4⟩, ⟨SEG_BREAK, 4, 4⟩, ⟨MD_PLAIN_TEXT, 4, 5⟩] ∧
    (createMarkdownBlockSession.push [u16 "# ", u16 "H\nX"].flatten).2 =
      [⟨MD_HEADER, 0, 4⟩, ⟨SEG_BREAK, 4, 4⟩, ⟨MD_PLAIN_TEXT, 4, 5⟩] ∧
    emitted (segEvents (pushAll createMarkdownBlockSession [u16 "# ", u16 "H\nX"]).2) =
      (createMarkdownBlockSession.push [u16 "# ", u16 "H\nX"].flatten).2 :=
  ⟨Or.inl rfl, by decide, by decide,
    (chunking_same_events createMarkdownBlockSession (Or.inl rfl)
      [u16 "# ", u16 "H\nX"]).2.2.2⟩

/-! ## `splitByXml` tiles its input -/

theorem tiles_concat (sg : Segment) (hlt : sg.start < sg.end_) (ht : sg.type = 0 ∨ sg.type = 1) :
    ∀ (l : List Segment) (a : Int), Tiles a l sg.start → Tiles a (l ++ [sg]) sg.end_ := by
  intro l
  induction l with
  | nil =>
    intro a h
    exact ⟨h.symm, hlt, ht, rfl⟩
  | cons x rest ih =>
    intro a h
    exact ⟨h.1, h.2.1, h.2.2.1, ih _ h.2.2.2⟩

theorem tiles_mem (l : List Segment) : ∀ (a b : Int), Tiles a l b →
    ∀ sg ∈ l, (sg.type = 0 ∨ sg.type = 1) ∧ sg.start < sg.end_ := by
  induction l with
  | nil => intro _ _ _ sg h; cases h
  | cons x rest ih =>
    intro a b h sg hsg
    rcases List.mem_cons.1 hsg with heq | hm
    · subst heq
      exact ⟨h.2.2.1, h.2.1⟩
    · exact ih _ _ h.2.2.2 sg hm

theorem splitInv_init :
    SplitInv { segments := [], xmlPlugin := (StreamXmlPlugin.new true).reset,
               activePlugin := false, activeStart := -1, defaultStart := 0, evalStart := -1,
               atStartOfLine := true } 0 :=
  ⟨rfl, trivial, le_refl _, le_refl _, fun h => (by cases h),
    fun _ => ⟨Or.inl rfl, fun y hy => (by cases hy)⟩⟩

/-- One iteration of the loop of `splitByXml` keeps the invariant. -/
theorem splitInv_step (x : XmlSplit) (i : Int) (c : Nat) (h : SplitInv x i) :
    SplitInv (x.step i c) (i + 1) := by
  obtain ⟨htiles, hadj, hlo, hhi, hact, hidle⟩ := h
  unfold XmlSplit.step
  simp only []
  by_cases ha : x.activePlugin = true
  · obtain ⟨h1, h2, h3⟩ := hact ha
    rw [if_pos ha]
    split
    · have hcond : x.activePlugin = true ∧ 0 ≤ x.activeStart ∧ x.activeStart < i + 1 :=
        ⟨ha, by omega, by omega⟩
      simp only [XmlSplit.closeActive, if_pos hcond]
      refine ⟨?_, ?_, ?_, le_refl _, ?_, ?_⟩
      · exact tiles_concat ⟨1, x.activeStart, i + 1⟩ (by simp only; omega) (Or.inr rfl)
          x.segments 0 (by rw [h1]; exact htiles)
      · show adjacentAll NotBothDefault (x.segments ++ [⟨1, x.activeStart, i + 1⟩])
        rw [adjacentAll_concat]
        exact ⟨hadj, fun y _ hh => (by cases hh.2)⟩
      · show (0 : Int) ≤ i + 1
        omega
      · intro hh
        cases hh
      · intro _
        refine ⟨Or.inl h3, ?_⟩
        intro y hy
        simp only [List.getLast?_concat, Option.mem_def, Option.some.injEq] at hy
        rw [← hy]
    · refine ⟨htiles, hadj, hlo, ?_, ?_, ?_⟩
      · show x.defaultStart ≤ i + 1
        omega
      · intro _
        refine ⟨h1, ?_, h3⟩
        show x.activeStart < i + 1
        omega
      · intro hh
        have hh2 : x.activePlugin = false := hh
        rw [ha] at hh2
        cases hh2
  · have ha2 : x.activePlugin = false := by
      cases hx : x.activePlugin
      · rfl
      · exact absurd hx ha
    obtain ⟨hev, hlast⟩ := hidle ha2
    rw [if_neg ha]
    have hseg : ∀ (y : XmlSplit), y = (if x.evalStart = -1 then
        ({ x with atStartOfLine := decide (c = ch_nl), evalStart := i } : XmlSplit)
        else { x with atStartOfLine := decide (c = ch_nl) }) →
        y.segments = x.segments ∧ y.defaultStart = x.defaultStart ∧
        y.activePlugin = x.activePlugin ∧
        x.defaultStart ≤ y.evalStart ∧ y.evalStart < i + 1 := by
      intro y hy
      rw [hy]
      split
      · exact ⟨rfl, rfl, rfl, hhi, by show i < i + 1; omega⟩
      · next hne =>
        rcases hev with h | h
        · exact absurd h hne
        · exact ⟨rfl, rfl, rfl, h.1, by show x.evalStart < i + 1; omega⟩
    generalize hx1 : (if x.evalStart = -1 then
        ({ x with atStartOfLine := decide (c = ch_nl), evalStart := i } : XmlSplit)
        else { x with atStartOfLine := decide (c = ch_nl) }) = x1
    obtain ⟨e1, e2, e3, e4, e5⟩ := hseg x1 hx1.symm
    split
    · simp only [XmlSplit.openActive, XmlSplit.flushDefaultIfNeeded]
      by_cases hd : x1.defaultStart < x1.evalStart
      · simp only [if_pos hd]
        refine ⟨?_, ?_, ?_, ?_, ?_, ?_⟩
        · exact tiles_concat ⟨0, x1.defaultStart, x1.evalStart⟩ hd (Or.inl rfl)
            x1.segments 0 (by rw [e1, e2]; exact htiles)
        · show adjacentAll NotBothDefault (x1.segments ++ [⟨0, x1.defaultStart, x1.evalStart⟩])
          rw [adjacentAll_concat, e1]
          refine ⟨hadj, fun y hy hh => ?_⟩
          have := hlast y hy
          rw [this] at hh
          cases hh.1
        · show (0 : Int) ≤ x1.evalStart
          omega
        · show x1.evalStart ≤ i + 1
          omega
        · intro _
          exact ⟨rfl, e5, rfl⟩
        · intro hh
          cases hh
      · simp only [if_neg hd]
        have heq : x1.evalStart = x.defaultStart := by omega
        refine ⟨?_, ?_, ?_, ?_, ?_, ?_⟩
        · show Tiles 0 x1.segments x1.evalStart
          rw [e1, heq]
          exact htiles
        · show adjacentAll NotBothDefault x1.segments
          rw [e1]
          exact hadj
        · show (0 : Int) ≤ x1.evalStart
          omega
        · show x1.evalStart ≤ i + 1
          omega
        · intro _
          exact ⟨rfl, e5, rfl⟩
        · intro hh
          cases hh
    · split
      · refine ⟨?_, ?_, ?_, ?_, ?_, ?_⟩
        · show Tiles 0 x1.segments x1.defaultStart
          rw [e1, e2]; exact htiles
        · show adjacentAll NotBothDefault x1.segments
          rw [e1]; exact hadj
        · show (0 : Int) ≤ x1.defaultStart
          omega
        · show x1.defaultStart ≤ i + 1
          omega
        · intro hh
          have hh2 : x1.activePlugin = true := hh
          rw [e3, ha2] at hh2
          cases hh2
        · intro _
          refine ⟨Or.inl rfl, ?_⟩
          show ∀ y ∈ x1.segments.getLast?, y.type = 1
          rw [e1]; exact hlast
      · refine ⟨?_, ?_, ?_, ?_, ?_, ?_⟩
        · show Tiles 0 x1.segments x1.defaultStart
          rw [e1, e2]; exact htiles
        · show adjacentAll NotBothDefault x1.segments
          rw [e1]; exact hadj
        · show (0 : Int) ≤ x1.defaultStart
          omega
        · show x1.defaultStart ≤ i + 1
          omega
        · intro hh
          have hh2 : x1.activePlugin = true := hh
          rw [e3, ha2] at hh2
          cases hh2
        · intro _
          refine ⟨Or.inr ⟨?_, ?_⟩, ?_⟩
          · show x1.defaultStart ≤ x1.evalStart
            omega
          · show x1.evalStart < i + 1
            exact e5
          · show ∀ y ∈ x1.segments.getLast?, y.type = 1
            rw [e1]; exact hlast

theorem splitInv_loop (chars : List Nat) : ∀ (x : XmlSplit) (i : Int), SplitInv x i →
    SplitInv (XmlSplit.loop x i chars) (i + chars.length) := by
  induction chars with
  | nil => intro x i h; simpa [XmlSplit.loop] using h
  | cons c cs ih =>
    intro x i h
    have := ih (x.step i c) (i + 1) (splitInv_step x i c h)
    simp only [List.length_cons, Nat.cast_add, Nat.cast_one]
    rw [show i + ((cs.length : Int) + 1) = i + 1 + (cs.length : Int) by omega]
    exact this

/-- The final calls of `splitByXml` on a state in the invariant at `len` complete the
tiling of `[0, len)`. -/
theorem splitInv_finish (x : XmlSplit) (len : Int) (h : SplitInv x len) :
    Tiles 0 ((if x.activePlugin then { x.closeActive len with defaultStart := len }
      else x).flushDefaultIfNeeded len).segments len ∧
    adjacentAll NotBothDefault ((if x.activePlugin then
      { x.closeActive len with defaultStart := len } else x).flushDefaultIfNeeded len).segments := by
  obtain ⟨htiles, hadj, hlo, hhi, hact, hidle⟩ := h
  by_cases ha : x.activePlugin = true
  · obtain ⟨h1, h2, h3⟩ := hact ha
    have hcond : x.activePlugin = true ∧ 0 ≤ x.activeStart ∧ x.activeStart < len :=
      ⟨ha, by omega, h2⟩
    rw [if_pos ha]
    simp only [XmlSplit.closeActive, if_pos hcond, XmlSplit.flushDefaultIfNeeded,
      lt_irrefl, if_false]
    constructor
    · exact tiles_concat ⟨1, x.activeStart, len⟩ h2 (Or.inr rfl) x.segments 0
        (by rw [h1]; exact htiles)
    · show adjacentAll NotBothDefault (x.segments ++ [⟨1, x.activeStart, len⟩])
      rw [adjacentAll_concat]
      exact ⟨hadj, fun y _ hh => (by cases hh.2)⟩
  · have ha2 : x.activePlugin = false := by
      cases hx : x.activePlugin
      · rfl
      · exact absurd hx ha
    obtain ⟨_, hlast⟩ := hidle ha2
    simp only [ha2, Bool.false_eq_true, if_false, XmlSplit.flushDefaultIfNeeded]
    by_cases hd : x.defaultStart < len
    · simp only [if_pos hd]
      constructor
      · exact tiles_concat ⟨0, x.defaultStart, len⟩ hd (Or.inl rfl) x.segments 0 htiles
      · rw [adjacentAll_concat]
        refine ⟨hadj, fun y hy hh => ?_⟩
        have := hlast y hy
        rw [this] at hh
        cases hh.1
    · simp only [if_neg hd]
      have : x.defaultStart = len := by omega
      rw [← this]
      exact ⟨htiles, hadj⟩

/-- What `Tiles` says in the words of positions: the first segment starts at `a`, the last
ends at `b`, and each next segment starts where the one before ends. -/
theorem tiles_spelled (l : List Segment) : ∀ (a b : Int), Tiles a l b →
    (∀ sg ∈ l.head?, sg.start = a) ∧ (∀ sg ∈ l.getLast?, sg.end_ = b) ∧
    adjacentAll (fun x y => x.end_ = y.start) l := by
  induction l with
  | nil =>
    intro a b _
    exact ⟨fun sg h => (by cases h), fun sg h => (by cases h), trivial⟩
  | cons x rest ih =>
    intro a b h
    obtain ⟨h1, h2, h3⟩ := ih _ _ h.2.2.2
    refine ⟨?_, ?_, ?_⟩
    · intro sg hsg
      simp only [List.head?_cons, Option.mem_def, Option.some.injEq] at hsg
      rw [← hsg]
      exact h.1
    · intro sg hsg
      cases rest with
      | nil =>
        simp only [List.getLast?_singleton, Option.mem_def, Option.some.injEq] at hsg
        rw [← hsg]
        exact h.2.2.2
      | cons y ys =>
        rw [List.getLast?_cons_cons] at hsg
        exact h2 sg hsg
    · cases rest with
      | nil => trivial
      | cons y ys => exact ⟨(h1 y rfl).symm, h3⟩

/-- The function `splitByXml` on a prefix of `len` code units tiles `[0, len)`. -/
theorem splitByXmlLen_tiles (chars : List Nat) (len : Int) (h0 : 0 ≤ len)
    (hlen : len ≤ chars.length) :
    Tiles 0 (splitByXmlLen chars len) len ∧
    adjacentAll NotBothDefault (splitByXmlLen chars len) := by
  have hl : (((chars.take len.toNat).length : Nat) : Int) = len := by
    rw [List.length_take]
    omega
  have h := splitInv_loop (chars.take len.toNat) _ 0 splitInv_init
  rw [hl, zero_add] at h
  exact splitInv_finish _ len h

theorem splitByXmlLen_full (chars : List Nat) :
    splitByXmlLen chars chars.length = splitByXml chars := by
  unfold splitByXmlLen splitByXml
  simp only [Int.toNat_ofNat, List.take_length]

/-- Claim C38 (`splitByXml` tiles its input). For every input of `len` code units (`0 ≤ len`, the
array holding at least `len` units) the returned segments all have tag 0 or 1 and are
non-empty (`start < end`); the first starts at 0, each next segment starts where the one
before ends, and the last ends at `len`; no two neighbours both have tag 0. For
`len ≤ 0` the result is empty. On the whole list the function is `splitByXml` of the
embedding, which so tiles `[0, length)`. -/
theorem splitByXml_tiles (chars : List Nat) (len : Int) (hlen : len ≤ chars.length) :
    (0 ≤ len →
      (∀ sg ∈ splitByXmlLen chars len, (sg.type = 0 ∨ sg.type = 1) ∧ sg.start < sg.end_) ∧
      (∀ sg ∈ (splitByXmlLen chars len).head?, sg.start = 0) ∧
      adjacentAll (fun a b => a.end_ = b.start) (splitByXmlLen chars len) ∧
      (∀ sg ∈ (splitByXmlLen chars len).getLast?, sg.end_ = len) ∧
      adjacentAll NotBothDefault (splitByXmlLen chars len) ∧
      Tiles 0 (splitByXmlLen chars len) len ∧
      (0 < len → splitByXmlLen chars len ≠ [])) ∧
    (len ≤ 0 → splitByXmlLen chars len = []) ∧
    splitByXmlLen chars chars.length = splitByXml chars ∧
    Tiles 0 (splitByXml chars) chars.length ∧
    adjacentAll NotBothDefault (splitByXml chars) := by
  refine ⟨?_, ?_, splitByXmlLen_full chars, ?_⟩
  · intro h0
    obtain ⟨ht, ha⟩ := splitByXmlLen_tiles chars len h0 hlen
    obtain ⟨s1, s2, s3⟩ := tiles_spelled _ _ _ ht
    refine ⟨tiles_mem _ _ _ ht, s1, s3, s2, ha, ht, ?_⟩
    intro hpos hnil
    rw [hnil] at ht
    have : (0 : Int) = len := ht
    omega
  · intro hle
    have hz : len.toNat = 0 := by omega
    unfold splitByXmlLen
    simp only [hz, List.take_zero, XmlSplit.loop, XmlSplit.flushDefaultIfNeeded]
    have hn : ¬ ((0 : Int) < len) := by omega
    simp [hn]
  · have h := splitByXmlLen_tiles chars chars.length (by omega) (le_refl _)
    rw [splitByXmlLen_full] at h
    exact h

/-- Claim C38 at a concrete input: `a`, newline, `<b>c</b>d` is tiled by a default segment,
the XML region and a default segment; cut after 5 code units, by a default segment and
the open region. -/
theorem splitByXml_tiles_witness :
    ((5 : Int) ≤ (u16 "a\n<b>c</b>d").length) ∧
    splitByXml (u16 "a\n<b>c</b>d") = [⟨0, 0, 2⟩, ⟨1, 2, 10⟩, ⟨0, 10, 11⟩] ∧
    splitByXmlLen (u16 "a\n<b>c</b>d") 5 = [⟨0, 0, 2⟩, ⟨1, 2, 5⟩] ∧
    Tiles 0 (splitByXmlLen (u16 "a\n<b>c</b>d") 5) 5 :=
  ⟨by decide, by decide, by decide,
    ((splitByXml_tiles (u16 "a\n<b>c</b>d") 5 (by decide)).1 (by decide)).2.2.2.2.2.1⟩

/-! ## The evaluation buffer -/

theorem anyTrying_exists (l : List PluginEntry) (h : anyTrying l = true) :
    ∃ j, stateAt l j = some .TRYING := by
  unfold anyTrying at h
  rw [List.any_eq_true] at h
  obtain ⟨x, hx, hs⟩ := h
  obtain ⟨j, hj⟩ := List.getElem?_of_mem hx
  refine ⟨j, ?_⟩
  simp only [stateAt, hj, Option.map_some']
  exact congrArg some (of_decide_eq_true hs)

theorem processWaitfor_buffer (s : MarkdownSession) (e : Emitter) (c : Nat) (g : Int) :
    (processWaitfor s e c g).1.evaluationBuffer_ = s.evaluationBuffer_ ∧
    (processWaitfor s e c g).1.evaluationEmitMask_ = s.evaluationEmitMask_ ∧
    (processWaitfor s e c g).1.evalStartGlobal_ = s.evalStartGlobal_ := by
  obtain ⟨ps, hps, _⟩ := activeProcessChar_eq s c s.waitforAtStartOfLine_
  unfold processWaitfor
  simp only []
  rw [hps]
  split
  · exact ⟨rfl, rfl, rfl⟩
  · exact ⟨rfl, rfl, rfl⟩

theorem processActive_buffer (s : MarkdownSession) (e : Emitter) (c : Nat) (sol : Bool)
    (g : Int) :
    (processActive s e c sol g).1.evaluationBuffer_ = s.evaluationBuffer_ ∧
    (processActive s e c sol g).1.evaluationEmitMask_ = s.evaluationEmitMask_ ∧
    (processActive s e c sol g).1.evalStartGlobal_ = s.evalStartGlobal_ := by
  obtain ⟨ps, hps, _⟩ := activeProcessChar_eq s c sol
  unfold processActive
  simp only []
  rw [hps]
  split
  · exact ⟨rfl, rfl, rfl⟩
  · split
    · exact ⟨rfl, rfl, rfl⟩
    · exact ⟨rfl, rfl, rfl⟩

/-- Evaluation mode keeps the evaluation-buffer invariant: it appends to the buffer and
the mask list together and keeps them only with a plugin in `TRYING`, and clears both
and `evalStartGlobal_` otherwise. -/
theorem processEvaluation_bufInv (s : MarkdownSession) (e : Emitter) (c : Nat) (sol : Bool)
    (g : Int) (hm : s.evaluationEmitMask_.length = s.evaluationBuffer_.length) :
    BufInv (processEvaluation s e c sol g).1 := by
  unfold processEvaluation
  simp only []
  cases hf : findSuccessful (evalAll c sol s.plugins_ 0 0).1 0 with
  | some k =>
    exact ⟨rfl, fun h => absurd rfl h, fun _ => rfl⟩
  | none =>
    simp only []
    split
    · exact ⟨rfl, fun h => absurd rfl h, fun _ => rfl⟩
    · next hany =>
      refine ⟨?_, fun _ => ?_, fun h => ?_⟩
      · show (s.evaluationEmitMask_ ++ [_]).length = (s.evaluationBuffer_ ++ [c]).length
        rw [List.length_append, List.length_append, hm]
        rfl
      · show ∃ j, stateAt (evalAll c sol s.plugins_ 0 0).1 j = some .TRYING
        apply anyTrying_exists
        cases hx : anyTrying (evalAll c sol s.plugins_ 0 0).1
        · exact absurd hx hany
        · rfl
      · have h2 : s.evaluationBuffer_ ++ [c] = [] := h
        simp at h2

/-- One call of `processOne` keeps the evaluation-buffer invariant, when a non-empty
buffer excludes a WAITFOR and an active plugin. -/
theorem processOne_bufInv (s : MarkdownSession) (e : Emitter) (c : Nat) (sol : Bool) (f : Int)
    (hb : BufInv s)
    (hx : s.evaluationBuffer_ ≠ [] → s.waitforActive_ = false ∧ s.activePlugin_ = none) :
    BufInv (processOne s e c sol f).1 := by
  have hempty : s.waitforActive_ = true ∨ s.activePlugin_.isSome = true →
      s.evaluationBuffer_ = [] := by
    intro h
    by_contra hne
    obtain ⟨h1, h2⟩ := hx hne
    rcases h with h | h
    · rw [h1] at h; cases h
    · rw [h2] at h; cases h
  unfold processOne
  simp only []
  split
  · next hw =>
    have hw2 : s.waitforActive_ = true := hw
    have he := hempty (Or.inl hw2)
    obtain ⟨b1, b2, b3⟩ := processWaitfor_buffer
      { s with globalOffset_ := if f < 0 then s.globalOffset_ + 1 else s.globalOffset_ } e c
      (if 0 ≤ f then f else s.globalOffset_)
    have b1' := b1.trans he
    refine ⟨?_, fun h => absurd b1' h, fun _ => ?_⟩
    · rw [b1', b2]
      have := hb.mask
      rw [he] at this
      exact this
    · rw [b3]
      exact hb.cleared he
  · split
    · next hw ha =>
      have ha2 : s.activePlugin_.isSome = true := ha
      have he := hempty (Or.inr ha2)
      obtain ⟨b1, b2, b3⟩ := processActive_buffer
        { s with globalOffset_ := if f < 0 then s.globalOffset_ + 1 else s.globalOffset_ } e c
        sol (if 0 ≤ f then f else s.globalOffset_)
      have b1' := b1.trans he
      refine ⟨?_, fun h => absurd b1' h, fun _ => ?_⟩
      · rw [b1', b2]
        have := hb.mask
        rw [he] at this
        exact this
      · rw [b3]
        exact hb.cleared he
    · exact processEvaluation_bufInv _ e c sol _ hb.mask

theorem bufInv_new (plugins : List PluginEntry) : BufInv (MarkdownSession.new plugins) :=
  ⟨rfl, fun h => absurd rfl h, fun _ => rfl⟩

/-- When the log of the loop is empty the loop has made no call and leaves the state as
it is. -/
theorem log_nil (fuel : Nat) (s : MarkdownSession) (e : Emitter) (sol : Bool)
    (chars : List Nat) (h : pushLoopLog fuel s e sol chars = []) :
    pushLoop fuel s e sol chars = (s, e, sol) := by
  cases fuel with
  | zero => rfl
  | succ n =>
    rcases pending_cases s with hp | ⟨pc, rest, hp⟩
    · cases chars with
      | nil => exact pushLoop_done n s e sol hp
      | cons c cs => rw [log_read n s e sol c cs hp] at h; cases h
    · rw [log_pop n s e sol chars pc rest hp] at h; cases h

/-- The loop of `push`, stopped after any number of iterations, keeps the session
invariant and the evaluation-buffer invariant, and the global offset is the index
following that of the last call of `processOne`. -/
theorem pushLoop_bufInv : ∀ (fuel : Nat) (s : MarkdownSession) (e : Emitter) (sol : Bool)
    (chars : List Nat) (lo : Int), SessInv s → EmInv lo e (lowMark s) → BufInv s →
    SessInv (pushLoop fuel s e sol chars).1 ∧ BufInv (pushLoop fuel s e sol chars).1 ∧
    ∀ x ∈ (pushLoopLog fuel s e sol chars).getLast?,
      x.globalIndex + 1 = (pushLoop fuel s e sol chars).1.globalOffset_ := by
  intro fuel
  induction fuel with
  | zero =>
    intro s e sol chars lo hs _ hb
    exact ⟨hs, hb, fun x hx => (by cases hx)⟩
  | succ n ih =>
    intro s e sol chars lo hs he hb
    have hx : s.evaluationBuffer_ ≠ [] → s.waitforActive_ = false ∧ s.activePlugin_ = none :=
      fun h => (hs.core.buffer_on h).2
    rcases pending_cases s with hp | ⟨pc, rest, hp⟩
    · cases chars with
      | nil =>
        rw [pushLoop_done n s e sol hp, log_done n s e sol hp]
        exact ⟨hs, hb, fun x hx => (by cases hx)⟩
      | cons c cs =>
        obtain ⟨h1, h2, h3⟩ := processOne_inv_read s e c sol lo hs hp he
        have h4 := processOne_bufInv s e c sol (-1) hb hx
        obtain ⟨i1, i2, i3⟩ := ih _ _ (decide (c = ch_nl)) cs lo h1 h2 h4
        rw [pushLoop_read n s e sol c cs hp, log_read n s e sol c cs hp]
        refine ⟨i1, i2, ?_⟩
        intro x hxm
        cases htl : pushLoopLog n (processOne s e c sol (-1)).1 (processOne s e c sol (-1)).2
            (decide (c = ch_nl)) cs with
        | nil =>
          rw [htl] at hxm
          simp only [List.getLast?_singleton, Option.mem_def, Option.some.injEq] at hxm
          rw [log_nil n _ _ _ _ htl, ← hxm]
          show handedIndex s (-1) + 1 = (processOne s e c sol (-1)).1.globalOffset_
          rw [handedIndex_free, h3]
        | cons y ys =>
          rw [htl, List.getLast?_cons_cons, ← htl] at hxm
          exact i3 x hxm
    · obtain ⟨h1, h2, h3⟩ := processOne_inv_pop s e pc rest sol lo hs hp he
      have hb2 : BufInv { s with pendingChars_ := rest } := ⟨hb.mask, hb.trying, hb.cleared⟩
      have h4 := processOne_bufInv { s with pendingChars_ := rest } e pc.c sol pc.globalIndex
        hb2 hx
      obtain ⟨i1, i2, i3⟩ := ih _ _ (decide (pc.c = ch_nl)) chars lo h1 h2 h4
      rw [pushLoop_pop n s e sol chars pc rest hp, log_pop n s e sol chars pc rest hp]
      refine ⟨i1, i2, ?_⟩
      intro x hxm
      cases htl : pushLoopLog n
          (processOne { s with pendingChars_ := rest } e pc.c sol pc.globalIndex).1
          (processOne { s with pendingChars_ := rest } e pc.c sol pc.globalIndex).2
          (decide (pc.c = ch_nl)) chars with
      | nil =>
        rw [htl] at hxm
        simp only [List.getLast?_singleton, Option.mem_def, Option.some.injEq] at hxm
        rw [log_nil n _ _ _ _ htl, ← hxm]
        show handedIndex s pc.globalIndex + 1 =
          (processOne { s with pendingChars_ := rest } e pc.c sol pc.globalIndex).1.globalOffset_
        rw [h3]
        rcases hs.next with hnil | ⟨c2, hcons, hw, _, hbuf⟩
        · rw [hnil] at hp; cases hp
        · rw [hcons] at hp
          simp only [List.cons.injEq] at hp
          obtain ⟨hpc, _⟩ := hp
          have hn : nextIndex s = s.globalOffset_ - 1 := by simp only [nextIndex, hcons]
          have hlow := hs.core.low
          rw [hn, hs.core.waitfor_off hw, hbuf] at hlow
          simp only [List.length_nil, Nat.cast_zero, sub_zero] at hlow
          rw [← hpc]
          rw [handedIndex_forced s _ hlow]
          omega
      | cons y ys =>
        rw [htl, List.getLast?_cons_cons, ← htl] at hxm
        exact i3 x hxm

theorem push_bufInv (s : MarkdownSession) (chars : List Nat) (hs : SessInv s) (hb : BufInv s) :
    BufInv (s.push chars).1 := by
  have h := (pushLoop_bufInv (pushFuel s chars) s Emitter.new s.atStartOfLine_ chars (lowMark s)
    hs (emInv_new (le_refl _)) hb).2.1
  rw [push_eq s chars _ (pushFuel_gt s chars)]
  exact ⟨h.mask, h.trying, h.cleared⟩

theorem pushAll_bufInv (chunks : List (List Nat)) :
    ∀ (s : MarkdownSession), SessInv s → BufInv s →
      SessInv (pushAll s chunks).1 ∧ BufInv (pushAll s chunks).1 := by
  induction chunks with
  | nil => intro s hs hb; exact ⟨hs, hb⟩
  | cons c cs ih =>
    intro s hs hb
    obtain ⟨h1, _, _, _⟩ := push_inv s c (lowMark s) hs (le_refl _)
    exact ih _ h1 (push_bufInv s c hs hb)

/-- Claim C35 (evaluation-buffer invariant). For every roster whose tags are not the break
tag (both factory rosters are such), every sequence of pushes into a fresh session and
every number `k` of iterations of the loop of a further push (`k = 0` is the push
boundary), the session state between two code units has: the evaluation buffer and the
emit-mask list of equal length; a non-empty buffer only with no active plugin set, no
WAITFOR being resolved, some roster plugin in `TRYING` and none in `PROCESSING`;
`evalStartGlobal_` equal to -1 exactly when the buffer is empty; with a non-empty buffer no
re-queued code unit, `evalStartGlobal_` at least 0 and `evalStartGlobal_` plus the buffer
length equal to the global offset. The global offset is the index following the last code
unit processed: it is one more than the global index of the last call of `processOne` so
far in this push, and at the push boundary it is the number of code units pushed before. -/
theorem evaluation_buffer_invariant (roster : List PluginEntry)
    (hr : ∀ t ∈ roster.map (fun x => x.tag), t ≠ SEG_BREAK)
    (chunks : List (List Nat)) (chars : List Nat) (k : Nat) :
    (stateAfter (pushAll (MarkdownSession.new roster) chunks).1 chars k).evaluationEmitMask_.length
      = (stateAfter (pushAll (MarkdownSession.new roster) chunks).1 chars
          k).evaluationBuffer_.length ∧
    ((stateAfter (pushAll (MarkdownSession.new roster) chunks).1 chars k).evaluationBuffer_ ≠ [] →
      (stateAfter (pushAll (MarkdownSession.new roster) chunks).1 chars k).activePlugin_ = none ∧
      (stateAfter (pushAll (MarkdownSession.new roster) chunks).1 chars k).waitforActive_
        = false ∧
      (∃ j, stateAt (stateAfter (pushAll (MarkdownSession.new roster) chunks).1 chars
        k).plugins_ j = some .TRYING) ∧
      (∀ j, stateAt (stateAfter (pushAll (MarkdownSession.new roster) chunks).1 chars
        k).plugins_ j ≠ some .PROCESSING)) ∧
    ((stateAfter (pushAll (MarkdownSession.new roster) chunks).1 chars k).evalStartGlobal_ = -1 ↔
      (stateAfter (pushAll (MarkdownSession.new roster) chunks).1 chars
        k).evaluationBuffer_ = []) ∧
    ((stateAfter (pushAll (MarkdownSession.new roster) chunks).1 chars k).evaluationBuffer_ ≠ [] →
      (stateAfter (pushAll (MarkdownSession.new roster) chunks).1 chars k).pendingChars_ = [] ∧
      0 ≤ (stateAfter (pushAll (MarkdownSession.new roster) chunks).1 chars
        k).evalStartGlobal_ ∧
      (stateAfter (pushAll (MarkdownSession.new roster) chunks).1 chars k).evalStartGlobal_ +
        (stateAfter (pushAll (MarkdownSession.new roster) chunks).1 chars
          k).evaluationBuffer_.length =
        (stateAfter (pushAll (MarkdownSession.new roster) chunks).1 chars k).globalOffset_) ∧
    (∀ x ∈ (pushLoopLog k (pushAll (MarkdownSession.new roster) chunks).1 Emitter.new
        (pushAll (MarkdownSession.new roster) chunks).1.atStartOfLine_ chars).getLast?,
      x.globalIndex + 1 =
        (stateAfter (pushAll (MarkdownSession.new roster) chunks).1 chars k).globalOffset_) ∧
    (stateAfter (pushAll (MarkdownSession.new roster) chunks).1 chars 0).globalOffset_ =
      chunks.flatten.length := by
  obtain ⟨hs0, hb0⟩ := pushAll_bufInv chunks _ (sessInv_new roster hr) (bufInv_new roster)
  obtain ⟨hs, hb, hlast⟩ := pushLoop_bufInv k (pushAll (MarkdownSession.new roster) chunks).1
    Emitter.new (pushAll (MarkdownSession.new roster) chunks).1.atStartOfLine_ chars _ hs0
    (emInv_new (le_refl _)) hb0
  have hu : UniqueActive (stateAfter (pushAll (MarkdownSession.new roster) chunks).1 chars k) :=
    pushLoop_unique k _ _ _ chars (pushAll_unique chunks _ (uniqueActive_new roster))
  have hfacts : ∀ (s : MarkdownSession), SessInv s → s.evaluationBuffer_ ≠ [] →
      s.pendingChars_ = [] ∧ 0 ≤ s.evalStartGlobal_ ∧
        s.evalStartGlobal_ + s.evaluationBuffer_.length = s.globalOffset_ := by
    intro s h hne
    have hp : s.pendingChars_ = [] := by
      rcases h.next with hnil | ⟨c, _, _, _, hbuf⟩
      · exact hnil
      · exact absurd hbuf hne
    have hn : nextIndex s = s.globalOffset_ := by simp only [nextIndex, hp]
    obtain ⟨h1, h2, _⟩ := h.core.buffer_on hne
    have hlow := h.core.low
    rw [h.core.waitfor_off h2, hn] at hlow
    simp only [List.length_nil, Nat.cast_zero, sub_zero] at hlow
    rw [hn] at h1
    exact ⟨hp, by omega, by omega⟩
  refine ⟨hb.mask, ?_, ?_, hfacts _ hs, hlast, ?_⟩
  · intro hne
    obtain ⟨_, h2, h3⟩ := hs.core.buffer_on hne
    exact ⟨h3, h2, hb.trying hne, fun j => (hu.unset h3 j).1⟩
  · constructor
    · intro hm1
      by_contra hne
      have := (hfacts _ hs hne).2.1
      change (0 : Int) ≤ (stateAfter (pushAll (MarkdownSession.new roster) chunks).1 chars
        k).evalStartGlobal_ at this
      rw [hm1] at this
      exact absurd this (by decide)
    · exact hb.cleared
  · show (pushAll (MarkdownSession.new roster) chunks).1.globalOffset_ = _
    rw [pushAll_offset chunks _ (sessInv_new roster hr) rfl]
    show (0 : Int) + _ = _
    omega

/-- Claim C35 on the two-plugin roster of bold and link, after the chunk `[a `: the buffer
holds the three code units from index 0 on, with three masks, and the link plugin at
roster position 1 is `TRYING`. -/
theorem evaluation_buffer_invariant_witness :
    (∀ t ∈ ([⟨.bold (StreamMarkdownBoldPlugin.new false), MD_BOLD⟩,
        ⟨.link StreamMarkdownLinkPlugin.new, MD_LINK⟩] : List PluginEntry).map
        (fun x => x.tag), t ≠ SEG_BREAK) ∧
    (stateAfter (pushAll (MarkdownSession.new
        [⟨.bold (StreamMarkdownBoldPlugin.new false), MD_BOLD⟩,
          ⟨.link StreamMarkdownLinkPlugin.new, MD_LINK⟩]) [u16 "[a "]).1 [] 0).evaluationBuffer_
      = u16 "[a " ∧
    (stateAfter (pushAll (MarkdownSession.new
        [⟨.bold (StreamMarkdownBoldPlugin.new false), MD_BOLD⟩,
          ⟨.link StreamMarkdownLinkPlugin.new, MD_LINK⟩]) [u16 "[a "]).1 [] 0).evalStartGlobal_
      = 0 ∧
    stateAt (stateAfter (pushAll (MarkdownSession.new
        [⟨.bold (StreamMarkdownBoldPlugin.new false), MD_BOLD⟩,
          ⟨.link StreamMarkdownLinkPlugin.new, MD_LINK⟩]) [u16 "[a "]).1 [] 0).plugins_ 1
      = some .TRYING ∧
    (stateAfter (pushAll (MarkdownSession.new
        [⟨.bold (StreamMarkdownBoldPlugin.new false), MD_BOLD⟩,
          ⟨.link StreamMarkdownLinkPlugin.new, MD_LINK⟩]) [u16 "[a "]).1 []
        0).evaluationEmitMask_.length =
      (stateAfter (pushAll (MarkdownSession.new
        [⟨.bold (StreamMarkdownBoldPlugin.new false), MD_BOLD⟩,
          ⟨.link StreamMarkdownLinkPlugin.new, MD_LINK⟩]) [u16 "[a "]).1 []
        0).evaluationBuffer_.length :=
  ⟨by decide, by decide, by decide, by decide,
    (evaluation_buffer_invariant
      [⟨.bold (StreamMarkdownBoldPlugin.new false), MD_BOLD⟩,
        ⟨.link StreamMarkdownLinkPlugin.new, MD_LINK⟩] (by decide) [u16 "[a "] [] 0).1⟩

end streamnative
